import Mathlib

/-!
# Red-black tree with parent pointers (package `rbt`)

A shallow embedding of `rbt.go`.  Nodes live in a heap addressed by natural
numbers; a Go pointer `*Node[int]` is an `Option Nat` (`none` is `nil`).
Every method of the Go source becomes a function that takes the heap and
returns the new heap.  Dereferencing `nil` and the explicit `panic` calls are
results of type `Err`; loops carry a fuel bound.
-/

namespace Rbt

/-! ## The heap -/

/-- Ways in which the embedded Go code stops without returning. -/
inductive Err where
  /-- A field of a nil pointer was read or written. -/
  | nilDeref
  /-- An explicit call of `panic`. -/
  | panicked
  /-- The iteration bound of a loop was used up. -/
  | fuel
  deriving DecidableEq, Repr

/-- The struct `Node[T]` at `T = int` (rbt.go, lines 59-65). -/
structure Node where
  Left : Option Nat
  Right : Option Nat
  Parent : Option Nat
  Red : Bool
  Value : Int
  deriving DecidableEq, Repr

/-- The store of allocated nodes: `cell a` is the node at address `a`,
`next` is the first address not yet handed out by an allocation. -/
structure Heap where
  next : Nat
  cell : Nat → Node

/-- The heap before any allocation. -/
def Heap.empty : Heap := ⟨0, fun _ => ⟨none, none, none, false, 0⟩⟩

/-- Overwrite the node stored at address `a`. -/
def Heap.put (h : Heap) (a : Nat) (nd : Node) : Heap :=
  ⟨h.next, fun x => if x = a then nd else h.cell x⟩

/-- The assignment `a.Left = x`. -/
def Heap.wrLeft (h : Heap) (a : Nat) (x : Option Nat) : Heap :=
  h.put a { h.cell a with Left := x }

/-- The assignment `a.Right = x`. -/
def Heap.wrRight (h : Heap) (a : Nat) (x : Option Nat) : Heap :=
  h.put a { h.cell a with Right := x }

/-- The assignment `a.Parent = x`. -/
def Heap.wrParent (h : Heap) (a : Nat) (x : Option Nat) : Heap :=
  h.put a { h.cell a with Parent := x }

/-- The assignment `a.Red = b`. -/
def Heap.wrRed (h : Heap) (a : Nat) (b : Bool) : Heap :=
  h.put a { h.cell a with Red := b }

/-- The assignment `a.Value = v`. -/
def Heap.wrValue (h : Heap) (a : Nat) (v : Int) : Heap :=
  h.put a { h.cell a with Value := v }

/-- The allocation `&Node[T]{...}`: the node is stored at the fresh address `h.next`. -/
def Heap.alloc (h : Heap) (nd : Node) : Nat × Heap :=
  (h.next, ⟨h.next + 1, fun x => if x = h.next then nd else h.cell x⟩)

/-- Dereference of a pointer: nil is a runtime panic. -/
def ld (p : Option Nat) : Except Err Nat :=
  match p with
  | none => .error .nilDeref
  | some a => .ok a

/-- The read `p.Left`. -/
def rdLeft (h : Heap) (p : Option Nat) : Except Err (Option Nat) :=
  match p with
  | none => .error .nilDeref
  | some a => .ok (h.cell a).Left

/-- The read `p.Right`. -/
def rdRight (h : Heap) (p : Option Nat) : Except Err (Option Nat) :=
  match p with
  | none => .error .nilDeref
  | some a => .ok (h.cell a).Right

/-- The read `p.Parent`. -/
def rdParent (h : Heap) (p : Option Nat) : Except Err (Option Nat) :=
  match p with
  | none => .error .nilDeref
  | some a => .ok (h.cell a).Parent

/-- The read `p.Red`. -/
def rdRed (h : Heap) (p : Option Nat) : Except Err Bool :=
  match p with
  | none => .error .nilDeref
  | some a => .ok (h.cell a).Red

/-- The read `p.Value`. -/
def rdValue (h : Heap) (p : Option Nat) : Except Err Int :=
  match p with
  | none => .error .nilDeref
  | some a => .ok (h.cell a).Value

/-- The write `p.Left = x`. -/
def stLeft (h : Heap) (p : Option Nat) (x : Option Nat) : Except Err Heap :=
  match p with
  | none => .error .nilDeref
  | some a => .ok (h.wrLeft a x)

/-- The write `p.Right = x`. -/
def stRight (h : Heap) (p : Option Nat) (x : Option Nat) : Except Err Heap :=
  match p with
  | none => .error .nilDeref
  | some a => .ok (h.wrRight a x)

/-- The write `p.Parent = x`. -/
def stParent (h : Heap) (p : Option Nat) (x : Option Nat) : Except Err Heap :=
  match p with
  | none => .error .nilDeref
  | some a => .ok (h.wrParent a x)

/-- The write `p.Red = b`. -/
def stRed (h : Heap) (p : Option Nat) (b : Bool) : Except Err Heap :=
  match p with
  | none => .error .nilDeref
  | some a => .ok (h.wrRed a b)

/-- The write `p.Value = v`. -/
def stValue (h : Heap) (p : Option Nat) (v : Int) : Except Err Heap :=
  match p with
  | none => .error .nilDeref
  | some a => .ok (h.wrValue a v)

/-! ## Node methods (rbt.go) -/

/-- The method `Black` (rbt.go, lines 68-74): nil counts as black. -/
def Node.Black (h : Heap) (n : Option Nat) : Bool :=
  match n with
  | none => true
  | some a => !(h.cell a).Red

/-- The loop of `Find` (rbt.go, lines 78-88). -/
def Node.findLoop (h : Heap) (v : Int) : Nat → Option Nat → Except Err (Option Nat)
  | _, none => .ok none
  | 0, some _ => .error .fuel
  | fuel + 1, some a =>
    if (h.cell a).Value = v then .ok (some a)
    else if v > (h.cell a).Value then Node.findLoop h v fuel (h.cell a).Right
    else Node.findLoop h v fuel (h.cell a).Left

/-- The method `Find` (rbt.go, lines 77-89). -/
def Node.Find (h : Heap) (n : Option Nat) (v : Int) : Except Err (Option Nat) :=
  Node.findLoop h v h.next n

/-- The loop `for n.Left != nil { n = n.Left }` of `Min` (rbt.go, lines 116-118). -/
def Node.minLoop (h : Heap) : Nat → Nat → Except Err Nat
  | fuel, a =>
    match (h.cell a).Left with
    | none => .ok a
    | some l =>
      match fuel with
      | 0 => .error .fuel
      | fuel + 1 => Node.minLoop h fuel l

/-- The method `Min` (rbt.go, lines 111-121). -/
def Node.Min (h : Heap) (n : Option Nat) : Except Err (Option Nat) :=
  match n with
  | none => .ok none
  | some a => (Node.minLoop h h.next a).map some

/-- The loop `for n.Right != nil { n = n.Right }` of `Max` (rbt.go, lines 129-131). -/
def Node.maxLoop (h : Heap) : Nat → Nat → Except Err Nat
  | fuel, a =>
    match (h.cell a).Right with
    | none => .ok a
    | some r =>
      match fuel with
      | 0 => .error .fuel
      | fuel + 1 => Node.maxLoop h fuel r

/-- The method `Max` (rbt.go, lines 124-134). -/
def Node.Max (h : Heap) (n : Option Nat) : Except Err (Option Nat) :=
  match n with
  | none => .ok none
  | some a => (Node.maxLoop h h.next a).map some

/-- The loop `for p != nil && n == p.Right { n = p; p = p.Parent }` of
`Successor` (rbt.go, lines 101-107); the result is the final `p`. -/
def Node.succLoop (h : Heap) : Nat → Nat → Option Nat → Except Err (Option Nat)
  | _, _, none => .ok none
  | fuel, n, some p =>
    if (h.cell p).Right = some n then
      match fuel with
      | 0 => .error .fuel
      | fuel + 1 => Node.succLoop h fuel p (h.cell p).Parent
    else .ok (some p)

/-- The method `Successor` (rbt.go, lines 92-108). -/
def Node.Successor (h : Heap) (n : Option Nat) : Except Err (Option Nat) :=
  match n with
  | none => .ok none
  | some a =>
    match (h.cell a).Right with
    | some r => Node.Min h (some r)
    | none => Node.succLoop h h.next a (h.cell a).Parent

/-- The method `ReplaceChild` (rbt.go, lines 465-479). -/
def Node.ReplaceChild (h : Heap) (n : Option Nat) (old new : Option Nat) : Heap :=
  match n with
  | none => h
  | some a =>
    let h1 := if (h.cell a).Left = old then h.wrLeft a new else h.wrRight a new
    match new with
    | none => h1
    | some b => h1.wrParent b (some a)

/-- The method `SetLeft` (rbt.go, lines 482-491). -/
def Node.SetLeft (h : Heap) (n : Option Nat) (l : Option Nat) : Heap :=
  match n with
  | none => h
  | some a =>
    let h1 := h.wrLeft a l
    match l with
    | none => h1
    | some b => h1.wrParent b (some a)

/-- The method `SetRight` (rbt.go, lines 494-503). -/
def Node.SetRight (h : Heap) (n : Option Nat) (r : Option Nat) : Heap :=
  match n with
  | none => h
  | some a =>
    let h1 := h.wrRight a r
    match r with
    | none => h1
    | some b => h1.wrParent b (some a)

/-- The method `RotateLeft` (rbt.go, lines 408-429). -/
def Node.RotateLeft (h : Heap) (n : Option Nat) : Heap :=
  match n with
  | none => h
  | some a =>
    match (h.cell a).Right with
    | none => h
    | some c =>
      let p := (h.cell a).Parent
      let h1 := match p with
        | some _ => Node.ReplaceChild h p (some a) (some c)
        | none => h.wrParent c none
      let d := (h1.cell c).Left
      let h2 := Node.SetLeft h1 (some c) (some a)
      Node.SetRight h2 (some a) d

/-- The method `RotateRight` (rbt.go, lines 440-461). -/
def Node.RotateRight (h : Heap) (n : Option Nat) : Heap :=
  match n with
  | none => h
  | some a =>
    match (h.cell a).Left with
    | none => h
    | some b =>
      let p := (h.cell a).Parent
      let h1 := match p with
        | some _ => Node.ReplaceChild h p (some a) (some b)
        | none => h.wrParent b none
      let e := (h1.cell b).Right
      let h2 := Node.SetRight h1 (some b) (some a)
      Node.SetLeft h2 (some a) e

/-- The method `Height` (rbt.go, lines 365-378); the recursion depth is bounded
by the fuel. -/
def Node.heightAux (h : Heap) : Nat → Option Nat → Except Err Nat
  | _, none => .ok 0
  | 0, some _ => .error .fuel
  | fuel + 1, some a => do
    let lh ← Node.heightAux h fuel (h.cell a).Left
    let rh ← Node.heightAux h fuel (h.cell a).Right
    if lh > rh then pure (lh + 1) else pure (rh + 1)

/-- The method `Height` (rbt.go, lines 365-378). -/
def Node.Height (h : Heap) (n : Option Nat) : Except Err Nat :=
  Node.heightAux h h.next n

/-- Lines 332-358 of `insertFixup`: cases 2 and 3 on either side, then the
recolouring of a parent that has become the top. -/
def Node.insertFixupRotate (h : Heap) (n : Option Nat) (parentLeft : Bool) :
    Except Err (Option Nat × Heap) := do
  let (n, h) ←
    if parentLeft then do
      -- if n.Parent.Right == n { n = n.Parent; n.RotateLeft() }
      let p ← rdParent h n
      let pr ← rdRight h p
      let (n, h) := if pr = n then (p, Node.RotateLeft h p) else (n, h)
      -- n.Parent.Parent.RotateRight()
      let p ← rdParent h n
      let g ← rdParent h p
      let h := Node.RotateRight h g
      -- n.Parent.Red = false
      let p ← rdParent h n
      let h ← stRed h p false
      -- n.Parent.Right.Red = true
      let p ← rdParent h n
      let pr ← rdRight h p
      let h ← stRed h pr true
      pure (n, h)
    else do
      -- if n.Parent.Left == n { n = n.Parent; n.RotateRight() }
      let p ← rdParent h n
      let pl ← rdLeft h p
      let (n, h) := if pl = n then (p, Node.RotateRight h p) else (n, h)
      -- n.Parent.Parent.RotateLeft()
      let p ← rdParent h n
      let g ← rdParent h p
      let h := Node.RotateLeft h g
      -- n.Parent.Red = false
      let p ← rdParent h n
      let h ← stRed h p false
      -- n.Parent.Left.Red = true
      let p ← rdParent h n
      let pl ← rdLeft h p
      let h ← stRed h pl true
      pure (n, h)
  -- if n.Parent.Parent == nil { n.Parent.Red = false }
  let p ← rdParent h n
  let g ← rdParent h p
  if g = none then do
    let h ← stRed h p false
    pure (n, h)
  else pure (n, h)

/-- Lines 320-327 of `insertFixup`: case 1, the red uncle.  The result is the
new `n` (the grandparent) and the heap. -/
def Node.insertFixupRecolor (h : Heap) (n uncle : Option Nat) :
    Except Err (Option Nat × Heap) := do
  let h ← stRed h uncle false
  let p ← rdParent h n
  let h ← stRed h p false
  let p ← rdParent h n
  let g ← rdParent h p
  let h ← stRed h g true
  let p ← rdParent h n
  let n ← rdParent h p
  let np ← rdParent h n
  if np = none then do
    let h ← stRed h n false
    pure (n, h)
  else pure (n, h)

/-- The method `insertFixup` (rbt.go, lines 305-362); one unit of fuel per
evaluation of the loop condition. -/
def Node.insertFixup : Nat → Heap → Option Nat → Except Err (Option Nat × Heap)
  | 0, _, _ => .error .fuel
  | fuel + 1, h, n => do
    -- for n.Parent != nil && n.Parent.Red
    let p ← rdParent h n
    if p = none then pure (n, h) else
    let pred ← rdRed h p
    if pred = false then pure (n, h) else
    -- parentLeft := n.Parent.Parent.Left == n.Parent
    let g ← rdParent h p
    let gl ← rdLeft h g
    let parentLeft : Bool := decide (gl = p)
    let uncle ← if parentLeft then rdRight h g else rdLeft h g
    -- if uncle != nil && uncle.Red
    let ured ← if uncle = none then pure false else rdRed h uncle
    if ured then do
      let (n, h) ← Node.insertFixupRecolor h n uncle
      Node.insertFixup fuel h n
    else do
      let (n, h) ← Node.insertFixupRotate h n parentLeft
      Node.insertFixup fuel h n

/-- The descent loop of `insert` (rbt.go, lines 279-287); the result is `p`,
the last node visited. -/
def Node.insertLoop (h : Heap) (v : Int) : Nat → Option Nat → Option Nat → Except Err (Option Nat)
  | _, p, none => .ok p
  | 0, _, some _ => .error .fuel
  | fuel + 1, _, some a =>
    if v > (h.cell a).Value then Node.insertLoop h v fuel (some a) (h.cell a).Right
    else Node.insertLoop h v fuel (some a) (h.cell a).Left

/-- The method `insert` (rbt.go, lines 272-302). -/
def Node.insert (h : Heap) (n : Option Nat) (v : Int) : Except Err (Option Nat × Heap) :=
  match n with
  | none => .error .panicked
  | some _ => do
    let p ← Node.insertLoop h v h.next none n
    -- nn := &Node[T]{Value: v, Red: true, Parent: p}
    let (nn, h) := h.alloc ⟨none, none, p, true, v⟩
    let pv ← rdValue h p
    let h ← if v > pv then stRight h p (some nn) else stLeft h p (some nn)
    Node.insertFixup h.next h (some nn)

/-- Lines 203-209 of `deleteFixup`: the sibling `r` of the left child `n`, and
case 1 (red sibling).  The result is the sibling after the step. -/
def Node.deleteFixupLeft1 (h : Heap) (n : Option Nat) : Except Err (Option Nat × Heap) := do
  -- r := n.Parent.Right
  let p ← rdParent h n
  let r ← rdRight h p
  -- case 1
  let rred ← rdRed h r
  if rred then do
    let h ← stRed h r false
    let rp ← rdParent h r
    let h ← stRed h rp true
    let p ← rdParent h n
    let h := Node.RotateLeft h p
    let p ← rdParent h n
    let r ← rdRight h p
    pure (r, h)
  else pure (r, h)

/-- Lines 211-236 of `deleteFixup`: cases 2, 3 and 4 for the left child `n`
with sibling `r`.  The result is `(true, n, h)` when the loop goes on with the
new `n` (case 2) and `(false, n, h)` after the `break` of case 4. -/
def Node.deleteFixupLeft2 (h : Heap) (n r : Option Nat) :
    Except Err (Bool × Option Nat × Heap) := do
  let rr ← rdRight h r
  let rl ← rdLeft h r
  if Node.Black h rr && Node.Black h rl then do
    -- case 2
    let h ← stRed h r true
    let p ← rdParent h n
    pure (true, p, h)
  else do
    let rr ← rdRight h r
    let (r, h) ←
      if Node.Black h rr then do
        -- case 3
        let rl ← rdLeft h r
        let h ← stRed h rl false
        let h ← stRed h r true
        let h := Node.RotateRight h r
        let p ← rdParent h n
        let r ← rdRight h p
        pure (r, h)
      else pure (r, h)
    -- case 4
    let p ← rdParent h n
    let pred ← rdRed h p
    let h ← stRed h r pred
    let p ← rdParent h n
    let h ← stRed h p false
    let rr ← rdRight h r
    let h ← stRed h rr false
    let p ← rdParent h n
    let h := Node.RotateLeft h p
    pure (false, n, h)

/-- Lines 203-236 of `deleteFixup`: one pass of the loop body when `n` is the
left child. -/
def Node.deleteFixupLeft (h : Heap) (n : Option Nat) : Except Err (Bool × Option Nat × Heap) := do
  let (r, h) ← Node.deleteFixupLeft1 h n
  Node.deleteFixupLeft2 h n r

/-- Lines 238-244 of `deleteFixup`: the sibling `l` of the right child `n`, and
case 1 (red sibling); the mirror image of `deleteFixupLeft1`. -/
def Node.deleteFixupRight1 (h : Heap) (n : Option Nat) : Except Err (Option Nat × Heap) := do
  -- l := n.Parent.Left
  let p ← rdParent h n
  let l ← rdLeft h p
  let lred ← rdRed h l
  if lred then do
    let h ← stRed h l false
    let lp ← rdParent h l
    let h ← stRed h lp true
    let p ← rdParent h n
    let h := Node.RotateRight h p
    let p ← rdParent h n
    let l ← rdLeft h p
    pure (l, h)
  else pure (l, h)

/-- Lines 246-262 of `deleteFixup`: cases 2, 3 and 4 for the right child `n`
with sibling `l`; the mirror image of `deleteFixupLeft2`. -/
def Node.deleteFixupRight2 (h : Heap) (n l : Option Nat) :
    Except Err (Bool × Option Nat × Heap) := do
  let ll ← rdLeft h l
  let lr ← rdRight h l
  if Node.Black h ll && Node.Black h lr then do
    let h ← stRed h l true
    let p ← rdParent h n
    pure (true, p, h)
  else do
    let ll ← rdLeft h l
    let (l, h) ←
      if Node.Black h ll then do
        let lr ← rdRight h l
        let h ← stRed h lr false
        let h ← stRed h l true
        let h := Node.RotateLeft h l
        let p ← rdParent h n
        let l ← rdLeft h p
        pure (l, h)
      else pure (l, h)
    let p ← rdParent h n
    let pred ← rdRed h p
    let h ← stRed h l pred
    let p ← rdParent h n
    let h ← stRed h p false
    let ll ← rdLeft h l
    let h ← stRed h ll false
    let p ← rdParent h n
    let h := Node.RotateRight h p
    pure (false, n, h)

/-- Lines 238-262 of `deleteFixup`: one pass of the loop body when `n` is not
the left child. -/
def Node.deleteFixupRight (h : Heap) (n : Option Nat) : Except Err (Bool × Option Nat × Heap) := do
  let (l, h) ← Node.deleteFixupRight1 h n
  Node.deleteFixupRight2 h n l

/-- The method `deleteFixup` (rbt.go, lines 199-268); one unit of fuel per
evaluation of the loop condition. -/
def Node.deleteFixup : Nat → Heap → Option Nat → Except Err (Option Nat × Heap)
  | 0, _, _ => .error .fuel
  | fuel + 1, h, n => do
    -- for n.Parent != nil && n.Black()
    let p ← rdParent h n
    if p = none || !(Node.Black h n) then do
      -- n.Red = false; return n
      let h ← stRed h n false
      pure (n, h)
    else do
      let pl ← rdLeft h p
      let (again, n, h) ← if n = pl then Node.deleteFixupLeft h n else Node.deleteFixupRight h n
      if again then Node.deleteFixup fuel h n
      else do
        let h ← stRed h n false
        pure (n, h)

/-- Lines 149-172 of `delete`: the child `c` that takes the place of the
removed node `d` (a freshly allocated placeholder when `d` has no child), with
its `Parent` set, hung into the slot of `d`.  The result is `c`, the flag
`cfake` and the heap. -/
def Node.deleteChild (h : Heap) (d : Option Nat) : Except Err (Option Nat × Bool × Heap) := do
  -- c: the child that takes the place of d
  let dl ← rdLeft h d
  let c ← if dl ≠ none then pure dl else rdRight h d
  let cfake : Bool := decide (c = none)
  let (c, h) ←
    if !cfake then do
      let dp ← rdParent h d
      let h ← stParent h c dp
      pure (c, h)
    else do
      let dp ← rdParent h d
      let (a, h) := h.alloc ⟨none, none, dp, false, 0⟩
      pure (some a, h)
  -- if d.Parent != nil { ... }
  let dp ← rdParent h d
  let h ←
    if dp ≠ none then do
      let dpl ← rdLeft h dp
      if dpl = d then stLeft h dp c else stRight h dp c
    else pure h
  pure (c, cfake, h)

/-- Lines 178-195 of `delete`: the fixup when the removed node `d` is black,
and the removal of the placeholder. -/
def Node.deleteFinish (h : Heap) (d c : Option Nat) (cfake : Bool) :
    Except Err (Option Nat × Heap) := do
  -- pp := c; if !d.Red { pp = c.deleteFixup() }
  let dred ← rdRed h d
  let (pp, h) ← if !dred then Node.deleteFixup h.next h c else pure (c, h)
  if cfake then do
    let cp ← rdParent h c
    if cp ≠ none then do
      let cpl ← rdLeft h cp
      let h ← if cpl = c then stLeft h cp none else stRight h cp none
      pure (pp, h)
    else pure (none, h)
  else pure (pp, h)

/-- The method `delete` (rbt.go, lines 137-196). -/
def Node.delete (h : Heap) (n : Option Nat) : Except Err (Option Nat × Heap) :=
  match n with
  | none => .error .panicked
  | some _ => do
    -- d: the node that is physically removed
    let nl ← rdLeft h n
    let nr ← rdRight h n
    let d ← if nl = none || nr = none then pure n else Node.Successor h n
    let (c, cfake, h) ← Node.deleteChild h d
    -- if d != n { n.Value = d.Value }
    let h ←
      if d ≠ n then do
        let dv ← rdValue h d
        stValue h n dv
      else pure h
    Node.deleteFinish h d c cfake

/-! ## The tree handle (rbt.go, lines 9-57) -/

/-- The struct `Tree[T]` (rbt.go, lines 9-11). -/
structure Tree where
  Root : Option Nat
  deriving DecidableEq, Repr

/-- The method `Tree.Insert` (rbt.go, lines 13-29). -/
def Tree.Insert (h : Heap) (t : Tree) (v : Int) : Except Err (Tree × Heap) :=
  match t.Root with
  | none =>
    let (a, h) := h.alloc ⟨none, none, none, false, v⟩
    .ok (⟨some a⟩, h)
  | some _ => do
    let (top, h) ← Node.insert h t.Root v
    let tp ← rdParent h top
    if tp = none then pure (⟨top⟩, h)
    else do
      let tpp ← rdParent h tp
      if tpp = none then pure (⟨tp⟩, h) else pure (t, h)

/-- The method `Tree.Delete` (rbt.go, lines 31-49). -/
def Tree.Delete (h : Heap) (t : Tree) (v : Int) : Except Err (Bool × Tree × Heap) := do
  let n ← Node.Find h t.Root v
  if n = none then pure (false, t, h)
  else do
    let (c, h) ← Node.delete h n
    if c = none then pure (true, ⟨c⟩, h)
    else do
      let cp ← rdParent h c
      if cp = none then pure (true, ⟨c⟩, h)
      else do
        let cpp ← rdParent h cp
        if cpp = none then pure (true, ⟨cp⟩, h)
        else do
          let cppp ← rdParent h cpp
          if cppp = none then pure (true, ⟨cpp⟩, h) else pure (true, t, h)

/-- The method `Tree.Height` (rbt.go, lines 51-57). -/
def Tree.Height (h : Heap) (t : Tree) : Except Err Nat :=
  match t.Root with
  | none => .ok 0
  | some _ => Node.Height h t.Root

/-! ## Sequences of calls -/

/-- A call of the public interface of `Tree`. -/
inductive Op where
  | ins (v : Int)
  | del (v : Int)
  deriving DecidableEq, Repr

/-- One call on the tree handle `s.1` in heap `s.2`; the boolean of `Delete`
is dropped. -/
def step (s : Tree × Heap) : Op → Except Err (Tree × Heap)
  | .ins v => Tree.Insert s.2 s.1 v
  | .del v =>
    match Tree.Delete s.2 s.1 v with
    | .ok (_, t, h) => .ok (t, h)
    | .error e => .error e

/-- The calls `ops` in order, from state `s`. -/
def run : List Op → Tree × Heap → Except Err (Tree × Heap)
  | [], s => .ok s
  | o :: os, s =>
    match step s o with
    | .ok s1 => run os s1
    | .error e => .error e

/-- The state of `var tree Tree[int]` before any call. -/
def start : Tree × Heap := (⟨none⟩, Heap.empty)

/-! ## Trees as values

The shape that a heap holds below a pointer, written as an inductive tree
whose nodes carry their addresses. -/

/-- A binary tree of heap nodes.  `phantom a` is the placeholder node that
`delete` allocates at address `a` when the removed node has no child
(rbt.go, lines 160-163): a black node without children that holds no value
of the tree. -/
inductive RBT where
  | nil
  | node (a : Nat) (red : Bool) (v : Int) (l r : RBT)
  | phantom (a : Nat)
  deriving DecidableEq, Repr

/-- The pointer to the top node of a tree. -/
def RBT.ptr : RBT → Option Nat
  | .nil => none
  | .node a _ _ _ _ => some a
  | .phantom a => some a

/-- The addresses of the nodes in in-order (left subtree, node, right subtree). -/
def RBT.addrs : RBT → List Nat
  | .nil => []
  | .node a _ _ l r => l.addrs ++ a :: r.addrs
  | .phantom a => [a]

/-- The values in in-order (left subtree, node, right subtree). -/
def RBT.vals : RBT → List Int
  | .nil => []
  | .node _ _ v l r => l.vals ++ v :: r.vals
  | .phantom _ => []

/-- The addresses of the value-holding nodes in in-order. -/
def RBT.nodes : RBT → List Nat
  | .nil => []
  | .node a _ _ l r => l.nodes ++ a :: r.nodes
  | .phantom _ => []

/-- The top node is red (nil and the placeholder are black). -/
def RBT.isRed : RBT → Bool
  | .node _ c _ _ _ => c
  | _ => false

/-- No placeholder node occurs in the tree. -/
def RBT.real : RBT → Prop
  | .nil => True
  | .node _ _ _ l r => l.real ∧ r.real
  | .phantom _ => False

/-- No red node has a red child. -/
def RBT.noRedRed : RBT → Prop
  | .node _ c _ l r => (c = true → l.isRed = false ∧ r.isRed = false) ∧ l.noRedRed ∧ r.noRedRed
  | _ => True

/-- For every path from the top down to a nil child, the number of black
nodes on it. -/
def RBT.blackPaths : RBT → List Nat
  | .nil => [0]
  | .node _ c _ l r => (l.blackPaths ++ r.blackPaths).map (fun k => if c then k else k + 1)
  | .phantom _ => [0]

/-- The number of edges on the longest path from above the top node down to
a nil child: what `Height` computes. -/
def RBT.height : RBT → Nat
  | .node _ _ _ l r => max l.height r.height + 1
  | _ => 0

/-- Heap `h` holds tree `t` below a pointer whose holder is `par`: every
node of `t` is stored at its address with `Left` and `Right` pointing to
the tops of its subtrees, `Parent` pointing to the node that holds it, and
its colour and value. -/
def Rep (h : Heap) : Option Nat → RBT → Prop
  | _, .nil => True
  | par, .node a c v l r =>
    h.cell a = ⟨l.ptr, r.ptr, par, c, v⟩ ∧ Rep h (some a) l ∧ Rep h (some a) r
  | par, .phantom a => h.cell a = ⟨none, none, par, false, 0⟩

/-- Heap `h` holds `t` as a whole tree: the top node has no parent, no node
occurs twice, and every node has been allocated. -/
def Good (h : Heap) (t : RBT) : Prop :=
  Rep h none t ∧ t.addrs.Nodup ∧ ∀ a ∈ t.addrs, a < h.next

/-- The red-black invariants of a whole tree: the top is black, no red node
has a red child, and every path from the top to nil has `k` black nodes. -/
def RBT.redBlack (t : RBT) : Prop :=
  t.real ∧ t.isRed = false ∧ t.noRedRed ∧ ∃ k, ∀ x ∈ t.blackPaths, x = k

/-- A tree with a hole: the way from a subtree up to the top.  `left` means
the hole is the left child of node `a`, whose right subtree is `r`. -/
inductive Path where
  | top
  | left (a : Nat) (red : Bool) (v : Int) (r : RBT) (up : Path)
  | right (a : Nat) (red : Bool) (v : Int) (l : RBT) (up : Path)

/-- Put tree `t` into the hole. -/
def Path.plug : Path → RBT → RBT
  | .top, t => t
  | .left a c v r up, t => up.plug (.node a c v t r)
  | .right a c v l up, t => up.plug (.node a c v l t)

/-- The pointer to the node right above the hole. -/
def Path.ptr : Path → Option Nat
  | .top => none
  | .left a _ _ _ _ => some a
  | .right a _ _ _ _ => some a

/-- All addresses on the path and in the subtrees beside it. -/
def Path.addrs : Path → List Nat
  | .top => []
  | .left a _ _ r up => a :: r.addrs ++ up.addrs
  | .right a _ _ l up => a :: l.addrs ++ up.addrs

/-- Heap `h` holds the path, with pointer `x` in the slot of the hole. -/
def RepP (h : Heap) : Path → Option Nat → Prop
  | .top, _ => True
  | .left a c v r up, x =>
    h.cell a = ⟨x, r.ptr, up.ptr, c, v⟩ ∧ Rep h (some a) r ∧ RepP h up (some a)
  | .right a c v l up, x =>
    h.cell a = ⟨l.ptr, x, up.ptr, c, v⟩ ∧ Rep h (some a) l ∧ RepP h up (some a)

/-- The in-order listing of a tree: every node with its address and its
value; the placeholder has no value. -/
def RBT.inorder : RBT → List (Nat × Option Int)
  | .nil => []
  | .node a _ v l r => l.inorder ++ (a, some v) :: r.inorder
  | .phantom a => [(a, none)]

/-- The part of the in-order listing that comes before the hole. -/
def Path.pre : Path → List (Nat × Option Int)
  | .top => []
  | .left _ _ _ _ up => up.pre
  | .right a _ v l up => up.pre ++ l.inorder ++ [(a, some v)]

/-- The part of the in-order listing that comes after the hole. -/
def Path.post : Path → List (Nat × Option Int)
  | .top => []
  | .left a _ v r up => (a, some v) :: r.inorder ++ up.post
  | .right _ _ _ _ up => up.post

/-- Number of nodes on the path. -/
def Path.length : Path → Nat
  | .top => 0
  | .left _ _ _ _ up => up.length + 1
  | .right _ _ _ _ up => up.length + 1

/-- Tree `t` is balanced below a holder: its top has colour `c`
(`true` is red), no red node has a red child, and every path down to nil
has `n` black nodes. -/
inductive Bal : RBT → Bool → Nat → Prop where
  | nil : Bal .nil false 0
  | phantom {a : Nat} : Bal (.phantom a) false 0
  | red {a : Nat} {v : Int} {l r : RBT} {n : Nat} :
    Bal l false n → Bal r false n → Bal (.node a true v l r) true n
  | black {a : Nat} {v : Int} {l r : RBT} {c1 c2 : Bool} {n : Nat} :
    Bal l c1 n → Bal r c2 n → Bal (.node a false v l r) false (n + 1)

/-- The path is balanced around its hole: a balanced subtree of colour `c`
and black height `n` in the hole makes a red-black tree with a black top. -/
inductive PBal : Path → Bool → Nat → Prop where
  | top {n : Nat} : PBal .top false n
  | leftB {a : Nat} {v : Int} {r : RBT} {up : Path} {c cr : Bool} {n : Nat} :
    Bal r cr n → PBal up false (n + 1) → PBal (.left a false v r up) c n
  | rightB {a : Nat} {v : Int} {l : RBT} {up : Path} {c cl : Bool} {n : Nat} :
    Bal l cl n → PBal up false (n + 1) → PBal (.right a false v l up) c n
  | leftR {a : Nat} {v : Int} {r : RBT} {up : Path} {n : Nat} :
    Bal r false n → PBal up true n → PBal (.left a true v r up) false n
  | rightR {a : Nat} {v : Int} {l : RBT} {up : Path} {n : Nat} :
    Bal l false n → PBal up true n → PBal (.right a true v l up) false n

/-- The pointer that `Tree.Insert` stores in `Root` after `insert` has
returned `top` (rbt.go, lines 24-28): `top`, its parent, or the old root. -/
def rootAfterInsert (h : Heap) (top : Nat) (old : Option Nat) : Option Nat :=
  match (h.cell top).Parent with
  | none => some top
  | some x =>
    match (h.cell x).Parent with
    | none => some x
    | some _ => old

/-- The way `insert` walks down from the top of `t` (rbt.go, lines 279-287):
right when `v` is greater than the value of the node, left otherwise.  The
result is the path to the nil child where the walk ends. -/
def descend (v : Int) : RBT → Path → Path
  | .nil, p => p
  | .node a c x l r, p =>
    if v > x then descend v r (.right a c x l p) else descend v l (.left a c x r p)
  | .phantom _, p => p

/-- The last step of the path agrees with the comparison that `insert`
makes at the node above the hole. -/
def Path.dir (v : Int) : Path → Prop
  | .top => True
  | .left _ _ x _ _ => ¬ v > x
  | .right _ _ x _ _ => v > x

/-- The state after a run of `Insert` calls with the values `ws`: the heap
holds a red-black search tree below `Root` whose values are `ws`. -/
def InsInv (s : Tree × Heap) (ws : List Int) : Prop :=
  ∃ T, Good s.2 T ∧ T.ptr = s.1.Root ∧ T.real ∧ (∃ K, Bal T false K) ∧
    T.vals.Sorted (· ≤ ·) ∧ T.vals.Perm ws

/-- The `Parent` field of the node that `Root` points to (nil for the empty tree). -/
def rootParent (s : Tree × Heap) : Option Nat :=
  match s.1.Root with
  | none => none
  | some a => (s.2.cell a).Parent

/-- The result of `Root.Black()` in a state. -/
def rootBlack (s : Tree × Heap) : Bool := Node.Black s.2 s.1.Root

/-- What a caller sees of a call `Delete(v)` in state `s`: the boolean that is
returned, the new `Root`, and the `Parent` field of the new `Root` node. -/
def deleteView (s : Tree × Heap) (v : Int) : Except Err (Bool × Option Nat × Option Nat) :=
  match Tree.Delete s.2 s.1 v with
  | .ok (b, t, h) => .ok (b, t.Root, rootParent (t, h))
  | .error e => .error e

/-- The result of `Root.Find(v)` after the calls `ops` on the empty tree. -/
def findAfter (ops : List Op) (v : Int) : Except Err (Option Nat) :=
  match run ops start with
  | .ok s => Node.Find s.2 s.1.Root v
  | .error e => .error e

/-- The tree with its top node painted black (`n.Red = false`). -/
def RBT.blacken : RBT → RBT
  | .node a _ v l r => .node a false v l r
  | t => t

/-- The walk from node `a` up the `Parent` fields to the node that has no
parent. -/
def ancestorTop (h : Heap) : Nat → Nat → Except Err Nat
  | fuel, a =>
    match (h.cell a).Parent with
    | none => .ok a
    | some p =>
      match fuel with
      | 0 => .error .fuel
      | fuel + 1 => ancestorTop h fuel p

/-- Path `q` continued upwards by path `p`. -/
def Path.app : Path → Path → Path
  | .top, p => p
  | .left a c v r up, p => .left a c v r (up.app p)
  | .right a c v l up, p => .right a c v l (up.app p)

/-- A heap that holds a black root 5 (address 0) with the red children 3
(address 1) and 8 (address 2). -/
def sampleHeap : Heap :=
  ⟨3, fun a =>
    match a with
    | 0 => ⟨some 1, some 2, none, false, 5⟩
    | 1 => ⟨none, none, some 0, true, 3⟩
    | _ => ⟨none, none, some 0, true, 8⟩⟩

/-- The tree held by `sampleHeap`. -/
def sampleTree : RBT :=
  .node 0 false 5 (.node 1 true 3 .nil .nil) (.node 2 true 8 .nil .nil)

/-- A heap that holds a black root 1 (address 0) whose only child is the
black node 0 (address 1) on the left: the two paths from the root to nil do
not have the same number of black nodes. -/
def lopsidedHeap : Heap :=
  ⟨2, fun a =>
    match a with
    | 0 => ⟨some 1, none, none, false, 1⟩
    | _ => ⟨none, none, some 0, false, 0⟩⟩

/-- Heap `h` holds the subtree `t` below a pointer, as far as the fields
`Left`, `Right`, `Red` and `Value` go: like `Rep`, but the `Parent` fields are
not looked at and the placeholder does not occur. -/
def Sub (h : Heap) : RBT → Prop
  | .nil => True
  | .node a c v l r =>
    (h.cell a).Left = l.ptr ∧ (h.cell a).Right = r.ptr ∧ (h.cell a).Red = c ∧
      (h.cell a).Value = v ∧ Sub h l ∧ Sub h r
  | .phantom _ => False

/-! ## The variant with a comparison function (rbt_cmp.go)

`NodeCmp[int]` has the fields of `Node[int]`, so its nodes live in the same
kind of heap.  `rbt_cmp.go` repeats `rbt.go` with the types renamed; the
only statements that differ are the comparisons in `Find` and `insert`,
which call `cmp`. -/

/-- The struct `TreeCmp[T]` at `T = int` (rbt_cmp.go, lines 8-11). -/
structure TreeCmp where
  Root : Option Nat
  Cmp : Int → Int → Int

/-- The loop of `NodeCmp.Find` (rbt_cmp.go, lines 78-88). -/
def NodeCmp.findLoop (cmp : Int → Int → Int) (h : Heap) (v : Int) :
    Nat → Option Nat → Except Err (Option Nat)
  | _, none => .ok none
  | 0, some _ => .error .fuel
  | fuel + 1, some a =>
    if cmp (h.cell a).Value v = 0 then .ok (some a)
    else if cmp v (h.cell a).Value > 0 then NodeCmp.findLoop cmp h v fuel (h.cell a).Right
    else NodeCmp.findLoop cmp h v fuel (h.cell a).Left

/-- The method `NodeCmp.Find` (rbt_cmp.go, lines 77-89). -/
def NodeCmp.Find (cmp : Int → Int → Int) (h : Heap) (n : Option Nat) (v : Int) :
    Except Err (Option Nat) :=
  NodeCmp.findLoop cmp h v h.next n

/-- The descent loop of `NodeCmp.insert` (rbt_cmp.go, lines 279-287); the
result is `p`, the last node visited. -/
def NodeCmp.insertLoop (cmp : Int → Int → Int) (h : Heap) (v : Int) :
    Nat → Option Nat → Option Nat → Except Err (Option Nat)
  | _, p, none => .ok p
  | 0, _, some _ => .error .fuel
  | fuel + 1, _, some a =>
    if cmp v (h.cell a).Value > 0 then NodeCmp.insertLoop cmp h v fuel (some a) (h.cell a).Right
    else NodeCmp.insertLoop cmp h v fuel (some a) (h.cell a).Left

/-- The method `NodeCmp.insertFixup` (rbt_cmp.go, lines 305-362): the
statements of `Node.insertFixup`. -/
def NodeCmp.insertFixup (fuel : Nat) (h : Heap) (n : Option Nat) :
    Except Err (Option Nat × Heap) :=
  Node.insertFixup fuel h n

/-- The method `NodeCmp.insert` (rbt_cmp.go, lines 272-302). -/
def NodeCmp.insert (cmp : Int → Int → Int) (h : Heap) (n : Option Nat) (v : Int) :
    Except Err (Option Nat × Heap) :=
  match n with
  | none => .error .panicked
  | some _ => do
    let p ← NodeCmp.insertLoop cmp h v h.next none n
    -- nn := &NodeCmp[T]{Value: v, Red: true, Parent: p}
    let (nn, h) := h.alloc ⟨none, none, p, true, v⟩
    let pv ← rdValue h p
    let h ← if cmp v pv > 0 then stRight h p (some nn) else stLeft h p (some nn)
    NodeCmp.insertFixup h.next h (some nn)

/-- The method `NodeCmp.delete` (rbt_cmp.go, lines 137-196): the statements
of `Node.delete`. -/
def NodeCmp.delete (h : Heap) (n : Option Nat) : Except Err (Option Nat × Heap) :=
  Node.delete h n

/-- The method `NodeCmp.Height` (rbt_cmp.go, lines 365-378): the statements
of `Node.Height`. -/
def NodeCmp.Height (h : Heap) (n : Option Nat) : Except Err Nat :=
  Node.Height h n

/-- The method `TreeCmp.Insert` (rbt_cmp.go, lines 13-29). -/
def TreeCmp.Insert (h : Heap) (t : TreeCmp) (v : Int) : Except Err (TreeCmp × Heap) :=
  match t.Root with
  | none =>
    let (a, h) := h.alloc ⟨none, none, none, false, v⟩
    .ok ({ t with Root := some a }, h)
  | some _ => do
    let (top, h) ← NodeCmp.insert t.Cmp h t.Root v
    let tp ← rdParent h top
    if tp = none then pure ({ t with Root := top }, h)
    else do
      let tpp ← rdParent h tp
      if tpp = none then pure ({ t with Root := tp }, h) else pure (t, h)

/-- The method `TreeCmp.Delete` (rbt_cmp.go, lines 31-49). -/
def TreeCmp.Delete (h : Heap) (t : TreeCmp) (v : Int) : Except Err (Bool × TreeCmp × Heap) := do
  let n ← NodeCmp.Find t.Cmp h t.Root v
  if n = none then pure (false, t, h)
  else do
    let (c, h) ← NodeCmp.delete h n
    if c = none then pure (true, { t with Root := c }, h)
    else do
      let cp ← rdParent h c
      if cp = none then pure (true, { t with Root := c }, h)
      else do
        let cpp ← rdParent h cp
        if cpp = none then pure (true, { t with Root := cp }, h)
        else do
          let cppp ← rdParent h cpp
          if cppp = none then pure (true, { t with Root := cpp }, h) else pure (true, t, h)

/-- The method `TreeCmp.Height` (rbt_cmp.go, lines 51-57). -/
def TreeCmp.Height (h : Heap) (t : TreeCmp) : Except Err Nat :=
  match t.Root with
  | none => .ok 0
  | some _ => NodeCmp.Height h t.Root

/-- What a caller sees of a tree after some calls: the booleans returned by
the `Delete` calls in order, the root pointer, the heap with every node's
fields, and the result of `Height()`. -/
structure View where
  deleted : List Bool
  root : Option Nat
  heap : Heap
  height : Except Err Nat

/-- The calls `ops` in order on a `Tree[int]`; `bs` collects the booleans
returned by the `Delete` calls. -/
def runView : List Op → List Bool → Tree × Heap → Except Err View
  | [], bs, s => .ok ⟨bs, s.1.Root, s.2, Tree.Height s.2 s.1⟩
  | .ins v :: os, bs, s =>
    match Tree.Insert s.2 s.1 v with
    | .ok s1 => runView os bs s1
    | .error e => .error e
  | .del v :: os, bs, s =>
    match Tree.Delete s.2 s.1 v with
    | .ok (b, t, h) => runView os (bs ++ [b]) (t, h)
    | .error e => .error e

/-- The calls `ops` in order on a `TreeCmp[int]`; `bs` collects the booleans
returned by the `Delete` calls. -/
def runCmpView : List Op → List Bool → TreeCmp × Heap → Except Err View
  | [], bs, s => .ok ⟨bs, s.1.Root, s.2, TreeCmp.Height s.2 s.1⟩
  | .ins v :: os, bs, s =>
    match TreeCmp.Insert s.2 s.1 v with
    | .ok s1 => runCmpView os bs s1
    | .error e => .error e
  | .del v :: os, bs, s =>
    match TreeCmp.Delete s.2 s.1 v with
    | .ok (b, t, h) => runCmpView os (bs ++ [b]) (t, h)
    | .error e => .error e

/-- The comparison function is the natural three-way comparison of ints:
negative when `a < b`, zero when `a = b`, positive when `a > b`. -/
def NaturalCmp (cmp : Int → Int → Int) : Prop :=
  ∀ a b, (cmp a b < 0 ↔ a < b) ∧ (cmp a b = 0 ↔ a = b) ∧ (0 < cmp a b ↔ b < a)

/-- A three-way comparison of ints by subtraction, as a caller of `TreeCmp[int]`
may pass it. -/
def intCmp (a b : Int) : Int := a - b

/-- One call on the tree handle `s.1` of a `TreeCmp[int]` in heap `s.2`; the
boolean of `Delete` is dropped. -/
def stepCmp (s : TreeCmp × Heap) : Op → Except Err (TreeCmp × Heap)
  | .ins v => TreeCmp.Insert s.2 s.1 v
  | .del v =>
    match TreeCmp.Delete s.2 s.1 v with
    | .ok (_, t, h) => .ok (t, h)
    | .error e => .error e

/-- The calls `ops` in order on a `TreeCmp[int]`, from state `s`. -/
def runCmp : List Op → TreeCmp × Heap → Except Err (TreeCmp × Heap)
  | [], s => .ok s
  | o :: os, s =>
    match stepCmp s o with
    | .ok s1 => runCmp os s1
    | .error e => .error e

/-- The comparison function orders the ints: whenever `cmp a b` is positive,
`cmp b a` is negative, and "not greater" (`cmp a b ≤ 0`) is transitive. -/
def LawfulCmp (cmp : Int → Int → Int) : Prop :=
  (∀ a b, 0 < cmp a b → cmp b a < 0) ∧ (∀ a b c, cmp a b ≤ 0 → cmp b c ≤ 0 → cmp a c ≤ 0)

/-- The three-way comparison of ints with the results -1, 0 and 1. -/
def signCmp (a b : Int) : Int := if a < b then -1 else if b < a then 1 else 0

/-- A comparison with the results -1, 0 and 1 that takes ints at most 3 apart
as equal: 10 and 12 compare equal, 12 and 14 compare equal, yet 14 compares
greater than 10, so "not greater" is not transitive. -/
def nearCmp (a b : Int) : Int := if a - b > 3 then 1 else if b - a > 3 then -1 else 0

/-- A comparison that only tells equal ints from different ones: 0 for equal
ints and 1 otherwise, so `eqCmp a b` and `eqCmp b a` are both positive for
different ints. -/
def eqCmp (a b : Int) : Int := if a = b then 0 else 1

/-- The way `NodeCmp.insert` walks down from the top of `t` (rbt_cmp.go,
lines 279-287): right when `cmp(v, p.Value) > 0`, left otherwise. -/
def descendCmp (cmp : Int → Int → Int) (v : Int) : RBT → Path → Path
  | .nil, p => p
  | .node a c x l r, p =>
    if cmp v x > 0 then descendCmp cmp v r (.right a c x l p)
    else descendCmp cmp v l (.left a c x r p)
  | .phantom _, p => p

/-- The last step of the path agrees with the comparison that
`NodeCmp.insert` makes at the node above the hole. -/
def Path.dirCmp (cmp : Int → Int → Int) (v : Int) : Path → Prop
  | .top => True
  | .left _ _ x _ _ => ¬ cmp v x > 0
  | .right _ _ x _ _ => cmp v x > 0

/-- The state after a run of `Insert` calls on a `TreeCmp[int]` with the
comparison `cmp`: the heap holds a red-black tree below `Root` whose in-order
values are ordered by `cmp`. -/
def InsInvCmp (cmp : Int → Int → Int) (s : TreeCmp × Heap) : Prop :=
  s.1.Cmp = cmp ∧ ∃ T, Good s.2 T ∧ T.ptr = s.1.Root ∧ T.real ∧ (∃ K, Bal T false K) ∧
    T.vals.Pairwise (fun x y => cmp x y ≤ 0)

/-! ## The pointers that `deleteFixup` dereferences

The functions below repeat the statements of `deleteFixup` and `delete` and
keep, next to the result, a record of four kinds of pointers in the order in
which the code reads them: the sibling `r` (or `l`) read at the start of the
loop body, the sibling read again after the rotation of case 1, the nephew
that case 3 paints black, and the nephew that case 4 paints black. -/

/-- `deleteFixupLeft1` (rbt.go, lines 203-209) with the record of the sibling
`n.Parent.Right` as read at the start of the body and as read again after
the rotation of case 1. -/
def Node.deleteFixupLeft1Log (h : Heap) (n : Option Nat) :
    Except Err (List (Option Nat) × Option Nat × Heap) := do
  let p ← rdParent h n
  let r ← rdRight h p
  let rred ← rdRed h r
  if rred then do
    let h ← stRed h r false
    let rp ← rdParent h r
    let h ← stRed h rp true
    let p ← rdParent h n
    let h := Node.RotateLeft h p
    let p ← rdParent h n
    let r2 ← rdRight h p
    pure ([r, r2], r2, h)
  else pure ([r], r, h)

/-- `deleteFixupLeft2` (rbt.go, lines 211-236) with the record of the nephew
`r.Left` that case 3 paints black and of the nephew `r.Right` that case 4
paints black. -/
def Node.deleteFixupLeft2Log (h : Heap) (n r : Option Nat) :
    Except Err (List (Option Nat) × Bool × Option Nat × Heap) := do
  let rr ← rdRight h r
  let rl ← rdLeft h r
  if Node.Black h rr && Node.Black h rl then do
    let h ← stRed h r true
    let p ← rdParent h n
    pure ([], true, p, h)
  else do
    let rr ← rdRight h r
    let (log3, r, h) ←
      if Node.Black h rr then do
        let rl ← rdLeft h r
        let h ← stRed h rl false
        let h ← stRed h r true
        let h := Node.RotateRight h r
        let p ← rdParent h n
        let r ← rdRight h p
        pure ([rl], r, h)
      else pure ([], r, h)
    let p ← rdParent h n
    let pred ← rdRed h p
    let h ← stRed h r pred
    let p ← rdParent h n
    let h ← stRed h p false
    let rr ← rdRight h r
    let h ← stRed h rr false
    let p ← rdParent h n
    let h := Node.RotateLeft h p
    pure (log3 ++ [rr], false, n, h)

/-- `deleteFixupRight1` (rbt.go, lines 238-244) with the record of the sibling
`n.Parent.Left` as read at the start of the body and as read again after the
rotation of case 1. -/
def Node.deleteFixupRight1Log (h : Heap) (n : Option Nat) :
    Except Err (List (Option Nat) × Option Nat × Heap) := do
  let p ← rdParent h n
  let l ← rdLeft h p
  let lred ← rdRed h l
  if lred then do
    let h ← stRed h l false
    let lp ← rdParent h l
    let h ← stRed h lp true
    let p ← rdParent h n
    let h := Node.RotateRight h p
    let p ← rdParent h n
    let l2 ← rdLeft h p
    pure ([l, l2], l2, h)
  else pure ([l], l, h)

/-- `deleteFixupRight2` (rbt.go, lines 246-262) with the record of the nephew
`l.Right` that case 3 paints black and of the nephew `l.Left` that case 4
paints black. -/
def Node.deleteFixupRight2Log (h : Heap) (n l : Option Nat) :
    Except Err (List (Option Nat) × Bool × Option Nat × Heap) := do
  let ll ← rdLeft h l
  let lr ← rdRight h l
  if Node.Black h ll && Node.Black h lr then do
    let h ← stRed h l true
    let p ← rdParent h n
    pure ([], true, p, h)
  else do
    let ll ← rdLeft h l
    let (log3, l, h) ←
      if Node.Black h ll then do
        let lr ← rdRight h l
        let h ← stRed h lr false
        let h ← stRed h l true
        let h := Node.RotateLeft h l
        let p ← rdParent h n
        let l ← rdLeft h p
        pure ([lr], l, h)
      else pure ([], l, h)
    let p ← rdParent h n
    let pred ← rdRed h p
    let h ← stRed h l pred
    let p ← rdParent h n
    let h ← stRed h p false
    let ll ← rdLeft h l
    let h ← stRed h ll false
    let p ← rdParent h n
    let h := Node.RotateRight h p
    pure (log3 ++ [ll], false, n, h)

/-- One pass of the loop body of `deleteFixup` (rbt.go, lines 201-263) with
the record of the siblings and nephews of that pass. -/
def Node.deleteFixupBodyLog (h : Heap) (n pl : Option Nat) :
    Except Err (List (Option Nat) × Bool × Option Nat × Heap) :=
  if n = pl then do
    let (log1, r, h) ← Node.deleteFixupLeft1Log h n
    let (log2, out) ← Node.deleteFixupLeft2Log h n r
    pure (log1 ++ log2, out)
  else do
    let (log1, l, h) ← Node.deleteFixupRight1Log h n
    let (log2, out) ← Node.deleteFixupRight2Log h n l
    pure (log1 ++ log2, out)

/-- The method `deleteFixup` (rbt.go, lines 199-268) with the record of the
siblings and nephews of all passes of the loop body. -/
def Node.deleteFixupLog : Nat → Heap → Option Nat →
    Except Err (List (Option Nat) × Option Nat × Heap)
  | 0, _, _ => .error .fuel
  | fuel + 1, h, n => do
    let p ← rdParent h n
    if p = none || !(Node.Black h n) then do
      let h ← stRed h n false
      pure ([], n, h)
    else do
      let pl ← rdLeft h p
      let (log, again, n, h) ← Node.deleteFixupBodyLog h n pl
      if again then do
        let (log2, res) ← Node.deleteFixupLog fuel h n
        pure (log ++ log2, res)
      else do
        let h ← stRed h n false
        pure (log, n, h)

/-- Lines 178-195 of `delete` with the record of the siblings and nephews
that the call of `deleteFixup` reads. -/
def Node.deleteFinishLog (h : Heap) (d c : Option Nat) (cfake : Bool) :
    Except Err (List (Option Nat) × Option Nat × Heap) := do
  let dred ← rdRed h d
  let (log, pp, h) ← if !dred then Node.deleteFixupLog h.next h c else pure ([], c, h)
  if cfake then do
    let cp ← rdParent h c
    if cp ≠ none then do
      let cpl ← rdLeft h cp
      let h ← if cpl = c then stLeft h cp none else stRight h cp none
      pure (log, pp, h)
    else pure (log, none, h)
  else pure (log, pp, h)

/-- The method `delete` (rbt.go, lines 137-196) with the record of the
siblings and nephews that its call of `deleteFixup` reads. -/
def Node.deleteLog (h : Heap) (n : Option Nat) :
    Except Err (List (Option Nat) × Option Nat × Heap) :=
  match n with
  | none => .error .panicked
  | some _ => do
    let nl ← rdLeft h n
    let nr ← rdRight h n
    let d ← if nl = none || nr = none then pure n else Node.Successor h n
    let (c, cfake, h) ← Node.deleteChild h d
    let h ←
      if d ≠ n then do
        let dv ← rdValue h d
        stValue h n dv
      else pure h
    Node.deleteFinishLog h d c cfake

/-- The heap after Insert 1, 2, 3, 5, 6, 4 on the empty tree: the black root 2
(address 1) with the black leaf 1 (address 0) on the left and the red node 5
(address 3) on the right, whose children are the black nodes 3 (address 2,
with the red right child 4 at address 5) and 6 (address 4). -/
def deepHeap : Heap :=
  ⟨6, fun a =>
    match a with
    | 0 => ⟨none, none, some 1, false, 1⟩
    | 1 => ⟨some 0, some 3, none, false, 2⟩
    | 2 => ⟨none, some 5, some 3, false, 3⟩
    | 3 => ⟨some 2, some 4, some 1, true, 5⟩
    | 4 => ⟨none, none, some 3, false, 6⟩
    | _ => ⟨none, none, some 2, true, 4⟩⟩

/-- The tree held by `deepHeap`. -/
def deepTree : RBT :=
  .node 1 false 2 (.node 0 false 1 .nil .nil)
    (.node 3 true 5 (.node 2 false 3 .nil (.node 5 true 4 .nil .nil)) (.node 4 false 6 .nil .nil))

/-- The tree that the nodes form after Insert 1, 2, 3, 5, 6, 4 and Delete 1
on the empty tree: the black top 5 (address 3) with the red node 3 (address 2)
on the left, whose children are the black nodes 2 (address 1) and 4
(address 5), and the black node 6 (address 4) on the right. -/
def staleTree : RBT :=
  .node 3 false 5 (.node 2 true 3 (.node 1 false 2 .nil .nil) (.node 5 false 4 .nil .nil))
    (.node 4 false 6 .nil .nil)

/-! # Proofs -/

/-! ## Heap lemmas -/

@[simp] theorem put_next (h : Heap) (a : Nat) (nd : Node) : (h.put a nd).next = h.next := rfl
theorem put_cell (h : Heap) (a : Nat) (nd : Node) (x : Nat) :
    (h.put a nd).cell x = if x = a then nd else h.cell x := rfl
@[simp] theorem put_cell_same (h : Heap) (a : Nat) (nd : Node) : (h.put a nd).cell a = nd := by
  simp [put_cell]
theorem put_cell_ne (h : Heap) {a x : Nat} (nd : Node) (hx : x ≠ a) :
    (h.put a nd).cell x = h.cell x := by
  simp [put_cell, hx]

/-! ## Addresses -/

theorem addrs_plug (p : Path) (t : RBT) : (p.plug t).addrs.Perm (t.addrs ++ p.addrs) := by
  induction p generalizing t with
  | top => simp [Path.plug, Path.addrs]
  | left a c v r up ih =>
    refine (ih _).trans ?_
    simp only [RBT.addrs, Path.addrs, List.append_assoc, List.cons_append]
    exact List.Perm.refl _
  | right a c v l up ih =>
    refine (ih _).trans ?_
    simp only [RBT.addrs, Path.addrs, List.append_assoc, List.cons_append]
    rw [List.perm_iff_count]
    intro x
    simp only [List.count_append, List.count_cons]
    omega


/-! ## Representation -/

theorem Rep.frame {h h' : Heap} {par : Option Nat} {t : RBT} (hr : Rep h par t)
    (hf : ∀ x ∈ t.addrs, h'.cell x = h.cell x) : Rep h' par t := by
  induction t generalizing par with
  | nil => trivial
  | node a c v l r ihl ihr =>
    obtain ⟨h1, h2, h3⟩ := hr
    refine ⟨?_, ihl h2 ?_, ihr h3 ?_⟩
    · rw [hf a (by simp [RBT.addrs]), h1]
    · intro x hx; exact hf x (by simp [RBT.addrs, hx])
    · intro x hx; exact hf x (by simp [RBT.addrs, hx])
  | phantom a =>
    simp only [Rep] at hr ⊢
    rw [hf a (by simp [RBT.addrs]), hr]

theorem RepP.pframe {h h' : Heap} {p : Path} {x : Option Nat} (hr : RepP h p x)
    (hf : ∀ y ∈ p.addrs, h'.cell y = h.cell y) : RepP h' p x := by
  induction p generalizing x with
  | top => trivial
  | left a c v r up ih =>
    obtain ⟨h1, h2, h3⟩ := hr
    refine ⟨?_, h2.frame ?_, ih h3 ?_⟩
    · rw [hf a (by simp [Path.addrs]), h1]
    · intro y hy; exact hf y (by simp [Path.addrs, hy])
    · intro y hy; exact hf y (by simp [Path.addrs, hy])
  | right a c v l up ih =>
    obtain ⟨h1, h2, h3⟩ := hr
    refine ⟨?_, h2.frame ?_, ih h3 ?_⟩
    · rw [hf a (by simp [Path.addrs]), h1]
    · intro y hy; exact hf y (by simp [Path.addrs, hy])
    · intro y hy; exact hf y (by simp [Path.addrs, hy])

theorem rep_plug {h : Heap} {p : Path} {t : RBT} :
    Rep h none (p.plug t) ↔ Rep h p.ptr t ∧ RepP h p t.ptr := by
  induction p generalizing t with
  | top => simp [Path.plug, Path.ptr, RepP]
  | left a c v r up ih =>
    simp only [Path.plug, ih, Rep, RBT.ptr, Path.ptr, RepP]
    tauto
  | right a c v l up ih =>
    simp only [Path.plug, ih, Rep, RBT.ptr, Path.ptr, RepP]
    tauto

theorem good_plug {h : Heap} {p : Path} {t : RBT} :
    Good h (p.plug t) ↔ Rep h p.ptr t ∧ RepP h p t.ptr ∧ (t.addrs ++ p.addrs).Nodup ∧
      ∀ x ∈ t.addrs ++ p.addrs, x < h.next := by
  unfold Good
  rw [rep_plug, (addrs_plug p t).nodup_iff]
  have : (∀ a ∈ (p.plug t).addrs, a < h.next) ↔ ∀ x ∈ t.addrs ++ p.addrs, x < h.next := by
    constructor
    · intro H x hx; exact H x ((addrs_plug p t).mem_iff.2 hx)
    · intro H x hx; exact H x ((addrs_plug p t).mem_iff.1 hx)
  rw [this]
  tauto

/-- Writing the colour of the node in focus. -/
theorem good_wrRed {h : Heap} {p : Path} {a : Nat} {c : Bool} {v : Int} {l r : RBT} (c2 : Bool)
    (hg : Good h (p.plug (.node a c v l r))) :
    Good (h.wrRed a c2) (p.plug (.node a c2 v l r)) := by
  rw [good_plug] at hg ⊢
  obtain ⟨⟨h1, h2, h3⟩, h4, h5, h6⟩ := hg
  have h5c := h5
  simp only [RBT.addrs, List.append_assoc, List.cons_append, List.nodup_append, List.nodup_cons,
    List.mem_append, List.mem_cons, not_or] at h5
  refine ⟨⟨?_, h2.frame ?_, h3.frame ?_⟩, h4.pframe ?_, ?_, ?_⟩
  · simp [Heap.wrRed, h1]
  · intro x hx
    have : x ≠ a := by rintro rfl; simp_all
    simp [Heap.wrRed, put_cell_ne, this]
  · intro x hx
    have : x ≠ a := by rintro rfl; simp_all
    simp [Heap.wrRed, put_cell_ne, this]
  · intro x hx
    have : x ≠ a := by rintro rfl; simp_all
    simp [Heap.wrRed, put_cell_ne, this]
  · simpa [RBT.addrs] using h5c
  · simpa [RBT.addrs, Heap.wrRed] using h6


/-! ## Field reads after writes -/

@[simp] theorem wrLeft_next (h : Heap) (a : Nat) (x : Option Nat) : (h.wrLeft a x).next = h.next := rfl

@[simp] theorem wrLeft_Left (h : Heap) (a y : Nat) (x : Option Nat) :
    ((h.wrLeft a x).cell y).Left = if y = a then x else (h.cell y).Left := by
  unfold Heap.wrLeft Heap.put
  by_cases e : y = a <;> simp [e]

@[simp] theorem wrLeft_Right (h : Heap) (a y : Nat) (x : Option Nat) :
    ((h.wrLeft a x).cell y).Right = (h.cell y).Right := by
  unfold Heap.wrLeft Heap.put
  by_cases e : y = a <;> simp [e]

@[simp] theorem wrLeft_Parent (h : Heap) (a y : Nat) (x : Option Nat) :
    ((h.wrLeft a x).cell y).Parent = (h.cell y).Parent := by
  unfold Heap.wrLeft Heap.put
  by_cases e : y = a <;> simp [e]

@[simp] theorem wrLeft_Red (h : Heap) (a y : Nat) (x : Option Nat) :
    ((h.wrLeft a x).cell y).Red = (h.cell y).Red := by
  unfold Heap.wrLeft Heap.put
  by_cases e : y = a <;> simp [e]

@[simp] theorem wrLeft_Value (h : Heap) (a y : Nat) (x : Option Nat) :
    ((h.wrLeft a x).cell y).Value = (h.cell y).Value := by
  unfold Heap.wrLeft Heap.put
  by_cases e : y = a <;> simp [e]

@[simp] theorem wrRight_next (h : Heap) (a : Nat) (x : Option Nat) : (h.wrRight a x).next = h.next := rfl

@[simp] theorem wrRight_Left (h : Heap) (a y : Nat) (x : Option Nat) :
    ((h.wrRight a x).cell y).Left = (h.cell y).Left := by
  unfold Heap.wrRight Heap.put
  by_cases e : y = a <;> simp [e]

@[simp] theorem wrRight_Right (h : Heap) (a y : Nat) (x : Option Nat) :
    ((h.wrRight a x).cell y).Right = if y = a then x else (h.cell y).Right := by
  unfold Heap.wrRight Heap.put
  by_cases e : y = a <;> simp [e]

@[simp] theorem wrRight_Parent (h : Heap) (a y : Nat) (x : Option Nat) :
    ((h.wrRight a x).cell y).Parent = (h.cell y).Parent := by
  unfold Heap.wrRight Heap.put
  by_cases e : y = a <;> simp [e]

@[simp] theorem wrRight_Red (h : Heap) (a y : Nat) (x : Option Nat) :
    ((h.wrRight a x).cell y).Red = (h.cell y).Red := by
  unfold Heap.wrRight Heap.put
  by_cases e : y = a <;> simp [e]

@[simp] theorem wrRight_Value (h : Heap) (a y : Nat) (x : Option Nat) :
    ((h.wrRight a x).cell y).Value = (h.cell y).Value := by
  unfold Heap.wrRight Heap.put
  by_cases e : y = a <;> simp [e]

@[simp] theorem wrParent_next (h : Heap) (a : Nat) (x : Option Nat) : (h.wrParent a x).next = h.next := rfl

@[simp] theorem wrParent_Left (h : Heap) (a y : Nat) (x : Option Nat) :
    ((h.wrParent a x).cell y).Left = (h.cell y).Left := by
  unfold Heap.wrParent Heap.put
  by_cases e : y = a <;> simp [e]

@[simp] theorem wrParent_Right (h : Heap) (a y : Nat) (x : Option Nat) :
    ((h.wrParent a x).cell y).Right = (h.cell y).Right := by
  unfold Heap.wrParent Heap.put
  by_cases e : y = a <;> simp [e]

@[simp] theorem wrParent_Parent (h : Heap) (a y : Nat) (x : Option Nat) :
    ((h.wrParent a x).cell y).Parent = if y = a then x else (h.cell y).Parent := by
  unfold Heap.wrParent Heap.put
  by_cases e : y = a <;> simp [e]

@[simp] theorem wrParent_Red (h : Heap) (a y : Nat) (x : Option Nat) :
    ((h.wrParent a x).cell y).Red = (h.cell y).Red := by
  unfold Heap.wrParent Heap.put
  by_cases e : y = a <;> simp [e]

@[simp] theorem wrParent_Value (h : Heap) (a y : Nat) (x : Option Nat) :
    ((h.wrParent a x).cell y).Value = (h.cell y).Value := by
  unfold Heap.wrParent Heap.put
  by_cases e : y = a <;> simp [e]

@[simp] theorem wrRed_next (h : Heap) (a : Nat) (x : Bool) : (h.wrRed a x).next = h.next := rfl

@[simp] theorem wrRed_Left (h : Heap) (a y : Nat) (x : Bool) :
    ((h.wrRed a x).cell y).Left = (h.cell y).Left := by
  unfold Heap.wrRed Heap.put
  by_cases e : y = a <;> simp [e]

@[simp] theorem wrRed_Right (h : Heap) (a y : Nat) (x : Bool) :
    ((h.wrRed a x).cell y).Right = (h.cell y).Right := by
  unfold Heap.wrRed Heap.put
  by_cases e : y = a <;> simp [e]

@[simp] theorem wrRed_Parent (h : Heap) (a y : Nat) (x : Bool) :
    ((h.wrRed a x).cell y).Parent = (h.cell y).Parent := by
  unfold Heap.wrRed Heap.put
  by_cases e : y = a <;> simp [e]

@[simp] theorem wrRed_Red (h : Heap) (a y : Nat) (x : Bool) :
    ((h.wrRed a x).cell y).Red = if y = a then x else (h.cell y).Red := by
  unfold Heap.wrRed Heap.put
  by_cases e : y = a <;> simp [e]

@[simp] theorem wrRed_Value (h : Heap) (a y : Nat) (x : Bool) :
    ((h.wrRed a x).cell y).Value = (h.cell y).Value := by
  unfold Heap.wrRed Heap.put
  by_cases e : y = a <;> simp [e]

@[simp] theorem wrValue_next (h : Heap) (a : Nat) (x : Int) : (h.wrValue a x).next = h.next := rfl

@[simp] theorem wrValue_Left (h : Heap) (a y : Nat) (x : Int) :
    ((h.wrValue a x).cell y).Left = (h.cell y).Left := by
  unfold Heap.wrValue Heap.put
  by_cases e : y = a <;> simp [e]

@[simp] theorem wrValue_Right (h : Heap) (a y : Nat) (x : Int) :
    ((h.wrValue a x).cell y).Right = (h.cell y).Right := by
  unfold Heap.wrValue Heap.put
  by_cases e : y = a <;> simp [e]

@[simp] theorem wrValue_Parent (h : Heap) (a y : Nat) (x : Int) :
    ((h.wrValue a x).cell y).Parent = (h.cell y).Parent := by
  unfold Heap.wrValue Heap.put
  by_cases e : y = a <;> simp [e]

@[simp] theorem wrValue_Red (h : Heap) (a y : Nat) (x : Int) :
    ((h.wrValue a x).cell y).Red = (h.cell y).Red := by
  unfold Heap.wrValue Heap.put
  by_cases e : y = a <;> simp [e]

@[simp] theorem wrValue_Value (h : Heap) (a y : Nat) (x : Int) :
    ((h.wrValue a x).cell y).Value = if y = a then x else (h.cell y).Value := by
  unfold Heap.wrValue Heap.put
  by_cases e : y = a <;> simp [e]

theorem node_eq_iff (n : Node) (l r p : Option Nat) (c : Bool) (v : Int) :
    n = ⟨l, r, p, c, v⟩ ↔ n.Left = l ∧ n.Right = r ∧ n.Parent = p ∧ n.Red = c ∧ n.Value = v := by
  cases n; simp

theorem node_ext {n m : Node} (h1 : n.Left = m.Left) (h2 : n.Right = m.Right)
    (h3 : n.Parent = m.Parent) (h4 : n.Red = m.Red) (h5 : n.Value = m.Value) : n = m := by
  cases n; cases m; simp_all

/-- What `RotateLeft` does to the cells, when the right child exists. -/
theorem rotL_cell {h : Heap} {a b : Nat} {la d rr pp : Option Nat} {c c2 : Bool} {v v2 : Int}
    (ha : h.cell a = ⟨la, some b, pp, c, v⟩) (hb : h.cell b = ⟨d, rr, some a, c2, v2⟩)
    (hab : a ≠ b) (hpa : pp ≠ some a) (hpb : pp ≠ some b) (hda : d ≠ some a) (hdb : d ≠ some b)
    (hdp : ∀ z, d = some z → pp ≠ some z) (x : Nat) :
    (Node.RotateLeft h (some a)).cell x =
      if x = a then ⟨la, d, some b, c, v⟩
      else if x = b then ⟨some a, rr, pp, c2, v2⟩
      else if pp = some x then
        (if (h.cell x).Left = some a then { h.cell x with Left := some b }
         else { h.cell x with Right := some b })
      else if d = some x then { h.cell x with Parent := some a }
      else h.cell x := by
  rw [node_eq_iff] at ha hb
  obtain ⟨ha1, ha2, ha3, ha4, ha5⟩ := ha
  obtain ⟨hb1, hb2, hb3, hb4, hb5⟩ := hb
  have hba := Ne.symm hab
  cases pp with
  | none =>
    cases d with
    | none =>
      simp only [Node.RotateLeft, ha2, ha3, Node.SetLeft, Node.SetRight, wrParent_Left, hb1]
      by_cases e1 : x = a
      · subst e1; apply node_ext <;> simp [*]
      by_cases e2 : x = b
      · subst e2; apply node_ext <;> simp [*]
      apply node_ext <;> simp [*]
    | some da =>
      have h1 : da ≠ a := fun e => hda (by rw [e])
      have h2 : da ≠ b := fun e => hdb (by rw [e])
      simp only [Node.RotateLeft, ha2, ha3, Node.SetLeft, Node.SetRight, wrParent_Left, hb1]
      by_cases e1 : x = a
      · subst e1; apply node_ext <;> simp [*, Ne.symm h1]
      by_cases e2 : x = b
      · subst e2; apply node_ext <;> simp [*, Ne.symm h2]
      by_cases e3 : da = x
      · subst e3; apply node_ext <;> simp [*]
      have e3b : x ≠ da := Ne.symm e3
      apply node_ext <;> simp [*]
  | some pa =>
    have h3 : pa ≠ a := fun e => hpa (by rw [e])
    have h4 : pa ≠ b := fun e => hpb (by rw [e])
    have h3b := Ne.symm h3
    have h4b := Ne.symm h4
    cases d with
    | none =>
      by_cases hl : (h.cell pa).Left = some a
      · simp only [Node.RotateLeft, ha2, ha3, Node.SetLeft, Node.SetRight, Node.ReplaceChild, hl,
          if_true, wrParent_Left, wrLeft_Left, h4b, if_false, hb1]
        by_cases e1 : x = a
        · subst e1; apply node_ext <;> simp [*]
        by_cases e2 : x = b
        · subst e2; apply node_ext <;> simp [*]
        by_cases e3 : pa = x
        · subst e3; apply node_ext <;> simp [*]
        have e3b : x ≠ pa := Ne.symm e3
        apply node_ext <;> simp [*]
      · simp only [Node.RotateLeft, ha2, ha3, Node.SetLeft, Node.SetRight, Node.ReplaceChild, hl,
          if_false, wrParent_Left, wrRight_Left, hb1]
        by_cases e1 : x = a
        · subst e1; apply node_ext <;> simp [*]
        by_cases e2 : x = b
        · subst e2; apply node_ext <;> simp [*]
        by_cases e3 : pa = x
        · subst e3; apply node_ext <;> simp [*]
        have e3b : x ≠ pa := Ne.symm e3
        apply node_ext <;> simp [*]
    | some da =>
      have h1 : da ≠ a := fun e => hda (by rw [e])
      have h2 : da ≠ b := fun e => hdb (by rw [e])
      have h5 : pa ≠ da := fun e => hdp da rfl (by rw [e])
      have h1b := Ne.symm h1
      have h2b := Ne.symm h2
      have h5b := Ne.symm h5
      by_cases hl : (h.cell pa).Left = some a
      · simp only [Node.RotateLeft, ha2, ha3, Node.SetLeft, Node.SetRight, Node.ReplaceChild, hl,
          if_true, wrParent_Left, wrLeft_Left, h4b, if_false, hb1]
        by_cases e1 : x = a
        · subst e1; apply node_ext <;> simp [*]
        by_cases e2 : x = b
        · subst e2; apply node_ext <;> simp [*]
        by_cases e3 : pa = x
        · subst e3; apply node_ext <;> simp [*]
        have e3b : x ≠ pa := Ne.symm e3
        by_cases e4 : da = x
        · subst e4; apply node_ext <;> simp [*]
        have e4b : x ≠ da := Ne.symm e4
        apply node_ext <;> simp [*]
      · simp only [Node.RotateLeft, ha2, ha3, Node.SetLeft, Node.SetRight, Node.ReplaceChild, hl,
          if_false, wrParent_Left, wrRight_Left, hb1]
        by_cases e1 : x = a
        · subst e1; apply node_ext <;> simp [*]
        by_cases e2 : x = b
        · subst e2; apply node_ext <;> simp [*]
        by_cases e3 : pa = x
        · subst e3; apply node_ext <;> simp [*]
        have e3b : x ≠ pa := Ne.symm e3
        by_cases e4 : da = x
        · subst e4; apply node_ext <;> simp [*]
        have e4b : x ≠ da := Ne.symm e4
        apply node_ext <;> simp [*]

/-- What `RotateRight` does to the cells, when the left child exists. -/
theorem rotR_cell {h : Heap} {a b : Nat} {la d rr pp : Option Nat} {c c2 : Bool} {v v2 : Int}
    (ha : h.cell a = ⟨some b, la, pp, c, v⟩) (hb : h.cell b = ⟨rr, d, some a, c2, v2⟩)
    (hab : a ≠ b) (hpa : pp ≠ some a) (hpb : pp ≠ some b) (hda : d ≠ some a) (hdb : d ≠ some b)
    (hdp : ∀ z, d = some z → pp ≠ some z) (x : Nat) :
    (Node.RotateRight h (some a)).cell x =
      if x = a then ⟨d, la, some b, c, v⟩
      else if x = b then ⟨rr, some a, pp, c2, v2⟩
      else if pp = some x then
        (if (h.cell x).Left = some a then { h.cell x with Left := some b }
         else { h.cell x with Right := some b })
      else if d = some x then { h.cell x with Parent := some a }
      else h.cell x := by
  rw [node_eq_iff] at ha hb
  obtain ⟨ha1, ha2, ha3, ha4, ha5⟩ := ha
  obtain ⟨hb1, hb2, hb3, hb4, hb5⟩ := hb
  have hba := Ne.symm hab
  cases pp with
  | none =>
    cases d with
    | none =>
      simp only [Node.RotateRight, ha1, ha3, Node.SetLeft, Node.SetRight, wrParent_Right, hb2]
      by_cases e1 : x = a
      · subst e1; apply node_ext <;> simp [*]
      by_cases e2 : x = b
      · subst e2; apply node_ext <;> simp [*]
      apply node_ext <;> simp [*]
    | some da =>
      have h1 : da ≠ a := fun e => hda (by rw [e])
      have h2 : da ≠ b := fun e => hdb (by rw [e])
      simp only [Node.RotateRight, ha1, ha3, Node.SetLeft, Node.SetRight, wrParent_Right, hb2]
      by_cases e1 : x = a
      · subst e1; apply node_ext <;> simp [*, Ne.symm h1]
      by_cases e2 : x = b
      · subst e2; apply node_ext <;> simp [*, Ne.symm h2]
      by_cases e3 : da = x
      · subst e3; apply node_ext <;> simp [*]
      have e3b : x ≠ da := Ne.symm e3
      apply node_ext <;> simp [*]
  | some pa =>
    have h3 : pa ≠ a := fun e => hpa (by rw [e])
    have h4 : pa ≠ b := fun e => hpb (by rw [e])
    have h3b := Ne.symm h3
    have h4b := Ne.symm h4
    cases d with
    | none =>
      by_cases hl : (h.cell pa).Left = some a
      · simp only [Node.RotateRight, ha1, ha3, Node.SetLeft, Node.SetRight, Node.ReplaceChild, hl,
          if_true, wrParent_Right, wrLeft_Right, hb2]
        by_cases e1 : x = a
        · subst e1; apply node_ext <;> simp [*]
        by_cases e2 : x = b
        · subst e2; apply node_ext <;> simp [*]
        by_cases e3 : pa = x
        · subst e3; apply node_ext <;> simp [*]
        have e3b : x ≠ pa := Ne.symm e3
        apply node_ext <;> simp [*]
      · simp only [Node.RotateRight, ha1, ha3, Node.SetLeft, Node.SetRight, Node.ReplaceChild, hl,
          if_false, wrParent_Right, wrRight_Right, h4b, hb2]
        by_cases e1 : x = a
        · subst e1; apply node_ext <;> simp [*]
        by_cases e2 : x = b
        · subst e2; apply node_ext <;> simp [*]
        by_cases e3 : pa = x
        · subst e3; apply node_ext <;> simp [*]
        have e3b : x ≠ pa := Ne.symm e3
        apply node_ext <;> simp [*]
    | some da =>
      have h1 : da ≠ a := fun e => hda (by rw [e])
      have h2 : da ≠ b := fun e => hdb (by rw [e])
      have h5 : pa ≠ da := fun e => hdp da rfl (by rw [e])
      have h1b := Ne.symm h1
      have h2b := Ne.symm h2
      have h5b := Ne.symm h5
      by_cases hl : (h.cell pa).Left = some a
      · simp only [Node.RotateRight, ha1, ha3, Node.SetLeft, Node.SetRight, Node.ReplaceChild, hl,
          if_true, wrParent_Right, wrLeft_Right, hb2]
        by_cases e1 : x = a
        · subst e1; apply node_ext <;> simp [*]
        by_cases e2 : x = b
        · subst e2; apply node_ext <;> simp [*]
        by_cases e3 : pa = x
        · subst e3; apply node_ext <;> simp [*]
        have e3b : x ≠ pa := Ne.symm e3
        by_cases e4 : da = x
        · subst e4; apply node_ext <;> simp [*]
        have e4b : x ≠ da := Ne.symm e4
        apply node_ext <;> simp [*]
      · simp only [Node.RotateRight, ha1, ha3, Node.SetLeft, Node.SetRight, Node.ReplaceChild, hl,
          if_false, wrParent_Right, wrRight_Right, h4b, hb2]
        by_cases e1 : x = a
        · subst e1; apply node_ext <;> simp [*]
        by_cases e2 : x = b
        · subst e2; apply node_ext <;> simp [*]
        by_cases e3 : pa = x
        · subst e3; apply node_ext <;> simp [*]
        have e3b : x ≠ pa := Ne.symm e3
        by_cases e4 : da = x
        · subst e4; apply node_ext <;> simp [*]
        have e4b : x ≠ da := Ne.symm e4
        apply node_ext <;> simp [*]


@[simp] theorem replaceChild_next (h : Heap) (n o w : Option Nat) :
    (Node.ReplaceChild h n o w).next = h.next := by
  cases n <;> cases w <;> simp only [Node.ReplaceChild] <;> split_ifs <;> rfl

@[simp] theorem setLeft_next (h : Heap) (n l : Option Nat) : (Node.SetLeft h n l).next = h.next := by
  cases n <;> cases l <;> rfl

@[simp] theorem setRight_next (h : Heap) (n l : Option Nat) : (Node.SetRight h n l).next = h.next := by
  cases n <;> cases l <;> rfl

@[simp] theorem rotL_next (h : Heap) (n : Option Nat) : (Node.RotateLeft h n).next = h.next := by
  cases n with
  | none => rfl
  | some a =>
    simp only [Node.RotateLeft]
    split
    · rfl
    · split <;> simp

@[simp] theorem rotR_next (h : Heap) (n : Option Nat) : (Node.RotateRight h n).next = h.next := by
  cases n with
  | none => rfl
  | some a =>
    simp only [Node.RotateRight]
    split
    · rfl
    · split <;> simp

/-! ## Pointers and addresses -/

theorem ptr_mem {t : RBT} {z : Nat} (hz : t.ptr = some z) : z ∈ t.addrs := by
  cases t <;> simp_all [RBT.ptr, RBT.addrs]

theorem pptr_mem {p : Path} {z : Nat} (hz : p.ptr = some z) : z ∈ p.addrs := by
  cases p <;> simp_all [Path.ptr, Path.addrs]

/-- The holder of the top node may change when only the `Parent` field of the top changes. -/
theorem Rep.reparent {h h2 : Heap} {par par2 : Option Nat} {t : RBT} (hr : Rep h par t)
    (hnd : t.addrs.Nodup)
    (htop : ∀ z, t.ptr = some z → h2.cell z = { h.cell z with Parent := par2 })
    (hf : ∀ x ∈ t.addrs, t.ptr ≠ some x → h2.cell x = h.cell x) : Rep h2 par2 t := by
  cases t with
  | nil => trivial
  | node a c v l r =>
    obtain ⟨h1, h3, h4⟩ := hr
    simp only [RBT.addrs, List.nodup_append, List.nodup_cons] at hnd
    obtain ⟨n1, ⟨n2, n3⟩, n4⟩ := hnd
    have n5 : a ∉ l.addrs := fun hm => n4 hm (List.mem_cons_self _ _)
    refine ⟨?_, h3.frame ?_, h4.frame ?_⟩
    · rw [htop a rfl, h1]
    · intro x hx
      refine hf x (by simp [RBT.addrs, hx]) ?_
      simp only [RBT.ptr, ne_eq, Option.some.injEq]
      rintro rfl; exact n5 hx
    · intro x hx
      refine hf x (by simp [RBT.addrs, hx]) ?_
      simp only [RBT.ptr, ne_eq, Option.some.injEq]
      rintro rfl; exact n2 hx
  | phantom a =>
    simp only [Rep] at hr ⊢
    rw [htop a rfl, hr]

/-- Retargeting the slot of the hole in the node right above it. -/
theorem RepP.retarget {h h2 : Heap} {p : Path} {x y : Option Nat} (hr : RepP h p x)
    (hnd : p.addrs.Nodup) (hx : ∀ z, x = some z → z ∉ p.addrs)
    (htop : ∀ z, p.ptr = some z → h2.cell z =
      if (h.cell z).Left = x then { h.cell z with Left := y } else { h.cell z with Right := y })
    (hf : ∀ z ∈ p.addrs, p.ptr ≠ some z → h2.cell z = h.cell z)
    (hsome : x ≠ none) : RepP h2 p y := by
  cases p with
  | top => trivial
  | left a c v r up =>
    obtain ⟨h1, h3, h4⟩ := hr
    simp only [Path.addrs, List.cons_append, List.nodup_cons, List.mem_append, not_or,
      List.nodup_append] at hnd
    obtain ⟨⟨n1, n2⟩, n3, n4, n5⟩ := hnd
    refine ⟨?_, h3.frame ?_, h4.pframe ?_⟩
    · rw [htop a rfl, h1]; simp
    · intro z hz
      refine hf z (by simp [Path.addrs, hz]) ?_
      simp only [Path.ptr, ne_eq, Option.some.injEq]
      rintro rfl; exact n1 hz
    · intro z hz
      refine hf z (by simp [Path.addrs, hz]) ?_
      simp only [Path.ptr, ne_eq, Option.some.injEq]
      rintro rfl; exact n2 hz
  | right a c v l up =>
    obtain ⟨h1, h3, h4⟩ := hr
    simp only [Path.addrs, List.cons_append, List.nodup_cons, List.mem_append, not_or,
      List.nodup_append] at hnd
    obtain ⟨⟨n1, n2⟩, n3, n4, n5⟩ := hnd
    refine ⟨?_, h3.frame ?_, h4.pframe ?_⟩
    · rw [htop a rfl, h1]
      have : l.ptr ≠ x := by
        intro e
        cases x with
        | none => exact hsome rfl
        | some z => exact hx z rfl (by simp [Path.addrs, ptr_mem e])
      simp [this]
    · intro z hz
      refine hf z (by simp [Path.addrs, hz]) ?_
      simp only [Path.ptr, ne_eq, Option.some.injEq]
      rintro rfl; exact n1 hz
    · intro z hz
      refine hf z (by simp [Path.addrs, hz]) ?_
      simp only [Path.ptr, ne_eq, Option.some.injEq]
      rintro rfl; exact n2 hz

theorem good_rotL {h : Heap} {p : Path} {a b : Nat} {c c2 : Bool} {v v2 : Int} {l rl rr : RBT}
    (hg : Good h (p.plug (.node a c v l (.node b c2 v2 rl rr)))) :
    Good (Node.RotateLeft h (some a)) (p.plug (.node b c2 v2 (.node a c v l rl) rr)) := by
  rw [good_plug] at hg ⊢
  obtain ⟨⟨ha, hl, hb, hrl, hrr⟩, hp, hnd, hlt⟩ := hg
  have hnd2 := hnd
  simp only [RBT.addrs, List.append_assoc, List.cons_append, List.nodup_append, List.nodup_cons,
    List.mem_append, List.mem_cons, not_or, List.disjoint_append_left, List.disjoint_append_right,
    List.disjoint_cons_left, List.disjoint_cons_right] at hnd2
  obtain ⟨nl, ⟨⟨narl, nab, narr, nap⟩, nrl, ⟨⟨nbrr, nbp⟩, nrr, npp, drrp⟩, nbrl, drlrr, drlp⟩,
    nal, dlrl, nbl, dlrr, dlp⟩ := hnd2
  have hpa : p.ptr ≠ some a := fun e => nap (pptr_mem e)
  have hpb : p.ptr ≠ some b := fun e => nbp (pptr_mem e)
  have hda : rl.ptr ≠ some a := fun e => narl (ptr_mem e)
  have hdb : rl.ptr ≠ some b := fun e => nbrl (ptr_mem e)
  have hdp : ∀ z, rl.ptr = some z → p.ptr ≠ some z :=
    fun z e1 e2 => drlp (ptr_mem e1) (pptr_mem e2)
  have H := rotL_cell ha hb nab hpa hpb hda hdb hdp
  refine ⟨⟨?_, ⟨?_, hl.frame ?_, hrl.reparent nrl ?_ ?_⟩, hrr.frame ?_⟩, ?_, ?_, ?_⟩
  · rw [H]; simp [Ne.symm nab, RBT.ptr]
  · rw [H]; simp
  · intro x hx
    rw [H]
    have e1 : x ≠ a := by rintro rfl; exact nal hx
    have e2 : x ≠ b := by rintro rfl; exact nbl hx
    have e3 : p.ptr ≠ some x := fun e => dlp hx (pptr_mem e)
    have e4 : rl.ptr ≠ some x := fun e => dlrl hx (ptr_mem e)
    simp [e1, e2, e3, e4]
  · intro z hz
    rw [H]
    have e1 : z ≠ a := by rintro rfl; exact hda hz
    have e2 : z ≠ b := by rintro rfl; exact hdb hz
    have e3 : p.ptr ≠ some z := hdp z hz
    simp [e1, e2, e3, hz]
  · intro x hx hne
    rw [H]
    have e1 : x ≠ a := by rintro rfl; exact narl hx
    have e2 : x ≠ b := by rintro rfl; exact nbrl hx
    have e3 : p.ptr ≠ some x := fun e => drlp hx (pptr_mem e)
    simp [e1, e2, e3, hne]
  · intro x hx
    rw [H]
    have e1 : x ≠ a := by rintro rfl; exact narr hx
    have e2 : x ≠ b := by rintro rfl; exact nbrr hx
    have e3 : p.ptr ≠ some x := fun e => drrp hx (pptr_mem e)
    have e4 : rl.ptr ≠ some x := fun e => drlrr (ptr_mem e) hx
    simp [e1, e2, e3, e4]
  · refine hp.retarget npp ?_ ?_ ?_ (by simp [RBT.ptr])
    · intro z hz; simp only [RBT.ptr, Option.some.injEq] at hz; subst hz; exact nap
    · intro z hz
      rw [H]
      have e1 : z ≠ a := by rintro rfl; exact hpa hz
      have e2 : z ≠ b := by rintro rfl; exact hpb hz
      simp [e1, e2, hz, RBT.ptr]
    · intro z hz hne
      rw [H]
      have e1 : z ≠ a := by rintro rfl; exact nap hz
      have e2 : z ≠ b := by rintro rfl; exact nbp hz
      have e4 : rl.ptr ≠ some z := fun e => drlp (ptr_mem e) hz
      simp [e1, e2, hne, e4]
  · simpa [RBT.addrs] using hnd
  · simpa [RBT.addrs] using hlt

theorem good_rotR {h : Heap} {p : Path} {a b : Nat} {c c2 : Bool} {v v2 : Int} {ll lr r : RBT}
    (hg : Good h (p.plug (.node a c v (.node b c2 v2 ll lr) r))) :
    Good (Node.RotateRight h (some a)) (p.plug (.node b c2 v2 ll (.node a c v lr r))) := by
  rw [good_plug] at hg ⊢
  obtain ⟨⟨ha, ⟨hb, hll, hlr⟩, hr⟩, hp, hnd, hlt⟩ := hg
  have hnd2 := hnd
  simp only [RBT.addrs, List.append_assoc, List.cons_append, List.nodup_append, List.nodup_cons,
    List.mem_append, List.mem_cons, not_or, List.disjoint_append_left, List.disjoint_append_right,
    List.disjoint_cons_left, List.disjoint_cons_right] at hnd2
  obtain ⟨nll, ⟨⟨nblr, nba, nbr, nbp⟩, nlr, ⟨⟨nar, nap⟩, nr, npp, drp⟩, nalr, dlrr, dlrp⟩,
    nbll, dlllr, nall, dllr, dllp⟩ := hnd2
  have nab : a ≠ b := Ne.symm nba
  have hpa : p.ptr ≠ some a := fun e => nap (pptr_mem e)
  have hpb : p.ptr ≠ some b := fun e => nbp (pptr_mem e)
  have hda : lr.ptr ≠ some a := fun e => nalr (ptr_mem e)
  have hdb : lr.ptr ≠ some b := fun e => nblr (ptr_mem e)
  have hdp : ∀ z, lr.ptr = some z → p.ptr ≠ some z :=
    fun z e1 e2 => dlrp (ptr_mem e1) (pptr_mem e2)
  have H := rotR_cell ha hb nab hpa hpb hda hdb hdp
  refine ⟨⟨?_, hll.frame ?_, ⟨?_, hlr.reparent nlr ?_ ?_, hr.frame ?_⟩⟩, ?_, ?_, ?_⟩
  · rw [H]; simp [nba, RBT.ptr]
  · intro x hx
    rw [H]
    have e1 : x ≠ a := by rintro rfl; exact nall hx
    have e2 : x ≠ b := by rintro rfl; exact nbll hx
    have e3 : p.ptr ≠ some x := fun e => dllp hx (pptr_mem e)
    have e4 : lr.ptr ≠ some x := fun e => dlllr hx (ptr_mem e)
    simp [e1, e2, e3, e4]
  · rw [H]; simp
  · intro z hz
    rw [H]
    have e1 : z ≠ a := by rintro rfl; exact hda hz
    have e2 : z ≠ b := by rintro rfl; exact hdb hz
    have e3 : p.ptr ≠ some z := hdp z hz
    simp [e1, e2, e3, hz]
  · intro x hx hne
    rw [H]
    have e1 : x ≠ a := by rintro rfl; exact nalr hx
    have e2 : x ≠ b := by rintro rfl; exact nblr hx
    have e3 : p.ptr ≠ some x := fun e => dlrp hx (pptr_mem e)
    simp [e1, e2, e3, hne]
  · intro x hx
    rw [H]
    have e1 : x ≠ a := by rintro rfl; exact nar hx
    have e2 : x ≠ b := by rintro rfl; exact nbr hx
    have e3 : p.ptr ≠ some x := fun e => drp hx (pptr_mem e)
    have e4 : lr.ptr ≠ some x := fun e => dlrr (ptr_mem e) hx
    simp [e1, e2, e3, e4]
  · refine hp.retarget npp ?_ ?_ ?_ (by simp [RBT.ptr])
    · intro z hz; simp only [RBT.ptr, Option.some.injEq] at hz; subst hz; exact nap
    · intro z hz
      rw [H]
      have e1 : z ≠ a := by rintro rfl; exact hpa hz
      have e2 : z ≠ b := by rintro rfl; exact hpb hz
      simp [e1, e2, hz, RBT.ptr]
    · intro z hz hne
      rw [H]
      have e1 : z ≠ a := by rintro rfl; exact nap hz
      have e2 : z ≠ b := by rintro rfl; exact nbp hz
      have e4 : lr.ptr ≠ some z := fun e => dlrp (ptr_mem e) hz
      simp [e1, e2, hne, e4]
  · simpa [RBT.addrs] using hnd
  · simpa [RBT.addrs] using hlt

@[simp] theorem ptr_nil : RBT.nil.ptr = none := rfl
@[simp] theorem ptr_node (a : Nat) (c : Bool) (v : Int) (l r : RBT) :
    (RBT.node a c v l r).ptr = some a := rfl
@[simp] theorem ptr_phantom (a : Nat) : (RBT.phantom a).ptr = some a := rfl
@[simp] theorem pptr_top : Path.top.ptr = none := rfl
@[simp] theorem pptr_left (a : Nat) (c : Bool) (v : Int) (r : RBT) (up : Path) :
    (Path.left a c v r up).ptr = some a := rfl
@[simp] theorem pptr_right (a : Nat) (c : Bool) (v : Int) (l : RBT) (up : Path) :
    (Path.right a c v l up).ptr = some a := rfl

/-- The cell of the node in focus. -/
theorem good_cell {h : Heap} {p : Path} {a : Nat} {c : Bool} {v : Int} {l r : RBT}
    (hg : Good h (p.plug (.node a c v l r))) : h.cell a = ⟨l.ptr, r.ptr, p.ptr, c, v⟩ :=
  (good_plug.1 hg).1.1

/-- Case 1 of `insertFixup` when the parent is the left child of the grandparent. -/
theorem insertFixupRecolor_left {h : Heap} {n P G u : Nat} {pv gv uv : Int} {x y ul ur : RBT}
    {up : Path}
    (hg : Good h (Path.plug (.left G false gv (.node u true uv ul ur) up) (.node P true pv x y)))
    (hn : (h.cell n).Parent = some P) :
    ∃ h2, Node.insertFixupRecolor h (some n) (some u) = .ok (some G, h2) ∧
      Good h2 (up.plug (.node G up.ptr.isSome gv (.node P false pv x y) (.node u false uv ul ur))) := by
  have cP := good_cell hg
  have cG := good_cell (p := up) (a := G) hg
  have g1 := good_wrRed (p := .right G false gv (.node P true pv x y) up) false hg
  have g2 := good_wrRed (p := .left G false gv (.node u false uv ul ur) up) false g1
  have g3 := good_wrRed (p := up) (a := G) true g2
  simp only [node_eq_iff, pptr_left, ptr_node] at cP cG
  cases hup : up.ptr with
  | none =>
    have g4 := good_wrRed false g3
    refine ⟨_, ?_, by simpa using g4⟩
    simp [Node.insertFixupRecolor, stRed, rdParent, bind, Except.bind, pure, Except.pure, hn, cP, cG, hup]
  | some ga =>
    refine ⟨_, ?_, by simpa using g3⟩
    simp [Node.insertFixupRecolor, stRed, rdParent, bind, Except.bind, pure, Except.pure, hn, cP, cG, hup]

theorem inorder_plug (p : Path) (t : RBT) :
    (p.plug t).inorder = p.pre ++ t.inorder ++ p.post := by
  induction p generalizing t with
  | top => simp [Path.plug, Path.pre, Path.post]
  | left a c v r up ih => simp [Path.plug, ih, RBT.inorder, Path.pre, Path.post]
  | right a c v l up ih => simp [Path.plug, ih, RBT.inorder, Path.pre, Path.post]

theorem addrs_eq_inorder (t : RBT) : t.addrs = t.inorder.map Prod.fst := by
  induction t with
  | nil => rfl
  | node a c v l r ihl ihr => simp [RBT.addrs, RBT.inorder, ihl, ihr]
  | phantom a => rfl

theorem vals_eq_inorder (t : RBT) : t.vals = t.inorder.filterMap Prod.snd := by
  induction t with
  | nil => rfl
  | node a c v l r ihl ihr => simp [RBT.vals, RBT.inorder, ihl, ihr, List.filterMap_append]
  | phantom a => rfl

theorem nodes_eq_inorder (t : RBT) :
    t.nodes = t.inorder.filterMap (fun e => e.2.map (fun _ => e.1)) := by
  induction t with
  | nil => rfl
  | node a c v l r ihl ihr => simp [RBT.nodes, RBT.inorder, ihl, ihr, List.filterMap_append]
  | phantom a => rfl

theorem real_iff_inorder (t : RBT) : t.real ↔ ∀ e ∈ t.inorder, e.2 ≠ none := by
  induction t with
  | nil => simp [RBT.real, RBT.inorder]
  | node a c v l r ihl ihr =>
    simp only [RBT.real, RBT.inorder, ihl, ihr, List.mem_append, List.mem_cons]
    constructor
    · rintro ⟨h1, h2⟩ e (he | rfl | he)
      · exact h1 e he
      · simp
      · exact h2 e he
    · intro H
      exact ⟨fun e he => H e (Or.inl he), fun e he => H e (Or.inr (Or.inr he))⟩
  | phantom a => simp [RBT.real, RBT.inorder]

/-- A balanced subtree in the hole of a balanced path gives a balanced tree with a black top. -/
theorem PBal.fill {p : Path} {c : Bool} {n : Nat} {t : RBT} (hp : PBal p c n) (ht : Bal t c n) :
    ∃ k, Bal (p.plug t) false k := by
  induction hp generalizing t with
  | top => exact ⟨_, ht⟩
  | leftB hr _ ih => exact ih (.black ht hr)
  | rightB hl _ ih => exact ih (.black hl ht)
  | leftR hr _ ih => exact ih (.red ht hr)
  | rightR hl _ ih => exact ih (.red hl ht)

/-- Below a black holder every colour is accepted. -/
theorem PBal.anyColor {p : Path} {c : Bool} {n : Nat} (hp : PBal p c n) : PBal p false n := by
  cases hp with
  | top => exact .top
  | leftB hr hu => exact .leftB hr hu
  | rightB hl hu => exact .rightB hl hu
  | leftR hr hu => exact .leftR hr hu
  | rightR hl hu => exact .rightR hl hu

theorem plug_ptr_congr {p : Path} (hp : p.ptr ≠ none) (t t2 : RBT) :
    (p.plug t).ptr = (p.plug t2).ptr := by
  induction p generalizing t t2 with
  | top => simp at hp
  | left a c v r up ih =>
    cases up with
    | top => rfl
    | left _ _ _ _ _ => exact ih (by simp) _ _
    | right _ _ _ _ _ => exact ih (by simp) _ _
  | right a c v l up ih =>
    cases up with
    | top => rfl
    | left _ _ _ _ _ => exact ih (by simp) _ _
    | right _ _ _ _ _ => exact ih (by simp) _ _

theorem pptr_eq_none {p : Path} : p.ptr = none ↔ p = .top := by
  cases p <;> simp

/-- The colour stored at the top of a held tree. -/
theorem Rep.red {h : Heap} {par : Option Nat} {t : RBT} {z : Nat} (hr : Rep h par t)
    (hz : t.ptr = some z) : (h.cell z).Red = t.isRed := by
  cases t with
  | nil => simp at hz
  | node a c v l r =>
    simp only [ptr_node, Option.some.injEq] at hz; subst hz
    rw [hr.1]; rfl
  | phantom a =>
    simp only [ptr_phantom, Option.some.injEq] at hz; subst hz
    simp only [Rep] at hr
    rw [hr]; rfl

theorem Rep.parent {h : Heap} {par : Option Nat} {t : RBT} {z : Nat} (hr : Rep h par t)
    (hz : t.ptr = some z) : (h.cell z).Parent = par := by
  cases t with
  | nil => simp at hz
  | node a c v l r =>
    simp only [ptr_node, Option.some.injEq] at hz; subst hz
    rw [hr.1]
  | phantom a =>
    simp only [ptr_phantom, Option.some.injEq] at hz; subst hz
    simp only [Rep] at hr
    rw [hr]

theorem Bal.isRed {t : RBT} {c : Bool} {n : Nat} (hb : Bal t c n) : t.isRed = c := by
  cases hb <;> rfl

/-- The pointers around the node in focus are pairwise different. -/
theorem good_distinct {h : Heap} {p : Path} {a : Nat} {c : Bool} {v : Int} {l r : RBT}
    (hg : Good h (p.plug (.node a c v l r))) :
    l.ptr ≠ some a ∧ r.ptr ≠ some a ∧ p.ptr ≠ some a ∧ (∀ z, l.ptr = some z → r.ptr ≠ some z) ∧
      (∀ z, l.ptr = some z → p.ptr ≠ some z) ∧ (∀ z, r.ptr = some z → p.ptr ≠ some z) := by
  rw [good_plug] at hg
  obtain ⟨-, -, hnd, -⟩ := hg
  simp only [RBT.addrs, List.append_assoc, List.cons_append, List.nodup_append, List.nodup_cons,
    List.mem_append, not_or, List.disjoint_append_left, List.disjoint_append_right,
    List.disjoint_cons_left, List.disjoint_cons_right] at hnd
  obtain ⟨-, ⟨⟨nar, nap⟩, -, -, drp⟩, nal, dlr, dlp⟩ := hnd
  exact ⟨fun e => nal (ptr_mem e), fun e => nar (ptr_mem e), fun e => nap (pptr_mem e),
    fun z e1 e2 => dlr (ptr_mem e1) (ptr_mem e2), fun z e1 e2 => dlp (ptr_mem e1) (pptr_mem e2),
    fun z e1 e2 => drp (ptr_mem e1) (pptr_mem e2)⟩

/-- Cases 2-3 of `insertFixup`: parent is a left child, node is a left child. -/
theorem insertFixupRotate_LL {h : Heap} {n P G : Nat} {c : Bool} {v pv gv : Int}
    {l r sib U : RBT} {up : Path}
    (hg : Good h (Path.plug (.left P true pv sib (.left G false gv U up)) (.node n c v l r))) :
    ∃ h2, Node.insertFixupRotate h (some n) true = .ok (some n, h2) ∧
      Good h2 (up.plug (.node P false pv (.node n c v l r) (.node G true gv sib U))) ∧
      (h2.cell n).Parent = some P ∧ (h2.cell P).Parent = up.ptr ∧ (h2.cell P).Red = false := by
  have cn := good_cell hg
  have cP := good_cell (p := .left G false gv U up) (a := P) hg
  have hne := (good_distinct (p := .left G false gv U up) (a := P) hg).2.2.2.1 n rfl
  have g1 := good_rotR (p := up) (a := G) (b := P) hg
  have c1n := good_cell (p := .left P true pv (.node G false gv sib U) up) (a := n) g1
  have c1P := good_cell (p := up) (a := P) g1
  have g2 := good_wrRed (p := up) (a := P) false g1
  have g3 := good_wrRed (p := .right P false pv (.node n c v l r) up) (a := G) true g2
  have g4 := good_wrRed (p := up) (a := P) false g3
  have c4n := good_cell (p := .left P false pv (.node G true gv sib U) up) (a := n) g4
  have c4P := good_cell (p := up) (a := P) g4
  have c3n := good_cell (p := .left P false pv (.node G true gv sib U) up) (a := n) g3
  have c3P := good_cell (p := up) (a := P) g3
  simp only [node_eq_iff, pptr_left, pptr_right, ptr_node] at cn cP c1n c1P c3n c3P c4n c4P
  cases hup : up.ptr with
  | none =>
    refine ⟨_, ?_, g4, c4n.2.2.1, by rw [c4P.2.2.1, hup], c4P.2.2.2.1⟩
    simp [Node.insertFixupRotate, stRed, rdParent, rdRight, bind, Except.bind, pure, Except.pure,
      cn, cP, hne, c1n, c1P, hup]
  | some ga =>
    refine ⟨_, ?_, g3, c3n.2.2.1, by rw [c3P.2.2.1, hup], c3P.2.2.2.1⟩
    simp [Node.insertFixupRotate, stRed, rdParent, rdRight, bind, Except.bind, pure, Except.pure,
      cn, cP, hne, c1n, c1P, hup]

/-- Cases 2-3 of `insertFixup`: parent is a left child, node is a right child. -/
theorem insertFixupRotate_LR {h : Heap} {n P G : Nat} {c : Bool} {v pv gv : Int}
    {l r sib U : RBT} {up : Path}
    (hg : Good h (Path.plug (.right P true pv sib (.left G false gv U up)) (.node n c v l r))) :
    ∃ h2, Node.insertFixupRotate h (some n) true = .ok (some P, h2) ∧
      Good h2 (up.plug (.node n false v (.node P true pv sib l) (.node G true gv r U))) ∧
      (h2.cell P).Parent = some n ∧ (h2.cell n).Parent = up.ptr ∧ (h2.cell n).Red = false := by
  have cn := good_cell hg
  have cP := good_cell (p := .left G false gv U up) (a := P) hg
  have g1 := good_rotL (p := .left G false gv U up) (a := P) (b := n) hg
  have c1n := good_cell (p := .left G false gv U up) (a := n) g1
  have c1P := good_cell (p := .left n c v r (.left G false gv U up)) (a := P) g1
  have g2 := good_rotR (p := up) (a := G) (b := n) g1
  have c2n := good_cell (p := up) (a := n) g2
  have c2P := good_cell (p := .left n c v (.node G false gv r U) up) (a := P) g2
  have g3 := good_wrRed (p := up) (a := n) false g2
  have g4 := good_wrRed (p := .right n false v (.node P true pv sib l) up) (a := G) true g3
  have g5 := good_wrRed (p := up) (a := n) false g4
  have c4n := good_cell (p := up) (a := n) g4
  have c4P := good_cell (p := .left n false v (.node G true gv r U) up) (a := P) g4
  have c5n := good_cell (p := up) (a := n) g5
  have c5P := good_cell (p := .left n false v (.node G true gv r U) up) (a := P) g5
  simp only [node_eq_iff, pptr_left, pptr_right, ptr_node] at cn cP c1n c1P c2n c2P c4n c4P c5n c5P
  cases hup : up.ptr with
  | none =>
    refine ⟨_, ?_, g5, c5P.2.2.1, by rw [c5n.2.2.1, hup], c5n.2.2.2.1⟩
    simp [Node.insertFixupRotate, stRed, rdParent, rdRight, bind, Except.bind, pure, Except.pure,
      cn, cP, c1n, c1P, c2n, c2P, hup]
  | some ga =>
    refine ⟨_, ?_, g4, c4P.2.2.1, by rw [c4n.2.2.1, hup], c4n.2.2.2.1⟩
    simp [Node.insertFixupRotate, stRed, rdParent, rdRight, bind, Except.bind, pure, Except.pure,
      cn, cP, c1n, c1P, c2n, c2P, hup]

/-- Cases 2-3 of `insertFixup`: parent is a right child, node is a right child. -/
theorem insertFixupRotate_RR {h : Heap} {n P G : Nat} {c : Bool} {v pv gv : Int}
    {l r sib U : RBT} {up : Path}
    (hg : Good h (Path.plug (.right P true pv sib (.right G false gv U up)) (.node n c v l r))) :
    ∃ h2, Node.insertFixupRotate h (some n) false = .ok (some n, h2) ∧
      Good h2 (up.plug (.node P false pv (.node G true gv U sib) (.node n c v l r))) ∧
      (h2.cell n).Parent = some P ∧ (h2.cell P).Parent = up.ptr ∧ (h2.cell P).Red = false := by
  have cn := good_cell hg
  have cP := good_cell (p := .right G false gv U up) (a := P) hg
  have hne := (good_distinct (p := .right G false gv U up) (a := P) hg).2.2.2.1
  have hne2 : sib.ptr ≠ some n := fun e => hne n e rfl
  have g1 := good_rotL (p := up) (a := G) (b := P) hg
  have c1n := good_cell (p := .right P true pv (.node G false gv U sib) up) (a := n) g1
  have c1P := good_cell (p := up) (a := P) g1
  have g2 := good_wrRed (p := up) (a := P) false g1
  have g3 := good_wrRed (p := .left P false pv (.node n c v l r) up) (a := G) true g2
  have g4 := good_wrRed (p := up) (a := P) false g3
  have c4n := good_cell (p := .right P false pv (.node G true gv U sib) up) (a := n) g4
  have c4P := good_cell (p := up) (a := P) g4
  have c3n := good_cell (p := .right P false pv (.node G true gv U sib) up) (a := n) g3
  have c3P := good_cell (p := up) (a := P) g3
  simp only [node_eq_iff, pptr_left, pptr_right, ptr_node] at cn cP c1n c1P c3n c3P c4n c4P
  cases hup : up.ptr with
  | none =>
    refine ⟨_, ?_, g4, c4n.2.2.1, by rw [c4P.2.2.1, hup], c4P.2.2.2.1⟩
    simp [Node.insertFixupRotate, stRed, rdParent, rdLeft, bind, Except.bind, pure, Except.pure,
      cn, cP, hne2, c1n, c1P, hup]
  | some ga =>
    refine ⟨_, ?_, g3, c3n.2.2.1, by rw [c3P.2.2.1, hup], c3P.2.2.2.1⟩
    simp [Node.insertFixupRotate, stRed, rdParent, rdLeft, bind, Except.bind, pure, Except.pure,
      cn, cP, hne2, c1n, c1P, hup]

/-- Cases 2-3 of `insertFixup`: parent is a right child, node is a left child. -/
theorem insertFixupRotate_RL {h : Heap} {n P G : Nat} {c : Bool} {v pv gv : Int}
    {l r sib U : RBT} {up : Path}
    (hg : Good h (Path.plug (.left P true pv sib (.right G false gv U up)) (.node n c v l r))) :
    ∃ h2, Node.insertFixupRotate h (some n) false = .ok (some P, h2) ∧
      Good h2 (up.plug (.node n false v (.node G true gv U l) (.node P true pv r sib))) ∧
      (h2.cell P).Parent = some n ∧ (h2.cell n).Parent = up.ptr ∧ (h2.cell n).Red = false := by
  have cn := good_cell hg
  have cP := good_cell (p := .right G false gv U up) (a := P) hg
  have g1 := good_rotR (p := .right G false gv U up) (a := P) (b := n) hg
  have c1n := good_cell (p := .right G false gv U up) (a := n) g1
  have c1P := good_cell (p := .right n c v l (.right G false gv U up)) (a := P) g1
  have g2 := good_rotL (p := up) (a := G) (b := n) g1
  have c2n := good_cell (p := up) (a := n) g2
  have c2P := good_cell (p := .right n c v (.node G false gv U l) up) (a := P) g2
  have g3 := good_wrRed (p := up) (a := n) false g2
  have g4 := good_wrRed (p := .left n false v (.node P true pv r sib) up) (a := G) true g3
  have g5 := good_wrRed (p := up) (a := n) false g4
  have c4n := good_cell (p := up) (a := n) g4
  have c4P := good_cell (p := .right n false v (.node G true gv U l) up) (a := P) g4
  have c5n := good_cell (p := up) (a := n) g5
  have c5P := good_cell (p := .right n false v (.node G true gv U l) up) (a := P) g5
  simp only [node_eq_iff, pptr_left, pptr_right, ptr_node] at cn cP c1n c1P c2n c2P c4n c4P c5n c5P
  cases hup : up.ptr with
  | none =>
    refine ⟨_, ?_, g5, c5P.2.2.1, by rw [c5n.2.2.1, hup], c5n.2.2.2.1⟩
    simp [Node.insertFixupRotate, stRed, rdParent, rdLeft, bind, Except.bind, pure, Except.pure,
      cn, cP, c1n, c1P, c2n, c2P, hup]
  | some ga =>
    refine ⟨_, ?_, g4, c4P.2.2.1, by rw [c4n.2.2.1, hup], c4n.2.2.2.1⟩
    simp [Node.insertFixupRotate, stRed, rdParent, rdLeft, bind, Except.bind, pure, Except.pure,
      cn, cP, c1n, c1P, c2n, c2P, hup]

/-- Case 1 of `insertFixup` when the parent is the right child of the grandparent. -/
theorem insertFixupRecolor_right {h : Heap} {n P G u : Nat} {pv gv uv : Int} {x y ul ur : RBT}
    {up : Path}
    (hg : Good h (Path.plug (.right G false gv (.node u true uv ul ur) up) (.node P true pv x y)))
    (hn : (h.cell n).Parent = some P) :
    ∃ h2, Node.insertFixupRecolor h (some n) (some u) = .ok (some G, h2) ∧
      Good h2 (up.plug (.node G up.ptr.isSome gv (.node u false uv ul ur) (.node P false pv x y))) := by
  have cP := good_cell hg
  have cG := good_cell (p := up) (a := G) hg
  have g1 := good_wrRed (p := .left G false gv (.node P true pv x y) up) false hg
  have g2 := good_wrRed (p := .right G false gv (.node u false uv ul ur) up) false g1
  have g3 := good_wrRed (p := up) (a := G) true g2
  simp only [node_eq_iff, pptr_right, ptr_node] at cP cG
  cases hup : up.ptr with
  | none =>
    have g4 := good_wrRed false g3
    refine ⟨_, ?_, by simpa using g4⟩
    simp [Node.insertFixupRecolor, stRed, rdParent, bind, Except.bind, pure, Except.pure, hn, cP, cG, hup]
  | some ga =>
    refine ⟨_, ?_, by simpa using g3⟩
    simp [Node.insertFixupRecolor, stRed, rdParent, bind, Except.bind, pure, Except.pure, hn, cP, cG, hup]

theorem insertFixup_exit {fuel : Nat} {h : Heap} {res X : Nat} (hf : 0 < fuel)
    (h1 : (h.cell res).Parent = some X) (h2 : (h.cell X).Red = false) :
    Node.insertFixup fuel h (some res) = .ok (some res, h) := by
  cases fuel with
  | zero => omega
  | succ f =>
    simp [Node.insertFixup, rdParent, rdRed, h1, h2, bind, Except.bind, pure, Except.pure]

theorem insertFixup_exit_top {fuel : Nat} {h : Heap} {res : Nat} (hf : 0 < fuel)
    (h1 : (h.cell res).Parent = none) :
    Node.insertFixup fuel h (some res) = .ok (some res, h) := by
  cases fuel with
  | zero => omega
  | succ f =>
    simp [Node.insertFixup, rdParent, h1, bind, Except.bind, pure, Except.pure]

/-- The test `uncle != nil && uncle.Red` on a held subtree. -/
theorem uncle_red {h : Heap} {par : Option Nat} {U : RBT} (hr : Rep h par U) :
    (if U.ptr = none then (pure false : Except Err Bool) else rdRed h U.ptr) = .ok U.isRed := by
  cases U with
  | nil => rfl
  | node a c v l r => simp [rdRed, hr.1, RBT.isRed]
  | phantom a =>
    simp only [Rep] at hr
    simp [rdRed, hr, RBT.isRed]

/-- One pass of the loop of `insertFixup` below a red parent. -/
theorem insertFixup_step {f : Nat} {h : Heap} {n P G : Nat} {gl gr : Option Nat}
    {U : RBT} {par : Option Nat}
    (cn : (h.cell n).Parent = some P) (cP : (h.cell P).Red = true)
    (cPp : (h.cell P).Parent = some G) (cGl : (h.cell G).Left = gl) (cGr : (h.cell G).Right = gr)
    (hU : U.ptr = if gl = some P then gr else gl) (hr : Rep h par U) :
    Node.insertFixup (f + 1) h (some n) =
      if U.isRed then
        (Node.insertFixupRecolor h (some n) U.ptr).bind (fun x => Node.insertFixup f x.2 x.1)
      else
        (Node.insertFixupRotate h (some n) (decide (gl = some P))).bind
          (fun x => Node.insertFixup f x.2 x.1) := by
  by_cases e : gl = some P
  · simp only [e, if_true] at hU
    subst hU
    cases U with
    | nil =>
      simp [Node.insertFixup, rdParent, rdRed, rdLeft, rdRight, bind, Except.bind, pure,
        Except.pure, cn, cP, cPp, cGl, cGr, e, RBT.isRed]
    | node a c v l r =>
      have := hr.1
      cases c <;>
      simp [Node.insertFixup, rdParent, rdRed, rdLeft, rdRight, bind, Except.bind, pure,
        Except.pure, cn, cP, cPp, cGl, cGr, e, RBT.isRed, this]
    | phantom a =>
      simp only [Rep] at hr
      simp [Node.insertFixup, rdParent, rdRed, rdLeft, rdRight, bind, Except.bind, pure,
        Except.pure, cn, cP, cPp, cGl, cGr, e, RBT.isRed, hr]
  · simp only [e, if_false] at hU
    subst hU
    cases U with
    | nil =>
      simp [Node.insertFixup, rdParent, rdRed, rdLeft, rdRight, bind, Except.bind, pure,
        Except.pure, cn, cP, cPp, cGl, cGr, e, RBT.isRed]
    | node a c v l r =>
      have := hr.1
      have e2 : a ≠ P := by simpa using e
      cases c <;>
      simp [Node.insertFixup, rdParent, rdRed, rdLeft, rdRight, bind, Except.bind, pure,
        Except.pure, cn, cP, cPp, cGl, cGr, e2, RBT.isRed, this]
    | phantom a =>
      simp only [Rep] at hr
      have e2 : a ≠ P := by simpa using e
      simp [Node.insertFixup, rdParent, rdRed, rdLeft, rdRight, bind, Except.bind, pure,
        Except.pure, cn, cP, cPp, cGl, cGr, e2, RBT.isRed, hr]

/-- The loop of `insertFixup` started at a red node below a balanced path
ends with a red-black tree that has the same in-order listing. -/
theorem insertFixup_spec (len : Nat) : ∀ (fuel : Nat) (h : Heap) (p : Path) (n : Nat) (v : Int)
    (l r : RBT) (k : Nat), p.length ≤ len → p.length < fuel → p.ptr ≠ none →
    Good h (p.plug (.node n true v l r)) → Bal l false k → Bal r false k → PBal p false k →
    ∃ h2 res T, Node.insertFixup fuel h (some n) = .ok (some res, h2) ∧ Good h2 T ∧
      T.inorder = (p.plug (.node n true v l r)).inorder ∧ (∃ K, Bal T false K) ∧
      T.ptr = rootAfterInsert h2 res (p.plug (.node n true v l r)).ptr := by
  induction len using Nat.strong_induction_on with
  | _ len ih =>
  intro fuel h p n v l r k hlen hfuel hp hg hl hr hpb
  obtain ⟨f, rfl⟩ : ∃ f, fuel = f + 1 := ⟨fuel - 1, by omega⟩
  have ht : Bal (.node n true v l r) true k := .red hl hr
  cases p with
  | top => simp at hp
  | left P pc pv sib up =>
    have cn := good_cell hg
    have cP := good_cell (p := up) (a := P) hg
    simp only [node_eq_iff, pptr_left, ptr_node] at cn cP
    cases pc with
    | false =>
      refine ⟨h, n, _, insertFixup_exit (by omega) cn.2.2.1 cP.2.2.2.1, hg, rfl, ?_, ?_⟩
      · cases hpb with
        | leftB hs hu => exact (PBal.leftB (c := true) hs hu).fill ht
      · simp only [rootAfterInsert, cn.2.2.1, cP.2.2.1]
        cases up <;> rfl
    | true =>
      cases hpb with
      | leftR hs hu =>
      cases hu with
      | @leftB G gv U upup _ cu _ hU hupup =>
        have cG := good_cell (p := upup) (a := G) hg
        simp only [node_eq_iff, ptr_node] at cG
        have hrU : Rep h (some G) U := (good_plug.1 (show Good h (Path.plug (.right G false gv (.node P true pv (.node n true v l r) sib) upup) U) from hg)).1
        have step := insertFixup_step (f := f) (U := U) cn.2.2.1 cP.2.2.2.1 cP.2.2.1 cG.1 cG.2.1
          (by simp [cG.1]) hrU
        have hlen2 : upup.length + 2 ≤ len := by simp only [Path.length] at hlen; omega
        have hfuel2 : upup.length + 2 < f + 1 := by simp only [Path.length] at hfuel; omega
        cases hUr : U.isRed with
        | true =>
          cases U with
          | nil => simp [RBT.isRed] at hUr
          | phantom _ => simp [RBT.isRed] at hUr
          | node u uc uv ul ur =>
          simp only [RBT.isRed] at hUr
          subst hUr
          cases hU with
          | red hul hur =>
          obtain ⟨h2, e2, g2⟩ := insertFixupRecolor_left (n := n) (P := P) (x := (.node n true v l r))
            (y := sib) hg cn.2.2.1
          rw [step]
          simp only [RBT.isRed, if_true, e2, Except.bind, ptr_node]
          cases hupp : upup.ptr with
          | none =>
            rw [hupp] at g2
            have hupt := pptr_eq_none.1 hupp
            subst hupt
            have cG2 := good_cell (p := .top) (a := G) g2
            simp only [node_eq_iff, pptr_top] at cG2
            refine ⟨h2, G, _, insertFixup_exit_top (by omega) cG2.2.2.1, g2, ?_, ⟨_, .black (.black ht hs) (.black hul hur)⟩, ?_⟩
            · simp [Path.plug, RBT.inorder]
            · simp [rootAfterInsert, cG2.2.2.1, Path.plug]
          | some ga =>
            rw [hupp] at g2
            obtain ⟨h3, res, T, e3, g3, hin, hbal, hroot⟩ := ih upup.length (by omega) f h2 upup G gv
              _ _ (k + 1) le_rfl (by omega) (by simp [hupp]) g2 (.black ht hs) (.black hul hur) hupup
            refine ⟨h3, res, T, e3, g3, ?_, hbal, ?_⟩
            · rw [hin]; simp [Path.plug, inorder_plug, RBT.inorder]
            · rw [hroot]; congr 1
              exact plug_ptr_congr (by simp [hupp]) _ _
        | false =>
          have hcu := hU.isRed
          rw [hUr] at hcu
          subst hcu
          obtain ⟨h2, e2, g2, c1, c2, c3⟩ := insertFixupRotate_LL hg
          rw [step]
          have hd : decide ((h.cell G).Left = some P) = true := by simp [cG.1]
          simp only [hUr, Bool.false_eq_true, if_false, cG.1] at hd ⊢
          simp only [hd, e2, Except.bind]
          refine ⟨h2, n, _, insertFixup_exit (by omega) c1 c3, g2, ?_, hupup.fill (.black ht (.red hs hU)), ?_⟩
          · simp [Path.plug, inorder_plug, RBT.inorder]
          · simp only [rootAfterInsert, c1, c2]
            cases hupp : upup.ptr with
            | none =>
              have hupt := pptr_eq_none.1 hupp
              subst hupt
              rfl
            | some ga => exact plug_ptr_congr (by simp [hupp]) _ _
      | @rightB G gv U upup _ cu _ hU hupup =>
        have cG := good_cell (p := upup) (a := G) hg
        simp only [node_eq_iff, ptr_node] at cG
        have hne : U.ptr ≠ some P := fun e =>
          (good_distinct (p := upup) (a := G) hg).2.2.2.1 P e rfl
        have hrU : Rep h (some G) U := (good_plug.1 (show Good h (Path.plug (.left G false gv (.node P true pv (.node n true v l r) sib) upup) U) from hg)).1
        have step := insertFixup_step (f := f) (U := U) cn.2.2.1 cP.2.2.2.1 cP.2.2.1 cG.1 cG.2.1
          (by simp [cG.1, hne]) hrU
        have hlen2 : upup.length + 2 ≤ len := by simp only [Path.length] at hlen; omega
        have hfuel2 : upup.length + 2 < f + 1 := by simp only [Path.length] at hfuel; omega
        cases hUr : U.isRed with
        | true =>
          cases U with
          | nil => simp [RBT.isRed] at hUr
          | phantom _ => simp [RBT.isRed] at hUr
          | node u uc uv ul ur =>
          simp only [RBT.isRed] at hUr
          subst hUr
          cases hU with
          | red hul hur =>
          obtain ⟨h2, e2, g2⟩ := insertFixupRecolor_right (n := n) (P := P) (x := (.node n true v l r))
            (y := sib) hg cn.2.2.1
          rw [step]
          simp only [RBT.isRed, if_true, e2, Except.bind, ptr_node]
          cases hupp : upup.ptr with
          | none =>
            rw [hupp] at g2
            have hupt := pptr_eq_none.1 hupp
            subst hupt
            have cG2 := good_cell (p := .top) (a := G) g2
            simp only [node_eq_iff, pptr_top] at cG2
            refine ⟨h2, G, _, insertFixup_exit_top (by omega) cG2.2.2.1, g2, ?_, ⟨_, .black (.black hul hur) (.black ht hs)⟩, ?_⟩
            · simp [Path.plug, RBT.inorder]
            · simp [rootAfterInsert, cG2.2.2.1, Path.plug]
          | some ga =>
            rw [hupp] at g2
            obtain ⟨h3, res, T, e3, g3, hin, hbal, hroot⟩ := ih upup.length (by omega) f h2 upup G gv
              _ _ (k + 1) le_rfl (by omega) (by simp [hupp]) g2 (.black hul hur) (.black ht hs) hupup
            refine ⟨h3, res, T, e3, g3, ?_, hbal, ?_⟩
            · rw [hin]; simp [Path.plug, inorder_plug, RBT.inorder]
            · rw [hroot]; congr 1
              exact plug_ptr_congr (by simp [hupp]) _ _
        | false =>
          have hcu := hU.isRed
          rw [hUr] at hcu
          subst hcu
          obtain ⟨h2, e2, g2, c1, c2, c3⟩ := insertFixupRotate_RL hg
          rw [step]
          have hd : decide ((h.cell G).Left = some P) = false := by simp [cG.1, hne]
          simp only [hUr, Bool.false_eq_true, if_false, cG.1] at hd ⊢
          simp only [hd, e2, Except.bind]
          refine ⟨h2, P, _, insertFixup_exit (by omega) c1 c3, g2, ?_, hupup.fill (.black (.red hU hl) (.red hr hs)), ?_⟩
          · simp [Path.plug, inorder_plug, RBT.inorder]
          · simp only [rootAfterInsert, c1, c2]
            cases hupp : upup.ptr with
            | none =>
              have hupt := pptr_eq_none.1 hupp
              subst hupt
              rfl
            | some ga => exact plug_ptr_congr (by simp [hupp]) _ _
  | right P pc pv sib up =>
    have cn := good_cell hg
    have cP := good_cell (p := up) (a := P) hg
    simp only [node_eq_iff, pptr_right, ptr_node] at cn cP
    cases pc with
    | false =>
      refine ⟨h, n, _, insertFixup_exit (by omega) cn.2.2.1 cP.2.2.2.1, hg, rfl, ?_, ?_⟩
      · cases hpb with
        | rightB hs hu => exact (PBal.rightB (c := true) hs hu).fill ht
      · simp only [rootAfterInsert, cn.2.2.1, cP.2.2.1]
        cases up <;> rfl
    | true =>
      cases hpb with
      | rightR hs hu =>
      cases hu with
      | @leftB G gv U upup _ cu _ hU hupup =>
        have cG := good_cell (p := upup) (a := G) hg
        simp only [node_eq_iff, ptr_node] at cG
        have hrU : Rep h (some G) U := (good_plug.1 (show Good h (Path.plug (.right G false gv (.node P true pv sib (.node n true v l r)) upup) U) from hg)).1
        have step := insertFixup_step (f := f) (U := U) cn.2.2.1 cP.2.2.2.1 cP.2.2.1 cG.1 cG.2.1
          (by simp [cG.1]) hrU
        have hlen2 : upup.length + 2 ≤ len := by simp only [Path.length] at hlen; omega
        have hfuel2 : upup.length + 2 < f + 1 := by simp only [Path.length] at hfuel; omega
        cases hUr : U.isRed with
        | true =>
          cases U with
          | nil => simp [RBT.isRed] at hUr
          | phantom _ => simp [RBT.isRed] at hUr
          | node u uc uv ul ur =>
          simp only [RBT.isRed] at hUr
          subst hUr
          cases hU with
          | red hul hur =>
          obtain ⟨h2, e2, g2⟩ := insertFixupRecolor_left (n := n) (P := P) (x := sib)
            (y := (.node n true v l r)) hg cn.2.2.1
          rw [step]
          simp only [RBT.isRed, if_true, e2, Except.bind, ptr_node]
          cases hupp : upup.ptr with
          | none =>
            rw [hupp] at g2
            have hupt := pptr_eq_none.1 hupp
            subst hupt
            have cG2 := good_cell (p := .top) (a := G) g2
            simp only [node_eq_iff, pptr_top] at cG2
            refine ⟨h2, G, _, insertFixup_exit_top (by omega) cG2.2.2.1, g2, ?_, ⟨_, .black (.black hs ht) (.black hul hur)⟩, ?_⟩
            · simp [Path.plug, RBT.inorder]
            · simp [rootAfterInsert, cG2.2.2.1, Path.plug]
          | some ga =>
            rw [hupp] at g2
            obtain ⟨h3, res, T, e3, g3, hin, hbal, hroot⟩ := ih upup.length (by omega) f h2 upup G gv
              _ _ (k + 1) le_rfl (by omega) (by simp [hupp]) g2 (.black hs ht) (.black hul hur) hupup
            refine ⟨h3, res, T, e3, g3, ?_, hbal, ?_⟩
            · rw [hin]; simp [Path.plug, inorder_plug, RBT.inorder]
            · rw [hroot]; congr 1
              exact plug_ptr_congr (by simp [hupp]) _ _
        | false =>
          have hcu := hU.isRed
          rw [hUr] at hcu
          subst hcu
          obtain ⟨h2, e2, g2, c1, c2, c3⟩ := insertFixupRotate_LR hg
          rw [step]
          have hd : decide ((h.cell G).Left = some P) = true := by simp [cG.1]
          simp only [hUr, Bool.false_eq_true, if_false, cG.1] at hd ⊢
          simp only [hd, e2, Except.bind]
          refine ⟨h2, P, _, insertFixup_exit (by omega) c1 c3, g2, ?_, hupup.fill (.black (.red hs hl) (.red hr hU)), ?_⟩
          · simp [Path.plug, inorder_plug, RBT.inorder]
          · simp only [rootAfterInsert, c1, c2]
            cases hupp : upup.ptr with
            | none =>
              have hupt := pptr_eq_none.1 hupp
              subst hupt
              rfl
            | some ga => exact plug_ptr_congr (by simp [hupp]) _ _
      | @rightB G gv U upup _ cu _ hU hupup =>
        have cG := good_cell (p := upup) (a := G) hg
        simp only [node_eq_iff, ptr_node] at cG
        have hne : U.ptr ≠ some P := fun e =>
          (good_distinct (p := upup) (a := G) hg).2.2.2.1 P e rfl
        have hrU : Rep h (some G) U := (good_plug.1 (show Good h (Path.plug (.left G false gv (.node P true pv sib (.node n true v l r)) upup) U) from hg)).1
        have step := insertFixup_step (f := f) (U := U) cn.2.2.1 cP.2.2.2.1 cP.2.2.1 cG.1 cG.2.1
          (by simp [cG.1, hne]) hrU
        have hlen2 : upup.length + 2 ≤ len := by simp only [Path.length] at hlen; omega
        have hfuel2 : upup.length + 2 < f + 1 := by simp only [Path.length] at hfuel; omega
        cases hUr : U.isRed with
        | true =>
          cases U with
          | nil => simp [RBT.isRed] at hUr
          | phantom _ => simp [RBT.isRed] at hUr
          | node u uc uv ul ur =>
          simp only [RBT.isRed] at hUr
          subst hUr
          cases hU with
          | red hul hur =>
          obtain ⟨h2, e2, g2⟩ := insertFixupRecolor_right (n := n) (P := P) (x := sib)
            (y := (.node n true v l r)) hg cn.2.2.1
          rw [step]
          simp only [RBT.isRed, if_true, e2, Except.bind, ptr_node]
          cases hupp : upup.ptr with
          | none =>
            rw [hupp] at g2
            have hupt := pptr_eq_none.1 hupp
            subst hupt
            have cG2 := good_cell (p := .top) (a := G) g2
            simp only [node_eq_iff, pptr_top] at cG2
            refine ⟨h2, G, _, insertFixup_exit_top (by omega) cG2.2.2.1, g2, ?_, ⟨_, .black (.black hul hur) (.black hs ht)⟩, ?_⟩
            · simp [Path.plug, RBT.inorder]
            · simp [rootAfterInsert, cG2.2.2.1, Path.plug]
          | some ga =>
            rw [hupp] at g2
            obtain ⟨h3, res, T, e3, g3, hin, hbal, hroot⟩ := ih upup.length (by omega) f h2 upup G gv
              _ _ (k + 1) le_rfl (by omega) (by simp [hupp]) g2 (.black hul hur) (.black hs ht) hupup
            refine ⟨h3, res, T, e3, g3, ?_, hbal, ?_⟩
            · rw [hin]; simp [Path.plug, inorder_plug, RBT.inorder]
            · rw [hroot]; congr 1
              exact plug_ptr_congr (by simp [hupp]) _ _
        | false =>
          have hcu := hU.isRed
          rw [hUr] at hcu
          subst hcu
          obtain ⟨h2, e2, g2, c1, c2, c3⟩ := insertFixupRotate_RR hg
          rw [step]
          have hd : decide ((h.cell G).Left = some P) = false := by simp [cG.1, hne]
          simp only [hUr, Bool.false_eq_true, if_false, cG.1] at hd ⊢
          simp only [hd, e2, Except.bind]
          refine ⟨h2, n, _, insertFixup_exit (by omega) c1 c3, g2, ?_, hupup.fill (.black (.red hU hs) ht), ?_⟩
          · simp [Path.plug, inorder_plug, RBT.inorder]
          · simp only [rootAfterInsert, c1, c2]
            cases hupp : upup.ptr with
            | none =>
              have hupt := pptr_eq_none.1 hupp
              subst hupt
              rfl
            | some ga => exact plug_ptr_congr (by simp [hupp]) _ _

theorem descend_plug (v : Int) (t : RBT) (p : Path) (ht : t.real) :
    (descend v t p).plug .nil = p.plug t := by
  induction t generalizing p with
  | nil => rfl
  | node a c x l r ihl ihr =>
    simp only [descend]
    split
    · rw [ihr _ ht.2]; rfl
    · rw [ihl _ ht.1]; rfl
  | phantom a => exact ht.elim

theorem descend_ptr (v : Int) (t : RBT) (p : Path) (ht : t.real)
    (hp : p.ptr ≠ none ∨ t.ptr ≠ none) : (descend v t p).ptr ≠ none := by
  induction t generalizing p with
  | nil => simpa [descend] using hp
  | node a c x l r ihl ihr =>
    simp only [descend]
    split
    · exact ihr _ ht.2 (Or.inl (by simp))
    · exact ihl _ ht.1 (Or.inl (by simp))
  | phantom a => exact ht.elim

theorem descend_dir (v : Int) (t : RBT) (p : Path) (hp : p.dir v) : (descend v t p).dir v := by
  induction t generalizing p with
  | nil => exact hp
  | node a c x l r ihl ihr =>
    simp only [descend]
    split
    · exact ihr _ (by show v > x; assumption)
    · exact ihl _ (by show ¬ v > x; assumption)
  | phantom a => exact hp

/-- The descent loop of `insert` ends at the node above the hole. -/
theorem insertLoop_spec (v : Int) {h : Heap} {t : RBT} : ∀ {p : Path} {k : Nat},
    Rep h p.ptr t → t.real → t.height ≤ k →
    Node.insertLoop h v k p.ptr t.ptr = .ok (descend v t p).ptr := by
  induction t with
  | nil => intro p k _ _ _; cases k <;> rfl
  | node a c x l r ihl ihr =>
    intro p k hr ht hf
    obtain ⟨f, rfl⟩ : ∃ f, k = f + 1 := ⟨k - 1, by simp only [RBT.height] at hf; omega⟩
    simp only [RBT.height] at hf
    have hc := hr.1
    simp only [ptr_node, Node.insertLoop, hc, descend]
    split
    · exact ihr (p := .right a c x l p) hr.2.2 ht.2 (by omega)
    · exact ihl (p := .left a c x r p) hr.2.1 ht.1 (by omega)
  | phantom a => intro p k _ ht _; exact ht.elim

theorem nodup_length_le {l : List Nat} {n : Nat} (hnd : l.Nodup) (hlt : ∀ a ∈ l, a < n) :
    l.length ≤ n := by
  have h1 : l.toFinset ⊆ Finset.range n := by
    intro a ha
    simp only [List.mem_toFinset] at ha
    simpa using hlt a ha
  have h2 := Finset.card_le_card h1
  rwa [List.toFinset_card_of_nodup hnd, Finset.card_range] at h2

theorem height_le_addrs (t : RBT) : t.height ≤ t.addrs.length := by
  induction t with
  | nil => simp [RBT.height]
  | node a c v l r ihl ihr =>
    simp only [RBT.height, RBT.addrs, List.length_append, List.length_cons]
    omega
  | phantom a => simp [RBT.height]

theorem plength_le_addrs (p : Path) : p.length ≤ p.addrs.length := by
  induction p with
  | top => simp [Path.length]
  | left a c v r up ih =>
    simp only [Path.length, Path.addrs, List.length_append, List.length_cons]
    omega
  | right a c v l up ih =>
    simp only [Path.length, Path.addrs, List.length_append, List.length_cons]
    omega

/-- A tree held by the heap is not deeper than the number of allocated nodes. -/
theorem good_size {h : Heap} {p : Path} {t : RBT} (hg : Good h (p.plug t)) :
    t.addrs.length + p.length ≤ h.next := by
  rw [good_plug] at hg
  have := nodup_length_le hg.2.2.1 hg.2.2.2
  have := plength_le_addrs p
  simp only [List.length_append] at *
  omega

theorem good_height {h : Heap} {t : RBT} (hg : Good h t) : t.height ≤ h.next := by
  have := good_size (p := .top) hg
  have := height_le_addrs t
  simp only [Path.length] at *
  omega

/-- The balance of a tree splits into the balance of a subtree and of the path to it. -/
theorem Bal.zoom {p : Path} {t : RBT} {K : Nat} (hb : Bal (p.plug t) false K) :
    ∃ c n, Bal t c n ∧ PBal p c n := by
  induction p generalizing t with
  | top => exact ⟨_, _, hb, .top⟩
  | left a c v r up ih =>
    obtain ⟨c2, n2, h1, h2⟩ := ih (t := .node a c v t r) hb
    cases h1 with
    | red hl hr => exact ⟨_, _, hl, .leftR hr h2⟩
    | black hl hr => exact ⟨_, _, hl, .leftB hr h2⟩
  | right a c v l up ih =>
    obtain ⟨c2, n2, h1, h2⟩ := ih (t := .node a c v l t) hb
    cases h1 with
    | red hl hr => exact ⟨_, _, hr, .rightR hl h2⟩
    | black hl hr => exact ⟨_, _, hr, .rightB hl h2⟩

@[simp] theorem alloc_fst (h : Heap) (nd : Node) : (h.alloc nd).1 = h.next := rfl
@[simp] theorem alloc_next (h : Heap) (nd : Node) : (h.alloc nd).2.next = h.next + 1 := rfl
theorem alloc_cell (h : Heap) (nd : Node) (x : Nat) :
    (h.alloc nd).2.cell x = if x = h.next then nd else h.cell x := rfl

/-- Hanging a freshly allocated red node into the nil slot at the end of the descent. -/
theorem good_attach {h : Heap} {q : Path} {v : Int} (hg : Good h (q.plug .nil))
    (hq : q.ptr ≠ none) (hd : q.dir v) :
    ∃ h2, ((rdValue (h.alloc ⟨none, none, q.ptr, true, v⟩).2 q.ptr).bind (fun pv =>
        if v > pv then stRight (h.alloc ⟨none, none, q.ptr, true, v⟩).2 q.ptr (some h.next)
        else stLeft (h.alloc ⟨none, none, q.ptr, true, v⟩).2 q.ptr (some h.next))) = .ok h2 ∧
      Good h2 (q.plug (.node h.next true v .nil .nil)) ∧ h2.next = h.next + 1 := by
  rw [good_plug] at hg
  obtain ⟨-, hp, hnd, hlt⟩ := hg
  simp only [RBT.addrs, List.nil_append] at hnd hlt
  have hfresh : ∀ x ∈ q.addrs, x ≠ h.next := fun x hx e => by
    have := hlt x hx; omega
  cases q with
  | top => simp at hq
  | left pa c x r up =>
    obtain ⟨h1, h3, h4⟩ := hp
    have hpa : pa ≠ h.next := hfresh pa (by simp [Path.addrs])
    simp only [Path.addrs, List.cons_append, List.nodup_cons, List.mem_append, not_or,
      List.nodup_append] at hnd
    obtain ⟨⟨n1, n2⟩, n3, n4, n5⟩ := hnd
    have hd2 : ¬ v > x := hd
    refine ⟨(h.alloc ⟨none, none, some pa, true, v⟩).2.wrLeft pa (some h.next), ?_, ?_, ?_⟩
    · simp only [rdValue, pptr_left, alloc_cell, hpa, if_false, h1, Except.bind, hd2, stLeft]
    · rw [good_plug]
      refine ⟨⟨?_, trivial, trivial⟩, ⟨?_, h3.frame ?_, h4.pframe ?_⟩, ?_, ?_⟩
      · apply node_ext <;> simp [alloc_cell, Ne.symm hpa]
      · apply node_ext <;> simp [alloc_cell, hpa, h1]
      · intro y hy
        have e1 : y ≠ pa := by rintro rfl; exact n1 hy
        have e2 : y ≠ h.next := hfresh y (by simp [Path.addrs, hy])
        apply node_ext <;> simp [alloc_cell, e1, e2]
      · intro y hy
        have e1 : y ≠ pa := by rintro rfl; exact n2 hy
        have e2 : y ≠ h.next := hfresh y (by simp [Path.addrs, hy])
        apply node_ext <;> simp [alloc_cell, e1, e2]
      · simp only [RBT.addrs, List.nil_append, List.cons_append, List.nodup_cons]
        refine ⟨fun hm => hfresh _ hm rfl, ?_⟩
        simp only [Path.addrs, List.cons_append, List.nodup_cons, List.mem_append, not_or,
          List.nodup_append]
        exact ⟨⟨n1, n2⟩, n3, n4, n5⟩
      · intro y hy
        simp only [RBT.addrs, List.nil_append, List.cons_append, List.mem_cons] at hy
        simp only [wrLeft_next, alloc_next]
        rcases hy with rfl | hy
        · omega
        · have := hlt y hy; omega
    · simp
  | right pa c x l up =>
    obtain ⟨h1, h3, h4⟩ := hp
    have hpa : pa ≠ h.next := hfresh pa (by simp [Path.addrs])
    simp only [Path.addrs, List.cons_append, List.nodup_cons, List.mem_append, not_or,
      List.nodup_append] at hnd
    obtain ⟨⟨n1, n2⟩, n3, n4, n5⟩ := hnd
    have hd2 : v > x := hd
    refine ⟨(h.alloc ⟨none, none, some pa, true, v⟩).2.wrRight pa (some h.next), ?_, ?_, ?_⟩
    · simp only [rdValue, pptr_right, alloc_cell, hpa, if_false, h1, Except.bind, hd2, if_true,
        stRight]
    · rw [good_plug]
      refine ⟨⟨?_, trivial, trivial⟩, ⟨?_, h3.frame ?_, h4.pframe ?_⟩, ?_, ?_⟩
      · apply node_ext <;> simp [alloc_cell, Ne.symm hpa]
      · apply node_ext <;> simp [alloc_cell, hpa, h1]
      · intro y hy
        have e1 : y ≠ pa := by rintro rfl; exact n1 hy
        have e2 : y ≠ h.next := hfresh y (by simp [Path.addrs, hy])
        apply node_ext <;> simp [alloc_cell, e1, e2]
      · intro y hy
        have e1 : y ≠ pa := by rintro rfl; exact n2 hy
        have e2 : y ≠ h.next := hfresh y (by simp [Path.addrs, hy])
        apply node_ext <;> simp [alloc_cell, e1, e2]
      · simp only [RBT.addrs, List.nil_append, List.cons_append, List.nodup_cons]
        refine ⟨fun hm => hfresh _ hm rfl, ?_⟩
        simp only [Path.addrs, List.cons_append, List.nodup_cons, List.mem_append, not_or,
          List.nodup_append]
        exact ⟨⟨n1, n2⟩, n3, n4, n5⟩
      · intro y hy
        simp only [RBT.addrs, List.nil_append, List.cons_append, List.mem_cons] at hy
        simp only [wrRight_next, alloc_next]
        rcases hy with rfl | hy
        · omega
        · have := hlt y hy; omega
    · simp

theorem vals_inorder_plug (p : Path) (t : RBT) :
    (p.plug t).vals = p.pre.filterMap Prod.snd ++ t.vals ++ p.post.filterMap Prod.snd := by
  rw [vals_eq_inorder, inorder_plug, List.filterMap_append, List.filterMap_append,
    ← vals_eq_inorder]

/-- On the way down, everything before the hole is smaller than `v` and
nothing after the hole is smaller than `v`. -/
theorem descend_order (v : Int) (t : RBT) : ∀ (p : Path), t.real →
    (p.plug t).vals.Sorted (· ≤ ·) →
    (∀ x ∈ p.pre.filterMap Prod.snd, x < v) → (∀ x ∈ p.post.filterMap Prod.snd, v ≤ x) →
    (∀ x ∈ (descend v t p).pre.filterMap Prod.snd, x < v) ∧
      (∀ x ∈ (descend v t p).post.filterMap Prod.snd, v ≤ x) := by
  induction t with
  | nil => intro p _ _ h1 h2; exact ⟨h1, h2⟩
  | node a c x l r ihl ihr =>
    intro p ht hs h1 h2
    have hs2 := hs
    rw [vals_inorder_plug] at hs2
    simp only [RBT.vals] at hs2
    have hM : (l.vals ++ x :: r.vals).Pairwise (· ≤ ·) :=
      (List.pairwise_append.1 (List.pairwise_append.1 hs2).1).2.1
    obtain ⟨-, hxr1, hlx1⟩ := List.pairwise_append.1 hM
    have hxr : ∀ b ∈ r.vals, x ≤ b := (List.pairwise_cons.1 hxr1).1
    have hlx : ∀ y ∈ l.vals, y ≤ x := fun y hy => hlx1 y hy x (List.mem_cons_self _ _)
    simp only [descend]
    split
    · rename_i hv
      refine ihr _ ht.2 hs ?_ h2
      intro y hy
      simp only [Path.pre, List.filterMap_append, List.mem_append, ← vals_eq_inorder,
        List.filterMap_cons, List.filterMap_nil, List.mem_singleton] at hy
      rcases hy with (hy | hy) | rfl
      · exact h1 y hy
      · have := hlx y hy; omega
      · exact hv
    · rename_i hv
      refine ihl _ ht.1 hs h1 ?_
      intro y hy
      simp only [Path.post, List.filterMap_append, List.mem_append, ← vals_eq_inorder,
        List.filterMap_cons, List.mem_cons] at hy
      rcases hy with (rfl | hy) | hy
      · omega
      · have := hxr y hy; omega
      · exact h2 y hy
  | phantom a => intro p ht; exact ht.elim

/-- The method `insert` on a red-black tree: the new node lands in the hole
where the descent ends and the tree is red-black again. -/
theorem insert_spec {h : Heap} {T : RBT} (v : Int) (hg : Good h T) (hT : T.ptr ≠ none)
    (hr : T.real) (hb : ∃ K, Bal T false K) :
    ∃ h2 res T2, Node.insert h T.ptr v = .ok (some res, h2) ∧ Good h2 T2 ∧
      (∃ K, Bal T2 false K) ∧ T2.ptr = rootAfterInsert h2 res T.ptr ∧
      T2.inorder = (descend v T .top).pre ++ (h.next, some v) :: (descend v T .top).post ∧
      T.inorder = (descend v T .top).pre ++ (descend v T .top).post := by
  have hplug := descend_plug v T .top hr
  simp only [Path.plug] at hplug
  have hq := descend_ptr v T .top hr (Or.inr hT)
  have hd := descend_dir v T .top trivial
  have hloop := insertLoop_spec v (p := .top) (k := h.next) hg.1 hr (good_height hg)
  simp only [pptr_top] at hloop
  generalize descend v T .top = q at hplug hq hd hloop ⊢
  subst hplug
  have hg1 : Good h (q.plug .nil) := hg
  obtain ⟨h2, e2, g2, hn2⟩ := good_attach hg1 hq hd
  obtain ⟨K, hK⟩ := hb
  obtain ⟨c, n, hb1, hb2⟩ := hK.zoom
  cases hb1
  have hsz := good_size hg1
  obtain ⟨h3, res, T3, e3, g3, hin, hbal, hroot⟩ :=
    insertFixup_spec _ h2.next h2 _ h.next v .nil .nil 0 le_rfl (by omega) hq g2 .nil .nil hb2
  refine ⟨h3, res, T3, ?_, g3, hbal, ?_, ?_, ?_⟩
  · obtain ⟨a, ha⟩ := Option.ne_none_iff_exists'.1 hT
    rw [ha] at hloop ⊢
    simp only [Node.insert, hloop, bind, Except.bind]
    simp only [alloc_fst]
    simp only [Except.bind] at e2
    generalize (h.alloc ⟨none, none, q.ptr, true, v⟩).2 = h1 at e2 ⊢
    cases hv : rdValue h1 q.ptr with
    | error e => simp [hv] at e2
    | ok pv =>
      simp only [hv] at e2 ⊢
      split_ifs at e2 ⊢ <;> simp only [e2] <;> exact e3
  · rw [hroot]; congr 1
    exact plug_ptr_congr hq _ _
  · rw [hin, inorder_plug]; simp [RBT.inorder]
  · rw [inorder_plug]; simp [RBT.inorder]

theorem ptr_eq_none {t : RBT} : t.ptr = none ↔ t = .nil := by
  cases t <;> simp

theorem good_empty : Good Heap.empty .nil :=
  ⟨trivial, List.nodup_nil, fun a ha => by simp [RBT.addrs] at ha⟩

theorem InsInv.perm {s : Tree × Heap} {ws ws2 : List Int} (hi : InsInv s ws) (hp : ws.Perm ws2) :
    InsInv s ws2 := by
  obtain ⟨T, h1, h2, h3, h4, h5, h6⟩ := hi
  exact ⟨T, h1, h2, h3, h4, h5, h6.trans hp⟩

/-- One call of `Tree.Insert` keeps the invariant and adds the value. -/
theorem Tree.insert_inv {s : Tree × Heap} {ws : List Int} (v : Int) (hi : InsInv s ws) :
    ∃ s2, Tree.Insert s.2 s.1 v = .ok s2 ∧ InsInv s2 (v :: ws) := by
  obtain ⟨T, hg, hroot, hr, hb, hs, hp⟩ := hi
  obtain ⟨t, h⟩ := s
  simp only at hg hroot ⊢
  cases hT : T.ptr with
  | none =>
    have hnil := ptr_eq_none.1 hT
    subst hnil
    rw [hT] at hroot
    refine ⟨(⟨some h.next⟩, (h.alloc ⟨none, none, none, false, v⟩).2), ?_,
      .node h.next false v .nil .nil, ⟨⟨?_, trivial, trivial⟩, ?_, ?_⟩, rfl, ⟨trivial, trivial⟩,
      ⟨1, .black .nil .nil⟩, ?_, ?_⟩
    · simp [Tree.Insert, ← hroot, Heap.alloc]
    · simp [alloc_cell]
    · simp [RBT.addrs]
    · simp [RBT.addrs]
    · simp [RBT.vals]
    · simp only [RBT.vals] at hp ⊢
      simpa using hp
  | some a =>
    obtain ⟨h2, res, T2, e2, g2, hb2, hroot2, hin2, hin⟩ :=
      insert_spec v hg (by simp [hT]) hr hb
    have hord := descend_order v T .top hr hs (by simp [Path.pre]) (by simp [Path.post])
    generalize descend v T .top = q at hin2 hin hord
    have hv : T.vals = q.pre.filterMap Prod.snd ++ q.post.filterMap Prod.snd := by
      rw [vals_eq_inorder, hin, List.filterMap_append]
    have hv2 : T2.vals = q.pre.filterMap Prod.snd ++ v :: q.post.filterMap Prod.snd := by
      rw [vals_eq_inorder, hin2, List.filterMap_append]; rfl
    refine ⟨(⟨rootAfterInsert h2 res t.Root⟩, h2), ?_, T2, g2, ?_, ?_, hb2, ?_, ?_⟩
    · rw [hT] at e2
      have ht : t = ⟨some a⟩ := by
        cases t
        simp only [Tree.mk.injEq]
        rw [← hT, hroot]
      subst ht
      simp only [Tree.Insert, e2, bind, Except.bind, rdParent, rootAfterInsert, pure, Except.pure]
      cases h1 : (h2.cell res).Parent with
      | none => simp
      | some x => cases h3 : (h2.cell x).Parent <;> simp [h3]
    · rw [hroot2, hroot]
    · rw [real_iff_inorder] at hr ⊢
      rw [hin2]
      rw [hin] at hr
      intro e he
      simp only [List.mem_append, List.mem_cons] at he
      rcases he with he | rfl | he
      · exact hr e (by simp [he])
      · simp
      · exact hr e (by simp [he])
    · rw [hv2]
      rw [hv] at hs
      obtain ⟨s1, s2, s3⟩ := List.pairwise_append.1 hs
      refine List.pairwise_append.2 ⟨s1, List.pairwise_cons.2 ⟨hord.2, s2⟩, ?_⟩
      intro x hx y hy
      rcases List.mem_cons.1 hy with rfl | hy
      · exact le_of_lt (hord.1 x hx)
      · exact s3 x hx y hy
    · rw [hv2]
      rw [hv] at hp
      exact List.perm_middle.trans (hp.cons v)

/-- A run of `Insert` calls keeps the invariant. -/
theorem run_inserts_inv (vs : List Int) : ∀ (s : Tree × Heap) (ws : List Int), InsInv s ws →
    ∃ s2, run (vs.map Op.ins) s = .ok s2 ∧ InsInv s2 (vs ++ ws) := by
  induction vs with
  | nil => intro s ws hi; exact ⟨s, rfl, hi⟩
  | cons v vs ih =>
    intro s ws hi
    obtain ⟨s1, e1, hi1⟩ := Tree.insert_inv v hi
    obtain ⟨s2, e2, hi2⟩ := ih s1 (v :: ws) hi1
    refine ⟨s2, ?_, hi2.perm ?_⟩
    · simp only [List.map_cons, run, step, e1, e2]
    · exact List.perm_middle

theorem start_inv : InsInv start [] :=
  ⟨.nil, good_empty, rfl, trivial, ⟨0, .nil⟩, List.sorted_nil, List.Perm.refl _⟩

theorem Bal.noRedRed {t : RBT} {c : Bool} {n : Nat} (hb : Bal t c n) : t.noRedRed := by
  induction hb with
  | nil => trivial
  | phantom => trivial
  | red hl hr ihl ihr => exact ⟨fun _ => ⟨hl.isRed, hr.isRed⟩, ihl, ihr⟩
  | black hl hr ihl ihr => exact ⟨fun e => Bool.noConfusion e, ihl, ihr⟩

theorem Bal.blackPaths {t : RBT} {c : Bool} {n : Nat} (hb : Bal t c n) :
    ∀ x ∈ t.blackPaths, x = n := by
  induction hb with
  | nil => simp [RBT.blackPaths]
  | phantom => simp [RBT.blackPaths]
  | red hl hr ihl ihr =>
    intro x hx
    simp only [RBT.blackPaths, if_true, List.map_id', List.mem_append] at hx
    rcases hx with hx | hx
    · exact ihl x hx
    · exact ihr x hx
  | black hl hr ihl ihr =>
    intro x hx
    simp only [RBT.blackPaths, Bool.false_eq_true, if_false, List.mem_map, List.mem_append] at hx
    obtain ⟨y, hy | hy, rfl⟩ := hx
    · rw [ihl y hy]
    · rw [ihr y hy]

theorem Bal.redBlack {t : RBT} {n : Nat} (hb : Bal t false n) (hr : t.real) : t.redBlack :=
  ⟨hr, hb.isRed, hb.noRedRed, n, hb.blackPaths⟩

theorem Bal.height_le {t : RBT} {c : Bool} {n : Nat} (hb : Bal t c n) :
    t.height ≤ 2 * n + (if c then 1 else 0) := by
  induction hb with
  | nil => simp [RBT.height]
  | phantom => simp [RBT.height]
  | red hl hr ihl ihr =>
    simp only [RBT.height, if_true, Bool.false_eq_true, if_false] at *
    omega
  | @black a v l r c1 c2 n hl hr ihl ihr =>
    simp only [RBT.height, Bool.false_eq_true, if_false] at *
    cases c1 <;> cases c2 <;> simp at ihl ihr <;> omega

theorem Bal.size_ge {t : RBT} {c : Bool} {n : Nat} (hb : Bal t c n) :
    2 ^ n ≤ t.nodes.length + 1 := by
  induction hb with
  | nil => simp
  | phantom => simp
  | red hl hr ihl ihr =>
    simp only [RBT.nodes, List.length_append, List.length_cons]
    omega
  | black hl hr ihl ihr =>
    simp only [RBT.nodes, List.length_append, List.length_cons, pow_succ]
    omega

theorem nodes_length (t : RBT) : t.nodes.length = t.vals.length := by
  induction t with
  | nil => rfl
  | node a c v l r ihl ihr => simp [RBT.nodes, RBT.vals, ihl, ihr]
  | phantom a => rfl

/-- The method `Height` computes the height of the held tree. -/
theorem heightAux_spec {h : Heap} {t : RBT} : ∀ {par : Option Nat} {fuel : Nat},
    Rep h par t → t.real → t.height ≤ fuel → Node.heightAux h fuel t.ptr = .ok t.height := by
  induction t with
  | nil => intro par fuel _ _ _; cases fuel <;> rfl
  | node a c x l r ihl ihr =>
    intro par fuel hr ht hf
    simp only [RBT.height] at hf
    obtain ⟨f, rfl⟩ : ∃ f, fuel = f + 1 := ⟨fuel - 1, by omega⟩
    have hc := hr.1
    simp only [ptr_node, Node.heightAux, hc, bind, Except.bind,
      ihl hr.2.1 ht.1 (show l.height ≤ f by omega), ihr hr.2.2 ht.2 (show r.height ≤ f by omega),
      pure, Except.pure, RBT.height]
    split_ifs with hlt
    · congr 1; omega
    · congr 1; omega
  | phantom a => intro par fuel _ ht _; exact ht.elim

/-- C5: after every run of `Tree.Insert` calls on the empty tree the heap holds,
below `Root`, a tree whose top has no parent, in which every child's `Parent`
field points to its holder (`Good`), whose top is black, in which no red node
has a red child and in which every path from the top to nil has the same
number of black nodes (`redBlack`).  As the statement is for every list of
values, it holds after each call of a run. -/
theorem insert_keeps_redBlack (vs : List Int) :
    ∃ t h T, run (vs.map Op.ins) start = .ok (t, h) ∧ Good h T ∧ T.ptr = t.Root ∧
      T.redBlack := by
  obtain ⟨⟨t, h⟩, e, T, hg, hroot, hr, ⟨K, hb⟩, -, -⟩ := run_inserts_inv vs start [] start_inv
  exact ⟨t, h, T, e, hg, hroot, hb.redBlack hr⟩

/-- C6: after every run of `Tree.Insert` calls with the values `vs` on the empty
tree, `Tree.Height` returns a height `ht` with `2 ^ ht ≤ (vs.length + 1) ^ 2`,
which is `ht ≤ 2 * log2 (k + 1)` for the `k = vs.length` values held. -/
theorem insert_height_bound (vs : List Int) :
    ∃ t h ht, run (vs.map Op.ins) start = .ok (t, h) ∧ Tree.Height h t = .ok ht ∧
      2 ^ ht ≤ (vs.length + 1) ^ 2 := by
  obtain ⟨⟨t, h⟩, e, T, hg, hroot, hr, ⟨K, hb⟩, -, hp⟩ := run_inserts_inv vs start [] start_inv
  simp only at hg hroot
  refine ⟨t, h, T.height, e, ?_, ?_⟩
  · have := heightAux_spec hg.1 hr (good_height hg)
    rw [hroot] at this
    simp only [Tree.Height, Node.Height]
    cases hR : t.Root with
    | none =>
      rw [hR] at hroot
      rw [ptr_eq_none.1 hroot]; rfl
    | some a => rw [hR] at this; exact this
  · have h1 := hb.height_le
    have h2 := hb.size_ge
    have h3 : T.nodes.length = vs.length := by
      rw [nodes_length, hp.length_eq]; simp
    simp only [Bool.false_eq_true, if_false, add_zero] at h1
    rw [h3] at h2
    calc 2 ^ T.height ≤ 2 ^ (2 * K) := Nat.pow_le_pow_right (by omega) h1
      _ = (2 ^ K) ^ 2 := by rw [← pow_mul, Nat.mul_comm]
      _ ≤ (vs.length + 1) ^ 2 := Nat.pow_le_pow_left h2 2

/-- C7: after `Tree.Insert` of the values `vs` one by one into the empty tree,
the in-order traversal from `Root` yields `vs` sorted in non-decreasing order,
and the tree has one value-holding node per inserted value. -/
theorem insert_inorder_sorted (vs : List Int) :
    ∃ t h T, run (vs.map Op.ins) start = .ok (t, h) ∧ Good h T ∧ T.ptr = t.Root ∧ T.real ∧
      T.vals = vs.insertionSort (· ≤ ·) ∧ T.nodes.length = vs.length := by
  obtain ⟨⟨t, h⟩, e, T, hg, hroot, hr, -, hs, hp⟩ := run_inserts_inv vs start [] start_inv
  simp only [List.append_nil] at hp
  refine ⟨t, h, T, e, hg, hroot, hr, ?_, ?_⟩
  · exact List.eq_of_perm_of_sorted (hp.trans (List.perm_insertionSort _ _).symm) hs
      (List.sorted_insertionSort _ _)
  · rw [nodes_length, hp.length_eq]

/-- C1 (the code breaks the claim): after the calls Insert 1, 2, 3, 5, 6, 4,
Delete 1, Insert 7, Insert 3 on the empty tree, the node that `Root` points to
is red.  `Delete 1` left `Root` at a node that is no longer the top
(`delete_root_has_parent`), and the rotation of the next fixup then hangs that
node, coloured red, below another one. -/
theorem delete_then_insert_red_root :
    (run [.ins 1, .ins 2, .ins 3, .ins 5, .ins 6, .ins 4, .del 1, .ins 7, .ins 3]
      start).map rootBlack = .ok false := by
  rfl

/-- C2 (the code breaks the claim): after the calls Insert 1, 2, 3, 5, 6, 4 and
Delete 1 on the empty tree, `Root.Find(5)` is nil although 5 was inserted and
never deleted. -/
theorem find_misses_present_value :
    findAfter [.ins 1, .ins 2, .ins 3, .ins 5, .ins 6, .ins 4, .del 1] 5 = .ok none := by
  rfl

/-- C3 (the code breaks the claim): after inserting 5, 3, 4, 1, 0, 2 and
deleting the same values in the same order, `Root` is not nil. -/
theorem delete_all_leaves_root :
    (run (([5, 3, 4, 1, 0, 2] : List Int).map Op.ins ++
      ([5, 3, 4, 1, 0, 2] : List Int).map Op.del) start).map (fun s => s.1.Root) =
      .ok (some 1) := by
  rfl

/-- C4 (the code breaks the claim): on the tree built by Insert 1, 2, 3, 5, 6, 4
the call `Delete(1)` returns true and leaves `Root` at the node with address 1,
whose `Parent` field is not nil. -/
theorem delete_root_has_parent :
    (run [.ins 1, .ins 2, .ins 3, .ins 5, .ins 6, .ins 4] start).bind
      (fun s => deleteView s 1) = .ok (true, some 1, some 2) := by
  rfl

theorem good_rep {h : Heap} {p : Path} {t : RBT} (hg : Good h (p.plug t)) : Rep h p.ptr t :=
  (good_plug.1 hg).1

theorem good_parent {h : Heap} {p : Path} {t : RBT} {n : Nat} (hg : Good h (p.plug t))
    (ht : t.ptr = some n) : (h.cell n).Parent = p.ptr :=
  (good_rep hg).parent ht

theorem good_red {h : Heap} {p : Path} {t : RBT} {n : Nat} (hg : Good h (p.plug t))
    (ht : t.ptr = some n) : (h.cell n).Red = t.isRed :=
  (good_rep hg).red ht

theorem good_black {h : Heap} {p : Path} {t : RBT} (hg : Good h (p.plug t)) :
    Node.Black h t.ptr = !t.isRed := by
  cases ht : t.ptr with
  | none => rw [ptr_eq_none.1 ht]; rfl
  | some n => simp [Node.Black, good_red hg ht]

@[simp] theorem blacken_ptr (t : RBT) : t.blacken.ptr = t.ptr := by cases t <;> rfl
@[simp] theorem blacken_addrs (t : RBT) : t.blacken.addrs = t.addrs := by cases t <;> rfl
@[simp] theorem blacken_inorder (t : RBT) : t.blacken.inorder = t.inorder := by cases t <;> rfl

theorem blacken_of_black {t : RBT} (ht : t.isRed = false) : t.blacken = t := by
  cases t with
  | nil => rfl
  | node a c v l r => simp only [RBT.isRed] at ht; subst ht; rfl
  | phantom a => rfl

/-- The write `n.Red = false` on the top node of the subtree in focus. -/
theorem good_blacken {h : Heap} {p : Path} {t : RBT} {n : Nat} (hg : Good h (p.plug t))
    (ht : t.ptr = some n) : Good (h.wrRed n false) (p.plug t.blacken) := by
  cases t with
  | nil => simp at ht
  | node a c v l r =>
    simp only [ptr_node, Option.some.injEq] at ht; subst ht
    exact good_wrRed false hg
  | phantom a =>
    simp only [ptr_phantom, Option.some.injEq] at ht; subst ht
    rw [good_plug] at hg ⊢
    obtain ⟨h1, h2, h3, h4⟩ := hg
    simp only [Rep] at h1
    simp only [RBT.addrs, List.singleton_append, List.nodup_cons] at h3
    refine ⟨?_, h2.pframe ?_, by simpa [RBT.blacken, RBT.addrs] using h3, ?_⟩
    · simp only [RBT.blacken, Rep]
      apply node_ext <;> simp [h1]
    · intro y hy
      have : y ≠ a := by rintro rfl; exact h3.1 hy
      apply node_ext <;> simp [this]
    · simpa [RBT.blacken] using h4

@[simp] theorem black_none (h : Heap) : Node.Black h none = true := rfl
@[simp] theorem black_some (h : Heap) (a : Nat) : Node.Black h (some a) = !(h.cell a).Red := rfl

/-- Case 1 of `deleteFixup` for a left child: the red sibling is rotated up. -/
theorem deleteFixupLeft1_red {h : Heap} {n P s : Nat} {pc : Bool} {pv sv : Int}
    {t sl sr : RBT} {up : Path}
    (hg : Good h (Path.plug (.left P pc pv (.node s true sv sl sr) up) t)) (ht : t.ptr = some n) :
    ∃ h2, Node.deleteFixupLeft1 h (some n) = .ok (sl.ptr, h2) ∧
      Good h2 (Path.plug (.left P true pv sl (.left s false sv sr up)) t) := by
  have cn := good_parent hg ht
  have cP := good_cell (p := up) (a := P) hg
  have cs := good_cell (p := .right P pc pv t up) (a := s) hg
  have g1 := good_wrRed (p := .right P pc pv t up) (a := s) false hg
  have g2 := good_wrRed (p := up) (a := P) true g1
  have g3 := good_rotL (p := up) (a := P) (b := s) g2
  have c3n := good_parent (p := .left P true pv sl (.left s false sv sr up)) (t := t) g3 ht
  have c3P := good_cell (p := .left s false sv sr up) (a := P) g3
  simp only [node_eq_iff, pptr_left, pptr_right, ptr_node] at cn cP cs c3n c3P
  refine ⟨_, ?_, g3⟩
  simp [Node.deleteFixupLeft1, stRed, rdParent, rdRight, rdRed, bind, Except.bind, pure,
    Except.pure, cn, cP, cs, c3n, c3P]

/-- No case 1 of `deleteFixup` for a left child with a black sibling. -/
theorem deleteFixupLeft1_black {h : Heap} {n P s : Nat} {pc : Bool} {pv sv : Int}
    {t sl sr : RBT} {up : Path}
    (hg : Good h (Path.plug (.left P pc pv (.node s false sv sl sr) up) t)) (ht : t.ptr = some n) :
    Node.deleteFixupLeft1 h (some n) = .ok (some s, h) := by
  have cn := good_parent hg ht
  have cP := good_cell (p := up) (a := P) hg
  have cs := good_cell (p := .right P pc pv t up) (a := s) hg
  simp only [node_eq_iff, pptr_left, pptr_right, ptr_node] at cn cP cs
  simp [Node.deleteFixupLeft1, rdParent, rdRight, rdRed, bind, Except.bind, pure,
    Except.pure, cn, cP, cs]

/-- Case 2 of `deleteFixup` for a left child: black sibling with black children. -/
theorem deleteFixupLeft2_case2 {h : Heap} {n P s : Nat} {pc : Bool} {pv sv : Int}
    {t sl sr : RBT} {up : Path}
    (hg : Good h (Path.plug (.left P pc pv (.node s false sv sl sr) up) t)) (ht : t.ptr = some n)
    (hl : sl.isRed = false) (hr : sr.isRed = false) :
    ∃ h2, Node.deleteFixupLeft2 h (some n) (some s) = .ok (true, some P, h2) ∧
      Good h2 (up.plug (.node P pc pv t (.node s true sv sl sr))) := by
  have cn := good_parent hg ht
  have cs := good_cell (p := .right P pc pv t up) (a := s) hg
  have bl := good_black (p := .left s false sv sr (.right P pc pv t up)) (t := sl) hg
  have br := good_black (p := .right s false sv sl (.right P pc pv t up)) (t := sr) hg
  have g1 := good_wrRed (p := .right P pc pv t up) (a := s) true hg
  simp only [node_eq_iff, pptr_left, pptr_right, ptr_node] at cn cs
  refine ⟨_, ?_, g1⟩
  simp [Node.deleteFixupLeft2, stRed, rdParent, rdRight, rdLeft, bind, Except.bind, pure,
    Except.pure, cn, cs, bl, br, hl, hr]

/-- Case 4 of `deleteFixup` for a left child: black sibling with a red right child. -/
theorem deleteFixupLeft2_case4 {h : Heap} {n P s x : Nat} {pc : Bool} {pv sv xv : Int}
    {t sl xl xr : RBT} {up : Path}
    (hg : Good h (Path.plug (.left P pc pv (.node s false sv sl (.node x true xv xl xr)) up) t))
    (ht : t.ptr = some n) :
    ∃ h2, Node.deleteFixupLeft2 h (some n) (some s) = .ok (false, some n, h2) ∧
      Good h2 (up.plug (.node s pc sv (.node P false pv t sl) (.node x false xv xl xr))) := by
  have cn := good_parent hg ht
  have cP := good_cell (p := up) (a := P) hg
  have cs := good_cell (p := .right P pc pv t up) (a := s) hg
  have cx := good_cell (p := .right s false sv sl (.right P pc pv t up)) (a := x) hg
  have bl := good_black (p := .left s false sv (.node x true xv xl xr) (.right P pc pv t up))
    (t := sl) hg
  have g1 := good_wrRed (p := .right P pc pv t up) (a := s) pc hg
  have g2 := good_wrRed (p := up) (a := P) false g1
  have g3 := good_wrRed (p := .right s pc sv sl (.right P false pv t up)) (a := x) false g2
  have g4 := good_rotL (p := up) (a := P) (b := s) g3
  simp only [node_eq_iff, pptr_left, pptr_right, ptr_node] at cn cP cs cx
  refine ⟨_, ?_, g4⟩
  simp [Node.deleteFixupLeft2, stRed, rdParent, rdRight, rdLeft, rdRed, bind, Except.bind, pure,
    Except.pure, cn, cP, cs, cx, bl]

/-- Cases 3 and 4 of `deleteFixup` for a left child: black sibling with a red
left child and a black right child. -/
theorem deleteFixupLeft2_case3 {h : Heap} {n P s y : Nat} {pc : Bool} {pv sv yv : Int}
    {t sr yl yr : RBT} {up : Path}
    (hg : Good h (Path.plug (.left P pc pv (.node s false sv (.node y true yv yl yr) sr) up) t))
    (ht : t.ptr = some n) (hr : sr.isRed = false) :
    ∃ h2, Node.deleteFixupLeft2 h (some n) (some s) = .ok (false, some n, h2) ∧
      Good h2 (up.plug (.node y pc yv (.node P false pv t yl) (.node s false sv yr sr))) := by
  have cn := good_parent hg ht
  have cP := good_cell (p := up) (a := P) hg
  have cs := good_cell (p := .right P pc pv t up) (a := s) hg
  have cy := good_cell (p := .left s false sv sr (.right P pc pv t up)) (a := y) hg
  have br := good_black (p := .right s false sv (.node y true yv yl yr) (.right P pc pv t up))
    (t := sr) hg
  have g1 := good_wrRed (p := .left s false sv sr (.right P pc pv t up)) (a := y) false hg
  have g2 := good_wrRed (p := .right P pc pv t up) (a := s) true g1
  have g3 := good_rotR (p := .right P pc pv t up) (a := s) (b := y) g2
  have c3n := good_parent (p := .left P pc pv (.node y false yv yl (.node s true sv yr sr)) up)
    (t := t) g3 ht
  have c3P := good_cell (p := up) (a := P) g3
  have c3y := good_cell (p := .right P pc pv t up) (a := y) g3
  have g4 := good_wrRed (p := .right P pc pv t up) (a := y) pc g3
  have g5 := good_wrRed (p := up) (a := P) false g4
  have g6 := good_wrRed (p := .right y pc yv yl (.right P false pv t up)) (a := s) false g5
  have g7 := good_rotL (p := up) (a := P) (b := y) g6
  simp only [node_eq_iff, pptr_left, pptr_right, ptr_node] at cn cP cs cy c3n c3P c3y
  refine ⟨_, ?_, g7⟩
  simp [Node.deleteFixupLeft2, stRed, rdParent, rdRight, rdLeft, rdRed, bind, Except.bind, pure,
    Except.pure, cn, cP, cs, cy, br, hr, c3n, c3P, c3y]

/-- Case 1 of `deleteFixup` for a right child: the red sibling is rotated up. -/
theorem deleteFixupRight1_red {h : Heap} {n P s : Nat} {pc : Bool} {pv sv : Int}
    {t sl sr : RBT} {up : Path}
    (hg : Good h (Path.plug (.right P pc pv (.node s true sv sl sr) up) t)) (ht : t.ptr = some n) :
    ∃ h2, Node.deleteFixupRight1 h (some n) = .ok (sr.ptr, h2) ∧
      Good h2 (Path.plug (.right P true pv sr (.right s false sv sl up)) t) := by
  have cn := good_parent hg ht
  have cP := good_cell (p := up) (a := P) hg
  have cs := good_cell (p := .left P pc pv t up) (a := s) hg
  have g1 := good_wrRed (p := .left P pc pv t up) (a := s) false hg
  have g2 := good_wrRed (p := up) (a := P) true g1
  have g3 := good_rotR (p := up) (a := P) (b := s) g2
  have c3n := good_parent (p := .right P true pv sr (.right s false sv sl up)) (t := t) g3 ht
  have c3P := good_cell (p := .right s false sv sl up) (a := P) g3
  simp only [node_eq_iff, pptr_left, pptr_right, ptr_node] at cn cP cs c3n c3P
  refine ⟨_, ?_, g3⟩
  simp [Node.deleteFixupRight1, stRed, rdParent, rdLeft, rdRed, bind, Except.bind, pure,
    Except.pure, cn, cP, cs, c3n, c3P]

/-- No case 1 of `deleteFixup` for a right child with a black sibling. -/
theorem deleteFixupRight1_black {h : Heap} {n P s : Nat} {pc : Bool} {pv sv : Int}
    {t sl sr : RBT} {up : Path}
    (hg : Good h (Path.plug (.right P pc pv (.node s false sv sl sr) up) t)) (ht : t.ptr = some n) :
    Node.deleteFixupRight1 h (some n) = .ok (some s, h) := by
  have cn := good_parent hg ht
  have cP := good_cell (p := up) (a := P) hg
  have cs := good_cell (p := .left P pc pv t up) (a := s) hg
  simp only [node_eq_iff, pptr_left, pptr_right, ptr_node] at cn cP cs
  simp [Node.deleteFixupRight1, rdParent, rdLeft, rdRed, bind, Except.bind, pure,
    Except.pure, cn, cP, cs]

/-- Case 2 of `deleteFixup` for a right child: black sibling with black children. -/
theorem deleteFixupRight2_case2 {h : Heap} {n P s : Nat} {pc : Bool} {pv sv : Int}
    {t sl sr : RBT} {up : Path}
    (hg : Good h (Path.plug (.right P pc pv (.node s false sv sl sr) up) t)) (ht : t.ptr = some n)
    (hl : sl.isRed = false) (hr : sr.isRed = false) :
    ∃ h2, Node.deleteFixupRight2 h (some n) (some s) = .ok (true, some P, h2) ∧
      Good h2 (up.plug (.node P pc pv (.node s true sv sl sr) t)) := by
  have cn := good_parent hg ht
  have cs := good_cell (p := .left P pc pv t up) (a := s) hg
  have bl := good_black (p := .left s false sv sr (.left P pc pv t up)) (t := sl) hg
  have br := good_black (p := .right s false sv sl (.left P pc pv t up)) (t := sr) hg
  have g1 := good_wrRed (p := .left P pc pv t up) (a := s) true hg
  simp only [node_eq_iff, pptr_left, pptr_right, ptr_node] at cn cs
  refine ⟨_, ?_, g1⟩
  simp [Node.deleteFixupRight2, stRed, rdParent, rdRight, rdLeft, bind, Except.bind, pure,
    Except.pure, cn, cs, bl, br, hl, hr]

/-- Case 4 of `deleteFixup` for a right child: black sibling with a red left child. -/
theorem deleteFixupRight2_case4 {h : Heap} {n P s x : Nat} {pc : Bool} {pv sv xv : Int}
    {t sr xl xr : RBT} {up : Path}
    (hg : Good h (Path.plug (.right P pc pv (.node s false sv (.node x true xv xl xr) sr) up) t))
    (ht : t.ptr = some n) :
    ∃ h2, Node.deleteFixupRight2 h (some n) (some s) = .ok (false, some n, h2) ∧
      Good h2 (up.plug (.node s pc sv (.node x false xv xl xr) (.node P false pv sr t))) := by
  have cn := good_parent hg ht
  have cP := good_cell (p := up) (a := P) hg
  have cs := good_cell (p := .left P pc pv t up) (a := s) hg
  have cx := good_cell (p := .left s false sv sr (.left P pc pv t up)) (a := x) hg
  have g1 := good_wrRed (p := .left P pc pv t up) (a := s) pc hg
  have g2 := good_wrRed (p := up) (a := P) false g1
  have g3 := good_wrRed (p := .left s pc sv sr (.left P false pv t up)) (a := x) false g2
  have g4 := good_rotR (p := up) (a := P) (b := s) g3
  simp only [node_eq_iff, pptr_left, pptr_right, ptr_node] at cn cP cs cx
  refine ⟨_, ?_, g4⟩
  simp [Node.deleteFixupRight2, stRed, rdParent, rdRight, rdLeft, rdRed, bind, Except.bind, pure,
    Except.pure, cn, cP, cs, cx]

/-- Cases 3 and 4 of `deleteFixup` for a right child: black sibling with a red
right child and a black left child. -/
theorem deleteFixupRight2_case3 {h : Heap} {n P s y : Nat} {pc : Bool} {pv sv yv : Int}
    {t sl yl yr : RBT} {up : Path}
    (hg : Good h (Path.plug (.right P pc pv (.node s false sv sl (.node y true yv yl yr)) up) t))
    (ht : t.ptr = some n) (hl : sl.isRed = false) :
    ∃ h2, Node.deleteFixupRight2 h (some n) (some s) = .ok (false, some n, h2) ∧
      Good h2 (up.plug (.node y pc yv (.node s false sv sl yl) (.node P false pv yr t))) := by
  have cn := good_parent hg ht
  have cP := good_cell (p := up) (a := P) hg
  have cs := good_cell (p := .left P pc pv t up) (a := s) hg
  have cy := good_cell (p := .right s false sv sl (.left P pc pv t up)) (a := y) hg
  have bl := good_black (p := .left s false sv (.node y true yv yl yr) (.left P pc pv t up))
    (t := sl) hg
  have g1 := good_wrRed (p := .right s false sv sl (.left P pc pv t up)) (a := y) false hg
  have g2 := good_wrRed (p := .left P pc pv t up) (a := s) true g1
  have g3 := good_rotL (p := .left P pc pv t up) (a := s) (b := y) g2
  have c3n := good_parent (p := .right P pc pv (.node y false yv (.node s true sv sl yl) yr) up)
    (t := t) g3 ht
  have c3P := good_cell (p := up) (a := P) g3
  have c3y := good_cell (p := .left P pc pv t up) (a := y) g3
  have g4 := good_wrRed (p := .left P pc pv t up) (a := y) pc g3
  have g5 := good_wrRed (p := up) (a := P) false g4
  have g6 := good_wrRed (p := .left y pc yv yr (.left P false pv t up)) (a := s) false g5
  have g7 := good_rotR (p := up) (a := P) (b := y) g6
  simp only [node_eq_iff, pptr_left, pptr_right, ptr_node] at cn cP cs cy c3n c3P c3y
  refine ⟨_, ?_, g7⟩
  simp [Node.deleteFixupRight2, stRed, rdParent, rdRight, rdLeft, rdRed, bind, Except.bind, pure,
    Except.pure, cn, cP, cs, cy, bl, hl, c3n, c3P, c3y]

theorem Bal.black_of_isRed {t : RBT} {c : Bool} {n : Nat} (hb : Bal t c n)
    (hr : t.isRed = false) : Bal t false n := by
  have := hb.isRed
  rw [hr] at this
  subst this
  exact hb

theorem isRed_node_true {t : RBT} (ht : t.isRed = true) :
    ∃ a v l r, t = .node a true v l r := by
  cases t with
  | nil => simp [RBT.isRed] at ht
  | node a c v l r => simp only [RBT.isRed] at ht; subst ht; exact ⟨a, v, l, r, rfl⟩
  | phantom a => simp [RBT.isRed] at ht

/-- Cases 2, 3 and 4 of `deleteFixup` for a black left child with a black
sibling: either the loop ends with a red-black tree, or it goes on one level
up with the same invariant. -/
theorem deleteFixupLeft2_spec {h : Heap} {n P s : Nat} {pc : Bool} {pv sv : Int}
    {t sl sr : RBT} {up : Path} {k : Nat}
    (hg : Good h (Path.plug (.left P pc pv (.node s false sv sl sr) up) t)) (ht : t.ptr = some n)
    (hb : Bal t false k) (hp : PBal (.left P pc pv (.node s false sv sl sr) up) false (k + 1)) :
    (∃ h2 q, Node.deleteFixupLeft2 h (some n) (some s) = .ok (false, some n, h2) ∧
        Good h2 (Path.plug q t) ∧
        (Path.plug q t).inorder =
          (Path.plug (.left P pc pv (.node s false sv sl sr) up) t).inorder ∧
        ∃ K, Bal (Path.plug q t) false K) ∨
    (∃ h2 j, Node.deleteFixupLeft2 h (some n) (some s) = .ok (true, some P, h2) ∧
        Good h2 (up.plug (.node P pc pv t (.node s true sv sl sr))) ∧
        (pc = true → Bal (.node P false pv t (.node s true sv sl sr)) false (j + 1)) ∧
        (pc = false → Bal (.node P false pv t (.node s true sv sl sr)) false j) ∧
        PBal up false (j + 1)) := by
  -- the balance of the sibling and of the path above
  have hS : ∃ c1 c2, Bal sl c1 k ∧ Bal sr c2 k ∧ PBal up pc (k + 1 + (if pc then 0 else 1)) := by
    cases hp with
    | leftB hS hu => cases hS with | black h1 h2 => exact ⟨_, _, h1, h2, hu⟩
    | leftR hS hu => cases hS with | black h1 h2 => exact ⟨_, _, h1, h2, hu⟩
  obtain ⟨c1, c2, hsl, hsr, hup⟩ := hS
  cases hrr : sr.isRed with
  | true =>
    obtain ⟨x, xv, xl, xr, rfl⟩ := isRed_node_true hrr
    obtain ⟨h2, e2, g2⟩ := deleteFixupLeft2_case4 hg ht
    cases hsr with
    | red hxl hxr =>
    refine Or.inl ⟨h2, .left P false pv sl (.left s pc sv (.node x false xv xl xr) up), e2, g2, ?_, ?_⟩
    · simp [Path.plug, inorder_plug, RBT.inorder]
    · have hP : Bal (.node P false pv t sl) false (k + 1) := .black hb hsl
      have hX : Bal (.node x false xv xl xr) false (k + 1) := .black hxl hxr
      cases pc with
      | true => exact hup.fill (.red hP hX)
      | false => exact hup.fill (.black hP hX)
  | false =>
    have hsr2 := hsr.black_of_isRed hrr
    cases hll : sl.isRed with
    | true =>
      obtain ⟨y, yv, yl, yr, rfl⟩ := isRed_node_true hll
      obtain ⟨h2, e2, g2⟩ := deleteFixupLeft2_case3 hg ht hrr
      cases hsl with
      | red hyl hyr =>
      refine Or.inl ⟨h2, .left P false pv yl (.left y pc yv (.node s false sv yr sr) up), e2, g2,
        ?_, ?_⟩
      · simp [Path.plug, inorder_plug, RBT.inorder]
      · have hP : Bal (.node P false pv t yl) false (k + 1) := .black hb hyl
        have hX : Bal (.node s false sv yr sr) false (k + 1) := .black hyr hsr2
        cases pc with
        | true => exact hup.fill (.red hP hX)
        | false => exact hup.fill (.black hP hX)
    | false =>
      have hsl2 := hsl.black_of_isRed hll
      obtain ⟨h2, e2, g2⟩ := deleteFixupLeft2_case2 hg ht hll hrr
      have hP : Bal (.node P false pv t (.node s true sv sl sr)) false (k + 1) :=
        .black hb (.red hsl2 hsr2)
      cases pc with
      | true => exact Or.inr ⟨h2, k, e2, g2, fun _ => hP, fun e => Bool.noConfusion e, hup.anyColor⟩
      | false => exact Or.inr ⟨h2, k + 1, e2, g2, fun e => Bool.noConfusion e, fun _ => hP, hup⟩

/-- Cases 2, 3 and 4 of `deleteFixup` for a black right child with a black
sibling: either the loop ends with a red-black tree, or it goes on one level
up with the same invariant. -/
theorem deleteFixupRight2_spec {h : Heap} {n P s : Nat} {pc : Bool} {pv sv : Int}
    {t sl sr : RBT} {up : Path} {k : Nat}
    (hg : Good h (Path.plug (.right P pc pv (.node s false sv sl sr) up) t)) (ht : t.ptr = some n)
    (hb : Bal t false k) (hp : PBal (.right P pc pv (.node s false sv sl sr) up) false (k + 1)) :
    (∃ h2 q, Node.deleteFixupRight2 h (some n) (some s) = .ok (false, some n, h2) ∧
        Good h2 (Path.plug q t) ∧
        (Path.plug q t).inorder =
          (Path.plug (.right P pc pv (.node s false sv sl sr) up) t).inorder ∧
        ∃ K, Bal (Path.plug q t) false K) ∨
    (∃ h2 j, Node.deleteFixupRight2 h (some n) (some s) = .ok (true, some P, h2) ∧
        Good h2 (up.plug (.node P pc pv (.node s true sv sl sr) t)) ∧
        (pc = true → Bal (.node P false pv (.node s true sv sl sr) t) false (j + 1)) ∧
        (pc = false → Bal (.node P false pv (.node s true sv sl sr) t) false j) ∧
        PBal up false (j + 1)) := by
  have hS : ∃ c1 c2, Bal sl c1 k ∧ Bal sr c2 k ∧ PBal up pc (k + 1 + (if pc then 0 else 1)) := by
    cases hp with
    | rightB hS hu => cases hS with | black h1 h2 => exact ⟨_, _, h1, h2, hu⟩
    | rightR hS hu => cases hS with | black h1 h2 => exact ⟨_, _, h1, h2, hu⟩
  obtain ⟨c1, c2, hsl, hsr, hup⟩ := hS
  cases hll : sl.isRed with
  | true =>
    obtain ⟨x, xv, xl, xr, rfl⟩ := isRed_node_true hll
    obtain ⟨h2, e2, g2⟩ := deleteFixupRight2_case4 hg ht
    cases hsl with
    | red hxl hxr =>
    refine Or.inl ⟨h2, .right P false pv sr (.right s pc sv (.node x false xv xl xr) up), e2, g2,
      ?_, ?_⟩
    · simp [Path.plug, inorder_plug, RBT.inorder]
    · have hP : Bal (.node P false pv sr t) false (k + 1) := .black hsr hb
      have hX : Bal (.node x false xv xl xr) false (k + 1) := .black hxl hxr
      cases pc with
      | true => exact hup.fill (.red hX hP)
      | false => exact hup.fill (.black hX hP)
  | false =>
    have hsl2 := hsl.black_of_isRed hll
    cases hrr : sr.isRed with
    | true =>
      obtain ⟨y, yv, yl, yr, rfl⟩ := isRed_node_true hrr
      obtain ⟨h2, e2, g2⟩ := deleteFixupRight2_case3 hg ht hll
      cases hsr with
      | red hyl hyr =>
      refine Or.inl ⟨h2, .right P false pv yr (.right y pc yv (.node s false sv sl yl) up), e2, g2,
        ?_, ?_⟩
      · simp [Path.plug, inorder_plug, RBT.inorder]
      · have hP : Bal (.node P false pv yr t) false (k + 1) := .black hyr hb
        have hX : Bal (.node s false sv sl yl) false (k + 1) := .black hsl2 hyl
        cases pc with
        | true => exact hup.fill (.red hX hP)
        | false => exact hup.fill (.black hX hP)
    | false =>
      have hsr2 := hsr.black_of_isRed hrr
      obtain ⟨h2, e2, g2⟩ := deleteFixupRight2_case2 hg ht hll hrr
      have hP : Bal (.node P false pv (.node s true sv sl sr) t) false (k + 1) :=
        .black (.red hsl2 hsr2) hb
      cases pc with
      | true =>
        exact Or.inr ⟨h2, k, e2, g2, fun _ => hP, fun e => Bool.noConfusion e, hup.anyColor⟩
      | false => exact Or.inr ⟨h2, k + 1, e2, g2, fun e => Bool.noConfusion e, fun _ => hP, hup⟩

theorem deleteFixup_exit {f : Nat} {h : Heap} {n : Nat}
    (hc : (h.cell n).Parent = none ∨ (h.cell n).Red = true) :
    Node.deleteFixup (f + 1) h (some n) = .ok (some n, h.wrRed n false) := by
  rcases hc with hc | hc <;>
  simp [Node.deleteFixup, rdParent, stRed, bind, Except.bind, pure, Except.pure, hc]

theorem deleteFixup_step_left {f : Nat} {h : Heap} {n P : Nat}
    (cn : (h.cell n).Parent = some P) (cb : (h.cell n).Red = false)
    (cl : (h.cell P).Left = some n) :
    Node.deleteFixup (f + 1) h (some n) =
      (Node.deleteFixupLeft1 h (some n)).bind (fun y =>
        (Node.deleteFixupLeft2 y.2 (some n) y.1).bind (fun x =>
          if x.1 then Node.deleteFixup f x.2.2 x.2.1
          else (stRed x.2.2 x.2.1 false).bind (fun g => .ok (x.2.1, g)))) := by
  simp only [Node.deleteFixup, rdParent, rdLeft, bind, Except.bind, pure, Except.pure, cn, cb, cl,
    black_some, Node.deleteFixupLeft]
  simp only [reduceCtorEq, Bool.not_false, Bool.not_true, Bool.or_self, Bool.false_eq_true,
    if_false, if_true]
  cases Node.deleteFixupLeft1 h (some n) with
  | error e => rfl
  | ok y =>
    simp only
    cases Node.deleteFixupLeft2 y.2 (some n) y.1 with
    | error e => rfl
    | ok x =>
      obtain ⟨b, m, g⟩ := x
      cases b <;> simp

theorem deleteFixup_step_right {f : Nat} {h : Heap} {n P : Nat}
    (cn : (h.cell n).Parent = some P) (cb : (h.cell n).Red = false)
    (cl : (h.cell P).Left ≠ some n) :
    Node.deleteFixup (f + 1) h (some n) =
      (Node.deleteFixupRight1 h (some n)).bind (fun y =>
        (Node.deleteFixupRight2 y.2 (some n) y.1).bind (fun x =>
          if x.1 then Node.deleteFixup f x.2.2 x.2.1
          else (stRed x.2.2 x.2.1 false).bind (fun g => .ok (x.2.1, g)))) := by
  have cl2 : ¬ some n = (h.cell P).Left := fun e => cl e.symm
  simp only [Node.deleteFixup, rdParent, rdLeft, bind, Except.bind, pure, Except.pure, cn, cb, cl2,
    black_some, Node.deleteFixupRight]
  simp only [reduceCtorEq, Bool.not_false, Bool.not_true, Bool.or_self, Bool.false_eq_true,
    if_false, if_true]
  cases Node.deleteFixupRight1 h (some n) with
  | error e => rfl
  | ok y =>
    simp only
    cases Node.deleteFixupRight2 y.2 (some n) y.1 with
    | error e => rfl
    | ok x =>
      obtain ⟨b, m, g⟩ := x
      cases b <;> simp

/-- The loop of `deleteFixup`, started at a subtree that is one black node
short below a balanced path (or has a red top), ends with a red-black tree
that has the same in-order listing; it returns a node of that tree. -/
theorem deleteFixup_spec (m : Nat) : ∀ (fuel : Nat) (h : Heap) (p : Path) (t : RBT) (n k : Nat),
    2 * p.length + (if t.isRed then 0 else 1) ≤ m →
    (p.length + 1 ≤ fuel ∨ (t.isRed = true ∧ 1 ≤ fuel)) →
    Good h (p.plug t) → t.ptr = some n →
    (t.isRed = true → Bal t.blacken false (k + 1)) → (t.isRed = false → Bal t false k) →
    PBal p false (k + 1) →
    ∃ h2 res T, Node.deleteFixup fuel h (some n) = .ok (some res, h2) ∧ Good h2 T ∧
      T.inorder = (p.plug t).inorder ∧ (∃ K, Bal T false K) ∧ res ∈ T.addrs := by
  induction m using Nat.strong_induction_on with
  | _ m ih =>
  intro fuel h p t n k hm hfuel hg ht hA hB hp
  obtain ⟨f, rfl⟩ : ∃ f, fuel = f + 1 := ⟨fuel - 1, by omega⟩
  have cn := good_parent hg ht
  have cr := good_red hg ht
  have hmem : n ∈ (p.plug t.blacken).addrs :=
    (addrs_plug p _).mem_iff.2 (List.mem_append_left _ (ptr_mem (by simpa using ht)))
  cases hred : t.isRed with
  | true =>
    rw [hred] at cr
    exact ⟨_, n, p.plug t.blacken, deleteFixup_exit (Or.inr cr), good_blacken hg ht,
      by simp [inorder_plug], hp.fill (hA hred), hmem⟩
  | false =>
    rw [hred] at cr
    have hb := hB hred
    cases p with
    | top =>
      simp only [pptr_top] at cn
      refine ⟨_, n, Path.plug .top t.blacken, deleteFixup_exit (Or.inl cn), good_blacken hg ht,
        by simp [inorder_plug], ?_, hmem⟩
      rw [blacken_of_black hred]
      exact ⟨_, hb⟩
    | left P pc pv S up =>
      have cP := good_cell (p := up) (a := P) hg
      simp only [node_eq_iff, ptr_node] at cP
      have hfu : up.length + 2 ≤ f + 1 := by
        rcases hfuel with hfuel | hfuel
        · simpa [Path.length] using hfuel
        · rw [hred] at hfuel; exact absurd hfuel.1 (by simp)
      have hm2 : 2 * up.length + 3 ≤ m := by
        simp only [Path.length, hred, Bool.false_eq_true, if_false] at hm; omega
      have step := deleteFixup_step_left (f := f) cn cr (cP.1.trans ht)
      -- the sibling is a node
      have hSn : ∃ s sc sv sl sr, S = .node s sc sv sl sr := by
        cases hp with
        | leftB hS hu => cases hS <;> exact ⟨_, _, _, _, _, rfl⟩
        | leftR hS hu => cases hS; exact ⟨_, _, _, _, _, rfl⟩
      obtain ⟨s, sc, sv, sl, sr, rfl⟩ := hSn
      cases sc with
      | false =>
        have e1 := deleteFixupLeft1_black hg ht
        rcases deleteFixupLeft2_spec hg ht hb hp with ⟨h2, q, e2, g2, hin, hK⟩ | ⟨h2, j, e2, g2, hA2, hB2, hup2⟩
        · refine ⟨h2.wrRed n false, n, q.plug t, ?_, ?_, hin, hK, ?_⟩
          · rw [step, e1]; simp [Except.bind, e2, stRed]
          · have := good_blacken g2 ht
            rwa [blacken_of_black hred] at this
          · exact (addrs_plug q t).mem_iff.2 (List.mem_append_left _ (ptr_mem ht))
        · obtain ⟨h3, res, T, e3, g3, hin3, hK3, hres⟩ := ih (2 * up.length + (if pc then 0 else 1))
            (by cases pc <;> simp <;> omega) f h2 up (.node P pc pv t (.node s true sv sl sr)) P j le_rfl
            (Or.inl (by omega)) g2 rfl
            (by intro e; simp only [RBT.isRed] at e; exact hA2 e)
            (by intro e; simp only [RBT.isRed] at e; subst e; exact hB2 rfl) hup2
          refine ⟨h3, res, T, ?_, g3, ?_, hK3, hres⟩
          · rw [step, e1]; simp [Except.bind, e2, e3]
          · rw [hin3]; simp [Path.plug, inorder_plug, RBT.inorder]
      | true =>
        -- case 1: the parent is black, the children of the sibling are black nodes
        have hpc : pc = false ∧ Bal sl false (k + 1) ∧ Bal sr false (k + 1) ∧
            PBal up false (k + 2) := by
          cases hp with
          | leftB hS hu => cases hS with | red hsl hsr => exact ⟨rfl, hsl, hsr, hu⟩
          | leftR hS hu => cases hS
        obtain ⟨rfl, hsl, hsr, hu⟩ := hpc
        obtain ⟨h1, e1, g1⟩ := deleteFixupLeft1_red hg ht
        have hnn : ∃ s2 v2 l2 r2, sl = .node s2 false v2 l2 r2 := by
          cases hsl with | black _ _ => exact ⟨_, _, _, _, rfl⟩
        obtain ⟨s2, v2, l2, r2, rfl⟩ := hnn
        have hp1 : PBal (.left P true pv (.node s2 false v2 l2 r2) (.left s false sv sr up)) false (k + 1) :=
          .leftR hsl (.leftB hsr hu)
        rcases deleteFixupLeft2_spec g1 ht hb hp1 with ⟨h2, q, e2, g2, hin, hK⟩ | ⟨h2, j, e2, g2, hA2, -, hup2⟩
        · refine ⟨h2.wrRed n false, n, q.plug t, ?_, ?_, ?_, hK, ?_⟩
          · rw [step, e1]; simp [Except.bind, e2, stRed]
          · have := good_blacken g2 ht
            rwa [blacken_of_black hred] at this
          · rw [hin]; simp [Path.plug, inorder_plug, RBT.inorder]
          · exact (addrs_plug q t).mem_iff.2 (List.mem_append_left _ (ptr_mem ht))
        · obtain ⟨h3, res, T, e3, g3, hin3, hK3, hres⟩ := ih (2 * (up.length + 1))
            (by omega) f h2 (.left s false sv sr up) (.node P true pv t (.node s2 true v2 l2 r2)) P j
            (by simp [Path.length, RBT.isRed]) (Or.inr ⟨rfl, by omega⟩) g2 rfl
            (by intro _; exact hA2 rfl) (by intro e; simp [RBT.isRed] at e) hup2
          refine ⟨h3, res, T, ?_, g3, ?_, hK3, hres⟩
          · rw [step, e1]; simp [Except.bind, e2, e3]
          · rw [hin3]; simp [Path.plug, inorder_plug, RBT.inorder]
    | right P pc pv S up =>
      have cP := good_cell (p := up) (a := P) hg
      simp only [node_eq_iff, ptr_node] at cP
      have hne : (h.cell P).Left ≠ some n := by
        rw [cP.1]
        exact fun e => (good_distinct (p := up) (a := P) hg).2.2.2.1 _ e ht
      have hfu : up.length + 2 ≤ f + 1 := by
        rcases hfuel with hfuel | hfuel
        · simpa [Path.length] using hfuel
        · rw [hred] at hfuel; exact absurd hfuel.1 (by simp)
      have hm2 : 2 * up.length + 3 ≤ m := by
        simp only [Path.length, hred, Bool.false_eq_true, if_false] at hm; omega
      have step := deleteFixup_step_right (f := f) cn cr (hne)
      -- the sibling is a node
      have hSn : ∃ s sc sv sl sr, S = .node s sc sv sl sr := by
        cases hp with
        | rightB hS hu => cases hS <;> exact ⟨_, _, _, _, _, rfl⟩
        | rightR hS hu => cases hS; exact ⟨_, _, _, _, _, rfl⟩
      obtain ⟨s, sc, sv, sl, sr, rfl⟩ := hSn
      cases sc with
      | false =>
        have e1 := deleteFixupRight1_black hg ht
        rcases deleteFixupRight2_spec hg ht hb hp with ⟨h2, q, e2, g2, hin, hK⟩ | ⟨h2, j, e2, g2, hA2, hB2, hup2⟩
        · refine ⟨h2.wrRed n false, n, q.plug t, ?_, ?_, hin, hK, ?_⟩
          · rw [step, e1]; simp [Except.bind, e2, stRed]
          · have := good_blacken g2 ht
            rwa [blacken_of_black hred] at this
          · exact (addrs_plug q t).mem_iff.2 (List.mem_append_left _ (ptr_mem ht))
        · obtain ⟨h3, res, T, e3, g3, hin3, hK3, hres⟩ := ih (2 * up.length + (if pc then 0 else 1))
            (by cases pc <;> simp <;> omega) f h2 up (.node P pc pv (.node s true sv sl sr) t) P j le_rfl
            (Or.inl (by omega)) g2 rfl
            (by intro e; simp only [RBT.isRed] at e; exact hA2 e)
            (by intro e; simp only [RBT.isRed] at e; subst e; exact hB2 rfl) hup2
          refine ⟨h3, res, T, ?_, g3, ?_, hK3, hres⟩
          · rw [step, e1]; simp [Except.bind, e2, e3]
          · rw [hin3]; simp [Path.plug, inorder_plug, RBT.inorder]
      | true =>
        -- case 1: the parent is black, the children of the sibling are black nodes
        have hpc : pc = false ∧ Bal sl false (k + 1) ∧ Bal sr false (k + 1) ∧
            PBal up false (k + 2) := by
          cases hp with
          | rightB hS hu => cases hS with | red hsl hsr => exact ⟨rfl, hsl, hsr, hu⟩
          | rightR hS hu => cases hS
        obtain ⟨rfl, hsl, hsr, hu⟩ := hpc
        obtain ⟨h1, e1, g1⟩ := deleteFixupRight1_red hg ht
        have hnn : ∃ s2 v2 l2 r2, sr = .node s2 false v2 l2 r2 := by
          cases hsr with | black _ _ => exact ⟨_, _, _, _, rfl⟩
        obtain ⟨s2, v2, l2, r2, rfl⟩ := hnn
        have hp1 : PBal (.right P true pv (.node s2 false v2 l2 r2) (.right s false sv sl up)) false (k + 1) :=
          .rightR hsr (.rightB hsl hu)
        rcases deleteFixupRight2_spec g1 ht hb hp1 with ⟨h2, q, e2, g2, hin, hK⟩ | ⟨h2, j, e2, g2, hA2, -, hup2⟩
        · refine ⟨h2.wrRed n false, n, q.plug t, ?_, ?_, ?_, hK, ?_⟩
          · rw [step, e1]; simp [Except.bind, e2, stRed]
          · have := good_blacken g2 ht
            rwa [blacken_of_black hred] at this
          · rw [hin]; simp [Path.plug, inorder_plug, RBT.inorder]
          · exact (addrs_plug q t).mem_iff.2 (List.mem_append_left _ (ptr_mem ht))
        · obtain ⟨h3, res, T, e3, g3, hin3, hK3, hres⟩ := ih (2 * (up.length + 1))
            (by omega) f h2 (.right s false sv sl up) (.node P true pv (.node s2 true v2 l2 r2) t) P j
            (by simp [Path.length, RBT.isRed]) (Or.inr ⟨rfl, by omega⟩) g2 rfl
            (by intro _; exact hA2 rfl) (by intro e; simp [RBT.isRed] at e) hup2
          refine ⟨h3, res, T, ?_, g3, ?_, hK3, hres⟩
          · rw [step, e1]; simp [Except.bind, e2, e3]
          · rw [hin3]; simp [Path.plug, inorder_plug, RBT.inorder]

/-- Lines 149-172 of `delete` when the removed node has one child subtree `X`:
`X` takes the place of the node. -/
theorem deleteChild_real {h : Heap} {q : Path} {d c : Nat} {e : Bool} {v : Int} {l r X : RBT}
    (hg : Good h (q.plug (.node d e v l r))) (hc : X.ptr = some c)
    (hX : (X = l ∧ r = .nil) ∨ (l = .nil ∧ X = r)) :
    ∃ h1, Node.deleteChild h (some d) = .ok (some c, false, h1) ∧ Good h1 (q.plug X) ∧
      h1.cell d = h.cell d ∧ h1.next = h.next := by
  have cd := good_cell hg
  have hdist := good_distinct hg
  rw [good_plug] at hg
  obtain ⟨⟨-, hl, hr⟩, hp, hnd, hlt⟩ := hg
  have hrX : Rep h (some d) X := by
    rcases hX with ⟨rfl, -⟩ | ⟨-, rfl⟩
    · exact hl
    · exact hr
  have hsub : ∀ z ∈ X.addrs, z ∈ (RBT.node d e v l r).addrs := by
    intro z hz
    rcases hX with ⟨rfl, -⟩ | ⟨-, rfl⟩ <;> simp [RBT.addrs, hz]
  have hcd : c ≠ d := by
    rintro rfl
    rcases hX with ⟨rfl, -⟩ | ⟨-, rfl⟩
    · exact hdist.1 hc
    · exact hdist.2.1 hc
  have hndX : X.addrs.Nodup := by
    have := (List.nodup_append.1 hnd).1
    simp only [RBT.addrs, List.nodup_append, List.nodup_cons] at this
    rcases hX with ⟨rfl, -⟩ | ⟨-, rfl⟩
    · exact this.1
    · exact this.2.1.2
  have hdisj : ∀ z ∈ X.addrs, z ∉ q.addrs := fun z hz hz2 =>
    (List.nodup_append.1 hnd).2.2 (hsub z hz) hz2
  have hdq : d ∉ q.addrs := fun hz =>
    (List.nodup_append.1 hnd).2.2 (by simp [RBT.addrs]) hz
  have hcq : ∀ z, q.ptr = some z → z ≠ c := fun z hz e =>
    hdisj c (ptr_mem hc) (e ▸ pptr_mem hz)
  have hdp : ∀ z, q.ptr = some z → z ≠ d := fun z hz e => hdq (e ▸ pptr_mem hz)
  cases hq : q.ptr with
  | none =>
    refine ⟨h.wrParent c none, ?_, ?_, ?_, rfl⟩
    · rcases hX with ⟨rfl, rfl⟩ | ⟨rfl, rfl⟩ <;>
      simp [Node.deleteChild, rdLeft, rdRight, rdParent, stParent, bind, Except.bind, pure,
        Except.pure, cd, hq, Ne.symm hcd, hc]
    · rw [good_plug]
      have hqt := pptr_eq_none.1 hq
      subst hqt
      refine ⟨hrX.reparent hndX ?_ ?_, trivial, ?_, ?_⟩
      · intro z hz
        rw [hc] at hz; cases hz
        apply node_ext <;> simp
      · intro z hz hne
        rw [hc] at hne
        have : z ≠ c := fun e => hne (by rw [e])
        apply node_ext <;> simp [this]
      · simpa [Path.addrs] using hndX
      · intro z hz
        simp only [Path.addrs, List.append_nil] at hz
        exact hlt z (List.mem_append_left _ (hsub z hz))
    · apply node_ext <;> simp [Ne.symm hcd]
  | some dp =>
    have hdpc := hcq dp hq
    have hdpd := hdp dp hq
    by_cases hL : (h.cell dp).Left = some d
    · refine ⟨(h.wrParent c (some dp)).wrLeft dp (some c), ?_, ?_, ?_, rfl⟩
      · rcases hX with ⟨rfl, rfl⟩ | ⟨rfl, rfl⟩ <;>
        simp [Node.deleteChild, rdLeft, rdRight, rdParent, stParent, stLeft, bind, Except.bind,
          pure, Except.pure, cd, hq, Ne.symm hcd, hc, hL]
      · rw [good_plug]
        refine ⟨hrX.reparent hndX ?_ ?_, hp.retarget (List.nodup_append.1 hnd).2.1 ?_ ?_ ?_
          (by simp), ?_, ?_⟩
        · intro z hz
          rw [hc] at hz; cases hz
          apply node_ext <;> simp [Ne.symm hdpc, hq]
        · intro z hz hne
          rw [hc] at hne
          have e1 : z ≠ c := fun e => hne (by rw [e])
          have e2 : z ≠ dp := fun e => hdisj z hz (e ▸ pptr_mem hq)
          apply node_ext <;> simp [e1, e2]
        · intro z hz; simp only [ptr_node, Option.some.injEq] at hz; subst hz; exact hdq
        · intro z hz
          rw [hq] at hz; cases hz
          simp only [ptr_node, hL, if_true, hc]
          apply node_ext <;> simp [hdpc]
        · intro z hz hne
          rw [hq] at hne
          have e1 : z ≠ dp := fun e => hne (by rw [e])
          have e2 : z ≠ c := fun e => hdisj c (ptr_mem hc) (e ▸ hz)
          apply node_ext <;> simp [e1, e2]
        · refine List.nodup_append.2 ⟨hndX, (List.nodup_append.1 hnd).2.1, fun z hz hz2 =>
            hdisj z hz hz2⟩
        · intro z hz
          simp only [wrLeft_next, wrParent_next]
          rcases List.mem_append.1 hz with hz | hz
          · exact hlt z (List.mem_append_left _ (hsub z hz))
          · exact hlt z (List.mem_append_right _ hz)
      · apply node_ext <;> simp [Ne.symm hcd, Ne.symm hdpd]
    · refine ⟨(h.wrParent c (some dp)).wrRight dp (some c), ?_, ?_, ?_, rfl⟩
      · rcases hX with ⟨rfl, rfl⟩ | ⟨rfl, rfl⟩ <;>
        simp [Node.deleteChild, rdLeft, rdRight, rdParent, stParent, stRight, bind, Except.bind,
          pure, Except.pure, cd, hq, Ne.symm hcd, hc, hL]
      · rw [good_plug]
        refine ⟨hrX.reparent hndX ?_ ?_, hp.retarget (List.nodup_append.1 hnd).2.1 ?_ ?_ ?_
          (by simp), ?_, ?_⟩
        · intro z hz
          rw [hc] at hz; cases hz
          apply node_ext <;> simp [Ne.symm hdpc, hq]
        · intro z hz hne
          rw [hc] at hne
          have e1 : z ≠ c := fun e => hne (by rw [e])
          have e2 : z ≠ dp := fun e => hdisj z hz (e ▸ pptr_mem hq)
          apply node_ext <;> simp [e1, e2]
        · intro z hz; simp only [ptr_node, Option.some.injEq] at hz; subst hz; exact hdq
        · intro z hz
          rw [hq] at hz; cases hz
          simp only [ptr_node, hL, if_false, hc]
          apply node_ext <;> simp [hdpc]
        · intro z hz hne
          rw [hq] at hne
          have e1 : z ≠ dp := fun e => hne (by rw [e])
          have e2 : z ≠ c := fun e => hdisj c (ptr_mem hc) (e ▸ hz)
          apply node_ext <;> simp [e1, e2]
        · refine List.nodup_append.2 ⟨hndX, (List.nodup_append.1 hnd).2.1, fun z hz hz2 =>
            hdisj z hz hz2⟩
        · intro z hz
          simp only [wrRight_next, wrParent_next]
          rcases List.mem_append.1 hz with hz | hz
          · exact hlt z (List.mem_append_left _ (hsub z hz))
          · exact hlt z (List.mem_append_right _ hz)
      · apply node_ext <;> simp [Ne.symm hcd, Ne.symm hdpd]

/-- Lines 149-172 of `delete` when the removed node has no child: a freshly
allocated placeholder takes the place of the node. -/
theorem deleteChild_phantom {h : Heap} {q : Path} {d : Nat} {e : Bool} {v : Int}
    (hg : Good h (q.plug (.node d e v .nil .nil))) :
    ∃ h1, Node.deleteChild h (some d) = .ok (some h.next, true, h1) ∧
      Good h1 (q.plug (.phantom h.next)) ∧ h1.cell d = h.cell d ∧ h1.next = h.next + 1 := by
  have cd := good_cell hg
  rw [good_plug] at hg
  obtain ⟨-, hp, hnd, hlt⟩ := hg
  simp only [ptr_nil] at cd
  have hdq : d ∉ q.addrs := fun hz =>
    (List.nodup_append.1 hnd).2.2 (by simp [RBT.addrs]) hz
  have hdn : d ≠ h.next := by
    have := hlt d (by simp [RBT.addrs]); omega
  have hfresh : ∀ z ∈ q.addrs, z ≠ h.next := fun z hz => by
    have := hlt z (List.mem_append_right _ hz); omega
  have hndq := (List.nodup_append.1 hnd).2.1
  cases hq : q.ptr with
  | none =>
    refine ⟨(h.alloc ⟨none, none, none, false, 0⟩).2, ?_, ?_, ?_, rfl⟩
    · simp [Node.deleteChild, rdLeft, rdRight, rdParent, bind, Except.bind, pure, Except.pure, cd,
        hq, alloc_cell, hdn]
    · rw [good_plug]
      have hqt := pptr_eq_none.1 hq
      subst hqt
      refine ⟨?_, trivial, by simp [RBT.addrs, Path.addrs], ?_⟩
      · simp only [Rep, pptr_top]
        simp [alloc_cell]
      · intro z hz
        simp only [RBT.addrs, Path.addrs, List.append_nil, List.mem_singleton] at hz
        subst hz; simp
    · simp [alloc_cell, hdn]
  | some dp =>
    have hdpd : dp ≠ d := fun e => hdq (e ▸ pptr_mem hq)
    have hdpn : dp ≠ h.next := hfresh dp (pptr_mem hq)
    by_cases hL : (h.cell dp).Left = some d
    · refine ⟨(h.alloc ⟨none, none, some dp, false, 0⟩).2.wrLeft dp (some h.next), ?_, ?_, ?_, rfl⟩
      · simp [Node.deleteChild, rdLeft, rdRight, rdParent, stLeft, bind, Except.bind, pure,
          Except.pure, cd, hq, alloc_cell, hdn, hdpn, hL]
      · rw [good_plug]
        refine ⟨?_, hp.retarget hndq ?_ ?_ ?_ (by simp), ?_, ?_⟩
        · simp only [Rep, hq]
          apply node_ext <;> simp [alloc_cell, Ne.symm hdpn]
        · intro z hz; simp only [ptr_node, Option.some.injEq] at hz; subst hz; exact hdq
        · intro z hz
          rw [hq] at hz; cases hz
          simp only [ptr_node, hL, if_true, ptr_phantom]
          apply node_ext <;> simp [alloc_cell, hdpn]
        · intro z hz hne
          rw [hq] at hne
          have e1 : z ≠ dp := fun e => hne (by rw [e])
          have e2 : z ≠ h.next := hfresh z hz
          apply node_ext <;> simp [alloc_cell, e1, e2]
        · simp only [RBT.addrs, List.singleton_append, List.nodup_cons]
          exact ⟨fun hm => hfresh _ hm rfl, hndq⟩
        · intro z hz
          simp only [RBT.addrs, List.singleton_append, List.mem_cons] at hz
          simp only [wrLeft_next, alloc_next]
          rcases hz with rfl | hz
          · omega
          · have := hlt z (List.mem_append_right _ hz); omega
      · apply node_ext <;> simp [alloc_cell, hdn, Ne.symm hdpd]
    · refine ⟨(h.alloc ⟨none, none, some dp, false, 0⟩).2.wrRight dp (some h.next), ?_, ?_, ?_, rfl⟩
      · simp [Node.deleteChild, rdLeft, rdRight, rdParent, stRight, bind, Except.bind, pure,
          Except.pure, cd, hq, alloc_cell, hdn, hdpn, hL]
      · rw [good_plug]
        refine ⟨?_, hp.retarget hndq ?_ ?_ ?_ (by simp), ?_, ?_⟩
        · simp only [Rep, hq]
          apply node_ext <;> simp [alloc_cell, Ne.symm hdpn]
        · intro z hz; simp only [ptr_node, Option.some.injEq] at hz; subst hz; exact hdq
        · intro z hz
          rw [hq] at hz; cases hz
          simp only [ptr_node, hL, if_false, ptr_phantom]
          apply node_ext <;> simp [alloc_cell, hdpn]
        · intro z hz hne
          rw [hq] at hne
          have e1 : z ≠ dp := fun e => hne (by rw [e])
          have e2 : z ≠ h.next := hfresh z hz
          apply node_ext <;> simp [alloc_cell, e1, e2]
        · simp only [RBT.addrs, List.singleton_append, List.nodup_cons]
          exact ⟨fun hm => hfresh _ hm rfl, hndq⟩
        · intro z hz
          simp only [RBT.addrs, List.singleton_append, List.mem_cons] at hz
          simp only [wrRight_next, alloc_next]
          rcases hz with rfl | hz
          · omega
          · have := hlt z (List.mem_append_right _ hz); omega
      · apply node_ext <;> simp [alloc_cell, hdn, Ne.symm hdpd]

/-- The write `a.Value = w` on the node in focus. -/
theorem good_wrValue {h : Heap} {p : Path} {a : Nat} {c : Bool} {v : Int} {l r : RBT} (w : Int)
    (hg : Good h (p.plug (.node a c v l r))) :
    Good (h.wrValue a w) (p.plug (.node a c w l r)) := by
  rw [good_plug] at hg ⊢
  obtain ⟨⟨h1, h2, h3⟩, h4, h5, h6⟩ := hg
  have h5c := h5
  simp only [RBT.addrs, List.append_assoc, List.cons_append, List.nodup_append, List.nodup_cons,
    List.mem_append, List.mem_cons, not_or] at h5
  refine ⟨⟨?_, h2.frame ?_, h3.frame ?_⟩, h4.pframe ?_, ?_, ?_⟩
  · apply node_ext <;> simp [h1]
  · intro x hx
    have : x ≠ a := by rintro rfl; simp_all
    apply node_ext <;> simp [this]
  · intro x hx
    have : x ≠ a := by rintro rfl; simp_all
    apply node_ext <;> simp [this]
  · intro x hx
    have : x ≠ a := by rintro rfl; simp_all
    apply node_ext <;> simp [this]
  · simpa [RBT.addrs] using h5c
  · simpa [RBT.addrs] using h6

/-- Lines 184-189 of `delete`: the placeholder is taken out of the slot of its parent. -/
theorem good_unlink {h : Heap} {q : Path} {f a : Nat} (hg : Good h (q.plug (.phantom f)))
    (hq : q.ptr = some a) :
    ∃ h2, (if (h.cell a).Left = some f then stLeft h (some a) none else stRight h (some a) none) =
        .ok h2 ∧ Good h2 (q.plug .nil) ∧ (h2.cell f).Parent = some a ∧ h2.next = h.next := by
  have cf := good_parent hg (t := .phantom f) rfl
  rw [good_plug] at hg
  obtain ⟨-, hp, hnd, hlt⟩ := hg
  simp only [RBT.addrs, List.singleton_append, List.nodup_cons] at hnd
  have hfa : f ≠ a := fun e => hnd.1 (e ▸ pptr_mem hq)
  have key : ∀ h2 : Heap, h2.next = h.next →
      (h2.cell a = if (h.cell a).Left = some f then { h.cell a with Left := none }
        else { h.cell a with Right := none }) →
      (∀ z, z ≠ a → h2.cell z = h.cell z) → Good h2 (q.plug .nil) ∧ (h2.cell f).Parent = some a := by
    intro h2 hn hta hfr
    refine ⟨?_, by rw [hfr f hfa, cf, hq]⟩
    rw [good_plug]
    refine ⟨trivial, hp.retarget hnd.2 ?_ ?_ ?_ (by simp), by simpa [RBT.addrs] using hnd.2, ?_⟩
    · intro z hz; simp only [ptr_phantom, Option.some.injEq] at hz; subst hz; exact hnd.1
    · intro z hz
      rw [hq] at hz; cases hz
      simpa using hta
    · intro z hz hne
      rw [hq] at hne
      exact hfr z (fun e => hne (by rw [e]))
    · intro z hz
      rw [hn]
      simp only [RBT.addrs, List.nil_append] at hz
      exact hlt z (by simp [RBT.addrs, hz])
  by_cases hL : (h.cell a).Left = some f
  · refine ⟨h.wrLeft a none, by simp [hL, stLeft], ?_⟩
    obtain ⟨k1, k2⟩ := key (h.wrLeft a none) rfl (by simp only [hL, if_true]; apply node_ext <;> simp)
      (fun z hz => by apply node_ext <;> simp [hz])
    exact ⟨k1, k2, rfl⟩
  · refine ⟨h.wrRight a none, by simp [hL, stRight], ?_⟩
    obtain ⟨k1, k2⟩ := key (h.wrRight a none) rfl
      (by simp only [hL, if_false]; apply node_ext <;> simp)
      (fun z hz => by apply node_ext <;> simp [hz])
    exact ⟨k1, k2, rfl⟩

/-- Walking up from the node above the hole ends at the top of the tree. -/
theorem ancestorTop_path {h : Heap} : ∀ {p : Path} {x : Option Nat} {a k : Nat},
    RepP h p x → p.ptr = some a → p.length ≤ k + 1 →
    ∃ top, ancestorTop h k a = .ok top ∧ ∀ t, (p.plug t).ptr = some top := by
  intro p
  induction p with
  | top => intro x a k _ hq; simp at hq
  | left b c v r up ih =>
    intro x a k hr hq hlen
    simp only [pptr_left, Option.some.injEq] at hq; subst hq
    have hc := hr.1
    cases hup : up.ptr with
    | none =>
      have := pptr_eq_none.1 hup
      subst this
      refine ⟨b, ?_, fun t => rfl⟩
      unfold ancestorTop
      simp [hc]
    | some g =>
      simp only [Path.length] at hlen
      obtain ⟨f, rfl⟩ : ∃ f, k = f + 1 := by
        cases up with
        | top => simp at hup
        | left _ _ _ _ _ => exact ⟨k - 1, by simp only [Path.length] at hlen; omega⟩
        | right _ _ _ _ _ => exact ⟨k - 1, by simp only [Path.length] at hlen; omega⟩
      obtain ⟨top, e, ht⟩ := ih (k := f) hr.2.2 hup (by omega)
      refine ⟨top, ?_, fun t => ht _⟩
      unfold ancestorTop
      simp [hc, hup, e]
  | right b c v l up ih =>
    intro x a k hr hq hlen
    simp only [pptr_right, Option.some.injEq] at hq; subst hq
    have hc := hr.1
    cases hup : up.ptr with
    | none =>
      have := pptr_eq_none.1 hup
      subst this
      refine ⟨b, ?_, fun t => rfl⟩
      unfold ancestorTop
      simp [hc]
    | some g =>
      simp only [Path.length] at hlen
      obtain ⟨f, rfl⟩ : ∃ f, k = f + 1 := by
        cases up with
        | top => simp at hup
        | left _ _ _ _ _ => exact ⟨k - 1, by simp only [Path.length] at hlen; omega⟩
        | right _ _ _ _ _ => exact ⟨k - 1, by simp only [Path.length] at hlen; omega⟩
      obtain ⟨top, e, ht⟩ := ih (k := f) hr.2.2 hup (by omega)
      refine ⟨top, ?_, fun t => ht _⟩
      unfold ancestorTop
      simp [hc, hup, e]

/-- Walking up from a node whose `Parent` field is the pointer above the hole. -/
theorem ancestorTop_child {h : Heap} {p : Path} {x : Option Nat} {a fuel : Nat}
    (hr : RepP h p x) (ha : (h.cell a).Parent = p.ptr) (hlen : p.length ≤ fuel) (t : RBT)
    (hp : p.ptr ≠ none ∨ t.ptr = some a) :
    ∃ top, ancestorTop h fuel a = .ok top ∧ (p.plug t).ptr = some top := by
  cases hq : p.ptr with
  | none =>
    have := pptr_eq_none.1 hq
    subst this
    rcases hp with hp | hp
    · exact absurd hq hp
    · refine ⟨a, ?_, hp⟩
      unfold ancestorTop
      simp [ha]
  | some b =>
    obtain ⟨f, rfl⟩ : ∃ f, fuel = f + 1 := by
      cases p with
      | top => simp at hq
      | left _ _ _ _ _ => exact ⟨fuel - 1, by simp only [Path.length] at hlen; omega⟩
      | right _ _ _ _ _ => exact ⟨fuel - 1, by simp only [Path.length] at hlen; omega⟩
    obtain ⟨top, e, ht⟩ := ancestorTop_path (k := f) hr hq (by omega)
    refine ⟨top, ?_, ht t⟩
    unfold ancestorTop
    simp [ha, hq, e]

/-- Every address of a tree is the top of a subtree in focus. -/
theorem focus_addr {x : Nat} {T : RBT} : x ∈ T.addrs →
    ∀ p : Path, ∃ (q : Path) (t : RBT), p.plug T = q.plug t ∧ t.ptr = some x := by
  induction T with
  | nil => intro hx; simp [RBT.addrs] at hx
  | node a c v l r ihl ihr =>
    intro hx p
    simp only [RBT.addrs, List.mem_append, List.mem_cons] at hx
    rcases hx with hx | rfl | hx
    · exact ihl hx (.left a c v r p)
    · exact ⟨p, _, rfl, rfl⟩
    · exact ihr hx (.right a c v l p)
  | phantom a =>
    intro hx p
    simp only [RBT.addrs, List.mem_singleton] at hx
    subst hx
    exact ⟨p, _, rfl, rfl⟩

/-- Every value-holding node of a tree is a node in focus. -/
theorem focus_node {x : Nat} {T : RBT} : x ∈ T.nodes →
    ∀ p : Path, ∃ (q : Path) (c : Bool) (v : Int) (l r : RBT),
      p.plug T = q.plug (.node x c v l r) := by
  induction T with
  | nil => intro hx; simp [RBT.nodes] at hx
  | node a c v l r ihl ihr =>
    intro hx p
    simp only [RBT.nodes, List.mem_append, List.mem_cons] at hx
    rcases hx with hx | rfl | hx
    · exact ihl hx (.left a c v r p)
    · exact ⟨p, _, _, _, _, rfl⟩
    · exact ihr hx (.right a c v l p)
  | phantom a => intro hx; simp [RBT.nodes] at hx

/-- A placeholder in the in-order listing is a placeholder in focus. -/
theorem focus_phantom {f : Nat} {T : RBT} : (f, none) ∈ T.inorder →
    ∀ p : Path, ∃ q : Path, p.plug T = q.plug (.phantom f) := by
  induction T with
  | nil => intro hx; simp [RBT.inorder] at hx
  | node a c v l r ihl ihr =>
    intro hx p
    simp only [RBT.inorder, List.mem_append, List.mem_cons, Prod.mk.injEq, reduceCtorEq,
      and_false, false_or] at hx
    rcases hx with hx | hx
    · exact ihl hx (.left a c v r p)
    · exact ihr hx (.right a c v l p)
  | phantom a =>
    intro hx p
    simp only [RBT.inorder, List.mem_singleton, Prod.mk.injEq, and_true] at hx
    subst hx
    exact ⟨p, rfl⟩

theorem ancestorTop_mem {h : Heap} {T : RBT} {x : Nat} (hg : Good h T) (hx : x ∈ T.addrs) :
    ∃ top, ancestorTop h h.next x = .ok top ∧ T.ptr = some top := by
  obtain ⟨q, t, e, ht⟩ := focus_addr hx .top
  simp only [Path.plug] at e
  rw [e] at hg ⊢
  have hsz := good_size hg
  have := (good_plug.1 hg)
  exact ancestorTop_child this.2.1 (good_parent hg ht) (by omega) t (Or.inr ht)

theorem good_nil (h : Heap) : Good h .nil :=
  ⟨trivial, List.nodup_nil, fun a ha => by simp [RBT.addrs] at ha⟩

theorem addrs_plug_mem {p : Path} {t : RBT} {x : Nat} :
    x ∈ (p.plug t).addrs ↔ x ∈ t.addrs ∨ x ∈ p.addrs := by
  rw [(addrs_plug p t).mem_iff, List.mem_append]

theorem filter_real_self {L : List (Nat × Option Int)} (hL : ∀ e ∈ L, e.2 ≠ none) :
    L.filter (fun e => e.2.isSome) = L := by
  rw [List.filter_eq_self]
  intro e he
  cases h2 : e.2 with
  | none => exact absurd h2 (hL e he)
  | some w => rfl

theorem real_inorder_filter {t : RBT} (ht : t.real) :
    t.inorder.filter (fun e => e.2.isSome) = t.inorder :=
  filter_real_self ((real_iff_inorder t).1 ht)

theorem vals_filter (L : List (Nat × Option Int)) :
    (L.filter (fun e => e.2.isSome)).filterMap Prod.snd = L.filterMap Prod.snd := by
  induction L with
  | nil => rfl
  | cons e L ih =>
    obtain ⟨a, o⟩ := e
    cases o <;> simp [List.filter_cons, ih]

/-- Taking the placeholder out of a red-black tree leaves a red-black tree
with the same nodes in the same order. -/
theorem unlink_facts {q : Path} {f : Nat} {L : List (Nat × Option Int)}
    (hin : (q.plug (.phantom f)).inorder = L) (hnd : (q.plug (.phantom f)).addrs.Nodup)
    (hL : ∀ e ∈ L, e.2 = none → e.1 = f) (hb : ∃ K, Bal (q.plug (.phantom f)) false K) :
    (q.plug .nil).real ∧ (∃ K, Bal (q.plug .nil) false K) ∧
      (q.plug .nil).inorder = L.filter (fun e => e.2.isSome) := by
  subst hin
  have hfq : f ∉ q.addrs := by
    have := (addrs_plug q (.phantom f)).nodup_iff.1 hnd
    simp only [RBT.addrs, List.singleton_append, List.nodup_cons] at this
    exact this.1
  have hreal : (q.plug .nil).real := by
    rw [real_iff_inorder]
    intro e he hn
    have h1 : e ∈ (q.plug (.phantom f)).inorder := by
      rw [inorder_plug] at he ⊢
      simp only [RBT.inorder, List.append_nil, List.mem_append] at he
      simp only [List.mem_append]
      tauto
    have h2 := hL e h1 hn
    have h3 : e.1 ∈ (q.plug .nil).addrs := by
      rw [addrs_eq_inorder]
      exact List.mem_map_of_mem _ he
    rw [addrs_plug_mem] at h3
    simp only [RBT.addrs, List.not_mem_nil, false_or] at h3
    exact hfq (h2 ▸ h3)
  refine ⟨hreal, ?_, ?_⟩
  · obtain ⟨K, hK⟩ := hb
    obtain ⟨c, n, h1, h2⟩ := hK.zoom
    cases h1
    exact h2.fill .nil
  · have h1 := real_inorder_filter hreal
    rw [inorder_plug] at h1 ⊢
    rw [inorder_plug]
    simp only [RBT.inorder, List.append_nil, List.filter_append] at h1 ⊢
    simpa using h1.symm

/-- A tree that lists one placeholder and nothing else is that placeholder. -/
theorem inorder_phantom_only {q : Path} {f : Nat} {Q : Path} {c : Nat}
    (hin : (q.plug (.phantom f)).inorder = (Q.plug (.phantom c)).inorder)
    (hQ : ∀ e ∈ Q.pre ++ Q.post, e.2 ≠ none) :
    ∀ e ∈ (q.plug (.phantom f)).inorder, e.2 = none → e.1 = f := by
  intro e he hn
  have hf : (f, none) ∈ (Q.plug (.phantom c)).inorder := by
    rw [← hin, inorder_plug]; simp [RBT.inorder]
  rw [hin] at he
  rw [inorder_plug] at he hf
  simp only [RBT.inorder, List.mem_append, List.mem_singleton] at he hf
  have hfc : f = c := by
    rcases hf with (hf | hf) | hf
    · exact absurd rfl (hQ _ (List.mem_append_left _ hf))
    · exact (Prod.mk.inj hf).1
    · exact absurd rfl (hQ _ (List.mem_append_right _ hf))
  rcases he with (he | he) | he
  · exact absurd hn (hQ _ (List.mem_append_left _ he))
  · rw [he, hfc]
  · exact absurd hn (hQ _ (List.mem_append_right _ he))

/-- Lines 178-192 of `delete`: the fixup when the spliced node was black, and
the removal of the placeholder. -/
theorem deleteFinish_spec {h : Heap} {Q : Path} {X : RBT} {d c : Nat} {cfake : Bool}
    (hg : Good h (Q.plug X)) (hc : X.ptr = some c)
    (hfk : (cfake = true ∧ X = .phantom c) ∨ (cfake = false ∧ X.real))
    (hQ : ∀ e ∈ Q.pre ++ Q.post, e.2 ≠ none)
    (hred : (h.cell d).Red = true → X = .phantom c ∧ PBal Q false 0)
    (hblk : (h.cell d).Red = false → (X.isRed = true → Bal X.blacken false 1) ∧
      (X.isRed = false → Bal X false 0) ∧ PBal Q false 1) :
    ∃ res h2 T2, Node.deleteFinish h (some d) (some c) cfake = .ok (res, h2) ∧ Good h2 T2 ∧
      T2.real ∧ (∃ K, Bal T2 false K) ∧
      T2.inorder = (Q.plug X).inorder.filter (fun e => e.2.isSome) ∧ (res = none → T2 = .nil) ∧
      (∀ x, res = some x → ∃ top, ancestorTop h2 h2.next x = .ok top ∧ T2.ptr = some top) ∧
      (∀ x, res = some x → x ∈ T2.addrs ∨ ∃ a, (h2.cell x).Parent = some a ∧ a ∈ T2.addrs) := by
  have hsz := good_size hg
  have hXl : 1 ≤ X.addrs.length := List.length_pos_of_mem (ptr_mem hc)
  -- the removal of the placeholder from a tree `q.plug (.phantom c)`
  have fin : ∀ (h1 : Heap) (q : Path) (pp : Nat), Good h1 (q.plug (.phantom c)) →
      (∀ e ∈ (q.plug (.phantom c)).inorder, e.2 = none → e.1 = c) →
      (∃ K, Bal (q.plug (.phantom c)) false K) → pp ∈ (q.plug (.phantom c)).addrs →
      ∃ res h2 T2, (do
          let cp ← rdParent h1 (some c)
          if cp ≠ none then do
            let cpl ← rdLeft h1 cp
            let h ← if cpl = some c then stLeft h1 cp none else stRight h1 cp none
            pure (some pp, h)
          else pure (none, h1) : Except Err (Option Nat × Heap)) = .ok (res, h2) ∧ Good h2 T2 ∧
        T2.real ∧ (∃ K, Bal T2 false K) ∧
        T2.inorder = (q.plug (.phantom c)).inorder.filter (fun e => e.2.isSome) ∧
        (res = none → T2 = .nil) ∧
        (∀ x, res = some x → ∃ top, ancestorTop h2 h2.next x = .ok top ∧ T2.ptr = some top) ∧
        (∀ x, res = some x → x ∈ T2.addrs ∨
          ∃ a, (h2.cell x).Parent = some a ∧ a ∈ T2.addrs) := by
    intro h1 q pp g1 hL hb hpp
    have cpar := good_parent g1 (t := .phantom c) rfl
    cases hq : q.ptr with
    | none =>
      have := pptr_eq_none.1 hq
      subst this
      refine ⟨none, h1, .nil, ?_, good_nil _, trivial, ⟨0, .nil⟩, ?_, fun _ => rfl, ?_, ?_⟩
      · simp [rdParent, cpar, hq, bind, Except.bind, pure, Except.pure]
      · rfl
      · intro x hx; cases hx
      · intro x hx; cases hx
    | some a =>
      obtain ⟨h2, e2, g2, cp2, hn2⟩ := good_unlink g1 hq
      obtain ⟨u1, u2, u3⟩ := unlink_facts rfl g1.2.1 hL hb
      refine ⟨some pp, h2, q.plug .nil, ?_, g2, u1, u2, u3, fun e => Option.noConfusion e, ?_, ?_⟩
      · simp only [rdParent, cpar, hq, rdLeft, bind, Except.bind, pure, Except.pure, ne_eq,
          reduceCtorEq, not_false_eq_true, if_true]
        by_cases hl : (h1.cell a).Left = some c
        · simp only [hl, if_true] at e2 ⊢
          rw [e2]
        · simp only [hl, if_false] at e2 ⊢
          rw [e2]
      · intro x hx
        cases hx
        rw [addrs_plug_mem] at hpp
        simp only [RBT.addrs, List.mem_singleton] at hpp
        rcases hpp with hpp | hpp
        · subst hpp
          have hlen : q.length ≤ h2.next := by
            have := good_size g1
            rw [hn2]; omega
          exact ancestorTop_child (good_plug.1 g2).2.1 (cp2.trans hq.symm) hlen .nil (Or.inl (by rw [hq]; simp))
        · exact ancestorTop_mem g2 (addrs_plug_mem.2 (Or.inr hpp))
      · intro x hx
        cases hx
        rw [addrs_plug_mem] at hpp
        simp only [RBT.addrs, List.mem_singleton] at hpp
        rcases hpp with hpp | hpp
        · subst hpp
          exact Or.inr ⟨a, cp2, addrs_plug_mem.2 (Or.inr (pptr_mem hq))⟩
        · exact Or.inl (addrs_plug_mem.2 (Or.inr hpp))
  cases hdr : (h.cell d).Red with
  | true =>
    obtain ⟨hX, hpb⟩ := hred hdr
    subst hX
    have hcf : cfake = true := by
      rcases hfk with ⟨h1, -⟩ | ⟨-, h2⟩
      · exact h1
      · exact h2.elim
    subst hcf
    have hL : ∀ e ∈ (Q.plug (.phantom c)).inorder, e.2 = none → e.1 = c :=
      inorder_phantom_only rfl hQ
    obtain ⟨res, h2, T2, e, rest⟩ := fin h Q c hg hL (hpb.fill .phantom)
      (addrs_plug_mem.2 (Or.inl (by simp [RBT.addrs])))
    refine ⟨res, h2, T2, ?_, rest⟩
    simp only [Node.deleteFinish, rdRed, hdr, bind, Except.bind, pure, Except.pure] at e ⊢
    simpa using e
  | false =>
    obtain ⟨hb1, hb2, hpb⟩ := hblk hdr
    obtain ⟨h1, pp, T1, e1, g1, hin1, hK1, hpp1⟩ :=
      deleteFixup_spec _ h.next h Q X c 0 le_rfl (Or.inl (by omega)) hg hc hb1 hb2 hpb
    rcases hfk with ⟨hcf, hX⟩ | ⟨hcf, hX⟩
    · subst hcf; subst hX
      have hmem : (c, none) ∈ T1.inorder := by
        rw [hin1, inorder_plug]; simp [RBT.inorder]
      obtain ⟨q, hq⟩ := focus_phantom hmem .top
      simp only [Path.plug] at hq
      subst hq
      have hL : ∀ e ∈ (q.plug (.phantom c)).inorder, e.2 = none → e.1 = c :=
        inorder_phantom_only hin1 hQ
      obtain ⟨res, h2, T2, e, r1, r2, r3, r4, r5⟩ := fin h1 q pp g1 hL hK1 hpp1
      refine ⟨res, h2, T2, ?_, r1, r2, r3, ?_, r5⟩
      · simp only [Node.deleteFinish, rdRed, hdr, bind, Except.bind, pure, Except.pure, e1] at e ⊢
        simpa using e
      · rw [r4, hin1]
    · subst hcf
      have hreal : T1.real := by
        rw [real_iff_inorder, hin1, inorder_plug]
        intro e he
        simp only [List.mem_append] at he
        rcases he with (he | he) | he
        · exact hQ _ (List.mem_append_left _ he)
        · exact (real_iff_inorder X).1 hX e he
        · exact hQ _ (List.mem_append_right _ he)
      refine ⟨some pp, h1, T1, ?_, g1, hreal, hK1, ?_, fun e => Option.noConfusion e, ?_, ?_⟩
      · simp [Node.deleteFinish, rdRed, hdr, bind, Except.bind, pure, Except.pure, e1]
      · rw [← hin1, real_inorder_filter hreal]
      · intro x hx
        cases hx
        exact ancestorTop_mem g1 hpp1
      · intro x hx
        cases hx
        exact Or.inl hpp1

theorem blackPaths_ne_nil (t : RBT) : t.blackPaths ≠ [] := by
  induction t with
  | nil => simp [RBT.blackPaths]
  | node a c v l r ihl ihr => simp [RBT.blackPaths, ihl]
  | phantom a => simp [RBT.blackPaths]

/-- The colour rules and equal black counts give the inductive balance. -/
theorem bal_of_paths : ∀ (t : RBT) (k : Nat), t.noRedRed → (∀ x ∈ t.blackPaths, x = k) →
    Bal t t.isRed k := by
  intro t
  induction t with
  | nil =>
    intro k _ hk
    have := hk 0 (by simp [RBT.blackPaths])
    subst this
    exact .nil
  | phantom a =>
    intro k _ hk
    have := hk 0 (by simp [RBT.blackPaths])
    subst this
    exact .phantom
  | node a c v l r ihl ihr =>
    intro k hn hk
    obtain ⟨hc, hnl, hnr⟩ := hn
    cases c with
    | true =>
      simp only [RBT.blackPaths, if_true, List.map_id', List.mem_append] at hk
      have h1 := ihl k hnl (fun x hx => hk x (Or.inl hx))
      have h2 := ihr k hnr (fun x hx => hk x (Or.inr hx))
      rw [(hc rfl).1] at h1
      rw [(hc rfl).2] at h2
      exact .red h1 h2
    | false =>
      simp only [RBT.blackPaths, Bool.false_eq_true, if_false, List.mem_map, List.mem_append] at hk
      obtain ⟨x, hx⟩ := List.exists_mem_of_ne_nil _ (blackPaths_ne_nil l)
      have hkx := hk (x + 1) ⟨x, Or.inl hx, rfl⟩
      subst hkx
      have h1 := ihl x hnl (fun y hy => by
        have := hk (y + 1) ⟨y, Or.inl hy, rfl⟩; omega)
      have h2 := ihr x hnr (fun y hy => by
        have := hk (y + 1) ⟨y, Or.inr hy, rfl⟩; omega)
      exact .black h1 h2

theorem RBT.redBlack.bal {t : RBT} (h : t.redBlack) : ∃ K, Bal t false K := by
  obtain ⟨-, hr, hn, k, hk⟩ := h
  have := bal_of_paths t k hn hk
  rw [hr] at this
  exact ⟨k, this⟩

theorem plug_app (q p : Path) (t : RBT) : (q.app p).plug t = p.plug (q.plug t) := by
  induction q generalizing t with
  | top => rfl
  | left a c v r up ih => simp [Path.app, Path.plug, ih]
  | right a c v l up ih => simp [Path.app, Path.plug, ih]

theorem pre_app (q p : Path) : (q.app p).pre = p.pre ++ q.pre := by
  induction q with
  | top => simp [Path.app, Path.pre]
  | left a c v r up ih => simp [Path.app, Path.pre, ih]
  | right a c v l up ih => simp [Path.app, Path.pre, ih]

theorem post_app (q p : Path) : (q.app p).post = q.post ++ p.post := by
  induction q with
  | top => simp [Path.app, Path.post]
  | left a c v r up ih => simp [Path.app, Path.post, ih]
  | right a c v l up ih => simp [Path.app, Path.post, ih]

theorem length_app (q p : Path) : (q.app p).length = q.length + p.length := by
  induction q with
  | top => simp [Path.app, Path.length]
  | left a c v r up ih => simp [Path.app, Path.length, ih]; omega
  | right a c v l up ih => simp [Path.app, Path.length, ih]; omega

/-- The balance of a path depends on its upper part only through the balance of that part. -/
theorem PBal.app_congr {q : Path} {P P2 : Path} (hP : ∀ c k, PBal P c k → PBal P2 c k) :
    ∀ {c : Bool} {k : Nat}, PBal (q.app P) c k → PBal (q.app P2) c k := by
  induction q with
  | top => intro c k hb; exact hP c k hb
  | left a e v r up ih =>
    intro c k hb
    simp only [Path.app] at hb ⊢
    cases hb with
    | leftB hr hu => exact .leftB hr (ih hu)
    | leftR hr hu => exact .leftR hr (ih hu)
  | right a e v l up ih =>
    intro c k hb
    simp only [Path.app] at hb ⊢
    cases hb with
    | rightB hl hu => exact .rightB hl (ih hu)
    | rightR hl hu => exact .rightR hl (ih hu)

theorem PBal.right_value {a : Nat} {e : Bool} {v w : Int} {l : RBT} {p : Path} {c : Bool} {k : Nat}
    (hb : PBal (.right a e v l p) c k) : PBal (.right a e w l p) c k := by
  cases hb with
  | rightB hl hu => exact .rightB hl hu
  | rightR hl hu => exact .rightR hl hu

/-- The walk of `Min` down the left children ends at the leftmost node of the subtree. -/
theorem leftmost_focus : ∀ (t : RBT) (a : Nat), t.real → t.ptr = some a →
    ∃ (q : Path) (d : Nat) (e : Bool) (w : Int) (dr : RBT),
      t = q.plug (.node d e w .nil dr) ∧ q.pre = [] ∧
      ∀ (h : Heap) (par : Option Nat), Rep h par t → ∀ fuel, q.length ≤ fuel →
        Node.minLoop h fuel a = .ok d := by
  intro t
  induction t with
  | nil => intro a _ hp; simp at hp
  | phantom f => intro a hr; exact hr.elim
  | node b c v l r ihl _ =>
    intro a hr hp
    simp only [ptr_node, Option.some.injEq] at hp
    subst hp
    cases hl : l.ptr with
    | none =>
      have := ptr_eq_none.1 hl
      subst this
      refine ⟨.top, b, c, v, r, rfl, rfl, ?_⟩
      intro h par hrep fuel _
      unfold Node.minLoop
      rw [hrep.1]
      simp
    | some la =>
      obtain ⟨q, d, e, w, dr, h1, h2, h3⟩ := ihl la hr.1 hl
      refine ⟨q.app (.left b c v r .top), d, e, w, dr, ?_, ?_, ?_⟩
      · rw [plug_app, ← h1]; rfl
      · rw [pre_app, h2]; rfl
      · intro h par hrep fuel hf
        rw [length_app] at hf
        simp only [Path.length] at hf
        obtain ⟨k, rfl⟩ : ∃ k, fuel = k + 1 := ⟨fuel - 1, by omega⟩
        unfold Node.minLoop
        rw [hrep.1]
        simp only [hl]
        exact h3 h (some b) hrep.2.1 k (by omega)

theorem real_plug {p : Path} {t : RBT} (hr : (p.plug t).real) :
    t.real ∧ ∀ e ∈ p.pre ++ p.post, e.2 ≠ none := by
  rw [real_iff_inorder, inorder_plug] at hr
  refine ⟨(real_iff_inorder t).2 fun e he => hr e ?_, fun e he => hr e ?_⟩
  · simp [he]
  · simp only [List.mem_append] at he ⊢
    tauto

/-- A tree without black nodes on its paths is empty or a single red node. -/
theorem Bal.zero_cases {t : RBT} {c : Bool} (hb : Bal t c 0) (hr : t.real) :
    t = .nil ∨ ∃ a v, t = .node a true v .nil .nil := by
  cases hb with
  | nil => exact Or.inl rfl
  | phantom => exact hr.elim
  | red hl hr2 =>
    right
    cases hl with
    | nil =>
      cases hr2 with
      | nil => exact ⟨_, _, rfl⟩
      | phantom => exact hr.2.elim
    | phantom => exact hr.1.elim

theorem Bal.nil_zero {c : Bool} {k : Nat} (hb : Bal .nil c k) : k = 0 := by
  cases hb; rfl

/-- Lines 144-176 of `delete`: the node `d` with at most one child is cut
out, its child (or a placeholder) takes its place. -/
theorem splice_spec {h : Heap} {Q : Path} {d : Nat} {e : Bool} {w : Int} {dL dR : RBT}
    (hg : Good h (Q.plug (.node d e w dL dR))) (hr : (Q.plug (.node d e w dL dR)).real)
    (hb : ∃ K, Bal (Q.plug (.node d e w dL dR)) false K) (hnil : dL = .nil ∨ dR = .nil) :
    ∃ c cfake h1 X, Node.deleteChild h (some d) = .ok (some c, cfake, h1) ∧
      Good h1 (Q.plug X) ∧ X.ptr = some c ∧
      ((cfake = true ∧ X = .phantom c) ∨ (cfake = false ∧ X.real)) ∧
      h1.cell d = h.cell d ∧ h.next ≤ h1.next ∧
      (e = true → X = .phantom c ∧ PBal Q false 0) ∧
      (e = false → (X.isRed = true → Bal X.blacken false 1) ∧
        (X.isRed = false → Bal X false 0) ∧ PBal Q false 1) ∧
      X.inorder.filter (fun e => e.2.isSome) = dL.inorder ++ dR.inorder := by
  obtain ⟨⟨hrl, hrr⟩, -⟩ := real_plug hr
  obtain ⟨K, hK⟩ := hb
  obtain ⟨cc, k, hbn, hpb⟩ := hK.zoom
  have hk : (e = true → k = 0 ∧ dL = .nil ∧ dR = .nil) ∧
      (e = false → k = 1 ∧ ∃ c1 c2, Bal dL c1 0 ∧ Bal dR c2 0) := by
    cases hbn with
    | red hl hr2 =>
      refine ⟨fun _ => ?_, fun e => Bool.noConfusion e⟩
      rcases hnil with rfl | rfl
      · have := hl.nil_zero; subst this
        rcases hr2.zero_cases hrr with rfl | ⟨a, v, rfl⟩
        · exact ⟨rfl, rfl, rfl⟩
        · cases hr2
      · have := hr2.nil_zero; subst this
        rcases hl.zero_cases hrl with rfl | ⟨a, v, rfl⟩
        · exact ⟨rfl, rfl, rfl⟩
        · cases hl
    | black hl hr2 =>
      refine ⟨fun e => Bool.noConfusion e, fun _ => ?_⟩
      rcases hnil with rfl | rfl
      · have := hl.nil_zero; subst this
        exact ⟨rfl, _, _, hl, hr2⟩
      · have := hr2.nil_zero; subst this
        exact ⟨rfl, _, _, hl, hr2⟩
  have hpbE : (e = true → PBal Q false 0) ∧ (e = false → PBal Q false 1) := by
    constructor
    · intro he
      have := (hk.1 he).1; subst this
      exact hpb.anyColor
    · intro he
      have := (hk.2 he).1; subst this
      exact hpb.anyColor
  -- the three shapes of the children
  have shapes : (dL = .nil ∧ dR = .nil) ∨
      (e = false ∧ ∃ a v, (dL = .node a true v .nil .nil ∧ dR = .nil) ∨
        (dL = .nil ∧ dR = .node a true v .nil .nil)) := by
    cases e with
    | true => exact Or.inl (hk.1 rfl).2
    | false =>
      obtain ⟨-, c1, c2, h1, h2⟩ := hk.2 rfl
      rcases h1.zero_cases hrl with rfl | ⟨a, v, rfl⟩
      · rcases h2.zero_cases hrr with rfl | ⟨a, v, rfl⟩
        · exact Or.inl ⟨rfl, rfl⟩
        · exact Or.inr ⟨rfl, a, v, Or.inr ⟨rfl, rfl⟩⟩
      · rcases h2.zero_cases hrr with rfl | ⟨a2, v2, rfl⟩
        · exact Or.inr ⟨rfl, a, v, Or.inl ⟨rfl, rfl⟩⟩
        · rcases hnil with hn | hn <;> cases hn
  rcases shapes with ⟨rfl, rfl⟩ | ⟨rfl, a, v, ⟨rfl, rfl⟩ | ⟨rfl, rfl⟩⟩
  · obtain ⟨h1, e1, g1, c1, n1⟩ := deleteChild_phantom hg
    refine ⟨h.next, true, h1, .phantom h.next, e1, g1, rfl, Or.inl ⟨rfl, rfl⟩, c1, by omega,
      fun he => ⟨rfl, hpbE.1 he⟩, fun he => ⟨fun x => Bool.noConfusion x, fun _ => .phantom,
        hpbE.2 he⟩, ?_⟩
    simp [RBT.inorder]
  · obtain ⟨h1, e1, g1, c1, n1⟩ := deleteChild_real (X := .node a true v .nil .nil) hg rfl
      (Or.inl ⟨rfl, rfl⟩)
    refine ⟨a, false, h1, _, e1, g1, rfl, Or.inr ⟨rfl, trivial, trivial⟩, c1, by omega,
      fun he => Bool.noConfusion he, fun _ => ⟨fun _ => .black .nil .nil,
        fun x => Bool.noConfusion x, hpbE.2 rfl⟩, ?_⟩
    simp [RBT.inorder]
  · obtain ⟨h1, e1, g1, c1, n1⟩ := deleteChild_real (X := .node a true v .nil .nil) hg rfl
      (Or.inr ⟨rfl, rfl⟩)
    refine ⟨a, false, h1, _, e1, g1, rfl, Or.inr ⟨rfl, trivial, trivial⟩, c1, by omega,
      fun he => Bool.noConfusion he, fun _ => ⟨fun _ => .black .nil .nil,
        fun x => Bool.noConfusion x, hpbE.2 rfl⟩, ?_⟩
    simp [RBT.inorder]

/-- The node-level `delete` (rbt.go, lines 136-196) on a node with at most one child. -/
theorem delete_spec_leaf {h : Heap} {p : Path} {n : Nat} {c : Bool} {v : Int} {l r : RBT}
    (hg : Good h (p.plug (.node n c v l r))) (hr : (p.plug (.node n c v l r)).real)
    (hb : ∃ K, Bal (p.plug (.node n c v l r)) false K) (hnil : l = .nil ∨ r = .nil) :
    ∃ res h2 T2, Node.delete h (some n) = .ok (res, h2) ∧ Good h2 T2 ∧ T2.real ∧
      (∃ K, Bal T2 false K) ∧ T2.inorder = p.pre ++ (l.inorder ++ r.inorder) ++ p.post ∧
      (res = none → T2 = .nil) ∧
      (∀ x, res = some x → ∃ top, ancestorTop h2 h2.next x = .ok top ∧ T2.ptr = some top) ∧
      (∀ x, res = some x → x ∈ T2.addrs ∨ ∃ a, (h2.cell x).Parent = some a ∧ a ∈ T2.addrs) := by
  have cn := good_cell hg
  obtain ⟨hrn, hrp⟩ := real_plug hr
  obtain ⟨x, cfake, h1, X, e1, g1, hx, hfk, c1, n1, hred, hblk, hin⟩ := splice_spec hg hr hb hnil
  have hR : (h1.cell n).Red = c := by rw [c1, cn]
  obtain ⟨res, h2, T2, e2, g2, r2, b2, i2, rest⟩ := deleteFinish_spec (d := n) g1 hx hfk hrp
    (fun e => hred (hR ▸ e)) (fun e => hblk (hR ▸ e))
  refine ⟨res, h2, T2, ?_, g2, r2, b2, ?_, rest⟩
  · have hcond : (decide (l.ptr = none) || decide (r.ptr = none)) = true := by
      rcases hnil with rfl | rfl <;> simp
    simp only [Node.delete, rdLeft, rdRight, cn, bind, Except.bind, pure, Except.pure, hcond,
      if_true, e1, ne_eq, not_true_eq_false, if_false]
    exact e2
  · rw [i2, inorder_plug, List.filter_append, List.filter_append, hin, filter_real_self
      (fun e he => hrp e (List.mem_append_left _ he)), filter_real_self
      (fun e he => hrp e (List.mem_append_right _ he))]

/-- The node-level `delete` (rbt.go, lines 136-196) on a node with two
children: the successor is cut out and its value moves into the node. -/
theorem delete_spec_two {h : Heap} {p : Path} {n : Nat} {c : Bool} {v : Int} {l r : RBT}
    (hg : Good h (p.plug (.node n c v l r))) (hr : (p.plug (.node n c v l r)).real)
    (hb : ∃ K, Bal (p.plug (.node n c v l r)) false K) (hl : l.ptr ≠ none)
    (hrr : r.ptr ≠ none) :
    ∃ res h2 T2 d w rest, Node.delete h (some n) = .ok (res, h2) ∧ Good h2 T2 ∧ T2.real ∧
      (∃ K, Bal T2 false K) ∧
      Node.Successor h (some n) = .ok (some d) ∧ (h.cell d).Value = w ∧
      r.inorder = (d, some w) :: rest ∧
      T2.inorder = p.pre ++ l.inorder ++ (n, some w) :: rest ++ p.post ∧
      (res = none → T2 = .nil) ∧
      (∀ x, res = some x → ∃ top, ancestorTop h2 h2.next x = .ok top ∧ T2.ptr = some top) ∧
      (∀ x, res = some x → x ∈ T2.addrs ∨ ∃ a, (h2.cell x).Parent = some a ∧ a ∈ T2.addrs) := by
  have cn := good_cell hg
  obtain ⟨⟨hrl, hrR⟩, hrp⟩ := real_plug hr
  obtain ⟨ra, hra⟩ := Option.ne_none_iff_exists'.1 hrr
  obtain ⟨q, d, e, w, dr, hq, hpre, hmin⟩ := leftmost_focus r ra hrR hra
  subst hq
  -- the tree seen from the successor
  have hplug : ∀ (u : Int) (X : RBT), p.plug (.node n c u l (q.plug X)) =
      (q.app (.right n c u l p)).plug X := fun u X => by rw [plug_app]; rfl
  rw [hplug] at hg hr hb
  have cd := good_cell hg
  have hsz := good_size hg
  rw [length_app] at hsz
  simp only [Path.length] at hsz
  have hrep : Rep h (some n) (q.plug (.node d e w .nil dr)) := by
    have := hg
    rw [← hplug] at this
    exact (good_rep this).2.2
  have hsucc : Node.Successor h (some n) = .ok (some d) := by
    simp only [Node.Successor, cn, hra, Node.Min]
    rw [hmin h (some n) hrep h.next (by omega)]
    rfl
  have hdn : d ≠ n := by
    have := hg.2.1
    rw [← hplug] at this
    have h2 := (List.nodup_append.1 ((addrs_plug p _).nodup_iff.1 this)).1
    simp only [RBT.addrs] at h2
    have h3 := (List.nodup_cons.1 (List.nodup_append.1 h2).2.1).1
    intro e
    subst e
    exact h3 (addrs_plug_mem.2 (Or.inl (by simp [RBT.addrs])))
  obtain ⟨x, cfake, h1, X, e1, g1, hx, hfk, c1, n1, hred, hblk, hin⟩ :=
    splice_spec hg hr hb (Or.inl rfl)
  -- the value of the successor moves into `n`
  have g1b : Good (h1.wrValue n w) ((q.app (.right n c w l p)).plug X) := by
    rw [← hplug] at g1 ⊢
    exact good_wrValue w g1
  have hR : ((h1.wrValue n w).cell d).Red = e := by
    rw [wrValue_Red, c1, cd]
  have hrq2 := (real_plug hr).2
  rw [pre_app, post_app] at hrq2
  have hQ : ∀ x ∈ (q.app (.right n c w l p)).pre ++ (q.app (.right n c w l p)).post,
      x.2 ≠ none := by
    intro x hx2
    rw [pre_app, post_app] at hx2
    simp only [Path.pre, Path.post, List.mem_append, List.mem_singleton] at hx2 hrq2
    rcases hx2 with (((h3 | h3) | h3) | h3) | h3 | h3
    · exact hrq2 x (Or.inl (Or.inl (Or.inl (Or.inl h3))))
    · exact hrq2 x (Or.inl (Or.inl (Or.inl (Or.inr h3))))
    · rw [h3]; simp
    · exact hrq2 x (Or.inl (Or.inr h3))
    · exact hrq2 x (Or.inr (Or.inl h3))
    · exact hrq2 x (Or.inr (Or.inr h3))
  have hpbv : ∀ k, PBal (q.app (.right n c v l p)) false k →
      PBal (q.app (.right n c w l p)) false k :=
    fun k hk => PBal.app_congr (fun _ _ hb2 => hb2.right_value) hk
  obtain ⟨res, h2, T2, e2, g2, r2, b2, i2, rest⟩ := deleteFinish_spec (d := d) g1b hx hfk hQ
    (fun e => ⟨(hred (hR ▸ e)).1, hpbv _ (hred (hR ▸ e)).2⟩)
    (fun e => ⟨(hblk (hR ▸ e)).1, (hblk (hR ▸ e)).2.1, hpbv _ (hblk (hR ▸ e)).2.2⟩)
  refine ⟨res, h2, T2, d, w, dr.inorder ++ q.post, ?_, g2, r2, b2, hsucc, by rw [cd], ?_, ?_, rest⟩
  · have hv : (h1.cell d).Value = w := by rw [c1, cd]
    simp only [Node.delete, rdLeft, rdRight, cn, bind, Except.bind, pure, Except.pure, hra, hl,
      decide_False, Bool.or_self, Bool.false_eq_true, if_false, hsucc, e1, rdValue, stValue, hv,
      ne_eq, Option.some.injEq, hdn, not_false_eq_true, if_true, reduceCtorEq]
    exact e2
  · rw [inorder_plug, hpre]
    simp [RBT.inorder]
  · rw [i2, inorder_plug, pre_app, post_app, hpre]
    simp only [Path.pre, Path.post, List.filter_append, hin, RBT.inorder, List.nil_append,
      List.append_nil]
    have f1 := filter_real_self (fun x hx => hrp x (List.mem_append_left _ hx))
    have f2 := real_inorder_filter hrl
    have f3 := filter_real_self (fun x hx => (real_plug hrR).2 x (List.mem_append_right _ hx))
    have f4 := filter_real_self (fun x hx => hrp x (List.mem_append_right _ hx))
    rw [f1, f2, f3, f4]
    simp

/-- The loop of `Find` ends, at nil or at a node of the subtree it started in. -/
theorem findLoop_spec {h : Heap} {v : Int} : ∀ (t : RBT) (par : Option Nat) (fuel : Nat),
    Rep h par t → t.real → t.height ≤ fuel →
    ∃ r, Node.findLoop h v fuel t.ptr = .ok r ∧ ∀ x, r = some x → x ∈ t.nodes := by
  intro t
  induction t with
  | nil =>
    intro par fuel _ _ _
    refine ⟨none, ?_, fun x hx => by cases hx⟩
    simp [Node.findLoop]
  | phantom f => intro par fuel _ hr; exact hr.elim
  | node a c w l r ihl ihr =>
    intro par fuel hrep hr hf
    simp only [RBT.height] at hf
    obtain ⟨k, rfl⟩ : ∃ k, fuel = k + 1 := ⟨fuel - 1, by omega⟩
    simp only [ptr_node, Node.findLoop, hrep.1]
    by_cases h1 : w = v
    · refine ⟨some a, by simp [h1], fun x hx => ?_⟩
      cases hx
      simp [RBT.nodes]
    · by_cases h2 : v > w
      · obtain ⟨res, e, hm⟩ := ihr (some a) k hrep.2.2 hr.2 (by omega)
        refine ⟨res, by simp [h1, h2, e], fun x hx => ?_⟩
        simp [RBT.nodes, hm x hx]
      · obtain ⟨res, e, hm⟩ := ihl (some a) k hrep.2.1 hr.1 (by omega)
        refine ⟨res, by simp [h1, h2, e], fun x hx => ?_⟩
        simp [RBT.nodes, hm x hx]

theorem find_spec {h : Heap} {T : RBT} (hg : Good h T) (hr : T.real) (v : Int) :
    ∃ r, Node.Find h T.ptr v = .ok r ∧ ∀ x, r = some x → x ∈ T.nodes :=
  findLoop_spec T none h.next hg.1 hr (good_height hg)

/-- The value stored at a node is the value listed for it. -/
theorem Rep.value {h : Heap} : ∀ {t : RBT} {par : Option Nat} {a : Nat} {w : Int},
    Rep h par t → (a, some w) ∈ t.inorder → (h.cell a).Value = w ∧ a ∈ t.nodes := by
  intro t
  induction t with
  | nil => intro par a w _ hm; simp [RBT.inorder] at hm
  | phantom f => intro par a w _ hm; simp [RBT.inorder] at hm
  | node b c v l r ihl ihr =>
    intro par a w hrep hm
    simp only [RBT.inorder, List.mem_append, List.mem_cons, Prod.mk.injEq, Option.some.injEq] at hm
    rcases hm with hm | ⟨rfl, rfl⟩ | hm
    · have := ihl hrep.2.1 hm
      exact ⟨this.1, by simp [RBT.nodes, this.2]⟩
    · exact ⟨by rw [hrep.1], by simp [RBT.nodes]⟩
    · have := ihr hrep.2.2 hm
      exact ⟨this.1, by simp [RBT.nodes, this.2]⟩

theorem nodes_sublist (t : RBT) : t.nodes.Sublist t.addrs := by
  induction t with
  | nil => exact List.Sublist.refl _
  | phantom f => simp [RBT.nodes, RBT.addrs]
  | node a c v l r ihl ihr =>
    simp only [RBT.nodes, RBT.addrs]
    exact ihl.append (ihr.cons₂ a)

theorem filterMap_lengths (L : List (Nat × Option Int)) :
    (L.filterMap (fun e => e.2.map (fun _ => e.1))).length = (L.filterMap Prod.snd).length := by
  induction L with
  | nil => rfl
  | cons e L ih =>
    obtain ⟨a, o⟩ := e
    cases o <;> simp [List.filterMap_cons, ih]

/-- The position of a node in a list without repetitions. -/
theorem index_of_split {X Y : List Nat} {n i : Nat} (hnd : (X ++ n :: Y).Nodup)
    (hi : (X ++ n :: Y)[i]? = some n) : i = X.length := by
  have h1 : (X ++ n :: Y)[X.length]? = some n := by
    rw [List.getElem?_append_right (le_refl _)]; simp
  have hlt : i < (X ++ n :: Y).length := by
    by_contra hc
    rw [List.getElem?_eq_none (by omega)] at hi
    cases hi
  exact (List.getElem?_inj hlt hnd (hi.trans h1.symm))

/-- The node-level `delete` (rbt.go, lines 136-196) on a node of a red-black tree. -/
theorem delete_spec {h : Heap} {p : Path} {n : Nat} {c : Bool} {v : Int} {l r : RBT}
    (hg : Good h (p.plug (.node n c v l r))) (hr : (p.plug (.node n c v l r)).real)
    (hb : ∃ K, Bal (p.plug (.node n c v l r)) false K) :
    ∃ res h2 T2, Node.delete h (some n) = .ok (res, h2) ∧ Good h2 T2 ∧ T2.real ∧
      (∃ K, Bal T2 false K) ∧ (res = none → T2 = .nil) ∧
      (∀ x, res = some x → ∃ top, ancestorTop h2 h2.next x = .ok top ∧ T2.ptr = some top) ∧
      T2.vals = (p.pre ++ l.inorder).filterMap Prod.snd ++
        (r.inorder ++ p.post).filterMap Prod.snd ∧
      (l.ptr ≠ none → r.ptr ≠ none → ∃ d, Node.Successor h (some n) = .ok (some d) ∧
        (n, some (h.cell d).Value) ∈ T2.inorder) := by
  by_cases hl : l.ptr = none
  · obtain ⟨res, h2, T2, e, g2, r2, b2, i2, n2, a2, -⟩ :=
      delete_spec_leaf hg hr hb (Or.inl (ptr_eq_none.1 hl))
    refine ⟨res, h2, T2, e, g2, r2, b2, n2, a2, ?_, fun h1 => absurd hl h1⟩
    rw [vals_eq_inorder, i2]
    simp [List.filterMap_append]
  · by_cases hrr : r.ptr = none
    · obtain ⟨res, h2, T2, e, g2, r2, b2, i2, n2, a2, -⟩ :=
        delete_spec_leaf hg hr hb (Or.inr (ptr_eq_none.1 hrr))
      refine ⟨res, h2, T2, e, g2, r2, b2, n2, a2, ?_, fun _ h1 => absurd hrr h1⟩
      rw [vals_eq_inorder, i2]
      simp [List.filterMap_append]
    · obtain ⟨res, h2, T2, d, w, rest, e, g2, r2, b2, hs, hw, hri, i2, n2, a2, -⟩ :=
        delete_spec_two hg hr hb hl hrr
      refine ⟨res, h2, T2, e, g2, r2, b2, n2, a2, ?_, fun _ _ => ⟨d, hs, ?_⟩⟩
      · rw [vals_eq_inorder, i2, hri]
        simp [List.filterMap_append]
      · rw [hw, i2]
        simp

/-- The end of `Tree.Delete` (rbt.go, lines 37-48): once `Find` has given a
node and the node-level `delete` has returned, `Delete` returns true. -/
theorem Tree.Delete_found {h h2 : Heap} {t : Tree} {v : Int} {n : Nat} {res : Option Nat}
    (hf : Node.Find h t.Root v = .ok (some n)) (hd : Node.delete h (some n) = .ok (res, h2)) :
    ∃ t2, Tree.Delete h t v = .ok (true, t2, h2) := by
  simp only [Tree.Delete, hf, hd, bind, Except.bind, pure, Except.pure, reduceCtorEq, if_false]
  cases res with
  | none => exact ⟨_, by simp; rfl⟩
  | some x =>
    simp only [rdParent, reduceCtorEq, if_false]
    cases h1 : (h2.cell x).Parent with
    | none => exact ⟨_, by simp; rfl⟩
    | some y =>
      simp only [reduceCtorEq, if_false]
      cases h3 : (h2.cell y).Parent with
      | none => exact ⟨_, by simp; rfl⟩
      | some z =>
        simp only [reduceCtorEq, if_false]
        cases h4 : (h2.cell z).Parent with
        | none => exact ⟨_, by simp; rfl⟩
        | some u => exact ⟨_, by simp; rfl⟩

theorem sample_good : Good sampleHeap sampleTree :=
  ⟨⟨rfl, ⟨rfl, trivial, trivial⟩, ⟨rfl, trivial, trivial⟩⟩, by decide, by decide⟩

theorem sample_redBlack : sampleTree.redBlack :=
  ⟨⟨⟨trivial, trivial⟩, ⟨trivial, trivial⟩⟩, rfl, by simp [sampleTree, RBT.noRedRed, RBT.isRed], 1, by decide⟩

/-- C8 (counterexample): in the tree whose black root 1 has the black node 0 as
its only child, `Root.Find(0)` is not nil, yet `Delete(0)` does not return:
`deleteFixup` reads the `Red` field of the missing right child of the root. -/
theorem delete_stops_on_unbalanced_tree :
    Node.Find lopsidedHeap (some 0) 0 = .ok (some 1) ∧
      Tree.Delete lopsidedHeap ⟨some 0⟩ 0 = .error .nilDeref :=
  ⟨rfl, rfl⟩

/-- A state reached through `Insert` and `Delete` alone in which `Root.Find(1)`
gives a node and `Delete(1)` stops at a nil dereference: `Delete(1)` after
Insert 1, 2, 3, 5, 6, 4 leaves `Root` below the top of the tree, and the later
calls work on that stale `Root`. -/
theorem delete_stops_after_stale_root :
    findAfter [.ins 1, .ins 2, .ins 3, .ins 5, .ins 6, .ins 4, .del 1, .ins 1, .ins 2, .del 2,
        .ins 7] 1 = .ok (some 7) ∧
      run [.ins 1, .ins 2, .ins 3, .ins 5, .ins 6, .ins 4, .del 1, .ins 1, .ins 2, .del 2,
        .ins 7, .del 1] start = .error .nilDeref :=
  ⟨rfl, rfl⟩

/-- Lines 32-35 of `Tree.Delete`: when `Find` gives nil, false is returned
and nothing has been written, whatever the shape of the tree. -/
theorem Tree.Delete_absent {h : Heap} {t : Tree} {v : Int}
    (hf : Node.Find h t.Root v = .ok none) : Tree.Delete h t v = .ok (false, t, h) := by
  simp [Tree.Delete, hf, bind, Except.bind, pure, Except.pure]

/-- Whenever `Tree.Delete` returns, `Find` has returned, false is returned
exactly when `Find` gave nil, and then nothing has been written. -/
theorem Tree.Delete_returned {h h2 : Heap} {t t2 : Tree} {v : Int} {b : Bool}
    (hd : Tree.Delete h t v = .ok (b, t2, h2)) :
    ∃ r, Node.Find h t.Root v = .ok r ∧ (b = false ↔ r = none) ∧ (b = false → t2 = t ∧ h2 = h) ∧
      (r ≠ none → b = true) := by
  cases hf : Node.Find h t.Root v with
  | error e => simp [Tree.Delete, hf, bind, Except.bind] at hd
  | ok r =>
    cases r with
    | none =>
      rw [Tree.Delete_absent hf] at hd
      simp only [Except.ok.injEq, Prod.mk.injEq] at hd
      obtain ⟨rfl, rfl, rfl⟩ := hd
      exact ⟨none, rfl, by simp, fun _ => ⟨rfl, rfl⟩, fun e => absurd rfl e⟩
    | some n =>
      cases hn : Node.delete h (some n) with
      | error e => simp [Tree.Delete, hf, hn, bind, Except.bind] at hd
      | ok p =>
        obtain ⟨res, h3⟩ := p
        obtain ⟨t3, e3⟩ := Tree.Delete_found hf hn
        rw [e3] at hd
        simp only [Except.ok.injEq, Prod.mk.injEq] at hd
        obtain ⟨rfl, -, -⟩ := hd
        exact ⟨some n, rfl, by simp, fun e => Bool.noConfusion e, fun _ => rfl⟩

/-- On a tree held by the heap, `Find` started at any of its nodes (or at nil)
ends, at nil or at a node of the tree. -/
theorem find_from_node {h : Heap} {T : RBT} (hg : Good h T) (hr : T.real) (root : Option Nat)
    (hroot : root = none ∨ ∃ a, root = some a ∧ a ∈ T.nodes) (v : Int) :
    ∃ r, Node.Find h root v = .ok r ∧ ∀ x, r = some x → x ∈ T.nodes := by
  rcases hroot with rfl | ⟨a, rfl, ha⟩
  · exact ⟨none, by simp [Node.Find, Node.findLoop], fun x hx => Option.noConfusion hx⟩
  · obtain ⟨q, c, w, l, r, hq⟩ := focus_node ha .top
    simp only [Path.plug] at hq
    subst hq
    have hsz := good_size hg
    have hht := height_le_addrs (.node a c w l r)
    have hrep := good_rep hg
    have hreal := (real_plug hr).1
    obtain ⟨res, e, hm⟩ := findLoop_spec (h := h) (v := v) (.node a c w l r) q.ptr h.next hrep hreal
      (by omega)
    refine ⟨res, e, fun x hx => ?_⟩
    have := hm x hx
    rw [nodes_eq_inorder, inorder_plug]
    rw [nodes_eq_inorder] at this
    simp only [List.filterMap_append, List.mem_append]
    exact Or.inl (Or.inr this)

theorem stale_redBlack : staleTree.redBlack :=
  ⟨⟨⟨⟨trivial, trivial⟩, ⟨trivial, trivial⟩⟩, ⟨trivial, trivial⟩⟩, rfl,
    by simp [staleTree, RBT.noRedRed, RBT.isRed], 2, by decide⟩

/-- C8 (amended).  For every tree handle, heap and value `v`: when
`Root.Find(v)` gives nil, `Delete(v)` returns false and the tree handle and
the heap are unchanged; whenever `Delete(v)` returns, it returns false exactly
when `Root.Find(v)` gave nil (and then nothing is changed), and true in every
other case; and `Find` and `Delete(v)` do return when the nodes form a tree
that satisfies the red-black invariants and `Root` is nil or any node of that
tree, the top or not. -/
theorem delete_false_iff_find_nil (h : Heap) (t : Tree) (v : Int) :
    (Node.Find h t.Root v = .ok none → Tree.Delete h t v = .ok (false, t, h)) ∧
    (∀ b t2 h2, Tree.Delete h t v = .ok (b, t2, h2) →
      ∃ r, Node.Find h t.Root v = .ok r ∧ (b = false ↔ r = none) ∧
        (b = false → t2 = t ∧ h2 = h) ∧ (r ≠ none → b = true)) ∧
    (∀ T, Good h T → T.redBlack → (t.Root = none ∨ ∃ a, t.Root = some a ∧ a ∈ T.nodes) →
      ∃ r b t2 h2, Node.Find h t.Root v = .ok r ∧ Tree.Delete h t v = .ok (b, t2, h2) ∧
        (b = false ↔ r = none) ∧ (r = none → t2 = t ∧ h2 = h) ∧ (r ≠ none → b = true)) := by
  refine ⟨Tree.Delete_absent, fun b t2 h2 hd => Tree.Delete_returned hd, ?_⟩
  intro T hg hrb hroot
  obtain ⟨r, hf, hm⟩ := find_from_node hg hrb.1 t.Root hroot v
  cases r with
  | none =>
    exact ⟨none, false, t, h, hf, Tree.Delete_absent hf, by simp, fun _ => ⟨rfl, rfl⟩,
      fun e => absurd rfl e⟩
  | some n =>
    obtain ⟨q, c, w, l, rr, hq⟩ := focus_node (hm n rfl) .top
    simp only [Path.plug] at hq
    subst hq
    obtain ⟨res, h2, T2, e, -⟩ := delete_spec hg hrb.1 hrb.bal
    obtain ⟨t2, e2⟩ := Tree.Delete_found hf e
    exact ⟨some n, true, t2, h2, hf, e2, by simp, fun e => Option.noConfusion e, fun _ => rfl⟩

/-- C8 (witness): the amended statement at the tree whose black root 1 has
only the black child 0 and the absent value 5, and at the state after the
calls Insert 1, 2, 3, 5, 6, 4, Delete 1 on the empty tree, in which `Root` is
the node holding 2, whose `Parent` is not nil, and the nodes still form a
red-black tree: there Delete(99) returns false and changes nothing, and
Delete(2) returns true. -/
theorem delete_false_iff_find_nil_witness :
    (Node.Find lopsidedHeap (some 0) 5 = .ok none ∧
      Tree.Delete lopsidedHeap ⟨some 0⟩ 5 = .ok (false, ⟨some 0⟩, lopsidedHeap)) ∧
    ∃ s, run [.ins 1, .ins 2, .ins 3, .ins 5, .ins 6, .ins 4, .del 1] start = .ok s ∧
      s.1.Root = some 1 ∧ (s.2.cell 1).Parent = some 2 ∧ Good s.2 staleTree ∧
      staleTree.redBlack ∧ 1 ∈ staleTree.nodes ∧
      (Node.Find s.2 s.1.Root 99 = .ok none ∧ Tree.Delete s.2 s.1 99 = .ok (false, s.1, s.2)) ∧
      (∃ t2 h2, Tree.Delete s.2 s.1 2 = .ok (true, t2, h2) ∧
        ∃ r, Node.Find s.2 s.1.Root 2 = .ok r ∧ (true = false ↔ r = none) ∧
          (true = false → t2 = s.1 ∧ h2 = s.2) ∧ (r ≠ none → true = true)) ∧
      ∃ r b t2 h2, Node.Find s.2 s.1.Root 2 = .ok r ∧ Tree.Delete s.2 s.1 2 = .ok (b, t2, h2) ∧
        (b = false ↔ r = none) ∧ (r = none → t2 = s.1 ∧ h2 = s.2) ∧ (r ≠ none → b = true) :=
  ⟨⟨rfl, (delete_false_iff_find_nil lopsidedHeap ⟨some 0⟩ 5).1 rfl⟩,
    _, rfl, rfl, rfl,
    ⟨⟨rfl, ⟨rfl, ⟨rfl, trivial, trivial⟩, ⟨rfl, trivial, trivial⟩⟩, ⟨rfl, trivial, trivial⟩⟩,
      by decide, by decide⟩,
    stale_redBlack, by decide,
    ⟨rfl, (delete_false_iff_find_nil _ _ 99).1 rfl⟩,
    ⟨_, _, rfl, (delete_false_iff_find_nil _ _ 2).2.1 true _ _ rfl⟩,
    (delete_false_iff_find_nil _ _ 2).2.2 staleTree
      ⟨⟨rfl, ⟨rfl, ⟨rfl, trivial, trivial⟩, ⟨rfl, trivial, trivial⟩⟩, ⟨rfl, trivial, trivial⟩⟩,
        by decide, by decide⟩
      stale_redBlack (Or.inr ⟨1, rfl, by decide⟩)⟩

/-- C9: on a tree that satisfies the red-black invariants, with consistent
`Parent` links, the node-level `delete` of any of its nodes returns, and the
tree whose top is the parentless ancestor of the returned node (the empty
tree when nil is returned) satisfies the red-black invariants again. -/
theorem delete_keeps_redBlack (h : Heap) (T : RBT) (n : Nat)
    (hg : Good h T) (hrb : T.redBlack) (hn : n ∈ T.nodes) :
    ∃ res h2 T2, Node.delete h (some n) = .ok (res, h2) ∧ Good h2 T2 ∧ T2.redBlack ∧
      (res = none → T2 = .nil) ∧
      (∀ x, res = some x → ∃ top, ancestorTop h2 h2.next x = .ok top ∧ T2.ptr = some top) := by
  obtain ⟨q, c, w, l, rr, hq⟩ := focus_node hn .top
  simp only [Path.plug] at hq
  subst hq
  obtain ⟨res, h2, T2, e, g2, r2, ⟨K, b2⟩, n2, a2, -⟩ := delete_spec hg hrb.1 hrb.bal
  exact ⟨res, h2, T2, e, g2, b2.redBlack r2, n2, a2⟩

/-- C9 (witness): the statement at the tree 3, 5, 8 and its root. -/
theorem delete_keeps_redBlack_witness :
    Good sampleHeap sampleTree ∧ sampleTree.redBlack ∧ 0 ∈ sampleTree.nodes ∧
      ∃ res h2 T2, Node.delete sampleHeap (some 0) = .ok (res, h2) ∧ Good h2 T2 ∧ T2.redBlack ∧
        (res = none → T2 = .nil) ∧
        (∀ x, res = some x → ∃ top, ancestorTop h2 h2.next x = .ok top ∧ T2.ptr = some top) :=
  ⟨sample_good, sample_redBlack, by decide,
    delete_keeps_redBlack sampleHeap sampleTree 0 sample_good sample_redBlack (by decide)⟩

/-- C10: on a tree that satisfies the red-black invariants, the node-level
`delete` of the node `n` at position `i` of the in-order sequence returns, and
the tree topped by the parentless ancestor of the returned node (empty when
nil is returned) holds no placeholder, has one node fewer, and lists the
original values with the entry at position `i` removed; when `n` has two
children, `n` stays in the tree and holds the value of its successor. -/
theorem delete_removes_entry (h : Heap) (T : RBT) (n i : Nat)
    (hg : Good h T) (hrb : T.redBlack) (hi : T.nodes[i]? = some n) :
    ∃ res h2 T2, Node.delete h (some n) = .ok (res, h2) ∧ Good h2 T2 ∧
      (res = none → T2 = .nil) ∧
      (∀ x, res = some x → ∃ top, ancestorTop h2 h2.next x = .ok top ∧ T2.ptr = some top) ∧
      T2.real ∧ T2.vals = T.vals.eraseIdx i ∧ T2.nodes.length + 1 = T.nodes.length ∧
      ((h.cell n).Left ≠ none → (h.cell n).Right ≠ none →
        ∃ d, Node.Successor h (some n) = .ok (some d) ∧ n ∈ T2.nodes ∧
          (h2.cell n).Value = (h.cell d).Value) := by
  have hn : n ∈ T.nodes := by
    obtain ⟨hlt, he⟩ := List.getElem?_eq_some.1 hi
    exact he ▸ List.getElem_mem hlt
  obtain ⟨q, c, w, l, rr, hq⟩ := focus_node hn .top
  simp only [Path.plug] at hq
  subst hq
  have cn := good_cell hg
  obtain ⟨res, h2, T2, e, g2, r2, b2, n2, a2, v2, s2⟩ := delete_spec hg hrb.1 hrb.bal
  have hnodes : (q.plug (.node n c w l rr)).nodes =
      (q.pre ++ l.inorder).filterMap (fun e => e.2.map (fun _ => e.1)) ++
        n :: (rr.inorder ++ q.post).filterMap (fun e => e.2.map (fun _ => e.1)) := by
    rw [nodes_eq_inorder, inorder_plug]
    simp [RBT.inorder, List.filterMap_append]
  have hvals : (q.plug (.node n c w l rr)).vals =
      (q.pre ++ l.inorder).filterMap Prod.snd ++
        w :: (rr.inorder ++ q.post).filterMap Prod.snd := by
    rw [vals_eq_inorder, inorder_plug]
    simp [RBT.inorder, List.filterMap_append]
  have hnd : (q.plug (.node n c w l rr)).nodes.Nodup := hg.2.1.sublist (nodes_sublist _)
  have hidx : i = ((q.pre ++ l.inorder).filterMap Prod.snd).length := by
    rw [hnodes] at hnd hi
    rw [index_of_split hnd hi, filterMap_lengths]
  have hv : T2.vals = (q.plug (.node n c w l rr)).vals.eraseIdx i := by
    rw [v2, hvals, hidx, List.eraseIdx_append_of_length_le (le_refl _)]
    simp
  refine ⟨res, h2, T2, e, g2, n2, a2, r2, hv, ?_, ?_⟩
  · rw [nodes_length, nodes_length, v2, hvals]
    simp only [List.length_append, List.length_cons]
    omega
  · intro h1 h3
    rw [cn] at h1 h3
    obtain ⟨d, hs, hm⟩ := s2 h1 h3
    have := g2.1.value hm
    exact ⟨d, hs, this.2, this.1⟩

/-- C10 (witness): the statement at the tree 3, 5, 8 and its root, which is at
position 1 of the in-order sequence. -/
theorem delete_removes_entry_witness :
    Good sampleHeap sampleTree ∧ sampleTree.redBlack ∧ sampleTree.nodes[1]? = some 0 ∧
      ∃ res h2 T2, Node.delete sampleHeap (some 0) = .ok (res, h2) ∧ Good h2 T2 ∧
        (res = none → T2 = .nil) ∧
        (∀ x, res = some x → ∃ top, ancestorTop h2 h2.next x = .ok top ∧ T2.ptr = some top) ∧
        T2.real ∧ T2.vals = sampleTree.vals.eraseIdx 1 ∧
        T2.nodes.length + 1 = sampleTree.nodes.length ∧
        ((sampleHeap.cell 0).Left ≠ none → (sampleHeap.cell 0).Right ≠ none →
          ∃ d, Node.Successor sampleHeap (some 0) = .ok (some d) ∧ 0 ∈ T2.nodes ∧
            (h2.cell 0).Value = (sampleHeap.cell d).Value) :=
  ⟨sample_good, sample_redBlack, by decide,
    delete_removes_entry sampleHeap sampleTree 0 1 sample_good sample_redBlack (by decide)⟩

/-- C11: starting from the empty tree, the calls Insert(2), Insert(4),
Insert(7), Insert(9), Delete(7) all return and `Height()` then returns 2. -/
theorem example_height_two :
    (run [.ins 2, .ins 4, .ins 7, .ins 9, .del 7] start).bind
      (fun s => Tree.Height s.2 s.1) = .ok 2 := by
  rfl

theorem Sub.real {h : Heap} {t : RBT} (hs : Sub h t) : t.real := by
  induction t with
  | nil => trivial
  | node a c v l r ihl ihr => exact ⟨ihl hs.2.2.2.2.1, ihr hs.2.2.2.2.2⟩
  | phantom a => exact hs.elim

theorem Rep.sub {h : Heap} {t : RBT} : ∀ {par : Option Nat}, Rep h par t → t.real → Sub h t := by
  induction t with
  | nil => intro _ _ _; trivial
  | node a c v l r ihl ihr =>
    intro par hr ht
    have hc := hr.1
    exact ⟨by rw [hc], by rw [hc], by rw [hc], by rw [hc], ihl hr.2.1 ht.1, ihr hr.2.2 ht.2⟩
  | phantom a => intro _ _ ht; exact ht.elim

/-- The loop of `Find` on a search-ordered subtree: it gives a node holding
`v` when the subtree holds `v` and nil otherwise. -/
theorem findLoop_search {h : Heap} {v : Int} : ∀ (t : RBT) (fuel : Nat),
    Sub h t → t.height ≤ fuel → t.vals.Sorted (· ≤ ·) →
    ∃ r, Node.findLoop h v fuel t.ptr = .ok r ∧
      (v ∈ t.vals → ∃ x, r = some x ∧ x ∈ t.nodes ∧ (h.cell x).Value = v) ∧
      (v ∉ t.vals → r = none) := by
  intro t
  induction t with
  | nil =>
    intro fuel _ _ _
    refine ⟨none, by simp [Node.findLoop], fun hm => ?_, fun _ => rfl⟩
    simp [RBT.vals] at hm
  | phantom f => intro fuel hs; exact hs.elim
  | node a c w l r ihl ihr =>
    intro fuel hs hf hsort
    obtain ⟨hL, hR, -, hV, hsl, hsr⟩ := hs
    simp only [RBT.height] at hf
    obtain ⟨k, rfl⟩ : ∃ k, fuel = k + 1 := ⟨fuel - 1, by omega⟩
    simp only [RBT.vals] at hsort
    obtain ⟨sl, sr1, slr⟩ := List.pairwise_append.1 hsort
    obtain ⟨hwr, sr⟩ := List.pairwise_cons.1 sr1
    have hlw : ∀ y ∈ l.vals, y ≤ w := fun y hy => slr y hy w (List.mem_cons_self _ _)
    simp only [ptr_node, Node.findLoop, hV, hL, hR]
    by_cases h1 : w = v
    · subst h1
      refine ⟨some a, by simp, fun _ => ⟨a, rfl, by simp [RBT.nodes], hV⟩, fun hn => ?_⟩
      simp [RBT.vals] at hn
    · by_cases h2 : v > w
      · obtain ⟨res, e, hin, hout⟩ := ihr k hsr (by omega) sr
        refine ⟨res, by simp [h1, h2, e], fun hm => ?_, fun hn => hout fun hm => hn ?_⟩
        · have hm2 : v ∈ r.vals := by
            simp only [RBT.vals, List.mem_append, List.mem_cons] at hm
            rcases hm with hm | hm | hm
            · have := hlw v hm; omega
            · exact absurd hm.symm h1
            · exact hm
          obtain ⟨x, e1, e2, e3⟩ := hin hm2
          exact ⟨x, e1, by simp [RBT.nodes, e2], e3⟩
        · simp [RBT.vals, hm]
      · obtain ⟨res, e, hin, hout⟩ := ihl k hsl (by omega) sl
        refine ⟨res, by simp [h1, h2, e], fun hm => ?_, fun hn => hout fun hm => hn ?_⟩
        · have hm2 : v ∈ l.vals := by
            simp only [RBT.vals, List.mem_append, List.mem_cons] at hm
            rcases hm with hm | hm | hm
            · exact hm
            · exact absurd hm.symm h1
            · have := hwr v hm; omega
          obtain ⟨x, e1, e2, e3⟩ := hin hm2
          exact ⟨x, e1, by simp [RBT.nodes, e2], e3⟩
        · simp [RBT.vals, hm]

/-- C12: on a subtree held in the heap (no node twice, all nodes allocated)
whose in-order values are non-decreasing, `Find(v)` returns; it gives a node of
the subtree whose `Value` is `v` when some node of the subtree holds `v`, and
nil otherwise, also for the nil subtree.  `Find` only reads: the embedding of
`Find` takes the heap and gives back a pointer, no heap. -/
theorem find_in_search_subtree (h : Heap) (t : RBT) (v : Int) (hs : Sub h t)
    (hnd : t.addrs.Nodup) (hlt : ∀ a ∈ t.addrs, a < h.next) (hsort : t.vals.Sorted (· ≤ ·)) :
    ∃ r, Node.Find h t.ptr v = .ok r ∧
      (v ∈ t.vals → ∃ x, r = some x ∧ x ∈ t.nodes ∧ (h.cell x).Value = v) ∧
      (v ∉ t.vals → r = none) :=
  findLoop_search t h.next hs ((height_le_addrs t).trans (nodup_length_le hnd hlt)) hsort

theorem sample_sub : Sub sampleHeap sampleTree :=
  ⟨rfl, rfl, rfl, rfl, ⟨rfl, rfl, rfl, rfl, trivial, trivial⟩, ⟨rfl, rfl, rfl, rfl, trivial, trivial⟩⟩

/-- C12 (witness): the statement at the tree 3, 5, 8 and the value 8. -/
theorem find_in_search_subtree_witness :
    Sub sampleHeap sampleTree ∧ sampleTree.addrs.Nodup ∧
      (∀ a ∈ sampleTree.addrs, a < sampleHeap.next) ∧ sampleTree.vals.Sorted (· ≤ ·) ∧
      ∃ r, Node.Find sampleHeap sampleTree.ptr 8 = .ok r ∧
        (8 ∈ sampleTree.vals → ∃ x, r = some x ∧ x ∈ sampleTree.nodes ∧
          (sampleHeap.cell x).Value = 8) ∧
        (8 ∉ sampleTree.vals → r = none) :=
  ⟨sample_sub, by decide, by decide, by decide,
    find_in_search_subtree sampleHeap sampleTree 8 sample_sub (by decide) (by decide) (by decide)⟩

/-- The loop of `Successor` climbs while the node is a right child and stops
at the first node that comes after the hole in in-order. -/
theorem succLoop_spec {h : Heap} : ∀ (q : Path) (x fuel : Nat),
    RepP h q (some x) → x ∉ q.addrs → q.addrs.Nodup → q.length ≤ fuel →
    Node.succLoop h fuel x q.ptr =
      .ok (q.post.filterMap (fun e => e.2.map (fun _ => e.1))).head? := by
  intro q
  induction q with
  | top => intro x fuel _ _ _ _; cases fuel <;> rfl
  | left a c v r up _ =>
    intro x fuel hr hx _ _
    have hne : r.ptr ≠ some x := fun e =>
      hx (by simp [Path.addrs, ptr_mem e])
    have hc : (h.cell a).Right = r.ptr := by rw [hr.1]
    cases fuel <;> simp [Node.succLoop, hc, hne, Path.post]
  | right a c v l up ih =>
    intro x fuel hr hx hnd hf
    simp only [Path.length] at hf
    obtain ⟨k, rfl⟩ : ∃ k, fuel = k + 1 := ⟨fuel - 1, by omega⟩
    have hc : (h.cell a).Right = some x := by rw [hr.1]
    have hp : (h.cell a).Parent = up.ptr := by rw [hr.1]
    simp only [Path.addrs, List.cons_append, List.nodup_cons, List.mem_append, not_or] at hnd
    simp only [pptr_right, Node.succLoop, hc, if_true, hp, Path.post]
    exact ih a k hr.2.2 hnd.1.2 (List.nodup_append.1 hnd.2).2.1 (by omega)

/-- The successor of a node of a tree, seen from the position of the node. -/
theorem successor_spec {h : Heap} {q : Path} {n : Nat} {c : Bool} {v : Int} {l r : RBT}
    (hg : Good h (q.plug (.node n c v l r))) (hr : (q.plug (.node n c v l r)).real) :
    Node.Successor h (some n) =
      .ok ((r.inorder ++ q.post).filterMap (fun e => e.2.map (fun _ => e.1))).head? := by
  have cn := good_cell hg
  obtain ⟨⟨hrl, hrr⟩, -⟩ := real_plug hr
  cases hra : r.ptr with
  | none =>
    have := ptr_eq_none.1 hra
    subst this
    have hsz := good_size hg
    obtain ⟨-, hp, hnd, -⟩ := good_plug.1 hg
    obtain ⟨-, hqn, hdis⟩ := List.nodup_append.1 hnd
    simp only [ptr_node] at hp
    simp only [Node.Successor, cn, ptr_nil, RBT.inorder, List.nil_append]
    refine succLoop_spec q n h.next hp ?_ hqn (by omega)
    intro hm
    exact hdis (by simp [RBT.addrs]) hm
  | some ra =>
    obtain ⟨q2, d, e, w, dr, hq, hpre, hmin⟩ := leftmost_focus r ra hrr hra
    have hsz := good_size (p := q2.app (.right n c v l q)) (t := .node d e w .nil dr)
      (by rw [plug_app, ← hq]; exact hg)
    rw [length_app] at hsz
    have hrep : Rep h (some n) r := (good_rep hg).2.2
    simp only [Node.Successor, cn, hra, Node.Min]
    rw [hmin h (some n) hrep h.next (by omega)]
    have : r.inorder = (d, some w) :: (dr.inorder ++ q2.post) := by
      rw [hq, inorder_plug, hpre]; simp [RBT.inorder]
    rw [this]
    rfl

/-- C13: in a tree with consistent `Parent` links, `Successor` of the node at
position `i` of the in-order sequence returns the node at position `i + 1`,
and so nil exactly when `n` is the last node; on a nil receiver it returns
nil. -/
theorem successor_is_next_inorder (h : Heap) (T : RBT) (n i : Nat)
    (hg : Good h T) (hr : T.real) (hi : T.nodes[i]? = some n) :
    Node.Successor h (some n) = .ok T.nodes[i + 1]? ∧ Node.Successor h none = .ok none := by
  refine ⟨?_, rfl⟩
  have hn : n ∈ T.nodes := by
    obtain ⟨hlt, he⟩ := List.getElem?_eq_some.1 hi
    exact he ▸ List.getElem_mem hlt
  obtain ⟨q, c, w, l, r, hq⟩ := focus_node hn .top
  simp only [Path.plug] at hq
  subst hq
  have hnodes : (q.plug (.node n c w l r)).nodes =
      (q.pre ++ l.inorder).filterMap (fun e => e.2.map (fun _ => e.1)) ++
        n :: (r.inorder ++ q.post).filterMap (fun e => e.2.map (fun _ => e.1)) := by
    rw [nodes_eq_inorder, inorder_plug]
    simp [RBT.inorder, List.filterMap_append]
  have hnd : (q.plug (.node n c w l r)).nodes.Nodup := hg.2.1.sublist (nodes_sublist _)
  rw [successor_spec hg hr]
  rw [hnodes] at hnd hi ⊢
  rw [index_of_split hnd hi, List.getElem?_append_right (by omega)]
  simp [List.head?_eq_getElem?]

/-- C13 (witness): the statement at the tree 3, 5, 8 and the node holding 3,
which is at position 0. -/
theorem successor_is_next_inorder_witness :
    Good sampleHeap sampleTree ∧ sampleTree.real ∧ sampleTree.nodes[0]? = some 1 ∧
      Node.Successor sampleHeap (some 1) = .ok sampleTree.nodes[0 + 1]? ∧
      Node.Successor sampleHeap none = .ok none :=
  ⟨sample_good, sample_redBlack.1, by decide,
    successor_is_next_inorder sampleHeap sampleTree 1 0 sample_good sample_redBlack.1 (by decide)⟩

/-- The loop of `Min` ends at the first node of the subtree in in-order. -/
theorem minLoop_sub {h : Heap} : ∀ (t : RBT) (a fuel : Nat),
    Sub h t → t.ptr = some a → t.height ≤ fuel + 1 →
    ∃ m ns vs, Node.minLoop h fuel a = .ok m ∧ t.nodes = m :: ns ∧
      t.vals = (h.cell m).Value :: vs := by
  intro t
  induction t with
  | nil => intro a fuel _ hp; simp at hp
  | phantom f => intro a fuel hs; exact hs.elim
  | node b c w l r ihl _ =>
    intro a fuel hs hp hf
    simp only [ptr_node, Option.some.injEq] at hp
    subst hp
    obtain ⟨hL, -, -, hV, hsl, -⟩ := hs
    cases hl : l.ptr with
    | none =>
      have := ptr_eq_none.1 hl
      subst this
      refine ⟨b, r.nodes, r.vals, ?_, by simp [RBT.nodes], by simp [RBT.vals, hV]⟩
      unfold Node.minLoop
      simp [hL]
    | some la =>
      have hlh : 1 ≤ l.height := by cases l <;> simp_all [RBT.height, Sub]
      simp only [RBT.height] at hf
      obtain ⟨k, rfl⟩ : ∃ k, fuel = k + 1 := ⟨fuel - 1, by omega⟩
      obtain ⟨m, ns, vs, e, e1, e2⟩ := ihl la k hsl hl (by omega)
      refine ⟨m, ns ++ b :: r.nodes, vs ++ w :: r.vals, ?_, by simp [RBT.nodes, e1],
        by simp [RBT.vals, e2]⟩
      unfold Node.minLoop
      simp only [hL, hl]
      exact e

/-- The loop of `Max` ends at the last node of the subtree in in-order. -/
theorem maxLoop_sub {h : Heap} : ∀ (t : RBT) (a fuel : Nat),
    Sub h t → t.ptr = some a → t.height ≤ fuel + 1 →
    ∃ m ns vs, Node.maxLoop h fuel a = .ok m ∧ t.nodes = ns ++ [m] ∧
      t.vals = vs ++ [(h.cell m).Value] := by
  intro t
  induction t with
  | nil => intro a fuel _ hp; simp at hp
  | phantom f => intro a fuel hs; exact hs.elim
  | node b c w l r _ ihr =>
    intro a fuel hs hp hf
    simp only [ptr_node, Option.some.injEq] at hp
    subst hp
    obtain ⟨-, hR, -, hV, -, hsr⟩ := hs
    cases hr : r.ptr with
    | none =>
      have := ptr_eq_none.1 hr
      subst this
      refine ⟨b, l.nodes, l.vals, ?_, by simp [RBT.nodes], by simp [RBT.vals, hV]⟩
      unfold Node.maxLoop
      simp [hR]
    | some ra =>
      have hrh : 1 ≤ r.height := by cases r <;> simp_all [RBT.height, Sub]
      simp only [RBT.height] at hf
      obtain ⟨k, rfl⟩ : ∃ k, fuel = k + 1 := ⟨fuel - 1, by omega⟩
      obtain ⟨m, ns, vs, e, e1, e2⟩ := ihr ra k hsr hr (by omega)
      refine ⟨m, l.nodes ++ b :: ns, l.vals ++ w :: vs, ?_, by simp [RBT.nodes, e1],
        by simp [RBT.vals, e2]⟩
      unfold Node.maxLoop
      simp only [hR, hr]
      exact e

/-- C14: on a non-nil subtree held in the heap whose in-order values are
non-decreasing, `Min` returns the first and `Max` the last node of the
subtree in in-order (the leftmost and the rightmost node), the value of the
one is a smallest and the value of the other a largest value of the subtree;
on a nil receiver both return nil. -/
theorem min_max_of_search_subtree (h : Heap) (t : RBT) (n : Nat) (hs : Sub h t)
    (hnd : t.addrs.Nodup) (hlt : ∀ a ∈ t.addrs, a < h.next) (hsort : t.vals.Sorted (· ≤ ·))
    (hn : t.ptr = some n) :
    (∃ m M, Node.Min h (some n) = .ok (some m) ∧ Node.Max h (some n) = .ok (some M) ∧
      t.nodes.head? = some m ∧ t.nodes.getLast? = some M ∧
      (h.cell m).Value ∈ t.vals ∧ (∀ x ∈ t.vals, (h.cell m).Value ≤ x) ∧
      (h.cell M).Value ∈ t.vals ∧ (∀ x ∈ t.vals, x ≤ (h.cell M).Value)) ∧
    Node.Min h none = .ok none ∧ Node.Max h none = .ok none := by
  refine ⟨?_, rfl, rfl⟩
  have hh : t.height ≤ h.next + 1 :=
    ((height_le_addrs t).trans (nodup_length_le hnd hlt)).trans (Nat.le_succ _)
  obtain ⟨m, ns, vs, e, e1, e2⟩ := minLoop_sub t n h.next hs hn hh
  obtain ⟨M, ns2, vs2, f, f1, f2⟩ := maxLoop_sub t n h.next hs hn hh
  refine ⟨m, M, by simp [Node.Min, e, Except.map], by simp [Node.Max, f, Except.map],
    by simp [e1], by simp [f1], by simp [e2], ?_, by simp [f2], ?_⟩
  · intro x hx
    rw [e2] at hx hsort
    rcases List.mem_cons.1 hx with rfl | hx
    · exact le_refl _
    · exact (List.pairwise_cons.1 hsort).1 x hx
  · intro x hx
    rw [f2] at hx hsort
    rcases List.mem_append.1 hx with hx | hx
    · exact (List.pairwise_append.1 hsort).2.2 x hx _ (List.mem_singleton_self _)
    · rw [List.mem_singleton.1 hx]

/-- C14 (witness): the statement at the tree 3, 5, 8 and its root. -/
theorem min_max_of_search_subtree_witness :
    Sub sampleHeap sampleTree ∧ sampleTree.addrs.Nodup ∧
      (∀ a ∈ sampleTree.addrs, a < sampleHeap.next) ∧ sampleTree.vals.Sorted (· ≤ ·) ∧
      sampleTree.ptr = some 0 ∧
      (∃ m M, Node.Min sampleHeap (some 0) = .ok (some m) ∧
        Node.Max sampleHeap (some 0) = .ok (some M) ∧
        sampleTree.nodes.head? = some m ∧ sampleTree.nodes.getLast? = some M ∧
        (sampleHeap.cell m).Value ∈ sampleTree.vals ∧
        (∀ x ∈ sampleTree.vals, (sampleHeap.cell m).Value ≤ x) ∧
        (sampleHeap.cell M).Value ∈ sampleTree.vals ∧
        (∀ x ∈ sampleTree.vals, x ≤ (sampleHeap.cell M).Value)) ∧
      Node.Min sampleHeap none = .ok none ∧ Node.Max sampleHeap none = .ok none :=
  ⟨sample_sub, by decide, by decide, by decide, rfl,
    min_max_of_search_subtree sampleHeap sampleTree 0 sample_sub (by decide) (by decide)
      (by decide) rfl⟩

/-- The top of a tree with a hole is the top of the path to the hole. -/
theorem top_of_path : ∀ (p : Path), p.ptr ≠ none →
    ∃ a, a ∈ p.addrs ∧ ∀ t, (p.plug t).ptr = some a := by
  intro p
  induction p with
  | top => intro hp; simp at hp
  | left a c v r up ih =>
    intro _
    cases hup : up.ptr with
    | none =>
      have := pptr_eq_none.1 hup
      subst this
      exact ⟨a, by simp [Path.addrs], fun t => rfl⟩
    | some b =>
      obtain ⟨x, hx, hxt⟩ := ih (by simp [hup])
      exact ⟨x, by simp [Path.addrs, hx], fun t => hxt _⟩
  | right a c v l up ih =>
    intro _
    cases hup : up.ptr with
    | none =>
      have := pptr_eq_none.1 hup
      subst this
      exact ⟨a, by simp [Path.addrs], fun t => rfl⟩
    | some b =>
      obtain ⟨x, hx, hxt⟩ := ih (by simp [hup])
      exact ⟨x, by simp [Path.addrs, hx], fun t => hxt _⟩

/-- The parent of a node of a tree is another node of the tree. -/
theorem parent_mem {h : Heap} {T : RBT} {x y : Nat} (hg : Good h T) (hx : x ∈ T.addrs)
    (hp : (h.cell x).Parent = some y) : y ∈ T.addrs ∧ y ≠ x := by
  obtain ⟨q, t, hq, ht⟩ := focus_addr hx .top
  simp only [Path.plug] at hq
  subst hq
  have hpar := good_parent hg ht
  rw [hp] at hpar
  have hy := pptr_mem hpar.symm
  refine ⟨addrs_plug_mem.2 (Or.inr hy), ?_⟩
  rintro rfl
  exact (List.nodup_append.1 (good_plug.1 hg).2.2.1).2.2 (ptr_mem ht) hy

theorem paddrs_mem_inorder {p : Path} {a : Nat} (ha : a ∈ p.addrs) :
    a ∈ (p.pre ++ p.post).map Prod.fst := by
  have h1 : a ∈ (p.plug .nil).addrs := addrs_plug_mem.2 (Or.inr ha)
  rw [addrs_eq_inorder, inorder_plug] at h1
  simpa [RBT.inorder] using h1

theorem two_le_length {L : List Nat} {y z : Nat} (hy : y ∈ L) (hz : z ∈ L) (hne : z ≠ y) :
    ¬ L.length ≤ 1 := by
  intro hl
  match L, hl with
  | [], _ => simp at hy
  | [a], _ =>
    simp only [List.mem_singleton] at hy hz
    exact hne (hz.trans hy.symm)

/-- Lines 37-48 of `Tree.Delete` after the node-level `delete` has returned:
`Root` ends at nil or at a node of the resulting tree, provided the old root
is still in the tree or the tree has at most one node left. -/
theorem root_after_delete {h h3 : Heap} {t : Tree} {v : Int} {n a0 : Nat} {res : Option Nat}
    {T3 : RBT} (hf : Node.Find h t.Root v = .ok (some n))
    (hd : Node.delete h (some n) = .ok (res, h3)) (g3 : Good h3 T3)
    (hloc : ∀ x, res = some x → x ∈ T3.addrs ∨ ∃ a, (h3.cell x).Parent = some a ∧ a ∈ T3.addrs)
    (hold : t.Root = some a0) (hkeep : a0 ∈ T3.addrs ∨ T3.addrs.length ≤ 1) :
    ∃ t3, Tree.Delete h t v = .ok (true, t3, h3) ∧
      (t3.Root = none ∨ ∃ a, t3.Root = some a ∧ a ∈ T3.addrs) := by
  simp only [Tree.Delete, hf, hd, bind, Except.bind, pure, Except.pure, reduceCtorEq, if_false]
  cases res with
  | none => exact ⟨⟨none⟩, by simp, Or.inl rfl⟩
  | some x =>
    simp only [rdParent, reduceCtorEq, if_false]
    cases h1 : (h3.cell x).Parent with
    | none =>
      refine ⟨⟨some x⟩, by simp, Or.inr ⟨x, rfl, ?_⟩⟩
      rcases hloc x rfl with hx | ⟨a, ha, -⟩
      · exact hx
      · rw [h1] at ha; cases ha
    | some y =>
      have hy : y ∈ T3.addrs := by
        rcases hloc x rfl with hx | ⟨a, ha, hm⟩
        · exact (parent_mem g3 hx h1).1
        · rw [h1] at ha; cases ha; exact hm
      simp only [reduceCtorEq, if_false]
      cases h2 : (h3.cell y).Parent with
      | none => exact ⟨⟨some y⟩, by simp, Or.inr ⟨y, rfl, hy⟩⟩
      | some z =>
        obtain ⟨hz, hzy⟩ := parent_mem g3 hy h2
        simp only [reduceCtorEq, if_false]
        cases h4 : (h3.cell z).Parent with
        | none => exact ⟨⟨some z⟩, by simp, Or.inr ⟨z, rfl, hz⟩⟩
        | some u =>
          refine ⟨t, by simp, Or.inr ⟨a0, hold, ?_⟩⟩
          rcases hkeep with hk | hk
          · exact hk
          · exact absurd hk (two_le_length hy hz hzy)

/-- `Tree.Delete` on a red-black tree whose `Root` is the top, when `Find`
has given the node `n`: it returns true, the heap holds a red-black tree
without the entry of `n`, and `Root` is nil or a node of that tree. -/
theorem Tree.Delete_root {h : Heap} {t : Tree} {v : Int} {p : Path} {n : Nat} {c : Bool} {w : Int}
    {l r : RBT} (hg : Good h (p.plug (.node n c w l r))) (hr : (p.plug (.node n c w l r)).real)
    (hb : ∃ K, Bal (p.plug (.node n c w l r)) false K)
    (hroot : t.Root = (p.plug (.node n c w l r)).ptr)
    (hf : Node.Find h t.Root v = .ok (some n)) :
    ∃ t3 h3 T3, Tree.Delete h t v = .ok (true, t3, h3) ∧ Good h3 T3 ∧ T3.real ∧
      (∃ K, Bal T3 false K) ∧
      T3.vals = (p.pre ++ l.inorder).filterMap Prod.snd ++
        (r.inorder ++ p.post).filterMap Prod.snd ∧
      (t3.Root = none ∨ ∃ a, t3.Root = some a ∧ a ∈ T3.addrs) := by
  obtain ⟨⟨hrl, hrr⟩, -⟩ := real_plug hr
  -- the old root is the node itself or lies on the path
  have htop : (p = .top ∧ t.Root = some n) ∨ ∃ a0, t.Root = some a0 ∧ a0 ∈ p.addrs := by
    cases hp : p.ptr with
    | none =>
      have := pptr_eq_none.1 hp
      subst this
      exact Or.inl ⟨rfl, hroot⟩
    | some b =>
      obtain ⟨a0, h1, h2⟩ := top_of_path p (by simp [hp])
      exact Or.inr ⟨a0, by rw [hroot, h2], h1⟩
  by_cases hnil : l = .nil ∨ r = .nil
  · obtain ⟨res, h3, T3, e, g3, r3, b3, i3, -, -, hloc⟩ := delete_spec_leaf hg hr hb hnil
    have hv : T3.vals = (p.pre ++ l.inorder).filterMap Prod.snd ++
        (r.inorder ++ p.post).filterMap Prod.snd := by
      rw [vals_eq_inorder, i3]; simp [List.filterMap_append]
    rcases htop with ⟨rfl, hold⟩ | ⟨a0, hold, hmem⟩
    · have hlen : T3.addrs.length ≤ 1 := by
        rw [addrs_eq_inorder, i3]
        obtain ⟨K, hK⟩ := hb
        simp only [Path.plug] at hK
        cases hK with
        | black hl hr2 =>
          rcases hnil with rfl | rfl
          · have := hl.nil_zero; subst this
            rcases hr2.zero_cases hrr with rfl | ⟨a, x, rfl⟩ <;>
              simp [Path.pre, Path.post, RBT.inorder]
          · have := hr2.nil_zero; subst this
            rcases hl.zero_cases hrl with rfl | ⟨a, x, rfl⟩ <;>
              simp [Path.pre, Path.post, RBT.inorder]
      obtain ⟨t3, e3, hroot3⟩ := root_after_delete hf e g3 hloc hold (Or.inr hlen)
      exact ⟨t3, h3, T3, e3, g3, r3, b3, hv, hroot3⟩
    · have hin : a0 ∈ T3.addrs := by
        rw [addrs_eq_inorder, i3]
        have := paddrs_mem_inorder hmem
        simp only [List.map_append, List.mem_append] at this ⊢
        tauto
      obtain ⟨t3, e3, hroot3⟩ := root_after_delete hf e g3 hloc hold (Or.inl hin)
      exact ⟨t3, h3, T3, e3, g3, r3, b3, hv, hroot3⟩
  · have hl : l.ptr ≠ none := fun e => hnil (Or.inl (ptr_eq_none.1 e))
    have hr2 : r.ptr ≠ none := fun e => hnil (Or.inr (ptr_eq_none.1 e))
    obtain ⟨res, h3, T3, d, x, rest, e, g3, r3, b3, -, -, hri, i3, -, -, hloc⟩ :=
      delete_spec_two hg hr hb hl hr2
    have hv : T3.vals = (p.pre ++ l.inorder).filterMap Prod.snd ++
        (r.inorder ++ p.post).filterMap Prod.snd := by
      rw [vals_eq_inorder, i3, hri]; simp [List.filterMap_append]
    have hin : ∃ a0, t.Root = some a0 ∧ a0 ∈ T3.addrs := by
      rcases htop with ⟨-, hold⟩ | ⟨a0, hold, hmem⟩
      · exact ⟨n, hold, by rw [addrs_eq_inorder, i3]; simp⟩
      · refine ⟨a0, hold, ?_⟩
        rw [addrs_eq_inorder, i3]
        have := paddrs_mem_inorder hmem
        simp only [List.map_append, List.mem_append, List.map_cons, List.mem_cons] at this ⊢
        tauto
    obtain ⟨a0, hold, hmem⟩ := hin
    obtain ⟨t3, e3, hroot3⟩ := root_after_delete hf e g3 hloc hold (Or.inl hmem)
    exact ⟨t3, h3, T3, e3, g3, r3, b3, hv, hroot3⟩

/-- In a search tree that does not hold `v`, `Find(v)` from any node is nil. -/
theorem find_absent {h : Heap} {T : RBT} {v : Int} {a : Nat} (hg : Good h T) (hr : T.real)
    (hs : T.vals.Sorted (· ≤ ·)) (hv : v ∉ T.vals) (ha : a ∈ T.addrs) :
    Node.Find h (some a) v = .ok none := by
  obtain ⟨q, t, hq, ht⟩ := focus_addr ha .top
  simp only [Path.plug] at hq
  subst hq
  have hsz := good_size hg
  have hsub := (good_rep hg).sub (real_plug hr).1
  rw [vals_inorder_plug] at hs hv
  have hst : t.vals.Sorted (· ≤ ·) := (List.pairwise_append.1 (List.pairwise_append.1 hs).1).2.1
  have hvt : v ∉ t.vals := fun hm => hv (by simp [hm])
  obtain ⟨res, e, -, hout⟩ := findLoop_search (v := v) t h.next hsub
    ((height_le_addrs t).trans (by omega)) hst
  rw [hout hvt, ht] at e
  exact e

theorem run_append (a b : List Op) (s : Tree × Heap) :
    run (a ++ b) s = (run a s).bind (run b) := by
  induction a generalizing s with
  | nil => rfl
  | cons o os ih =>
    simp only [List.cons_append, run]
    cases step s o with
    | error e => rfl
    | ok s1 => exact ih s1

theorem findLoop_nil (h : Heap) (v : Int) (fuel : Nat) : Node.findLoop h v fuel none = .ok none := by
  cases fuel <;> rfl

theorem nodes_eq_addrs {t : RBT} (ht : t.real) : t.nodes = t.addrs := by
  induction t with
  | nil => rfl
  | node a c v l r ihl ihr => simp [RBT.nodes, RBT.addrs, ihl ht.1, ihr ht.2]
  | phantom a => exact ht.elim

/-- C15 (counterexample): on the tree built by Insert(1), the calls Insert(1)
and Delete(1) leave one node holding 1, and `Root.Find(1)` gives that node. -/
theorem insert_delete_duplicate_found :
    findAfter [.ins 1, .ins 1, .del 1] 1 = .ok (some 1) := by
  rfl

/-- C15 (amended): on a tree built from the empty tree by `Insert` calls that
does not hold `v`, the calls Insert(v) and Delete(v) return and `Root.Find(v)`
then returns nil; when the tree was empty before, `Root` is nil again. -/
theorem insert_delete_fresh (vs : List Int) (v : Int) (hv : v ∉ vs) :
    ∃ s, run (vs.map Op.ins ++ [.ins v, .del v]) start = .ok s ∧
      Node.Find s.2 s.1.Root v = .ok none ∧ (vs = [] → s.1.Root = none) := by
  obtain ⟨s0, e0, hi0⟩ := run_inserts_inv vs start [] start_inv
  obtain ⟨s1, e1, hi1⟩ := Tree.insert_inv v hi0
  obtain ⟨T, hg, hroot, hr, hb, hs, hp⟩ := hi1
  obtain ⟨t1, h1⟩ := s1
  simp only [List.append_nil] at hp
  simp only at hg hroot
  have hvT : v ∈ T.vals := hp.symm.subset (List.mem_cons_self _ _)
  obtain ⟨res, ef, hin, -⟩ := findLoop_search (v := v) T h1.next (hg.1.sub hr) (good_height hg) hs
  obtain ⟨x, rfl, hx, hxv⟩ := hin hvT
  obtain ⟨q, c, w, l, r, hq⟩ := focus_node hx .top
  simp only [Path.plug] at hq
  subst hq
  have hw : w = v := by
    have := good_cell hg
    rw [this] at hxv
    exact hxv
  subst hw
  have hf : Node.Find h1 t1.Root w = .ok (some x) := by
    rw [← hroot]; exact ef
  obtain ⟨t3, h3, T3, e3, g3, r3, b3, v3, hroot3⟩ := Tree.Delete_root hg hr hb hroot.symm hf
  -- the values that are left
  have hvals : (q.plug (.node x c w l r)).vals =
      (q.pre ++ l.inorder).filterMap Prod.snd ++ w :: (r.inorder ++ q.post).filterMap Prod.snd := by
    rw [vals_eq_inorder, inorder_plug]
    simp [RBT.inorder, List.filterMap_append]
  rw [hvals] at hp hs
  have hp3 : T3.vals.Perm vs := by
    rw [v3]
    exact (List.perm_middle.symm.trans hp).cons_inv
  have hv3 : w ∉ T3.vals := fun hm => hv (hp3.subset hm)
  have hs3 : T3.vals.Sorted (· ≤ ·) := by
    rw [v3]
    exact hs.sublist (List.Sublist.append_left (List.sublist_cons_self _ _) _)
  refine ⟨(t3, h3), ?_, ?_, ?_⟩
  · rw [run_append, e0]
    simp only [Except.bind, run, step, e1, e3]
  · rcases hroot3 with h0 | ⟨a, ha, hm⟩
    · simp only [h0, Node.Find, findLoop_nil]
    · simp only [ha]
      exact find_absent g3 r3 hs3 hv3 hm
  · rintro rfl
    rcases hroot3 with h0 | ⟨a, ha, hm⟩
    · exact h0
    · have hnil : T3.vals = [] := List.perm_nil.1 hp3
      have hlen : T3.addrs.length = 0 := by
        have h1 := nodes_length T3
        have h2 := nodes_eq_addrs r3
        rw [← h2, h1, hnil]; rfl
      rw [List.length_eq_zero] at hlen
      rw [hlen] at hm
      cases hm

/-- C15 (witness): the amended statement for the tree built by Insert 2, 4, 7
and the value 9. -/
theorem insert_delete_fresh_witness :
    (9 : Int) ∉ ([2, 4, 7] : List Int) ∧
      ∃ s, run (([2, 4, 7] : List Int).map Op.ins ++ [.ins 9, .del 9]) start = .ok s ∧
        Node.Find s.2 s.1.Root 9 = .ok none ∧ (([2, 4, 7] : List Int) = [] → s.1.Root = none) :=
  ⟨by decide, insert_delete_fresh [2, 4, 7] 9 (by decide)⟩

/-- The fields after `RotateLeft` at a node in focus whose right child is a node. -/
theorem rotL_facts {h : Heap} {p : Path} {a b : Nat} {c c2 : Bool} {v v2 : Int} {l rl rr : RBT}
    (hg : Good h (p.plug (.node a c v l (.node b c2 v2 rl rr)))) :
    ((Node.RotateLeft h (some a)).cell b).Parent = p.ptr ∧
    (∀ P, p.ptr = some P →
      ((h.cell P).Left = some a → ((Node.RotateLeft h (some a)).cell P).Left = some b) ∧
      ((h.cell P).Right = some a → ((Node.RotateLeft h (some a)).cell P).Right = some b)) ∧
    ((Node.RotateLeft h (some a)).cell b).Left = some a ∧
    ((Node.RotateLeft h (some a)).cell a).Parent = some b ∧
    ((Node.RotateLeft h (some a)).cell a).Right = rl.ptr ∧
    (∀ d, rl.ptr = some d → ((Node.RotateLeft h (some a)).cell d).Parent = some a) ∧
    ((Node.RotateLeft h (some a)).cell a).Left = l.ptr ∧
    ((Node.RotateLeft h (some a)).cell b).Right = rr.ptr ∧
    ∀ x, ((Node.RotateLeft h (some a)).cell x).Value = (h.cell x).Value ∧
      ((Node.RotateLeft h (some a)).cell x).Red = (h.cell x).Red := by
  have hg0 := hg
  rw [good_plug] at hg
  obtain ⟨⟨ha, hl, hb, hrl, hrr⟩, hp, hnd, hlt⟩ := hg
  have hnd2 := hnd
  simp only [RBT.addrs, List.append_assoc, List.cons_append, List.nodup_append, List.nodup_cons,
    List.mem_append, List.mem_cons, not_or, List.disjoint_append_left, List.disjoint_append_right,
    List.disjoint_cons_left, List.disjoint_cons_right] at hnd2
  obtain ⟨nl, ⟨⟨narl, nab, narr, nap⟩, nrl, ⟨⟨nbrr, nbp⟩, nrr, npp, drrp⟩, nbrl, drlrr, drlp⟩,
    nal, dlrl, nbl, dlrr, dlp⟩ := hnd2
  have hpa : p.ptr ≠ some a := fun e => nap (pptr_mem e)
  have hpb : p.ptr ≠ some b := fun e => nbp (pptr_mem e)
  have hda : rl.ptr ≠ some a := fun e => narl (ptr_mem e)
  have hdb : rl.ptr ≠ some b := fun e => nbrl (ptr_mem e)
  have hdp : ∀ z, rl.ptr = some z → p.ptr ≠ some z :=
    fun z e1 e2 => drlp (ptr_mem e1) (pptr_mem e2)
  have H := rotL_cell ha hb nab hpa hpb hda hdb hdp
  simp only [ptr_node] at ha hb
  refine ⟨?_, ?_, ?_, ?_, ?_, ?_, ?_, ?_, ?_⟩
  · rw [H]; simp [Ne.symm nab]
  · intro P hP
    have e1 : P ≠ a := by rintro rfl; exact hpa hP
    have e2 : P ≠ b := by rintro rfl; exact hpb hP
    have hPcell : ((Node.RotateLeft h (some a)).cell P) =
        if (h.cell P).Left = some a then { h.cell P with Left := some b }
        else { h.cell P with Right := some b } := by
      rw [H]; simp [e1, e2, hP]
    constructor
    · intro hL
      rw [hPcell]; simp [hL]
    · intro hR
      have hL : (h.cell P).Left ≠ some a := by
        cases p with
        | top => simp at hP
        | left P2 pc pv sib up =>
          simp only [pptr_left, Option.some.injEq] at hP; subst hP
          have := hp.1
          rw [this] at hR
          simp only at hR
          exact absurd (ptr_mem hR) (by
            intro hm
            simp only [Path.addrs, List.cons_append, List.mem_cons, List.mem_append, not_or] at nap
            exact nap.2.1 hm)
        | right P2 pc pv sib up =>
          simp only [pptr_right, Option.some.injEq] at hP; subst hP
          have := hp.1
          rw [this]
          simp only
          intro hm
          simp only [Path.addrs, List.cons_append, List.mem_cons, List.mem_append, not_or] at nap
          exact nap.2.1 (ptr_mem hm)
      rw [hPcell]; simp [hL]
  · rw [H]; simp [Ne.symm nab]
  · rw [H]; simp
  · rw [H]; simp
  · intro d hd
    have e1 : d ≠ a := by rintro rfl; exact hda hd
    have e2 : d ≠ b := by rintro rfl; exact hdb hd
    rw [H]; simp [e1, e2, hdp d hd, hd]
  · rw [H]; simp
  · rw [H]; simp [Ne.symm nab]
  · intro x
    rw [H]
    by_cases e1 : x = a
    · subst e1; simp [ha]
    · by_cases e2 : x = b
      · subst e2; simp [e1, hb]
      · by_cases e3 : p.ptr = some x
        · by_cases e4 : (h.cell x).Left = some a <;> simp [e1, e2, e3, e4]
        · by_cases e4 : rl.ptr = some x <;> simp [e1, e2, e3, e4]

/-- The fields after `RotateRight` at a node in focus whose left child is a node. -/
theorem rotR_facts {h : Heap} {p : Path} {a b : Nat} {c c2 : Bool} {v v2 : Int} {ll lr r : RBT}
    (hg : Good h (p.plug (.node a c v (.node b c2 v2 ll lr) r))) :
    ((Node.RotateRight h (some a)).cell b).Parent = p.ptr ∧
    (∀ P, p.ptr = some P →
      ((h.cell P).Left = some a → ((Node.RotateRight h (some a)).cell P).Left = some b) ∧
      ((h.cell P).Right = some a → ((Node.RotateRight h (some a)).cell P).Right = some b)) ∧
    ((Node.RotateRight h (some a)).cell b).Right = some a ∧
    ((Node.RotateRight h (some a)).cell a).Parent = some b ∧
    ((Node.RotateRight h (some a)).cell a).Left = lr.ptr ∧
    (∀ d, lr.ptr = some d → ((Node.RotateRight h (some a)).cell d).Parent = some a) ∧
    ((Node.RotateRight h (some a)).cell a).Right = r.ptr ∧
    ((Node.RotateRight h (some a)).cell b).Left = ll.ptr ∧
    ∀ x, ((Node.RotateRight h (some a)).cell x).Value = (h.cell x).Value ∧
      ((Node.RotateRight h (some a)).cell x).Red = (h.cell x).Red := by
  rw [good_plug] at hg
  obtain ⟨⟨ha, ⟨hb, hll, hlr⟩, hr⟩, hp, hnd, hlt⟩ := hg
  have hnd2 := hnd
  simp only [RBT.addrs, List.append_assoc, List.cons_append, List.nodup_append, List.nodup_cons,
    List.mem_append, List.mem_cons, not_or, List.disjoint_append_left, List.disjoint_append_right,
    List.disjoint_cons_left, List.disjoint_cons_right] at hnd2
  obtain ⟨nll, ⟨⟨nblr, nba, nbr, nbp⟩, nlr, ⟨⟨nar, nap⟩, nr, npp, drp⟩, nalr, dlrr, dlrp⟩,
    nbll, dlllr, nall, dllr, dllp⟩ := hnd2
  have nab : a ≠ b := Ne.symm nba
  have hpa : p.ptr ≠ some a := fun e => nap (pptr_mem e)
  have hpb : p.ptr ≠ some b := fun e => nbp (pptr_mem e)
  have hda : lr.ptr ≠ some a := fun e => nalr (ptr_mem e)
  have hdb : lr.ptr ≠ some b := fun e => nblr (ptr_mem e)
  have hdp : ∀ z, lr.ptr = some z → p.ptr ≠ some z :=
    fun z e1 e2 => dlrp (ptr_mem e1) (pptr_mem e2)
  have H := rotR_cell ha hb nab hpa hpb hda hdb hdp
  simp only [ptr_node] at ha hb
  refine ⟨?_, ?_, ?_, ?_, ?_, ?_, ?_, ?_, ?_⟩
  · rw [H]; simp [Ne.symm nab]
  · intro P hP
    have e1 : P ≠ a := by rintro rfl; exact hpa hP
    have e2 : P ≠ b := by rintro rfl; exact hpb hP
    have hPcell : ((Node.RotateRight h (some a)).cell P) =
        if (h.cell P).Left = some a then { h.cell P with Left := some b }
        else { h.cell P with Right := some b } := by
      rw [H]; simp [e1, e2, hP]
    constructor
    · intro hL
      rw [hPcell]; simp [hL]
    · intro hR
      have hL : (h.cell P).Left ≠ some a := by
        cases p with
        | top => simp at hP
        | left P2 pc pv sib up =>
          simp only [pptr_left, Option.some.injEq] at hP; subst hP
          have := hp.1
          rw [this] at hR
          simp only at hR
          exact absurd (ptr_mem hR) (by
            intro hm
            simp only [Path.addrs, List.cons_append, List.mem_cons, List.mem_append, not_or] at nap
            exact nap.2.1 hm)
        | right P2 pc pv sib up =>
          simp only [pptr_right, Option.some.injEq] at hP; subst hP
          have := hp.1
          rw [this]
          simp only
          intro hm
          simp only [Path.addrs, List.cons_append, List.mem_cons, List.mem_append, not_or] at nap
          exact nap.2.1 (ptr_mem hm)
      rw [hPcell]; simp [hL]
  · rw [H]; simp [Ne.symm nab]
  · rw [H]; simp
  · rw [H]; simp
  · intro d hd
    have e1 : d ≠ a := by rintro rfl; exact hda hd
    have e2 : d ≠ b := by rintro rfl; exact hdb hd
    rw [H]; simp [e1, e2, hdp d hd, hd]
  · rw [H]; simp
  · rw [H]; simp [Ne.symm nab]
  · intro x
    rw [H]
    by_cases e1 : x = a
    · subst e1; simp [ha]
    · by_cases e2 : x = b
      · subst e2; simp [e1, hb]
      · by_cases e3 : p.ptr = some x
        · by_cases e4 : (h.cell x).Left = some a <;> simp [e1, e2, e3, e4]
        · by_cases e4 : lr.ptr = some x <;> simp [e1, e2, e3, e4]

/-- A real tree whose top is at address `c` is a node at `c`. -/
theorem real_node_of_ptr {t : RBT} {c : Nat} (ht : t.real) (hp : t.ptr = some c) :
    ∃ e w l r, t = .node c e w l r := by
  cases t with
  | nil => simp at hp
  | node a e w l r =>
    simp only [ptr_node, Option.some.injEq] at hp
    subst hp
    exact ⟨_, _, _, _, rfl⟩
  | phantom a => exact ht.elim

/-- C16: for a node `n` of a tree with consistent `Parent` links whose `Right`
child `c` is non-nil, after `n.RotateLeft()` the node `c` has the former
parent of `n` and sits in the slot of that parent that held `n`, `c.Left` is
`n`, `n.Parent` is `c`, `n.Right` is the former `c.Left`, whose `Parent` is
`n` when it is non-nil, `n.Left` and `c.Right` are unchanged, and no `Value`
or `Red` field changes; `n.RotateRight()` does the mirror image when `n.Left`
is non-nil. -/
theorem rotate_relinks (h : Heap) (T : RBT) (n : Nat) (hg : Good h T) (hr : T.real)
    (hn : n ∈ T.nodes) :
    (∀ c, (h.cell n).Right = some c →
      ((Node.RotateLeft h (some n)).cell c).Parent = (h.cell n).Parent ∧
      (∀ p, (h.cell n).Parent = some p →
        ((h.cell p).Left = some n → ((Node.RotateLeft h (some n)).cell p).Left = some c) ∧
        ((h.cell p).Right = some n → ((Node.RotateLeft h (some n)).cell p).Right = some c)) ∧
      ((Node.RotateLeft h (some n)).cell c).Left = some n ∧
      ((Node.RotateLeft h (some n)).cell n).Parent = some c ∧
      ((Node.RotateLeft h (some n)).cell n).Right = (h.cell c).Left ∧
      (∀ d, (h.cell c).Left = some d → ((Node.RotateLeft h (some n)).cell d).Parent = some n) ∧
      ((Node.RotateLeft h (some n)).cell n).Left = (h.cell n).Left ∧
      ((Node.RotateLeft h (some n)).cell c).Right = (h.cell c).Right ∧
      ∀ x, ((Node.RotateLeft h (some n)).cell x).Value = (h.cell x).Value ∧
        ((Node.RotateLeft h (some n)).cell x).Red = (h.cell x).Red) ∧
    (∀ b, (h.cell n).Left = some b →
      ((Node.RotateRight h (some n)).cell b).Parent = (h.cell n).Parent ∧
      (∀ p, (h.cell n).Parent = some p →
        ((h.cell p).Left = some n → ((Node.RotateRight h (some n)).cell p).Left = some b) ∧
        ((h.cell p).Right = some n → ((Node.RotateRight h (some n)).cell p).Right = some b)) ∧
      ((Node.RotateRight h (some n)).cell b).Right = some n ∧
      ((Node.RotateRight h (some n)).cell n).Parent = some b ∧
      ((Node.RotateRight h (some n)).cell n).Left = (h.cell b).Right ∧
      (∀ d, (h.cell b).Right = some d → ((Node.RotateRight h (some n)).cell d).Parent = some n) ∧
      ((Node.RotateRight h (some n)).cell n).Right = (h.cell n).Right ∧
      ((Node.RotateRight h (some n)).cell b).Left = (h.cell b).Left ∧
      ∀ x, ((Node.RotateRight h (some n)).cell x).Value = (h.cell x).Value ∧
        ((Node.RotateRight h (some n)).cell x).Red = (h.cell x).Red) := by
  obtain ⟨q, e, w, l, r, hq⟩ := focus_node hn .top
  simp only [Path.plug] at hq
  subst hq
  have cn := good_cell hg
  obtain ⟨⟨hrl, hrr⟩, -⟩ := real_plug hr
  constructor
  · intro c hc
    rw [cn] at hc
    obtain ⟨e2, w2, rl, rr, rfl⟩ := real_node_of_ptr hrr hc
    have cc := good_cell (p := .right n e w l q) hg
    have F := rotL_facts hg
    rw [cn, cc]
    exact F
  · intro b hb
    rw [cn] at hb
    obtain ⟨e2, w2, ll, lr, rfl⟩ := real_node_of_ptr hrl hb
    have cb := good_cell (p := .left n e w r q) hg
    have F := rotR_facts hg
    rw [cn, cb]
    exact F

/-- C16 (witness): the statement at the tree 3, 5, 8 and its root. -/
theorem rotate_relinks_witness :
    Good sampleHeap sampleTree ∧ sampleTree.real ∧ 0 ∈ sampleTree.nodes ∧
      ((Node.RotateLeft sampleHeap (some 0)).cell 2).Left = some 0 ∧
      ((Node.RotateRight sampleHeap (some 0)).cell 1).Right = some 0 :=
  ⟨sample_good, sample_redBlack.1, by decide,
    ((rotate_relinks sampleHeap sampleTree 0 sample_good sample_redBlack.1 (by decide)).1 2
      rfl).2.2.1,
    ((rotate_relinks sampleHeap sampleTree 0 sample_good sample_redBlack.1 (by decide)).2 1
      rfl).2.2.1⟩

/-- C17: for a node `n` of a tree with consistent `Parent` links, the heap
after `n.RotateLeft()` and the heap after `n.RotateRight()` each hold a tree
with consistent `Parent` links whose in-order sequence of nodes and values is
the one before the call. -/
theorem rotate_keeps_inorder (h : Heap) (T : RBT) (n : Nat) (hg : Good h T) (hr : T.real)
    (hn : n ∈ T.nodes) :
    (∃ T2, Good (Node.RotateLeft h (some n)) T2 ∧ T2.inorder = T.inorder) ∧
      (∃ T2, Good (Node.RotateRight h (some n)) T2 ∧ T2.inorder = T.inorder) := by
  obtain ⟨q, e, w, l, r, hq⟩ := focus_node hn .top
  simp only [Path.plug] at hq
  subst hq
  have cn := good_cell hg
  obtain ⟨⟨hrl, hrr⟩, -⟩ := real_plug hr
  constructor
  · cases hc : r.ptr with
    | none =>
      refine ⟨_, ?_, rfl⟩
      have : Node.RotateLeft h (some n) = h := by simp [Node.RotateLeft, cn, hc]
      rw [this]; exact hg
    | some c =>
      obtain ⟨e2, w2, rl, rr, rfl⟩ := real_node_of_ptr hrr hc
      refine ⟨_, good_rotL hg, ?_⟩
      simp [inorder_plug, RBT.inorder]
  · cases hb : l.ptr with
    | none =>
      refine ⟨_, ?_, rfl⟩
      have : Node.RotateRight h (some n) = h := by simp [Node.RotateRight, cn, hb]
      rw [this]; exact hg
    | some b =>
      obtain ⟨e2, w2, ll, lr, rfl⟩ := real_node_of_ptr hrl hb
      refine ⟨_, good_rotR hg, ?_⟩
      simp [inorder_plug, RBT.inorder]

/-- C17 (witness): the statement at the tree 3, 5, 8 and its root. -/
theorem rotate_keeps_inorder_witness :
    Good sampleHeap sampleTree ∧ sampleTree.real ∧ 0 ∈ sampleTree.nodes ∧
      (∃ T2, Good (Node.RotateLeft sampleHeap (some 0)) T2 ∧ T2.inorder = sampleTree.inorder) ∧
      (∃ T2, Good (Node.RotateRight sampleHeap (some 0)) T2 ∧ T2.inorder = sampleTree.inorder) :=
  ⟨sample_good, sample_redBlack.1, by decide,
    rotate_keeps_inorder sampleHeap sampleTree 0 sample_good sample_redBlack.1 (by decide)⟩

/-- C18 (counterexample): on the heap holding the tree 3, 5, 8, each of
`RotateLeft`, `RotateRight`, `ReplaceChild`, `SetLeft` and `SetRight` called on
a nil node returns, and the heap after the call is the heap before it. -/
theorem nil_receiver_returns_silently :
    Node.RotateLeft sampleHeap none = sampleHeap ∧
      Node.RotateRight sampleHeap none = sampleHeap ∧
      Node.ReplaceChild sampleHeap none (some 1) (some 2) = sampleHeap ∧
      Node.SetLeft sampleHeap none (some 1) = sampleHeap ∧
      Node.SetRight sampleHeap none (some 2) = sampleHeap :=
  ⟨rfl, rfl, rfl, rfl, rfl⟩

/-- C18 (amended): called on a nil node, each of `RotateLeft`, `RotateRight`,
`ReplaceChild`, `SetLeft` and `SetRight` returns at its guard
`if n == nil { return }` and writes no field: the heap is unchanged, whatever
the arguments. -/
theorem nil_receiver_is_no_op (h : Heap) (old new l r : Option Nat) :
    Node.RotateLeft h none = h ∧ Node.RotateRight h none = h ∧
      Node.ReplaceChild h none old new = h ∧ Node.SetLeft h none l = h ∧
      Node.SetRight h none r = h :=
  ⟨rfl, rfl, rfl, rfl, rfl⟩

theorem findLoop_cmp {cmp : Int → Int → Int} (hc : NaturalCmp cmp) (h : Heap) (v : Int) :
    ∀ (fuel : Nat) (n : Option Nat), NodeCmp.findLoop cmp h v fuel n = Node.findLoop h v fuel n := by
  intro fuel
  induction fuel with
  | zero => intro n; cases n <;> rfl
  | succ k ih =>
    intro n
    cases n with
    | none => rfl
    | some a =>
      simp only [NodeCmp.findLoop, Node.findLoop, ih, (hc _ _).2.1, gt_iff_lt, (hc _ _).2.2]

theorem insertLoop_cmp {cmp : Int → Int → Int} (hc : NaturalCmp cmp) (h : Heap) (v : Int) :
    ∀ (fuel : Nat) (p n : Option Nat),
      NodeCmp.insertLoop cmp h v fuel p n = Node.insertLoop h v fuel p n := by
  intro fuel
  induction fuel with
  | zero => intro p n; cases n <;> rfl
  | succ k ih =>
    intro p n
    cases n with
    | none => rfl
    | some a =>
      simp only [NodeCmp.insertLoop, Node.insertLoop, ih, gt_iff_lt, (hc _ _).2.2]

theorem insert_cmp {cmp : Int → Int → Int} (hc : NaturalCmp cmp) (h : Heap) (n : Option Nat)
    (v : Int) : NodeCmp.insert cmp h n v = Node.insert h n v := by
  cases n with
  | none => rfl
  | some a =>
    simp only [NodeCmp.insert, Node.insert, insertLoop_cmp hc, gt_iff_lt, (hc _ _).2.2,
      NodeCmp.insertFixup]

theorem TreeCmp.Insert_natural {cmp : Int → Int → Int} (hc : NaturalCmp cmp) (h : Heap)
    (r : Option Nat) (v : Int) :
    TreeCmp.Insert h ⟨r, cmp⟩ v =
      (Tree.Insert h ⟨r⟩ v).map (fun s => (⟨s.1.Root, cmp⟩, s.2)) := by
  cases r with
  | none => rfl
  | some a =>
    simp only [TreeCmp.Insert, Tree.Insert, insert_cmp hc]
    cases Node.insert h (some a) v with
    | error e => rfl
    | ok res =>
      obtain ⟨top, h2⟩ := res
      simp only [bind, Except.bind, pure, Except.pure, Except.map]
      cases rdParent h2 top with
      | error e => rfl
      | ok tp =>
        simp only
        by_cases h1 : tp = none
        · simp [h1]
        · simp only [h1, if_false]
          cases rdParent h2 tp with
          | error e => rfl
          | ok tpp => by_cases h3 : tpp = none <;> simp [h3]

theorem TreeCmp.Delete_natural {cmp : Int → Int → Int} (hc : NaturalCmp cmp) (h : Heap)
    (r : Option Nat) (v : Int) :
    TreeCmp.Delete h ⟨r, cmp⟩ v =
      (Tree.Delete h ⟨r⟩ v).map (fun s => (s.1, ⟨s.2.1.Root, cmp⟩, s.2.2)) := by
  simp only [TreeCmp.Delete, Tree.Delete, NodeCmp.Find, Node.Find, findLoop_cmp hc,
    NodeCmp.delete]
  cases Node.findLoop h v h.next r with
  | error e => rfl
  | ok n =>
    simp only [bind, Except.bind, pure, Except.pure, Except.map]
    by_cases h0 : n = none
    · simp [h0]
    · simp only [h0, if_false]
      cases Node.delete h n with
      | error e => rfl
      | ok res =>
        obtain ⟨c, h2⟩ := res
        simp only
        by_cases h1 : c = none
        · simp [h1]
        · simp only [h1, if_false]
          cases rdParent h2 c with
          | error e => rfl
          | ok cp =>
            simp only
            by_cases h3 : cp = none
            · simp [h3]
            · simp only [h3, if_false]
              cases rdParent h2 cp with
              | error e => rfl
              | ok cpp =>
                simp only
                by_cases h4 : cpp = none
                · simp [h4]
                · simp only [h4, if_false]
                  cases rdParent h2 cpp with
                  | error e => rfl
                  | ok cppp => by_cases h5 : cppp = none <;> simp [h5]

theorem intCmp_natural : NaturalCmp intCmp := by
  intro a b
  simp only [intCmp]
  refine ⟨?_, ?_, ?_⟩ <;> constructor <;> intro h <;> omega

/-- C19: a `TreeCmp[int]` whose `Cmp` is the natural three-way comparison and a
`Tree[int]`, started in the same state and given the same calls, end in the
same view: the `Delete` calls have returned the same booleans, the root is at
the same node, the heaps agree on every field of every node (same shape, same
`Value` and `Red` at every position), and `Height()` gives the same result.
Both runs stop with the same error if one does.  Every prefix of a sequence
is a sequence, so this holds after every call. -/
theorem cmp_lockstep (cmp : Int → Int → Int) (hc : NaturalCmp cmp) (ops : List Op)
    (bs : List Bool) (r : Option Nat) (h : Heap) :
    runCmpView ops bs (⟨r, cmp⟩, h) = runView ops bs (⟨r⟩, h) := by
  induction ops generalizing bs r h with
  | nil =>
    simp only [runCmpView, runView, TreeCmp.Height, Tree.Height, NodeCmp.Height]
  | cons o os ih =>
    cases o with
    | ins v =>
      simp only [runCmpView, runView, TreeCmp.Insert_natural hc]
      cases Tree.Insert h ⟨r⟩ v with
      | error e => rfl
      | ok s => exact ih bs s.1.Root s.2
    | del v =>
      simp only [runCmpView, runView, TreeCmp.Delete_natural hc]
      cases Tree.Delete h ⟨r⟩ v with
      | error e => rfl
      | ok s => exact ih (bs ++ [s.1]) s.2.1.Root s.2.2

/-- C19 (witness): the statement for comparison by subtraction and the calls
Insert 2, 4, 7, 9, Delete 7, Delete 5 on empty trees. -/
theorem cmp_lockstep_witness :
    NaturalCmp intCmp ∧
      runCmpView [.ins 2, .ins 4, .ins 7, .ins 9, .del 7, .del 5] [] (⟨none, intCmp⟩, Heap.empty) =
        runView [.ins 2, .ins 4, .ins 7, .ins 9, .del 7, .del 5] [] (⟨none⟩, Heap.empty) :=
  ⟨intCmp_natural, cmp_lockstep intCmp intCmp_natural _ [] none Heap.empty⟩

theorem descendCmp_plug (cmp : Int → Int → Int) (v : Int) (t : RBT) (p : Path) (ht : t.real) :
    (descendCmp cmp v t p).plug .nil = p.plug t := by
  induction t generalizing p with
  | nil => rfl
  | node a c x l r ihl ihr =>
    simp only [descendCmp]
    split
    · rw [ihr _ ht.2]; rfl
    · rw [ihl _ ht.1]; rfl
  | phantom a => exact ht.elim

theorem descendCmp_ptr (cmp : Int → Int → Int) (v : Int) (t : RBT) (p : Path) (ht : t.real)
    (hp : p.ptr ≠ none ∨ t.ptr ≠ none) : (descendCmp cmp v t p).ptr ≠ none := by
  induction t generalizing p with
  | nil => simpa [descendCmp] using hp
  | node a c x l r ihl ihr =>
    simp only [descendCmp]
    split
    · exact ihr _ ht.2 (Or.inl (by simp))
    · exact ihl _ ht.1 (Or.inl (by simp))
  | phantom a => exact ht.elim

theorem descendCmp_dir (cmp : Int → Int → Int) (v : Int) (t : RBT) (p : Path)
    (hp : p.dirCmp cmp v) : (descendCmp cmp v t p).dirCmp cmp v := by
  induction t generalizing p with
  | nil => exact hp
  | node a c x l r ihl ihr =>
    simp only [descendCmp]
    split
    · exact ihr _ (by show cmp v x > 0; assumption)
    · exact ihl _ (by show ¬ cmp v x > 0; assumption)
  | phantom a => exact hp

/-- The descent loop of `NodeCmp.insert` ends at the node above the hole. -/
theorem insertLoopCmp_spec (cmp : Int → Int → Int) (v : Int) {h : Heap} {t : RBT} :
    ∀ {p : Path} {k : Nat}, Rep h p.ptr t → t.real → t.height ≤ k →
    NodeCmp.insertLoop cmp h v k p.ptr t.ptr = .ok (descendCmp cmp v t p).ptr := by
  induction t with
  | nil => intro p k _ _ _; cases k <;> rfl
  | node a c x l r ihl ihr =>
    intro p k hr ht hf
    obtain ⟨f, rfl⟩ : ∃ f, k = f + 1 := ⟨k - 1, by simp only [RBT.height] at hf; omega⟩
    simp only [RBT.height] at hf
    have hc := hr.1
    simp only [ptr_node, NodeCmp.insertLoop, hc, descendCmp]
    split
    · exact ihr (p := .right a c x l p) hr.2.2 ht.2 (by omega)
    · exact ihl (p := .left a c x r p) hr.2.1 ht.1 (by omega)
  | phantom a => intro p k _ ht _; exact ht.elim

/-- Hanging a freshly allocated red node into the nil slot at the end of the
descent of `NodeCmp.insert`. -/
theorem good_attachCmp {cmp : Int → Int → Int} {h : Heap} {q : Path} {v : Int}
    (hg : Good h (q.plug .nil)) (hq : q.ptr ≠ none) (hd : q.dirCmp cmp v) :
    ∃ h2, ((rdValue (h.alloc ⟨none, none, q.ptr, true, v⟩).2 q.ptr).bind (fun pv =>
        if cmp v pv > 0 then stRight (h.alloc ⟨none, none, q.ptr, true, v⟩).2 q.ptr (some h.next)
        else stLeft (h.alloc ⟨none, none, q.ptr, true, v⟩).2 q.ptr (some h.next))) = .ok h2 ∧
      Good h2 (q.plug (.node h.next true v .nil .nil)) ∧ h2.next = h.next + 1 := by
  rw [good_plug] at hg
  obtain ⟨-, hp, hnd, hlt⟩ := hg
  simp only [RBT.addrs, List.nil_append] at hnd hlt
  have hfresh : ∀ x ∈ q.addrs, x ≠ h.next := fun x hx e => by
    have := hlt x hx; omega
  cases q with
  | top => simp at hq
  | left pa c x r up =>
    obtain ⟨h1, h3, h4⟩ := hp
    have hpa : pa ≠ h.next := hfresh pa (by simp [Path.addrs])
    simp only [Path.addrs, List.cons_append, List.nodup_cons, List.mem_append, not_or,
      List.nodup_append] at hnd
    obtain ⟨⟨n1, n2⟩, n3, n4, n5⟩ := hnd
    have hd2 : ¬ cmp v x > 0 := hd
    refine ⟨(h.alloc ⟨none, none, some pa, true, v⟩).2.wrLeft pa (some h.next), ?_, ?_, ?_⟩
    · simp only [rdValue, pptr_left, alloc_cell, hpa, if_false, h1, Except.bind, hd2, stLeft]
    · rw [good_plug]
      refine ⟨⟨?_, trivial, trivial⟩, ⟨?_, h3.frame ?_, h4.pframe ?_⟩, ?_, ?_⟩
      · apply node_ext <;> simp [alloc_cell, Ne.symm hpa]
      · apply node_ext <;> simp [alloc_cell, hpa, h1]
      · intro y hy
        have e1 : y ≠ pa := by rintro rfl; exact n1 hy
        have e2 : y ≠ h.next := hfresh y (by simp [Path.addrs, hy])
        apply node_ext <;> simp [alloc_cell, e1, e2]
      · intro y hy
        have e1 : y ≠ pa := by rintro rfl; exact n2 hy
        have e2 : y ≠ h.next := hfresh y (by simp [Path.addrs, hy])
        apply node_ext <;> simp [alloc_cell, e1, e2]
      · simp only [RBT.addrs, List.nil_append, List.cons_append, List.nodup_cons]
        refine ⟨fun hm => hfresh _ hm rfl, ?_⟩
        simp only [Path.addrs, List.cons_append, List.nodup_cons, List.mem_append, not_or,
          List.nodup_append]
        exact ⟨⟨n1, n2⟩, n3, n4, n5⟩
      · intro y hy
        simp only [RBT.addrs, List.nil_append, List.cons_append, List.mem_cons] at hy
        simp only [wrLeft_next, alloc_next]
        rcases hy with rfl | hy
        · omega
        · have := hlt y hy; omega
    · simp
  | right pa c x l up =>
    obtain ⟨h1, h3, h4⟩ := hp
    have hpa : pa ≠ h.next := hfresh pa (by simp [Path.addrs])
    simp only [Path.addrs, List.cons_append, List.nodup_cons, List.mem_append, not_or,
      List.nodup_append] at hnd
    obtain ⟨⟨n1, n2⟩, n3, n4, n5⟩ := hnd
    have hd2 : cmp v x > 0 := hd
    refine ⟨(h.alloc ⟨none, none, some pa, true, v⟩).2.wrRight pa (some h.next), ?_, ?_, ?_⟩
    · simp only [rdValue, pptr_right, alloc_cell, hpa, if_false, h1, Except.bind, hd2, if_true,
        stRight]
    · rw [good_plug]
      refine ⟨⟨?_, trivial, trivial⟩, ⟨?_, h3.frame ?_, h4.pframe ?_⟩, ?_, ?_⟩
      · apply node_ext <;> simp [alloc_cell, Ne.symm hpa]
      · apply node_ext <;> simp [alloc_cell, hpa, h1]
      · intro y hy
        have e1 : y ≠ pa := by rintro rfl; exact n1 hy
        have e2 : y ≠ h.next := hfresh y (by simp [Path.addrs, hy])
        apply node_ext <;> simp [alloc_cell, e1, e2]
      · intro y hy
        have e1 : y ≠ pa := by rintro rfl; exact n2 hy
        have e2 : y ≠ h.next := hfresh y (by simp [Path.addrs, hy])
        apply node_ext <;> simp [alloc_cell, e1, e2]
      · simp only [RBT.addrs, List.nil_append, List.cons_append, List.nodup_cons]
        refine ⟨fun hm => hfresh _ hm rfl, ?_⟩
        simp only [Path.addrs, List.cons_append, List.nodup_cons, List.mem_append, not_or,
          List.nodup_append]
        exact ⟨⟨n1, n2⟩, n3, n4, n5⟩
      · intro y hy
        simp only [RBT.addrs, List.nil_append, List.cons_append, List.mem_cons] at hy
        simp only [wrRight_next, alloc_next]
        rcases hy with rfl | hy
        · omega
        · have := hlt y hy; omega
    · simp

/-- The method `NodeCmp.insert` on a red-black tree: the new node lands in the
hole where the descent ends and the tree is red-black again. -/
theorem insertCmp_spec {cmp : Int → Int → Int} {h : Heap} {T : RBT} (v : Int) (hg : Good h T)
    (hT : T.ptr ≠ none) (hr : T.real) (hb : ∃ K, Bal T false K) :
    ∃ h2 res T2, NodeCmp.insert cmp h T.ptr v = .ok (some res, h2) ∧ Good h2 T2 ∧
      (∃ K, Bal T2 false K) ∧ T2.ptr = rootAfterInsert h2 res T.ptr ∧
      T2.inorder = (descendCmp cmp v T .top).pre ++
        (h.next, some v) :: (descendCmp cmp v T .top).post ∧
      T.inorder = (descendCmp cmp v T .top).pre ++ (descendCmp cmp v T .top).post := by
  have hplug := descendCmp_plug cmp v T .top hr
  simp only [Path.plug] at hplug
  have hq := descendCmp_ptr cmp v T .top hr (Or.inr hT)
  have hd := descendCmp_dir cmp v T .top trivial
  have hloop := insertLoopCmp_spec cmp v (p := .top) (k := h.next) hg.1 hr (good_height hg)
  simp only [pptr_top] at hloop
  generalize descendCmp cmp v T .top = q at hplug hq hd hloop ⊢
  subst hplug
  have hg1 : Good h (q.plug .nil) := hg
  obtain ⟨h2, e2, g2, hn2⟩ := good_attachCmp hg1 hq hd
  obtain ⟨K, hK⟩ := hb
  obtain ⟨c, n, hb1, hb2⟩ := hK.zoom
  cases hb1
  have hsz := good_size hg1
  obtain ⟨h3, res, T3, e3, g3, hin, hbal, hroot⟩ :=
    insertFixup_spec _ h2.next h2 _ h.next v .nil .nil 0 le_rfl (by omega) hq g2 .nil .nil hb2
  refine ⟨h3, res, T3, ?_, g3, hbal, ?_, ?_, ?_⟩
  · obtain ⟨a, ha⟩ := Option.ne_none_iff_exists'.1 hT
    rw [ha] at hloop ⊢
    simp only [NodeCmp.insert, hloop, bind, Except.bind, NodeCmp.insertFixup]
    simp only [alloc_fst]
    simp only [Except.bind] at e2
    generalize (h.alloc ⟨none, none, q.ptr, true, v⟩).2 = h1 at e2 ⊢
    cases hv : rdValue h1 q.ptr with
    | error e => simp [hv] at e2
    | ok pv =>
      simp only [hv] at e2 ⊢
      split_ifs at e2 ⊢ <;> simp only [e2] <;> exact e3
  · rw [hroot]; congr 1
    exact plug_ptr_congr hq _ _
  · rw [hin, inorder_plug]; simp [RBT.inorder]
  · rw [inorder_plug]; simp [RBT.inorder]

/-- On the way down, `v` compares greater than everything before the hole and
not greater than anything after the hole. -/
theorem descendCmp_order {cmp : Int → Int → Int} (hc : LawfulCmp cmp) (v : Int) (t : RBT) :
    ∀ (p : Path), t.real → (p.plug t).vals.Pairwise (fun x y => cmp x y ≤ 0) →
    (∀ x ∈ p.pre.filterMap Prod.snd, 0 < cmp v x) →
    (∀ x ∈ p.post.filterMap Prod.snd, cmp v x ≤ 0) →
    (∀ x ∈ (descendCmp cmp v t p).pre.filterMap Prod.snd, 0 < cmp v x) ∧
      (∀ x ∈ (descendCmp cmp v t p).post.filterMap Prod.snd, cmp v x ≤ 0) := by
  induction t with
  | nil => intro p _ _ h1 h2; exact ⟨h1, h2⟩
  | node a c x l r ihl ihr =>
    intro p ht hs h1 h2
    have hs2 := hs
    rw [vals_inorder_plug] at hs2
    simp only [RBT.vals] at hs2
    have hM : (l.vals ++ x :: r.vals).Pairwise (fun x y => cmp x y ≤ 0) :=
      (List.pairwise_append.1 (List.pairwise_append.1 hs2).1).2.1
    obtain ⟨-, hxr1, hlx1⟩ := List.pairwise_append.1 hM
    have hxr : ∀ b ∈ r.vals, cmp x b ≤ 0 := (List.pairwise_cons.1 hxr1).1
    have hlx : ∀ y ∈ l.vals, cmp y x ≤ 0 := fun y hy => hlx1 y hy x (List.mem_cons_self _ _)
    simp only [descendCmp]
    split
    · rename_i hv
      refine ihr _ ht.2 hs ?_ h2
      intro y hy
      simp only [Path.pre, List.filterMap_append, List.mem_append, ← vals_eq_inorder,
        List.filterMap_cons, List.filterMap_nil, List.mem_singleton] at hy
      rcases hy with (hy | hy) | rfl
      · exact h1 y hy
      · by_contra hcon
        have := hc.2 v y x (by omega) (hlx y hy)
        omega
      · exact hv
    · rename_i hv
      refine ihl _ ht.1 hs h1 ?_
      intro y hy
      simp only [Path.post, List.filterMap_append, List.mem_append, ← vals_eq_inorder,
        List.filterMap_cons, List.mem_cons] at hy
      rcases hy with (rfl | hy) | hy
      · omega
      · exact hc.2 v x y (by omega) (hxr y hy)
      · exact h2 y hy
  | phantom a => intro p ht; exact ht.elim

theorem mem_vals_of_mem {L : List (Nat × Option Int)} {e : Nat × Option Int} {x : Int}
    (he : e ∈ L) (hx : e.2 = some x) : x ∈ L.filterMap Prod.snd :=
  List.mem_filterMap.2 ⟨e, he, hx⟩

/-- A tree without placeholders stays so when one value-holding node is put
into its in-order sequence. -/
theorem real_of_inserted {T T2 : RBT} {A B : List (Nat × Option Int)} {a : Nat} {v : Int}
    (hr : T.real) (hin : T.inorder = A ++ B) (hin2 : T2.inorder = A ++ (a, some v) :: B) :
    T2.real := by
  rw [real_iff_inorder] at hr ⊢
  rw [hin2]
  rw [hin] at hr
  intro e he
  simp only [List.mem_append, List.mem_cons] at he
  rcases he with he | rfl | he
  · exact hr e (by simp [he])
  · simp
  · exact hr e (by simp [he])

/-- One call of `Tree.Insert` on a tree built by inserts: the new node goes
into the in-order sequence behind the values smaller than `v` only. -/
theorem Tree.insert_detail {s : Tree × Heap} {ws : List Int} (v : Int) (hi : InsInv s ws) :
    ∃ T s2 T2 A B, Good s.2 T ∧ T.ptr = s.1.Root ∧ Tree.Insert s.2 s.1 v = .ok s2 ∧
      Good s2.2 T2 ∧ T2.ptr = s2.1.Root ∧ T.inorder = A ++ B ∧
      T2.inorder = A ++ (s.2.next, some v) :: B ∧ (∀ e ∈ A, ∀ x, e.2 = some x → x < v) ∧
      T.real ∧ T2.real := by
  obtain ⟨T, hg, hroot, hr, hb, hs, -⟩ := hi
  obtain ⟨t, h⟩ := s
  simp only at hg hroot ⊢
  cases hT : T.ptr with
  | none =>
    have hnil := ptr_eq_none.1 hT
    subst hnil
    rw [hT] at hroot
    refine ⟨.nil, (⟨some h.next⟩, (h.alloc ⟨none, none, none, false, v⟩).2),
      .node h.next false v .nil .nil, [], [], hg, hroot, ?_, ⟨⟨?_, trivial, trivial⟩, ?_, ?_⟩,
      rfl, rfl, rfl, (fun e he => by cases he), trivial, ⟨trivial, trivial⟩⟩
    · simp [Tree.Insert, ← hroot, Heap.alloc]
    · simp [alloc_cell]
    · simp [RBT.addrs]
    · simp [RBT.addrs]
  | some a =>
    obtain ⟨h2, res, T2, e2, g2, -, hroot2, hin2, hin⟩ := insert_spec v hg (by simp [hT]) hr hb
    have hord := descend_order v T .top hr hs (by simp [Path.pre]) (by simp [Path.post])
    generalize descend v T .top = q at hin2 hin hord
    have hreal2 : T2.real := real_of_inserted hr hin hin2
    refine ⟨T, (⟨rootAfterInsert h2 res t.Root⟩, h2), T2, q.pre, q.post, hg, hT ▸ hroot, ?_, g2,
      ?_, hin, hin2, fun e he x hx => hord.1 x (mem_vals_of_mem he hx), hr, hreal2⟩
    · rw [hT] at e2
      have ht : t = ⟨some a⟩ := by
        cases t
        simp only [Tree.mk.injEq]
        rw [← hT, hroot]
      subst ht
      simp only [Tree.Insert, e2, bind, Except.bind, rdParent, rootAfterInsert, pure, Except.pure]
      cases h1 : (h2.cell res).Parent with
      | none => simp
      | some x => cases h3 : (h2.cell x).Parent <;> simp [h3]
    · rw [hroot2, hroot]

/-- One call of `TreeCmp.Insert` on a tree built by inserts: the invariant
holds again, and the new node goes into the in-order sequence behind the
values that `v` compares greater than only. -/
theorem TreeCmp.insertCmp_detail {cmp : Int → Int → Int} (hc : LawfulCmp cmp) {s : TreeCmp × Heap}
    (v : Int) (hi : InsInvCmp cmp s) :
    ∃ T s2 T2 A B, Good s.2 T ∧ T.ptr = s.1.Root ∧ TreeCmp.Insert s.2 s.1 v = .ok s2 ∧
      InsInvCmp cmp s2 ∧ Good s2.2 T2 ∧ T2.ptr = s2.1.Root ∧ T.inorder = A ++ B ∧
      T2.inorder = A ++ (s.2.next, some v) :: B ∧
      (∀ e ∈ A, ∀ x, e.2 = some x → 0 < cmp v x ∧ cmp x v < 0) ∧ T.real ∧ T2.real := by
  obtain ⟨hcmp, T, hg, hroot, hr, hb, hs⟩ := hi
  obtain ⟨t, h⟩ := s
  obtain ⟨root, tcmp⟩ := t
  simp only at hg hroot hcmp ⊢
  subst hcmp
  cases hT : T.ptr with
  | none =>
    have hnil := ptr_eq_none.1 hT
    subst hnil
    rw [hT] at hroot
    subst hroot
    have g2 : Good (h.alloc ⟨none, none, none, false, v⟩).2 (.node h.next false v .nil .nil) := by
      refine ⟨⟨?_, trivial, trivial⟩, ?_, ?_⟩
      · simp [alloc_cell]
      · simp [RBT.addrs]
      · simp [RBT.addrs]
    refine ⟨.nil, (⟨some h.next, tcmp⟩, (h.alloc ⟨none, none, none, false, v⟩).2),
      .node h.next false v .nil .nil, [], [], hg, rfl, ?_, ?_, g2,
      rfl, rfl, rfl, (fun e he => by cases he), trivial, ⟨trivial, trivial⟩⟩
    · simp [TreeCmp.Insert, Heap.alloc]
    · exact ⟨rfl, _, g2, rfl, ⟨trivial, trivial⟩, ⟨1, .black .nil .nil⟩, by simp [RBT.vals]⟩
  | some a =>
    obtain ⟨h2, res, T2, e2, g2, hb2, hroot2, hin2, hin⟩ :=
      @insertCmp_spec tcmp h T v hg (by simp [hT]) hr hb
    have hord := descendCmp_order hc v T .top hr hs (by simp [Path.pre]) (by simp [Path.post])
    generalize descendCmp tcmp v T .top = q at hin2 hin hord
    have hv : T.vals = q.pre.filterMap Prod.snd ++ q.post.filterMap Prod.snd := by
      rw [vals_eq_inorder, hin, List.filterMap_append]
    have hv2 : T2.vals = q.pre.filterMap Prod.snd ++ v :: q.post.filterMap Prod.snd := by
      rw [vals_eq_inorder, hin2, List.filterMap_append]; rfl
    have hreal2 : T2.real := real_of_inserted hr hin hin2
    have hs2 : T2.vals.Pairwise (fun x y => tcmp x y ≤ 0) := by
      rw [hv2]
      rw [hv] at hs
      obtain ⟨s1, s2, s3⟩ := List.pairwise_append.1 hs
      refine List.pairwise_append.2 ⟨s1, List.pairwise_cons.2 ⟨hord.2, s2⟩, ?_⟩
      intro x hx y hy
      rcases List.mem_cons.1 hy with rfl | hy
      · have := hc.1 y x (hord.1 x hx)
        omega
      · exact s3 x hx y hy
    have hroot3 : T2.ptr = rootAfterInsert h2 res root := by rw [hroot2, hroot]
    refine ⟨T, (⟨rootAfterInsert h2 res root, tcmp⟩, h2), T2, q.pre, q.post, hg, hT ▸ hroot, ?_,
      ⟨rfl, T2, g2, hroot3, hreal2, hb2, hs2⟩, g2, hroot3, hin, hin2, fun e he x hx =>
        ⟨hord.1 x (mem_vals_of_mem he hx), hc.1 v x (hord.1 x (mem_vals_of_mem he hx))⟩,
      hr, hreal2⟩
    rw [hT] at e2
    have ht : root = some a := by rw [← hT, hroot]
    subst ht
    simp only [TreeCmp.Insert, e2, bind, Except.bind, rdParent, rootAfterInsert, pure, Except.pure]
    cases h1 : (h2.cell res).Parent with
    | none => simp
    | some x => cases h3 : (h2.cell x).Parent <;> simp [h3]

/-- A run of `Insert` calls on a `TreeCmp[int]` keeps the invariant. -/
theorem runCmp_inserts_inv {cmp : Int → Int → Int} (hc : LawfulCmp cmp) (vs : List Int) :
    ∀ (s : TreeCmp × Heap), InsInvCmp cmp s →
    ∃ s2, runCmp (vs.map Op.ins) s = .ok s2 ∧ InsInvCmp cmp s2 := by
  induction vs with
  | nil => intro s hi; exact ⟨s, rfl, hi⟩
  | cons v vs ih =>
    intro s hi
    obtain ⟨T, s1, T1, A, B, -, -, e1, hi1, -⟩ := TreeCmp.insertCmp_detail hc v hi
    obtain ⟨s2, e2, hi2⟩ := ih s1 hi1
    exact ⟨s2, by simp only [List.map_cons, runCmp, stepCmp, e1, e2], hi2⟩

theorem startCmp_inv (cmp : Int → Int → Int) : InsInvCmp cmp (⟨none, cmp⟩, Heap.empty) :=
  ⟨rfl, .nil, good_empty, rfl, trivial, ⟨0, .nil⟩, List.Pairwise.nil⟩

theorem signCmp_lawful : LawfulCmp signCmp := by
  constructor
  · intro a b; simp only [signCmp]; split_ifs <;> intro h <;> omega
  · intro a b c; simp only [signCmp]; split_ifs <;> intro h1 h2 <;> omega

/-- C20 (counterexample): without an ordering comparison the new node can
come after a node that compares equal.  With `nearCmp`, after Insert 10 and
Insert 12 the call Insert(14) goes right at the root 10 (14 compares greater
than 10) although the node holding 12, which compares equal to 14, hangs on
the left of 10: the in-order sequence is 12, 10, 14.  With `eqCmp`, after
Insert 1, 2, 3 (top 2, children 1 and 3) the call Insert(1) goes right at 2
and at 3: the in-order sequence is 1, 2, 3, 1 with the new node last, behind
the node that already held 1. -/
theorem tie_goes_right_unordered_cmp :
    (nearCmp 14 12 = 0 ∧ nearCmp 12 14 = 0 ∧
      ∃ s s2, runCmp [.ins 10, .ins 12] (⟨none, nearCmp⟩, Heap.empty) = .ok s ∧
        Good s.2 (.node 0 false 10 (.node 1 true 12 .nil .nil) .nil) ∧ s.1.Root = some 0 ∧
        s.2.next = 2 ∧ TreeCmp.Insert s.2 s.1 14 = .ok s2 ∧ s2.1.Root = some 0 ∧
        Good s2.2 (.node 0 false 10 (.node 1 true 12 .nil .nil) (.node 2 true 14 .nil .nil)) ∧
        (RBT.node 0 false 10 (.node 1 true 12 .nil .nil) (.node 2 true 14 .nil .nil)).inorder =
          [(1, some 12), (0, some 10), (2, some 14)]) ∧
    (eqCmp 1 1 = 0 ∧
      ∃ s s2, runCmp [.ins 1, .ins 2, .ins 3] (⟨none, eqCmp⟩, Heap.empty) = .ok s ∧
        Good s.2 (.node 1 false 2 (.node 0 true 1 .nil .nil) (.node 2 true 3 .nil .nil)) ∧
        s.1.Root = some 1 ∧ s.2.next = 3 ∧ TreeCmp.Insert s.2 s.1 1 = .ok s2 ∧
        s2.1.Root = some 1 ∧
        Good s2.2 (.node 1 false 2 (.node 0 false 1 .nil .nil)
          (.node 2 false 3 .nil (.node 3 true 1 .nil .nil))) ∧
        (RBT.node 1 false 2 (.node 0 false 1 .nil .nil)
          (.node 2 false 3 .nil (.node 3 true 1 .nil .nil))).inorder =
          [(0, some 1), (1, some 2), (2, some 3), (3, some 1)]) :=
  ⟨⟨rfl, rfl, _, _, rfl, ⟨⟨rfl, ⟨rfl, trivial, trivial⟩, trivial⟩, by decide, by decide⟩, rfl, rfl,
      rfl, rfl, ⟨⟨rfl, ⟨rfl, trivial, trivial⟩, ⟨rfl, trivial, trivial⟩⟩, by decide, by decide⟩,
      rfl⟩,
    ⟨rfl, _, _, rfl,
      ⟨⟨rfl, ⟨rfl, trivial, trivial⟩, ⟨rfl, trivial, trivial⟩⟩, by decide, by decide⟩, rfl, rfl,
      rfl, rfl,
      ⟨⟨rfl, ⟨rfl, trivial, trivial⟩, ⟨rfl, trivial, ⟨rfl, trivial, trivial⟩⟩⟩, by decide,
        by decide⟩,
      rfl⟩⟩

/-- C20 (amended): ties go left.  When `Insert(v)` is called on a tree built
from the empty tree by `Insert` calls, the tree before and the tree after
hold no placeholder, the in-order sequence of the new tree is the old one
with the new node put in at one place, and every node before that place
holds a value smaller than `v`: the nodes that held a value equal to `v`
all come after the new node.  The same holds for a `TreeCmp` whose comparison
orders the values: before the new node are only values `x` with
`Cmp(v, x) > 0` and `Cmp(x, v) < 0`, so every node whose value compares equal
to `v` comes after it. -/
theorem ties_go_left :
    (∀ (vs : List Int) (v : Int), ∃ s T s2 T2 A B,
      run (vs.map Op.ins) start = .ok s ∧ Good s.2 T ∧ T.ptr = s.1.Root ∧ T.real ∧
      Tree.Insert s.2 s.1 v = .ok s2 ∧ Good s2.2 T2 ∧ T2.ptr = s2.1.Root ∧ T2.real ∧
      T.inorder = A ++ B ∧ T2.inorder = A ++ (s.2.next, some v) :: B ∧
      ∀ e ∈ A, ∀ x, e.2 = some x → x < v) ∧
    (∀ (cmp : Int → Int → Int), LawfulCmp cmp → ∀ (vs : List Int) (v : Int), ∃ s T s2 T2 A B,
      runCmp (vs.map Op.ins) (⟨none, cmp⟩, Heap.empty) = .ok s ∧ Good s.2 T ∧
      T.ptr = s.1.Root ∧ T.real ∧ TreeCmp.Insert s.2 s.1 v = .ok s2 ∧ Good s2.2 T2 ∧
      T2.ptr = s2.1.Root ∧ T2.real ∧ T.inorder = A ++ B ∧
      T2.inorder = A ++ (s.2.next, some v) :: B ∧
      ∀ e ∈ A, ∀ x, e.2 = some x → 0 < cmp v x ∧ cmp x v < 0) := by
  constructor
  · intro vs v
    obtain ⟨s, e, hi⟩ := run_inserts_inv vs start [] start_inv
    obtain ⟨T, s2, T2, A, B, h1, h2, h3, h4, h5, h6, h7, h8, h9, h10⟩ := Tree.insert_detail v hi
    exact ⟨s, T, s2, T2, A, B, e, h1, h2, h9, h3, h4, h5, h10, h6, h7, h8⟩
  · intro cmp hc vs v
    obtain ⟨s, e, hi⟩ := runCmp_inserts_inv hc vs _ (startCmp_inv cmp)
    obtain ⟨T, s2, T2, A, B, h1, h2, h3, -, h4, h5, h6, h7, h8, h9, h10⟩ :=
      TreeCmp.insertCmp_detail hc v hi
    exact ⟨s, T, s2, T2, A, B, e, h1, h2, h9, h3, h4, h5, h10, h6, h7, h8⟩

/-- C20 (witness): the amended statement for the three-way comparison with the
results -1, 0 and 1, the tree built by Insert 5, 3, 5 and the value 5. -/
theorem ties_go_left_witness :
    LawfulCmp signCmp ∧ ∃ s T s2 T2 A B,
      runCmp (([5, 3, 5] : List Int).map Op.ins) (⟨none, signCmp⟩, Heap.empty) = .ok s ∧
      Good s.2 T ∧ T.ptr = s.1.Root ∧ T.real ∧ TreeCmp.Insert s.2 s.1 5 = .ok s2 ∧
      Good s2.2 T2 ∧ T2.ptr = s2.1.Root ∧ T2.real ∧ T.inorder = A ++ B ∧
      T2.inorder = A ++ (s.2.next, some 5) :: B ∧
      ∀ e ∈ A, ∀ x, e.2 = some x → 0 < signCmp 5 x ∧ signCmp x 5 < 0 :=
  ⟨signCmp_lawful, ties_go_left.2 signCmp signCmp_lawful [5, 3, 5] 5⟩

/-- Two heaps that hold the same tree below the same holder agree on its nodes. -/
theorem rep_cells_eq {h h2 : Heap} : ∀ {t : RBT} {par : Option Nat}, Rep h par t → Rep h2 par t →
    ∀ x ∈ t.addrs, h2.cell x = h.cell x := by
  intro t
  induction t with
  | nil => intro par _ _ x hx; simp [RBT.addrs] at hx
  | node a c v l r ihl ihr =>
    intro par h1 h3 x hx
    simp only [RBT.addrs, List.mem_append, List.mem_cons] at hx
    rcases hx with hx | rfl | hx
    · exact ihl h1.2.1 h3.2.1 x hx
    · rw [h1.1, h3.1]
    · exact ihr h1.2.2 h3.2.2 x hx
  | phantom a =>
    intro par h1 h3 x hx
    simp only [RBT.addrs, List.mem_singleton] at hx
    subst hx
    have e1 : h.cell x = _ := h1
    have e2 : h2.cell x = _ := h3
    rw [e1, e2]

/-- `RotateLeft` at a node in focus writes only to nodes of the tree. -/
theorem rotL_frame {h : Heap} {p : Path} {a b : Nat} {c c2 : Bool} {v v2 : Int} {l rl rr : RBT}
    (hg : Good h (p.plug (.node a c v l (.node b c2 v2 rl rr)))) {x : Nat}
    (hx : x ∉ (p.plug (.node a c v l (.node b c2 v2 rl rr))).addrs) :
    (Node.RotateLeft h (some a)).cell x = h.cell x := by
  rw [addrs_plug_mem] at hx
  rw [good_plug] at hg
  obtain ⟨⟨ha, hl, hb, hrl, hrr⟩, hp, hnd, hlt⟩ := hg
  have hnd2 := hnd
  simp only [RBT.addrs, List.append_assoc, List.cons_append, List.nodup_append, List.nodup_cons,
    List.mem_append, List.mem_cons, not_or, List.disjoint_append_left, List.disjoint_append_right,
    List.disjoint_cons_left, List.disjoint_cons_right] at hnd2
  obtain ⟨nl, ⟨⟨narl, nab, narr, nap⟩, nrl, ⟨⟨nbrr, nbp⟩, nrr, npp, drrp⟩, nbrl, drlrr, drlp⟩,
    nal, dlrl, nbl, dlrr, dlp⟩ := hnd2
  have hpa : p.ptr ≠ some a := fun e => nap (pptr_mem e)
  have hpb : p.ptr ≠ some b := fun e => nbp (pptr_mem e)
  have hda : rl.ptr ≠ some a := fun e => narl (ptr_mem e)
  have hdb : rl.ptr ≠ some b := fun e => nbrl (ptr_mem e)
  have hdp : ∀ z, rl.ptr = some z → p.ptr ≠ some z :=
    fun z e1 e2 => drlp (ptr_mem e1) (pptr_mem e2)
  have H := rotL_cell ha hb nab hpa hpb hda hdb hdp
  simp only [RBT.addrs, List.mem_append, List.mem_cons, not_or] at hx
  have e1 : x ≠ a := hx.1.2.1
  have e2 : x ≠ b := hx.1.2.2.2.1
  have e3 : p.ptr ≠ some x := fun e => hx.2 (pptr_mem e)
  have e4 : rl.ptr ≠ some x := fun e => hx.1.2.2.1 (ptr_mem e)
  rw [H]; simp [e1, e2, e3, e4]

/-- `RotateRight` at a node in focus writes only to nodes of the tree. -/
theorem rotR_frame {h : Heap} {p : Path} {a b : Nat} {c c2 : Bool} {v v2 : Int} {ll lr r : RBT}
    (hg : Good h (p.plug (.node a c v (.node b c2 v2 ll lr) r))) {x : Nat}
    (hx : x ∉ (p.plug (.node a c v (.node b c2 v2 ll lr) r)).addrs) :
    (Node.RotateRight h (some a)).cell x = h.cell x := by
  rw [addrs_plug_mem] at hx
  rw [good_plug] at hg
  obtain ⟨⟨ha, ⟨hb, hll, hlr⟩, hr⟩, hp, hnd, hlt⟩ := hg
  have hnd2 := hnd
  simp only [RBT.addrs, List.append_assoc, List.cons_append, List.nodup_append, List.nodup_cons,
    List.mem_append, List.mem_cons, not_or, List.disjoint_append_left, List.disjoint_append_right,
    List.disjoint_cons_left, List.disjoint_cons_right] at hnd2
  obtain ⟨nll, ⟨⟨nblr, nba, nbr, nbp⟩, nlr, ⟨⟨nar, nap⟩, nr, npp, drp⟩, nalr, dlrr, dlrp⟩,
    nbll, dlllr, nall, dllr, dllp⟩ := hnd2
  have nab : a ≠ b := Ne.symm nba
  have hpa : p.ptr ≠ some a := fun e => nap (pptr_mem e)
  have hpb : p.ptr ≠ some b := fun e => nbp (pptr_mem e)
  have hda : lr.ptr ≠ some a := fun e => nalr (ptr_mem e)
  have hdb : lr.ptr ≠ some b := fun e => nblr (ptr_mem e)
  have hdp : ∀ z, lr.ptr = some z → p.ptr ≠ some z :=
    fun z e1 e2 => dlrp (ptr_mem e1) (pptr_mem e2)
  have H := rotR_cell ha hb nab hpa hpb hda hdb hdp
  simp only [RBT.addrs, List.mem_append, List.mem_cons, not_or] at hx
  have e1 : x ≠ a := hx.1.2.1
  have e2 : x ≠ b := hx.1.1.2.1
  have e3 : p.ptr ≠ some x := fun e => hx.2 (pptr_mem e)
  have e4 : lr.ptr ≠ some x := fun e => hx.1.1.2.2 (ptr_mem e)
  rw [H]; simp [e1, e2, e3, e4]

theorem heap_ext {h h2 : Heap} (hn : h2.next = h.next) (hc : ∀ x, h2.cell x = h.cell x) :
    h2 = h := by
  cases h; cases h2
  simp only [Heap.mk.injEq]
  exact ⟨hn, funext hc⟩

/-- `RotateRight` at the new top undoes `RotateLeft`, for a node in focus. -/
theorem rotL_rotR_focus {h : Heap} {p : Path} {a b : Nat} {c c2 : Bool} {v v2 : Int}
    {l rl rr : RBT} (hg : Good h (p.plug (.node a c v l (.node b c2 v2 rl rr)))) :
    Node.RotateRight (Node.RotateLeft h (some a)) (some b) = h := by
  have g1 := good_rotL hg
  have g2 := good_rotR g1
  refine heap_ext (by simp) fun x => ?_
  by_cases hx : x ∈ (p.plug (.node a c v l (.node b c2 v2 rl rr))).addrs
  · exact rep_cells_eq hg.1 g2.1 x hx
  · have hx1 : x ∉ (p.plug (.node b c2 v2 (.node a c v l rl) rr)).addrs := by
      rw [addrs_plug_mem] at hx ⊢
      simpa [RBT.addrs, or_assoc] using hx
    rw [rotR_frame g1 hx1, rotL_frame hg hx]

/-- `RotateLeft` at the new top undoes `RotateRight`, for a node in focus. -/
theorem rotR_rotL_focus {h : Heap} {p : Path} {a b : Nat} {c c2 : Bool} {v v2 : Int}
    {ll lr r : RBT} (hg : Good h (p.plug (.node a c v (.node b c2 v2 ll lr) r))) :
    Node.RotateLeft (Node.RotateRight h (some a)) (some b) = h := by
  have g1 := good_rotR hg
  have g2 := good_rotL g1
  refine heap_ext (by simp) fun x => ?_
  by_cases hx : x ∈ (p.plug (.node a c v (.node b c2 v2 ll lr) r)).addrs
  · exact rep_cells_eq hg.1 g2.1 x hx
  · have hx1 : x ∉ (p.plug (.node b c2 v2 ll (.node a c v lr r))).addrs := by
      rw [addrs_plug_mem] at hx ⊢
      simpa [RBT.addrs, or_assoc] using hx
    rw [rotL_frame g1 hx1, rotR_frame hg hx]

/-- C21: for a node `n` of a tree with consistent `Parent` links whose `Right`
child `c` is non-nil, `n.RotateLeft()` followed by `c.RotateRight()` gives back
the heap before the two calls, so every `Left`, `Right` and `Parent` field of
every node has its old value; and `n.RotateRight()` followed by `RotateLeft`
on the former `Left` child `b` of `n` does the same when `b` is non-nil. -/
theorem rotate_back_restores (h : Heap) (T : RBT) (n : Nat) (hg : Good h T) (hr : T.real)
    (hn : n ∈ T.nodes) :
    (∀ c, (h.cell n).Right = some c →
      Node.RotateRight (Node.RotateLeft h (some n)) (some c) = h) ∧
    (∀ b, (h.cell n).Left = some b →
      Node.RotateLeft (Node.RotateRight h (some n)) (some b) = h) := by
  obtain ⟨q, e, w, l, r, hq⟩ := focus_node hn .top
  simp only [Path.plug] at hq
  subst hq
  have cn := good_cell hg
  obtain ⟨⟨hrl, hrr⟩, -⟩ := real_plug hr
  constructor
  · intro c hc
    rw [cn] at hc
    obtain ⟨e2, w2, rl, rr, rfl⟩ := real_node_of_ptr hrr hc
    exact rotL_rotR_focus hg
  · intro b hb
    rw [cn] at hb
    obtain ⟨e2, w2, ll, lr, rfl⟩ := real_node_of_ptr hrl hb
    exact rotR_rotL_focus hg

/-- C21 (witness): the statement at the tree 3, 5, 8 and its root, whose
`Right` child is the node at address 2 and whose `Left` child is the node at
address 1. -/
theorem rotate_back_restores_witness :
    Good sampleHeap sampleTree ∧ sampleTree.real ∧ 0 ∈ sampleTree.nodes ∧
      Node.RotateRight (Node.RotateLeft sampleHeap (some 0)) (some 2) = sampleHeap ∧
      Node.RotateLeft (Node.RotateRight sampleHeap (some 0)) (some 1) = sampleHeap :=
  ⟨sample_good, sample_redBlack.1, by decide,
    (rotate_back_restores sampleHeap sampleTree 0 sample_good sample_redBlack.1 (by decide)).1 2
      rfl,
    (rotate_back_restores sampleHeap sampleTree 0 sample_good sample_redBlack.1 (by decide)).2 1
      rfl⟩

theorem map_ite_except {α β : Type} (f : α → β) (c : Prop) [Decidable c] (x y : Except Err α) :
    f <$> (if c then x else y) = if c then f <$> x else f <$> y := by
  split <;> rfl

theorem left1_erase (h : Heap) (n : Option Nat) :
    Prod.snd <$> Node.deleteFixupLeft1Log h n = Node.deleteFixupLeft1 h n := by
  simp only [Node.deleteFixupLeft1Log, Node.deleteFixupLeft1, map_bind, map_pure, map_ite_except]

theorem left2_erase (h : Heap) (n r : Option Nat) :
    Prod.snd <$> Node.deleteFixupLeft2Log h n r = Node.deleteFixupLeft2 h n r := by
  simp only [Node.deleteFixupLeft2Log, Node.deleteFixupLeft2, map_bind, map_pure, map_ite_except,
    pure_bind, bind_assoc]

theorem right1_erase (h : Heap) (n : Option Nat) :
    Prod.snd <$> Node.deleteFixupRight1Log h n = Node.deleteFixupRight1 h n := by
  simp only [Node.deleteFixupRight1Log, Node.deleteFixupRight1, map_bind, map_pure,
    map_ite_except]

theorem right2_erase (h : Heap) (n l : Option Nat) :
    Prod.snd <$> Node.deleteFixupRight2Log h n l = Node.deleteFixupRight2 h n l := by
  simp only [Node.deleteFixupRight2Log, Node.deleteFixupRight2, map_bind, map_pure,
    map_ite_except, pure_bind, bind_assoc]

theorem bind_fst_snd {α β γ : Type} (x : Except Err (α × β)) (f : β → Except Err γ) :
    (x >>= fun y => f y.2) = (Prod.snd <$> x) >>= f := by
  cases x <;> rfl

theorem body_erase (h : Heap) (n pl : Option Nat) :
    Prod.snd <$> Node.deleteFixupBodyLog h n pl =
      if n = pl then Node.deleteFixupLeft h n else Node.deleteFixupRight h n := by
  simp only [Node.deleteFixupBodyLog, Node.deleteFixupLeft, Node.deleteFixupRight, map_bind,
    map_pure, map_ite_except, ← left1_erase, ← left2_erase, ← right1_erase, ← right2_erase,
    bind_map_left, bind_pure_comp, Functor.map_map]

theorem fixup_erase : ∀ (fuel : Nat) (h : Heap) (n : Option Nat),
    Prod.snd <$> Node.deleteFixupLog fuel h n = Node.deleteFixup fuel h n := by
  intro fuel
  induction fuel with
  | zero => intro h n; rfl
  | succ k ih =>
    intro h n
    simp only [Node.deleteFixupLog, Node.deleteFixup, map_bind, map_pure, map_ite_except,
      ← ih, bind_pure_comp, Functor.map_map]
    refine bind_congr fun p => ?_
    split
    · rfl
    · refine bind_congr fun pl => ?_
      have hb := body_erase h n pl
      by_cases hnp : n = pl
      · simp only [hnp, if_true] at hb ⊢
        rw [← hb, bind_map_left]
      · simp only [hnp, if_false] at hb ⊢
        rw [← hb, bind_map_left]

theorem finish_erase (h : Heap) (d c : Option Nat) (cfake : Bool) :
    Prod.snd <$> Node.deleteFinishLog h d c cfake = Node.deleteFinish h d c cfake := by
  simp only [Node.deleteFinishLog, Node.deleteFinish, map_bind]
  refine bind_congr fun dred => ?_
  cases dred with
  | true =>
    simp only [Bool.not_true, Bool.false_eq_true, if_false, pure_bind]
    cases cfake with
    | false => rfl
    | true =>
      simp only [if_true, map_bind]
      refine bind_congr fun cp => ?_
      split
      · simp only [map_bind]
        refine bind_congr fun cpl => ?_
        split <;> simp only [map_bind, map_pure]
      · rfl
  | false =>
    simp only [Bool.not_false, if_true, ← fixup_erase, bind_map_left, map_bind]
    refine bind_congr fun res => ?_
    cases cfake with
    | false => rfl
    | true =>
      simp only [if_true, map_bind]
      refine bind_congr fun cp => ?_
      split
      · simp only [map_bind]
        refine bind_congr fun cpl => ?_
        split <;> simp only [map_bind, map_pure]
      · rfl

theorem delete_erase (h : Heap) (n : Option Nat) :
    Prod.snd <$> Node.deleteLog h n = Node.delete h n := by
  cases n with
  | none => rfl
  | some a =>
    simp only [Node.deleteLog, Node.delete, ← finish_erase, map_bind, map_ite_except]

theorem bind_ok {α β : Type} {x : Except Err α} {f : α → Except Err β} {y : β}
    (e : x >>= f = .ok y) : ∃ a, x = .ok a ∧ f a = .ok y := by
  cases x with
  | error err => cases e
  | ok a => exact ⟨a, rfl, e⟩

theorem pure_ok {α : Type} {a y : α} (e : (pure a : Except Err α) = .ok y) : a = y := by
  cases e; rfl

theorem rdRed_ne {h : Heap} {r : Option Nat} {b : Bool} (e : rdRed h r = .ok b) : r ≠ none := by
  rintro rfl; cases e

theorem rdRight_ne {h : Heap} {r x : Option Nat} (e : rdRight h r = .ok x) : r ≠ none := by
  rintro rfl; cases e

theorem rdLeft_ne {h : Heap} {r x : Option Nat} (e : rdLeft h r = .ok x) : r ≠ none := by
  rintro rfl; cases e

theorem stRed_ne {h h2 : Heap} {r : Option Nat} {b : Bool} (e : stRed h r b = .ok h2) :
    r ≠ none := by
  rintro rfl; cases e

/-- When the first part of the loop body returns, the sibling read at the
start was not nil. -/
theorem left1Log_ok {h h2 : Heap} {n r : Option Nat} {log : List (Option Nat)}
    (e : Node.deleteFixupLeft1Log h n = .ok (log, r, h2)) :
    ∃ r0, r0 ≠ none ∧ ((log = [r0] ∧ r = r0) ∨ log = [r0, r]) := by
  simp only [Node.deleteFixupLeft1Log] at e
  obtain ⟨p, -, e⟩ := bind_ok e
  obtain ⟨r0, -, e⟩ := bind_ok e
  obtain ⟨rred, hr, e⟩ := bind_ok e
  refine ⟨r0, rdRed_ne hr, ?_⟩
  cases rred with
  | false =>
    simp only [Bool.false_eq_true, if_false] at e
    have := pure_ok e
    simp only [Prod.mk.injEq] at this
    exact Or.inl ⟨this.1.symm, this.2.1.symm⟩
  | true =>
    simp only [if_true] at e
    obtain ⟨h3, -, e⟩ := bind_ok e
    obtain ⟨rp, -, e⟩ := bind_ok e
    obtain ⟨h4, -, e⟩ := bind_ok e
    obtain ⟨p2, -, e⟩ := bind_ok e
    obtain ⟨p3, -, e⟩ := bind_ok e
    obtain ⟨r2, -, e⟩ := bind_ok e
    have := pure_ok e
    simp only [Prod.mk.injEq] at this
    exact Or.inr (by rw [← this.1, this.2.1])

/-- When the second part of the loop body returns, the sibling it was given
and the nephews painted black in cases 3 and 4 were not nil. -/
theorem left2Log_ok {h : Heap} {n r : Option Nat} {log : List (Option Nat)}
    {out : Bool × Option Nat × Heap} (e : Node.deleteFixupLeft2Log h n r = .ok (log, out)) :
    r ≠ none ∧ ∀ x ∈ log, x ≠ none := by
  simp only [Node.deleteFixupLeft2Log] at e
  obtain ⟨rr, hrr, e⟩ := bind_ok e
  obtain ⟨rl, -, e⟩ := bind_ok e
  refine ⟨rdRight_ne hrr, ?_⟩
  split at e
  · obtain ⟨h3, -, e⟩ := bind_ok e
    obtain ⟨p, -, e⟩ := bind_ok e
    have := pure_ok e
    simp only [Prod.mk.injEq] at this
    rw [← this.1]
    intro x hx; cases hx
  · obtain ⟨rr2, -, e⟩ := bind_ok e
    split at e
    · obtain ⟨rl2, -, e⟩ := bind_ok e
      obtain ⟨h4, hst3, e⟩ := bind_ok e
      obtain ⟨h5, -, e⟩ := bind_ok e
      obtain ⟨p0, -, e⟩ := bind_ok e
      obtain ⟨r4, -, e⟩ := bind_ok e
      obtain ⟨y, ey, e⟩ := bind_ok e
      have hy := pure_ok ey
      subst hy
      simp only at e
      obtain ⟨p, -, e⟩ := bind_ok e
      obtain ⟨pred, -, e⟩ := bind_ok e
      obtain ⟨h6, -, e⟩ := bind_ok e
      obtain ⟨p2, -, e⟩ := bind_ok e
      obtain ⟨h7, -, e⟩ := bind_ok e
      obtain ⟨rr3, -, e⟩ := bind_ok e
      obtain ⟨h8, hst, e⟩ := bind_ok e
      obtain ⟨p3, -, e⟩ := bind_ok e
      have := pure_ok e
      simp only [Prod.mk.injEq] at this
      rw [← this.1]
      intro x hx
      simp only [List.singleton_append, List.mem_cons, List.mem_singleton, List.not_mem_nil,
        or_false] at hx
      rcases hx with rfl | rfl
      · exact stRed_ne hst3
      · exact stRed_ne hst
    · obtain ⟨y, ey, e⟩ := bind_ok e
      have hy := pure_ok ey
      subst hy
      simp only at e
      obtain ⟨p, -, e⟩ := bind_ok e
      obtain ⟨pred, -, e⟩ := bind_ok e
      obtain ⟨h6, -, e⟩ := bind_ok e
      obtain ⟨p2, -, e⟩ := bind_ok e
      obtain ⟨h7, -, e⟩ := bind_ok e
      obtain ⟨rr3, -, e⟩ := bind_ok e
      obtain ⟨h8, hst, e⟩ := bind_ok e
      obtain ⟨p3, -, e⟩ := bind_ok e
      have := pure_ok e
      simp only [Prod.mk.injEq] at this
      rw [← this.1]
      intro x hx
      simp only [List.nil_append, List.mem_singleton] at hx
      rw [hx]
      exact stRed_ne hst

theorem right1Log_ok {h h2 : Heap} {n l : Option Nat} {log : List (Option Nat)}
    (e : Node.deleteFixupRight1Log h n = .ok (log, l, h2)) :
    ∃ l0, l0 ≠ none ∧ ((log = [l0] ∧ l = l0) ∨ log = [l0, l]) := by
  simp only [Node.deleteFixupRight1Log] at e
  obtain ⟨p, -, e⟩ := bind_ok e
  obtain ⟨l0, -, e⟩ := bind_ok e
  obtain ⟨lred, hr, e⟩ := bind_ok e
  refine ⟨l0, rdRed_ne hr, ?_⟩
  cases lred with
  | false =>
    simp only [Bool.false_eq_true, if_false] at e
    have := pure_ok e
    simp only [Prod.mk.injEq] at this
    exact Or.inl ⟨this.1.symm, this.2.1.symm⟩
  | true =>
    simp only [if_true] at e
    obtain ⟨h3, -, e⟩ := bind_ok e
    obtain ⟨rp, -, e⟩ := bind_ok e
    obtain ⟨h4, -, e⟩ := bind_ok e
    obtain ⟨p2, -, e⟩ := bind_ok e
    obtain ⟨p3, -, e⟩ := bind_ok e
    obtain ⟨l2, -, e⟩ := bind_ok e
    have := pure_ok e
    simp only [Prod.mk.injEq] at this
    exact Or.inr (by rw [← this.1, this.2.1])

theorem right2Log_ok {h : Heap} {n l : Option Nat} {log : List (Option Nat)}
    {out : Bool × Option Nat × Heap} (e : Node.deleteFixupRight2Log h n l = .ok (log, out)) :
    l ≠ none ∧ ∀ x ∈ log, x ≠ none := by
  simp only [Node.deleteFixupRight2Log] at e
  obtain ⟨ll, hll, e⟩ := bind_ok e
  obtain ⟨lr, -, e⟩ := bind_ok e
  refine ⟨rdLeft_ne hll, ?_⟩
  split at e
  · obtain ⟨h3, -, e⟩ := bind_ok e
    obtain ⟨p, -, e⟩ := bind_ok e
    have := pure_ok e
    simp only [Prod.mk.injEq] at this
    rw [← this.1]
    intro x hx; cases hx
  · obtain ⟨ll2, -, e⟩ := bind_ok e
    split at e
    · obtain ⟨rl2, -, e⟩ := bind_ok e
      obtain ⟨h4, hst3, e⟩ := bind_ok e
      obtain ⟨h5, -, e⟩ := bind_ok e
      obtain ⟨p0, -, e⟩ := bind_ok e
      obtain ⟨r4, -, e⟩ := bind_ok e
      obtain ⟨y, ey, e⟩ := bind_ok e
      have hy := pure_ok ey
      subst hy
      simp only at e
      obtain ⟨p, -, e⟩ := bind_ok e
      obtain ⟨pred, -, e⟩ := bind_ok e
      obtain ⟨h6, -, e⟩ := bind_ok e
      obtain ⟨p2, -, e⟩ := bind_ok e
      obtain ⟨h7, -, e⟩ := bind_ok e
      obtain ⟨rr3, -, e⟩ := bind_ok e
      obtain ⟨h8, hst, e⟩ := bind_ok e
      obtain ⟨p3, -, e⟩ := bind_ok e
      have := pure_ok e
      simp only [Prod.mk.injEq] at this
      rw [← this.1]
      intro x hx
      simp only [List.singleton_append, List.mem_cons, List.mem_singleton, List.not_mem_nil,
        or_false] at hx
      rcases hx with rfl | rfl
      · exact stRed_ne hst3
      · exact stRed_ne hst
    · obtain ⟨y, ey, e⟩ := bind_ok e
      have hy := pure_ok ey
      subst hy
      simp only at e
      obtain ⟨p, -, e⟩ := bind_ok e
      obtain ⟨pred, -, e⟩ := bind_ok e
      obtain ⟨h6, -, e⟩ := bind_ok e
      obtain ⟨p2, -, e⟩ := bind_ok e
      obtain ⟨h7, -, e⟩ := bind_ok e
      obtain ⟨rr3, -, e⟩ := bind_ok e
      obtain ⟨h8, hst, e⟩ := bind_ok e
      obtain ⟨p3, -, e⟩ := bind_ok e
      have := pure_ok e
      simp only [Prod.mk.injEq] at this
      rw [← this.1]
      intro x hx
      simp only [List.nil_append, List.mem_singleton] at hx
      rw [hx]
      exact stRed_ne hst

/-- When a pass of the loop body returns, none of the recorded pointers was nil. -/
theorem bodyLog_ok {h : Heap} {n pl : Option Nat} {log : List (Option Nat)}
    {out : Bool × Option Nat × Heap} (e : Node.deleteFixupBodyLog h n pl = .ok (log, out)) :
    ∀ x ∈ log, x ≠ none := by
  simp only [Node.deleteFixupBodyLog] at e
  split at e
  · obtain ⟨⟨log1, r, h1⟩, e1, e⟩ := bind_ok e
    obtain ⟨⟨log2, out2⟩, e2, e⟩ := bind_ok e
    have := pure_ok e
    simp only [Prod.mk.injEq] at this
    rw [← this.1]
    obtain ⟨r0, hr0, hlog⟩ := left1Log_ok e1
    obtain ⟨hr, hl2⟩ := left2Log_ok e2
    intro x hx
    rcases List.mem_append.1 hx with hx | hx
    · rcases hlog with ⟨rfl, -⟩ | rfl
      · rw [List.mem_singleton.1 hx]; exact hr0
      · simp only [List.mem_cons, List.mem_singleton, List.not_mem_nil, or_false] at hx
        rcases hx with rfl | rfl
        · exact hr0
        · exact hr
    · exact hl2 x hx
  · obtain ⟨⟨log1, r, h1⟩, e1, e⟩ := bind_ok e
    obtain ⟨⟨log2, out2⟩, e2, e⟩ := bind_ok e
    have := pure_ok e
    simp only [Prod.mk.injEq] at this
    rw [← this.1]
    obtain ⟨r0, hr0, hlog⟩ := right1Log_ok e1
    obtain ⟨hr, hl2⟩ := right2Log_ok e2
    intro x hx
    rcases List.mem_append.1 hx with hx | hx
    · rcases hlog with ⟨rfl, -⟩ | rfl
      · rw [List.mem_singleton.1 hx]; exact hr0
      · simp only [List.mem_cons, List.mem_singleton, List.not_mem_nil, or_false] at hx
        rcases hx with rfl | rfl
        · exact hr0
        · exact hr
    · exact hl2 x hx

/-- When `deleteFixup` returns, none of the recorded pointers was nil. -/
theorem fixupLog_ok : ∀ (fuel : Nat) {h : Heap} {n : Option Nat} {log : List (Option Nat)}
    {res : Option Nat × Heap}, Node.deleteFixupLog fuel h n = .ok (log, res) →
    ∀ x ∈ log, x ≠ none := by
  intro fuel
  induction fuel with
  | zero => intro h n log res e; cases e
  | succ k ih =>
    intro h n log res e
    simp only [Node.deleteFixupLog] at e
    obtain ⟨p, -, e⟩ := bind_ok e
    split at e
    · obtain ⟨h2, -, e⟩ := bind_ok e
      have := pure_ok e
      simp only [Prod.mk.injEq] at this
      rw [← this.1]
      intro x hx; cases hx
    · obtain ⟨pl, -, e⟩ := bind_ok e
      obtain ⟨⟨log1, again, n2, h2⟩, e1, e⟩ := bind_ok e
      have hb := bodyLog_ok e1
      simp only at e
      split at e
      · obtain ⟨⟨log2, res2⟩, e2, e⟩ := bind_ok e
        have := pure_ok e
        simp only [Prod.mk.injEq] at this
        rw [← this.1]
        intro x hx
        rcases List.mem_append.1 hx with hx | hx
        · exact hb x hx
        · exact ih e2 x hx
      · obtain ⟨h3, -, e⟩ := bind_ok e
        have := pure_ok e
        simp only [Prod.mk.injEq] at this
        rw [← this.1]
        exact hb

/-- When the last part of `delete` returns, none of the recorded pointers was nil. -/
theorem finishLog_ok {h : Heap} {d c : Option Nat} {cfake : Bool} {log : List (Option Nat)}
    {res : Option Nat × Heap} (e : Node.deleteFinishLog h d c cfake = .ok (log, res)) :
    ∀ x ∈ log, x ≠ none := by
  simp only [Node.deleteFinishLog] at e
  obtain ⟨dred, -, e⟩ := bind_ok e
  split at e
  · obtain ⟨⟨log1, pp, h3⟩, ey, e⟩ := bind_ok e
    have hy : ∀ x ∈ log1, x ≠ none := fixupLog_ok _ ey
    simp only at e
    split at e
    · obtain ⟨cp, -, e⟩ := bind_ok e
      split at e
      · obtain ⟨cpl, -, e⟩ := bind_ok e
        split at e
        · obtain ⟨h4, -, e⟩ := bind_ok e
          have := pure_ok e
          simp only [Prod.mk.injEq] at this
          rw [← this.1]; exact hy
        · obtain ⟨h4, -, e⟩ := bind_ok e
          have := pure_ok e
          simp only [Prod.mk.injEq] at this
          rw [← this.1]; exact hy
      · have := pure_ok e
        simp only [Prod.mk.injEq] at this
        rw [← this.1]; exact hy
    · have := pure_ok e
      simp only [Prod.mk.injEq] at this
      rw [← this.1]; exact hy
  · obtain ⟨y, ey, e⟩ := bind_ok e
    have hy0 := pure_ok ey
    subst hy0
    have hy : ∀ x ∈ ([] : List (Option Nat)), x ≠ none := fun x hx => by cases hx
    simp only at e
    split at e
    · obtain ⟨cp, -, e⟩ := bind_ok e
      split at e
      · obtain ⟨cpl, -, e⟩ := bind_ok e
        split at e
        · obtain ⟨h4, -, e⟩ := bind_ok e
          have := pure_ok e
          simp only [Prod.mk.injEq] at this
          rw [← this.1]; exact hy
        · obtain ⟨h4, -, e⟩ := bind_ok e
          have := pure_ok e
          simp only [Prod.mk.injEq] at this
          rw [← this.1]; exact hy
      · have := pure_ok e
        simp only [Prod.mk.injEq] at this
        rw [← this.1]; exact hy
    · have := pure_ok e
      simp only [Prod.mk.injEq] at this
      rw [← this.1]; exact hy

/-- When `delete` returns, none of the recorded pointers was nil. -/
theorem deleteLog_ok {h : Heap} {n : Option Nat} {log : List (Option Nat)}
    {res : Option Nat × Heap} (e : Node.deleteLog h n = .ok (log, res)) :
    ∀ x ∈ log, x ≠ none := by
  cases n with
  | none => cases e
  | some a =>
    simp only [Node.deleteLog] at e
    obtain ⟨nl, -, e⟩ := bind_ok e
    obtain ⟨nr, -, e⟩ := bind_ok e
    split at e
    · obtain ⟨d, -, e⟩ := bind_ok e
      obtain ⟨⟨c, cfake, h1⟩, -, e⟩ := bind_ok e
      split at e
      · obtain ⟨dv, -, e⟩ := bind_ok e
        obtain ⟨h2, -, e⟩ := bind_ok e
        exact finishLog_ok e
      · obtain ⟨h2, -, e⟩ := bind_ok e
        exact finishLog_ok e
    · obtain ⟨d, -, e⟩ := bind_ok e
      obtain ⟨⟨c, cfake, h1⟩, -, e⟩ := bind_ok e
      split at e
      · obtain ⟨dv, -, e⟩ := bind_ok e
        obtain ⟨h2, -, e⟩ := bind_ok e
        exact finishLog_ok e
      · obtain ⟨h2, -, e⟩ := bind_ok e
        exact finishLog_ok e

theorem map_ok {α β : Type} {f : α → β} {x : Except Err α} {y : β} (e : f <$> x = .ok y) :
    ∃ a, x = .ok a ∧ f a = y := by
  cases x with
  | error err => cases e
  | ok a => cases e; exact ⟨a, rfl, rfl⟩

theorem deep_good : Good deepHeap deepTree :=
  ⟨⟨rfl, ⟨rfl, trivial, trivial⟩, ⟨rfl, ⟨rfl, trivial, ⟨rfl, trivial, trivial⟩⟩,
    ⟨rfl, trivial, trivial⟩⟩⟩, by decide, by decide⟩

theorem deep_redBlack : deepTree.redBlack :=
  ⟨⟨⟨trivial, trivial⟩, ⟨⟨trivial, trivial, trivial⟩, trivial, trivial⟩⟩, rfl,
    by simp [deepTree, RBT.noRedRed, RBT.isRed], 2, by decide⟩

/-- The pointers recorded when the node holding 1 is deleted from `deepTree`:
the red sibling 5 (case 1), the sibling 3 read after the rotation, and its
red right child 4, which case 4 paints black. -/
theorem deep_delete_record :
    Prod.fst <$> Node.deleteLog deepHeap (some 0) = .ok [some 3, some 2, some 5] := by
  rfl

/-- C22: on a tree that satisfies the red-black invariants, with consistent
`Parent` links, the node-level `delete` of any of its nodes returns, so no nil
pointer is dereferenced, and every pointer on the record of that run is
non-nil: the sibling read at each start of the loop body of `deleteFixup`,
the sibling read again after the rotation of case 1, and the nephews that
case 3 and case 4 paint black.  The run with the record returns what `delete`
returns. -/
theorem delete_reads_no_nil (h : Heap) (T : RBT) (n : Nat) (hg : Good h T) (hrb : T.redBlack)
    (hn : n ∈ T.nodes) :
    ∃ log res h2, Node.deleteLog h (some n) = .ok (log, res, h2) ∧
      Node.delete h (some n) = .ok (res, h2) ∧ ∀ x ∈ log, x ≠ none := by
  obtain ⟨q, c, w, l, r, hq⟩ := focus_node hn .top
  simp only [Path.plug] at hq
  subst hq
  obtain ⟨res, h2, T2, e, -⟩ := delete_spec hg hrb.1 hrb.bal
  have he := delete_erase h (some n)
  rw [e] at he
  obtain ⟨⟨log, res2, h3⟩, e2, e3⟩ := map_ok he
  simp only [Prod.mk.injEq] at e3
  obtain ⟨rfl, rfl⟩ := e3
  exact ⟨log, res2, h3, e2, e, deleteLog_ok e2⟩

/-- C22 (witness): the statement at the tree built by Insert 1, 2, 3, 5, 6, 4
and the node holding 1, whose deletion runs cases 1 and 4 of `deleteFixup`. -/
theorem delete_reads_no_nil_witness :
    Good deepHeap deepTree ∧ deepTree.redBlack ∧ 0 ∈ deepTree.nodes ∧
      ∃ log res h2, Node.deleteLog deepHeap (some 0) = .ok (log, res, h2) ∧
        Node.delete deepHeap (some 0) = .ok (res, h2) ∧ ∀ x ∈ log, x ≠ none :=
  ⟨deep_good, deep_redBlack, by decide,
    delete_reads_no_nil deepHeap deepTree 0 deep_good deep_redBlack (by decide)⟩

end Rbt
